import Mathlib

/-!
Generic cycle forest (llvm/ADT/GenericCycleImpl.h)

A shallow embedding of the cycle-forest builder: the depth-first indexer
(`Compute::dfs`), the cycle discoverer (`Compute::run`), depth assignment
(`Compute::updateDepth`), the queries (`GenericCycle::contains`,
`GenericCycle::getExitBlocks`, `GenericCycleInfo::getCycle`) and the structural
validator (`GenericCycleInfo::validateTree`).

Conventions of the embedding.
* A block (`BlockT *`) is a natural number.  The graph adapter is a pair of
  adjacency tables: `successors` and `predecessors` of a block are the rows of
  these tables (a block without a row has none).
* Cycle objects live in an arena (`GenericCycleInfo.Cycles`); a cycle pointer is
  an index into the arena and the null pointer is `none`.  Creating a cycle
  appends a record to the arena.
* `SmallVector` stacks that are only used through `push_back` / `back` /
  `pop_back` (`TraverseStack`, `DFSTreeStack`, `Worklist`) are lists whose head
  is the back of the vector.  All other vectors are lists in vector order.
* A computation ends in `Outcome.done` with its result, in `Outcome.abort` when
  an `assert` fails or a null / dangling pointer would be dereferenced, or in
  `Outcome.starved` when a loop is cut off by its iteration budget.
-/

namespace llvm

/-- The handle of a basic block. -/
abbrev BlockT := Nat

/-- The result of running a piece of the program. -/
inductive Outcome (α : Type) where
  | done (a : α)
  | abort
  | starved
  deriving Repr, DecidableEq

/-- Sequencing of two program fragments. -/
def Outcome.bind {α β : Type} (x : Outcome α) (f : α → Outcome β) : Outcome β :=
  match x with
  | .done a => f a
  | .abort => .abort
  | .starved => .starved

/-- The graph adapter: the entry block and the successor and predecessor tables. -/
structure Graph where
  entry : BlockT
  succs : List (List BlockT)
  preds : List (List BlockT)
  deriving Repr, DecidableEq

/-- The function `successors(Block)` of the adapter. -/
def successors (g : Graph) (b : BlockT) : List BlockT := g.succs.getD b []

/-- The function `predecessors(Block)` of the adapter. -/
def predecessors (g : Graph) (b : BlockT) : List BlockT := g.preds.getD b []

/-- The class `GenericCycle`: one cycle object of the arena. -/
structure GenericCycle where
  ParentCycle : Option Nat
  Entries : List BlockT
  Children : List Nat
  Blocks : List BlockT
  Depth : Nat
  deriving Repr, DecidableEq

/-- A cycle as `std::make_unique<CycleT>()` creates it. -/
def GenericCycle.fresh : GenericCycle :=
  { ParentCycle := none, Entries := [], Children := [], Blocks := [], Depth := 0 }

/-- The class `GenericCycleInfo`: the arena of cycle objects, the block map (in
insertion order) and the list of top-level cycles. -/
structure GenericCycleInfo where
  Cycles : List GenericCycle
  BlockMap : List (BlockT × Nat)
  TopLevelCycles : List Nat
  deriving Repr, DecidableEq

/-- A freshly constructed `GenericCycleInfo`. -/
def GenericCycleInfo.empty : GenericCycleInfo :=
  { Cycles := [], BlockMap := [], TopLevelCycles := [] }

/-- The lookup `BlockMap.find(Block)`. -/
def mapFind (m : List (BlockT × Nat)) (b : BlockT) : Option Nat :=
  match m with
  | [] => none
  | (k, v) :: rest => if k = b then some v else mapFind rest b

/-- The insertion `BlockMap.try_emplace(Block, C)`: no effect when the key is present. -/
def mapTryEmplace (m : List (BlockT × Nat)) (b : BlockT) (c : Nat) : List (BlockT × Nat) :=
  match mapFind m b with
  | some _ => m
  | none => m ++ [(b, c)]

/-- Replace the cycle object at index `c` by `f` of it. -/
def modifyCycle (cycles : List GenericCycle) (c : Nat) (f : GenericCycle → GenericCycle) :
    List GenericCycle :=
  match cycles[c]? with
  | none => cycles
  | some cyc => cycles.set c (f cyc)

/-! ## `GenericCycle::contains` -/

/-- The loop `while (Depth < C->Depth) C = C->ParentCycle;` of `contains`, run for at
most `fuel` tests of its condition; the result is the final value of `C`. -/
def containsWalk (cycles : List GenericCycle) (depth : Nat) : Nat → Option Nat → Outcome (Option Nat)
  | 0, _ => .starved
  | fuel + 1, C =>
    match C with
    | none => .abort
    | some c =>
      match cycles[c]? with
      | none => .abort
      | some cyc =>
        if depth < cyc.Depth then containsWalk cycles depth fuel cyc.ParentCycle
        else .done (some c)

/-- The method `GenericCycle::contains(const GenericCycle *C)` called on the cycle `self`.
A parent chain that is followed for more steps than there are cycle objects is
circular, so the budget of the loop is the size of the arena plus one. -/
def contains (cycles : List GenericCycle) (self : Nat) (C : Option Nat) : Outcome Bool :=
  match cycles[self]? with
  | none => .abort
  | some me =>
    match C with
    | none => .done false
    | some c =>
      match cycles[c]? with
      | none => .abort
      | some other =>
        if me.Depth > other.Depth then .done false
        else
          (containsWalk cycles me.Depth (cycles.length + 1) (some c)).bind
            (fun C1 => .done (decide (some self = C1)))

/-! ## `GenericCycle::getExitBlocks` -/

/-- Modelled from the spec: `GenericCycle::contains(const BlockT *)` of
GenericCycleInfo.h, which is not part of the sources: whether the block is a
member of the cycle. -/
def containsBlock (cyc : GenericCycle) (b : BlockT) : Bool := cyc.Blocks.contains b

/-- The inner loop of `getExitBlocks`: `n` iterations starting at index `idx`, on the
buffer `buf` with `num` exit blocks found so far. -/
def scanSuccs (cyc : GenericCycle) : Nat → Nat → List BlockT → Nat → List BlockT × Nat
  | 0, _, buf, num => (buf, num)
  | n + 1, idx, buf, num =>
    match buf[idx]? with
    | none => (buf, num)
    | some Succ =>
      if !containsBlock cyc Succ && !(buf.take num).contains Succ then
        scanSuccs cyc n (idx + 1) (buf.set num Succ) (num + 1)
      else
        scanSuccs cyc n (idx + 1) buf num

/-- The outer loop of `getExitBlocks` over the remaining blocks of the cycle. -/
def exitLoop (g : Graph) (cyc : GenericCycle) : List BlockT → List BlockT → Nat → List BlockT
  | [], buf, _ => buf
  | Block :: rest, buf, num =>
    let buf1 := buf ++ successors g Block
    let r := scanSuccs cyc (buf1.length - num) num buf1 num
    exitLoop g cyc rest (r.1.take r.2) r.2

/-- The method `GenericCycle::getExitBlocks(TmpStorage)`; the argument `TmpStorage` is the
content of the buffer before the call and the result its content after it. -/
def getExitBlocks (g : Graph) (cyc : GenericCycle) (TmpStorage : List BlockT) : List BlockT :=
  let cleared := TmpStorage.take 0
  exitLoop g cyc cyc.Blocks cleared 0

/-- Keep the first occurrence of every element of a list, in order. -/
def keepFirst (l : List BlockT) : List BlockT :=
  l.foldl (fun acc x => if acc.contains x then acc else acc ++ [x]) []

/-- The exit blocks as the specification words them: the successor lists of the members
concatenated in member order, without the members, first occurrences only. -/
def exitBlocksSpec (g : Graph) (cyc : GenericCycle) : List BlockT :=
  keepFirst ((cyc.Blocks.flatMap (successors g)).filter (fun s => !cyc.Blocks.contains s))

/-! ## `Compute::dfs` -/

/-- The struct `DFSInfo`: the discovery and finish stamps of a block. -/
structure DFSInfo where
  Start : Nat
  End : Nat
  deriving Repr, DecidableEq

/-- The method `DFSInfo::isAncestorOf`. -/
def DFSInfo.isAncestorOf (self other : DFSInfo) : Bool :=
  decide (self.Start ≤ other.Start) && decide (other.End ≤ self.End)

/-- The table `BlockDFSInfo`: a partial map from blocks to their stamps. -/
abbrev DFSMap := BlockT → Option DFSInfo

/-- The call `BlockDFSInfo.lookup(Block)`: a default-constructed `DFSInfo` for an absent key. -/
def DFSMap.lookup (m : DFSMap) (b : BlockT) : DFSInfo := (m b).getD ⟨0, 0⟩

/-- Store the stamps `d` under the key `b`. -/
def DFSMap.insert (m : DFSMap) (b : BlockT) (d : DFSInfo) : DFSMap :=
  fun x => if x = b then some d else m x

/-- The local state of `Compute::dfs` together with the two tables it fills. -/
structure DfsState where
  DFSTreeStack : List Nat
  TraverseStack : List BlockT
  Counter : Nat
  BlockDFSInfo : DFSMap
  BlockPreorder : List BlockT

/-- One execution of the body of the `do … while` loop of `Compute::dfs`. -/
def dfsStep (g : Graph) (s : DfsState) : Outcome DfsState :=
  match s.TraverseStack with
  | [] => .abort
  | Block :: popped =>
    match s.BlockDFSInfo Block with
    | none =>
      .done
        { DFSTreeStack := s.TraverseStack.length :: s.DFSTreeStack
          TraverseStack := (successors g Block).reverse ++ s.TraverseStack
          Counter := s.Counter + 1
          BlockDFSInfo := s.BlockDFSInfo.insert Block ⟨s.Counter + 1, 0⟩
          BlockPreorder := s.BlockPreorder ++ [Block] }
    | some d =>
      match s.DFSTreeStack with
      | [] => .abort
      | top :: rest =>
        if top = s.TraverseStack.length then
          .done
            { s with
              BlockDFSInfo := s.BlockDFSInfo.insert Block { d with End := s.Counter }
              DFSTreeStack := rest
              TraverseStack := popped }
        else
          .done { s with TraverseStack := popped }

/-- The `do … while (!TraverseStack.empty())` loop of `Compute::dfs` with a budget of
`fuel` iterations, followed by `assert(DFSTreeStack.empty())`. -/
def dfsLoop (g : Graph) : Nat → DfsState → Outcome DfsState
  | 0, _ => .starved
  | fuel + 1, s =>
    (dfsStep g s).bind fun s1 =>
      match s1.TraverseStack with
      | [] => if s1.DFSTreeStack.isEmpty then .done s1 else .abort
      | _ :: _ => dfsLoop g fuel s1

/-- The state of `Compute::dfs` on entry to its loop. -/
def dfsInit (EntryBlock : BlockT) : DfsState :=
  { DFSTreeStack := []
    TraverseStack := [EntryBlock]
    Counter := 0
    BlockDFSInfo := fun _ => none
    BlockPreorder := [] }

/-- The number of edges listed in the successor table. -/
def edgeCount (g : Graph) : Nat :=
  ((List.range g.succs.length).map (fun b => (successors g b).length)).sum

/-- The iteration budget given to the loop of `Compute::dfs`: every iteration either opens
a block or pops one entry of the traversal stack. -/
def dfsFuel (g : Graph) : Nat := 2 * edgeCount g + 2

/-- The method `Compute::dfs(EntryBlock)`. -/
def dfs (g : Graph) (EntryBlock : BlockT) : Outcome DfsState :=
  dfsLoop g (dfsFuel g) (dfsInit EntryBlock)

/-! ## `GenericCycleInfo::getTopLevelParentCycle` and `moveToNewParent` -/

/-- The loop `while (C->ParentCycle) C = C->ParentCycle;` with a budget of `fuel` tests. -/
def topLevelWalk (cycles : List GenericCycle) : Nat → Nat → Outcome Nat
  | 0, _ => .starved
  | fuel + 1, c =>
    match cycles[c]? with
    | none => .abort
    | some cyc =>
      match cyc.ParentCycle with
      | none => .done c
      | some p => topLevelWalk cycles fuel p

/-- The method `GenericCycleInfo::getTopLevelParentCycle(Block)`.  A parent chain longer
than the arena is circular, so the budget of the walk is the size of the arena. -/
def getTopLevelParentCycle (info : GenericCycleInfo) (Block : BlockT) : Outcome (Option Nat) :=
  match mapFind info.BlockMap Block with
  | none => .done none
  | some c => (topLevelWalk info.Cycles info.Cycles.length c).bind fun t => .done (some t)

/-- The vector idiom `*Pos = std::move(V.back()); V.pop_back();` at index `pos`. -/
def swapRemoveAt (l : List Nat) (pos : Nat) : List Nat :=
  match l.getLast? with
  | none => l
  | some last => (l.set pos last).dropLast

/-- The method `GenericCycleInfo::moveToNewParent(NewParent, Child)`.  When `NewParent` is
already the parent of `Child`, the container searched is `NewParent->Children` itself:
`NewParent->Children.push_back(std::move(*Pos))` then appends to the vector that the
iterator `Pos` points into, which may reallocate it and invalidate `Pos`, so the assignment
`*Pos = ...` that follows is undefined; the model ends there with `abort`. -/
def moveToNewParent (info : GenericCycleInfo) (NewParent Child : Nat) :
    Outcome GenericCycleInfo :=
  match info.Cycles[Child]?, info.Cycles[NewParent]? with
  | some ch, some _ =>
    match ch.ParentCycle with
    | none =>
      let pos := info.TopLevelCycles.indexOf Child
      if pos < info.TopLevelCycles.length then
        let cycles1 := modifyCycle info.Cycles NewParent
          (fun c => { c with Children := c.Children ++ [Child] })
        let top1 := swapRemoveAt info.TopLevelCycles pos
        .done
          { info with
            Cycles := modifyCycle cycles1 Child (fun c => { c with ParentCycle := some NewParent })
            TopLevelCycles := top1 }
      else .abort
    | some p =>
      match info.Cycles[p]? with
      | none => .abort
      | some par =>
        let pos := par.Children.indexOf Child
        if pos < par.Children.length then
          if p = NewParent then .abort
          else
            let cycles1 := modifyCycle info.Cycles NewParent
              (fun c => { c with Children := c.Children ++ [Child] })
            let cycles2 := modifyCycle cycles1 p
              (fun c => { c with Children := swapRemoveAt c.Children pos })
            .done
              { info with
                Cycles := modifyCycle cycles2 Child
                  (fun c => { c with ParentCycle := some NewParent }) }
        else .abort
  | _, _ => .abort

/-! ## `Compute::run` -/

/-- The predecessor scan shared by the header test and by `ProcessPredecessors`: every
predecessor inside the candidate's DFS subtree is pushed on the worklist, any other one
raises the flag. -/
def scanPreds (dfsInfo : DFSMap) (CandidateInfo : DFSInfo) :
    List BlockT → List BlockT × Bool → List BlockT × Bool
  | [], acc => acc
  | Pred :: rest, (Worklist, IsEntry) =>
    if CandidateInfo.isAncestorOf (dfsInfo.lookup Pred) then
      scanPreds dfsInfo CandidateInfo rest (Pred :: Worklist, IsEntry)
    else
      scanPreds dfsInfo CandidateInfo rest (Worklist, true)

/-- The lambda `ProcessPredecessors` of `Compute::run` for the cycle `NewCycle`. -/
def ProcessPredecessors (g : Graph) (dfsInfo : DFSMap) (CandidateInfo : DFSInfo)
    (NewCycle : Nat) (Block : BlockT) (st : GenericCycleInfo × List BlockT) :
    Outcome (GenericCycleInfo × List BlockT) :=
  let r := scanPreds dfsInfo CandidateInfo (predecessors g Block) (st.2, false)
  if r.2 then
    match st.1.Cycles[NewCycle]? with
    | none => .abort
    | some cyc =>
      if cyc.Entries.contains Block then .abort
      else
        .done
          ({ st.1 with
             Cycles := modifyCycle st.1.Cycles NewCycle
               (fun c => { c with Entries := c.Entries ++ [Block] }) }, r.1)
  else .done (st.1, r.1)

/-- The loop `for (auto *ChildEntry : BlockParent->entries()) ProcessPredecessors(ChildEntry);`. -/
def processEntries (g : Graph) (dfsInfo : DFSMap) (CandidateInfo : DFSInfo) (NewCycle : Nat) :
    List BlockT → GenericCycleInfo × List BlockT → Outcome (GenericCycleInfo × List BlockT)
  | [], st => .done st
  | ChildEntry :: rest, st =>
    (ProcessPredecessors g dfsInfo CandidateInfo NewCycle ChildEntry st).bind
      (processEntries g dfsInfo CandidateInfo NewCycle rest)

/-- One execution of the body of the `do … while (!Worklist.empty())` loop of `Compute::run`. -/
def drainStep (g : Graph) (dfsInfo : DFSMap) (HeaderCandidate : BlockT)
    (CandidateInfo : DFSInfo) (NewCycle : Nat) (st : GenericCycleInfo × List BlockT) :
    Outcome (GenericCycleInfo × List BlockT) :=
  match st.2 with
  | [] => .abort
  | Block :: Worklist =>
    if Block = HeaderCandidate then .done (st.1, Worklist)
    else
      (getTopLevelParentCycle st.1 Block).bind fun found =>
        match found with
        | some BlockParent =>
          if BlockParent ≠ NewCycle then
            (moveToNewParent st.1 NewCycle BlockParent).bind fun info1 =>
              match info1.Cycles[BlockParent]? with
              | none => .abort
              | some bp =>
                let info2 :=
                  { info1 with
                    Cycles := modifyCycle info1.Cycles NewCycle
                      (fun c => { c with Blocks := c.Blocks ++ bp.Blocks }) }
                processEntries g dfsInfo CandidateInfo NewCycle bp.Entries (info2, Worklist)
          else .done (st.1, Worklist)
        | none =>
          match st.1.Cycles[NewCycle]? with
          | none => .abort
          | some cyc =>
            if cyc.Blocks.contains Block then .abort
            else
              let info1 :=
                { st.1 with
                  BlockMap := mapTryEmplace st.1.BlockMap Block NewCycle
                  Cycles := modifyCycle st.1.Cycles NewCycle
                    (fun c => { c with Blocks := c.Blocks ++ [Block] }) }
              ProcessPredecessors g dfsInfo CandidateInfo NewCycle Block (info1, Worklist)

/-- The `do … while (!Worklist.empty())` loop of `Compute::run` with a budget of `fuel`
iterations; it returns with an empty worklist. -/
def drainLoop (g : Graph) (dfsInfo : DFSMap) (HeaderCandidate : BlockT)
    (CandidateInfo : DFSInfo) (NewCycle : Nat) :
    Nat → GenericCycleInfo × List BlockT → Outcome GenericCycleInfo
  | 0, _ => .starved
  | fuel + 1, st =>
    (drainStep g dfsInfo HeaderCandidate CandidateInfo NewCycle st).bind fun st1 =>
      match st1.2 with
      | [] => .done st1.1
      | _ :: _ => drainLoop g dfsInfo HeaderCandidate CandidateInfo NewCycle fuel st1

/-- The number of entries of the predecessor table. -/
def predCount (g : Graph) : Nat :=
  ((List.range g.preds.length).map (fun b => (predecessors g b).length)).sum

/-- The iteration budget of the worklist loop: every iteration pops one pushed predecessor. -/
def drainFuel (g : Graph) : Nat := predCount g + 1

/-- The body of the loop over the header candidates in `Compute::run`.  The worklist is
empty at the start of every iteration, since the inner loop only ends on an empty
worklist. -/
def processHeader (g : Graph) (dfsInfo : DFSMap) (info : GenericCycleInfo)
    (HeaderCandidate : BlockT) : Outcome GenericCycleInfo :=
  let CandidateInfo := dfsInfo.lookup HeaderCandidate
  let Worklist := (scanPreds dfsInfo CandidateInfo (predecessors g HeaderCandidate) ([], false)).1
  match Worklist with
  | [] => .done info
  | _ :: _ =>
    let NewCycle := info.Cycles.length
    let cyc : GenericCycle :=
      { GenericCycle.fresh with Entries := [HeaderCandidate], Blocks := [HeaderCandidate] }
    let info1 : GenericCycleInfo :=
      { info with
        Cycles := info.Cycles ++ [cyc]
        BlockMap := mapTryEmplace info.BlockMap HeaderCandidate NewCycle }
    (drainLoop g dfsInfo HeaderCandidate CandidateInfo NewCycle (drainFuel g)
        (info1, Worklist)).bind fun info2 =>
      .done { info2 with TopLevelCycles := info2.TopLevelCycles ++ [NewCycle] }

/-- The loop `for (BlockT *HeaderCandidate : llvm::reverse(BlockPreorder))`, given the
candidates in the order in which they are visited. -/
def headerLoop (g : Graph) (dfsInfo : DFSMap) :
    List BlockT → GenericCycleInfo → Outcome GenericCycleInfo
  | [], info => .done info
  | HeaderCandidate :: rest, info =>
    (processHeader g dfsInfo info HeaderCandidate).bind (headerLoop g dfsInfo rest)

/-- Modelled from the spec: `llvm::depth_first` of DepthFirstIterator.h, which is not part
of the sources: the depth-first walk of the subtree of a cycle along the `Children` lists,
every cycle before its children.  The budget bounds the nesting depth of the walk. -/
def depthFirst (cycles : List GenericCycle) : Nat → Nat → Outcome (List Nat)
  | 0, _ => .starved
  | fuel + 1, c =>
    match cycles[c]? with
    | none => .abort
    | some cyc =>
      (cyc.Children.foldr
        (fun ch acc => (depthFirst cycles fuel ch).bind fun l => acc.bind fun ls => .done (l ++ ls))
        (.done [])).bind fun sub => .done (c :: sub)

/-- The walk `depth_first(C)` of a whole subtree: a nesting deeper than the number of cycle
objects means the `Children` links are circular. -/
def depth_first (cycles : List GenericCycle) (c : Nat) : Outcome (List Nat) :=
  depthFirst cycles (cycles.length + 1) c

/-- The assignment `Cycle->Depth = Cycle->ParentCycle ? Cycle->ParentCycle->Depth + 1 : 1`. -/
def setDepth (cycles : List GenericCycle) (c : Nat) : Outcome (List GenericCycle) :=
  match cycles[c]? with
  | none => .abort
  | some cyc =>
    match cyc.ParentCycle with
    | none => .done (cycles.set c { cyc with Depth := 1 })
    | some p =>
      match cycles[p]? with
      | none => .abort
      | some par => .done (cycles.set c { cyc with Depth := par.Depth + 1 })

/-- Assign the depth of the listed cycles in order. -/
def setDepths : List Nat → List GenericCycle → Outcome (List GenericCycle)
  | [], cycles => .done cycles
  | c :: rest, cycles => (setDepth cycles c).bind (setDepths rest)

/-- The method `Compute::updateDepth(SubTree)`. -/
def updateDepth (cycles : List GenericCycle) (SubTree : Nat) : Outcome (List GenericCycle) :=
  (depth_first cycles SubTree).bind fun order => setDepths order cycles

/-- The final loop of `Compute::run`: every top-level cycle gets a null parent link and its
subtree gets its depths. -/
def fixTopLevel : List Nat → List GenericCycle → Outcome (List GenericCycle)
  | [], cycles => .done cycles
  | TLC :: rest, cycles =>
    match cycles[TLC]? with
    | none => .abort
    | some _ =>
      (updateDepth (modifyCycle cycles TLC (fun c => { c with ParentCycle := none })) TLC).bind
        (fixTopLevel rest)

/-- The method `Compute::run(EntryBlock)` on the forest `info`. -/
def run (g : Graph) (info : GenericCycleInfo) : Outcome GenericCycleInfo :=
  (dfs g g.entry).bind fun d =>
    (headerLoop g d.BlockDFSInfo d.BlockPreorder.reverse info).bind fun info1 =>
      (fixTopLevel info1.TopLevelCycles info1.Cycles).bind fun cycles =>
        .done { info1 with Cycles := cycles }

/-! ## Queries and validation -/

/-- The method `GenericCycleInfo::clear()`.  `TopLevelCycles.clear()` destroys every cycle
object (the list owns the top-level cycles and every cycle owns its children), which
leaves the arena without objects, and `BlockMap.clear()` empties the block map. -/
def clear (_info : GenericCycleInfo) : GenericCycleInfo := GenericCycleInfo.empty

/-- The method `GenericCycleInfo::getCycle(Block)`. -/
def getCycle (info : GenericCycleInfo) (Block : BlockT) : Option Nat :=
  mapFind info.BlockMap Block

/-- Run the checks of a list in order; the first failing check ends the validation. -/
def checkAll {α : Type} (f : α → Outcome Bool) : List α → Outcome Bool
  | [] => .done true
  | a :: rest => (f a).bind fun ok => if ok then checkAll f rest else .done false

/-- The loop of `validateTree` over the blocks of `Cycle`; `seen` is the set `Blocks`. -/
def checkBlocks (info : GenericCycleInfo) (Cycle : Nat) : List BlockT → List BlockT → Outcome Bool
  | [], _ => .done true
  | Block :: rest, seen =>
    match mapFind info.BlockMap Block with
    | none => .done false
    | some mapped =>
      (contains info.Cycles Cycle (some mapped)).bind fun ok =>
        if !ok then .done false
        else if seen.contains Block then .done false
        else checkBlocks info Cycle rest (Block :: seen)

/-- The loop of `validateTree` over the entries of a cycle; `seen` is the set `Entries`. -/
def checkEntries (cyc : GenericCycle) : List BlockT → List BlockT → Bool
  | [], _ => true
  | Entry :: rest, seen =>
    if seen.contains Entry then false
    else if !cyc.Blocks.contains Entry then false
    else checkEntries cyc rest (Entry :: seen)

/-- The loop of `validateTree` over the children of a cycle. -/
def checkChildren (cycles : List GenericCycle) (cyc : GenericCycle) :
    List Nat → Nat → Outcome Bool
  | [], _ => .done true
  | Child :: rest, ChildDepth =>
    match cycles[Child]? with
    | none => .abort
    | some ch =>
      if !(ch.Depth > cyc.Depth) then .done false
      else if ChildDepth = 0 then checkChildren cycles cyc rest ch.Depth
      else if ChildDepth = ch.Depth then checkChildren cycles cyc rest ChildDepth
      else .done false

/-- The checks `validateTree` makes on one cycle of the forest. -/
def checkCycle (info : GenericCycleInfo) (Cycle : Nat) : Outcome Bool :=
  match info.Cycles[Cycle]? with
  | none => .abort
  | some cyc =>
    let parentOk : Outcome Bool :=
      match cyc.ParentCycle with
      | none => .done true
      | some p =>
        match info.Cycles[p]? with
        | none => .abort
        | some par => .done (par.Children.contains Cycle)
    parentOk.bind fun ok1 =>
      if !ok1 then .done false
      else
        (checkBlocks info Cycle cyc.Blocks []).bind fun ok2 =>
          if !ok2 then .done false
          else if cyc.Entries.isEmpty then .done false
          else if !checkEntries cyc cyc.Entries [] then .done false
          else checkChildren info.Cycles cyc cyc.Children 0

/-- The loop `for (Cycle = Entry.second; Cycle; Cycle = Cycle->ParentCycle)` of
`validateTree` for one entry of the block map, with a budget of `fuel` iterations. -/
def checkChain (cycles : List GenericCycle) (Block : BlockT) : Nat → Option Nat → Outcome Bool
  | 0, _ => .starved
  | fuel + 1, C =>
    match C with
    | none => .done true
    | some c =>
      match cycles[c]? with
      | none => .abort
      | some cyc =>
        if cyc.Blocks.contains Block then checkChain cycles Block fuel cyc.ParentCycle
        else .done false

/-- The method `GenericCycleInfo::validateTree()`. -/
def validateTree (info : GenericCycleInfo) : Outcome Bool :=
  (checkAll
      (fun TLC => (depth_first info.Cycles TLC).bind fun order => checkAll (checkCycle info) order)
      info.TopLevelCycles).bind fun ok =>
    if !ok then .done false
    else
      checkAll
        (fun e => checkChain info.Cycles e.1 (info.Cycles.length + 1) (some e.2))
        info.BlockMap

/-- The method `GenericCycleInfo::compute(F)`: `Compute::run` on the entry block, followed by
`assert(validateTree())`. -/
def compute (g : Graph) (info : GenericCycleInfo) : Outcome GenericCycleInfo :=
  (run g info).bind fun info1 =>
    (validateTree info1).bind fun ok => if ok then .done info1 else .abort

/-! ## Predicates used in the statements and proofs -/

/-- The parent link of the cycle `b` points to the cycle `a`. -/
def ParentLink (cycles : List GenericCycle) (b a : Nat) : Prop :=
  ∃ cyc, cycles[b]? = some cyc ∧ cyc.ParentCycle = some a

/-- Every cycle's depth is the length of its parent chain: 1 without a parent, one more
than the parent's depth otherwise. -/
def DepthIsChainLength (cycles : List GenericCycle) : Prop :=
  ∀ (c : Nat) (cyc : GenericCycle), cycles[c]? = some cyc →
    match cyc.ParentCycle with
    | none => cyc.Depth = 1
    | some p => ∃ par : GenericCycle, cycles[p]? = some par ∧ cyc.Depth = par.Depth + 1

/-- The exit list after reading the successors `l`, starting from the exit list `E`. -/
def addExits (cyc : GenericCycle) (E l : List BlockT) : List BlockT :=
  l.foldl (fun acc x => if cyc.Blocks.contains x || acc.contains x then acc else acc ++ [x]) E

/-- An arena of two nested cycles: cycle 1 at depth 1 is the parent of cycle 0 at depth 2. -/
def nestedPair : List GenericCycle :=
  [ { ParentCycle := some 1, Entries := [1], Children := [], Blocks := [1], Depth := 2 },
    { ParentCycle := none, Entries := [0], Children := [0], Blocks := [0, 1], Depth := 1 } ]

/-! ### The depth-first indexer -/

/-- One open block of the traversal together with those of its successors that are still
on the traversal stack above it. -/
structure Frame where
  node : BlockT
  pending : List BlockT

/-- The traversal stack described by a list of frames (innermost frame first). -/
def flat : List Frame → List BlockT
  | [] => []
  | f :: rest => f.pending ++ f.node :: flat rest

/-- The stack of opening depths described by a list of frames. -/
def positions : List Frame → List Nat
  | [] => []
  | _ :: rest => ((flat rest).length + 1) :: positions rest

/-- The discovery stamp recorded for a block (0 when there is none). -/
def startOf (m : DFSMap) (b : BlockT) : Nat := (m.lookup b).Start

/-- The finish stamp recorded for a block (0 when there is none). -/
def endOf (m : DFSMap) (b : BlockT) : Nat := (m.lookup b).End

/-- The block has an entry in `BlockDFSInfo`. -/
def Visited (m : DFSMap) (b : BlockT) : Prop := m b ≠ none

/-- The edges still to be pushed: the successor rows of the blocks not yet opened. -/
def unopenedEdges (g : Graph) (m : DFSMap) : Nat :=
  (((List.range g.succs.length).filter (fun b => (m b).isNone)).map
    (fun b => (successors g b).length)).sum

/-- The number of iterations the loop of `Compute::dfs` can still make. -/
def dfsMeasure (g : Graph) (s : DfsState) : Nat :=
  2 * unopenedEdges g s.BlockDFSInfo + s.TraverseStack.length +
    s.TraverseStack.countP (fun b => (s.BlockDFSInfo b).isNone)

/-- The tree-parent property of a block `b`: some opened block `p` has `b` among its
successors, was opened before `b`, and is the innermost block open at the discovery of `b`. -/
def HasTreeParent (g : Graph) (m : DFSMap) (b : BlockT) : Prop :=
  ∃ p, Visited m p ∧ b ∈ successors g p ∧ startOf m p < startOf m b ∧
    (endOf m p ≠ 0 → startOf m b ≤ endOf m p) ∧
    ∀ a, Visited m a → startOf m a < startOf m b →
      startOf m a ≤ startOf m p ∨ (endOf m a ≠ 0 ∧ endOf m a < startOf m b)

/-- The facts about the two tables that hold throughout the loop of `Compute::dfs`,
independently of the stacks. -/
structure DfsTables (g : Graph) (entry : BlockT) (s : DfsState) : Prop where
  counter : s.Counter = s.BlockPreorder.length
  stamp : ∀ b, Visited s.BlockDFSInfo b →
    1 ≤ startOf s.BlockDFSInfo b ∧ s.BlockPreorder[startOf s.BlockDFSInfo b - 1]? = some b
  listed : ∀ i b, s.BlockPreorder[i]? = some b →
    Visited s.BlockDFSInfo b ∧ startOf s.BlockDFSInfo b = i + 1
  first : ∀ b, s.BlockPreorder[0]? = some b → b = entry
  closed : ∀ b, Visited s.BlockDFSInfo b → endOf s.BlockDFSInfo b ≠ 0 →
    startOf s.BlockDFSInfo b ≤ endOf s.BlockDFSInfo b ∧ endOf s.BlockDFSInfo b ≤ s.Counter
  laminar : ∀ a b, Visited s.BlockDFSInfo a → Visited s.BlockDFSInfo b →
    endOf s.BlockDFSInfo a ≠ 0 → startOf s.BlockDFSInfo a < startOf s.BlockDFSInfo b →
    startOf s.BlockDFSInfo b ≤ endOf s.BlockDFSInfo a →
    endOf s.BlockDFSInfo b ≠ 0 ∧ endOf s.BlockDFSInfo b ≤ endOf s.BlockDFSInfo a
  succClosed : ∀ a, Visited s.BlockDFSInfo a → endOf s.BlockDFSInfo a ≠ 0 →
    ∀ x ∈ successors g a, Visited s.BlockDFSInfo x ∧
      startOf s.BlockDFSInfo x ≤ endOf s.BlockDFSInfo a
  parent : ∀ b, Visited s.BlockDFSInfo b → b ≠ entry → HasTreeParent g s.BlockDFSInfo b
  entryVisited : Visited s.BlockDFSInfo entry

/-- The facts that tie the two stacks of `Compute::dfs` to the list of open blocks. -/
structure DfsStacks (g : Graph) (s : DfsState) (frames : List Frame) : Prop where
  stack : s.TraverseStack = flat frames
  tree : s.DFSTreeStack = positions frames
  isOpen : ∀ f ∈ frames, Visited s.BlockDFSInfo f.node ∧ endOf s.BlockDFSInfo f.node = 0
  allOpen : ∀ b, Visited s.BlockDFSInfo b → endOf s.BlockDFSInfo b = 0 →
    ∃ f ∈ frames, f.node = b
  pendingSucc : ∀ f ∈ frames, ∀ x ∈ f.pending, x ∈ successors g f.node
  cover : ∀ f ∈ frames, ∀ x ∈ successors g f.node, x ∈ f.pending ∨ Visited s.BlockDFSInfo x
  ordered : frames.Pairwise
    (fun f1 f2 => startOf s.BlockDFSInfo f2.node < startOf s.BlockDFSInfo f1.node)

/-- What `Compute::dfs` guarantees about the tables it has filled. -/
structure DfsPost (g : Graph) (entry : BlockT) (s : DfsState) : Prop where
  tables : DfsTables g entry s
  allClosed : ∀ b, Visited s.BlockDFSInfo b → endOf s.BlockDFSInfo b ≠ 0

/-- The state after the loop body has opened the block `b`. -/
def openState (g : Graph) (s : DfsState) (b : BlockT) : DfsState :=
  { DFSTreeStack := s.TraverseStack.length :: s.DFSTreeStack
    TraverseStack := (successors g b).reverse ++ s.TraverseStack
    Counter := s.Counter + 1
    BlockDFSInfo := s.BlockDFSInfo.insert b ⟨s.Counter + 1, 0⟩
    BlockPreorder := s.BlockPreorder ++ [b] }

/-- The state after the loop body has closed the open block `b` on top of the stack. -/
def closeState (s : DfsState) (b : BlockT) (d : DFSInfo) (ts : List Nat) (st : List BlockT) :
    DfsState :=
  { s with
    BlockDFSInfo := s.BlockDFSInfo.insert b { d with End := s.Counter }
    DFSTreeStack := ts
    TraverseStack := st }

/-- The state after the loop body has popped a block that was opened earlier. -/
def popState (s : DfsState) (st : List BlockT) : DfsState :=
  { s with TraverseStack := st }

/-- The block `b` lies in the DFS subtree of `a`: `DFSInfo::isAncestorOf` on their stamps. -/
def Anc (m : DFSMap) (a b : BlockT) : Prop :=
  (m.lookup a).isAncestorOf (m.lookup b) = true

/-! ### The cycle forest -/

/-- The cycle object at the index `c` of the arena (a fresh object outside the arena). -/
def cycAt (cs : List GenericCycle) (c : Nat) : GenericCycle := cs.getD c GenericCycle.fresh

/-- The header of a cycle: its first entry (`getHeader()`). -/
def headerOf (cyc : GenericCycle) : BlockT := cyc.Entries.headD 0

/-- The test `CandidateInfo.isAncestorOf(BlockDFSInfo.lookup(Pred))`. -/
def ancB (m : DFSMap) (H p : BlockT) : Bool := (m.lookup H).isAncestorOf (m.lookup p)

/-- The predecessors of `b` inside the DFS subtree of `H`, in adapter order. -/
def insidePreds (g : Graph) (m : DFSMap) (H b : BlockT) : List BlockT :=
  (predecessors g b).filter (fun p => ancB m H p)

/-- The block `b` has a predecessor outside the DFS subtree of `H`. -/
def hasOutside (g : Graph) (m : DFSMap) (H b : BlockT) : Bool :=
  (predecessors g b).any (fun p => !ancB m H p)

/-- The block `H` has a predecessor inside its own DFS subtree. -/
def hasBack (g : Graph) (m : DFSMap) (H : BlockT) : Bool :=
  (predecessors g H).any (fun p => ancB m H p)

/-- The worklist after `ProcessPredecessors` has run on the listed blocks in order. -/
def pushAll (g : Graph) (m : DFSMap) (H : BlockT) : List BlockT → List BlockT → List BlockT
  | [], wl => wl
  | e :: rest, wl => pushAll g m H rest ((insidePreds g m H e).reverse ++ wl)

/-- The structural invariant of the cycle forest: `cs` is the arena, `bm` the block map and
`roots` lists the cycles without a parent. -/
structure Wf (m : DFSMap) (cs : List GenericCycle) (bm : List (BlockT × Nat))
    (roots : List Nat) : Prop where
  parentLt : ∀ c, c < cs.length → ∀ p, (cycAt cs c).ParentCycle = some p →
    c < p ∧ p < cs.length ∧ c ∈ (cycAt cs p).Children
  childPar : ∀ p, p < cs.length → ∀ ch ∈ (cycAt cs p).Children,
    ch < p ∧ (cycAt cs ch).ParentCycle = some p
  childNodup : ∀ p, p < cs.length → (cycAt cs p).Children.Nodup
  rootsNodup : roots.Nodup
  rootsIff : ∀ t, t ∈ roots ↔ t < cs.length ∧ (cycAt cs t).ParentCycle = none
  header : ∀ c, c < cs.length →
    ∃ re rb, (cycAt cs c).Entries = headerOf (cycAt cs c) :: re ∧
      (cycAt cs c).Blocks = headerOf (cycAt cs c) :: rb
  headerVisited : ∀ c, c < cs.length → Visited m (headerOf (cycAt cs c))
  blocksNodup : ∀ c, c < cs.length → (cycAt cs c).Blocks.Nodup
  entriesNodup : ∀ c, c < cs.length → (cycAt cs c).Entries.Nodup
  entriesSub : ∀ c, c < cs.length → ∀ b ∈ (cycAt cs c).Entries, b ∈ (cycAt cs c).Blocks
  subtree : ∀ c, c < cs.length → ∀ b ∈ (cycAt cs c).Blocks, Anc m (headerOf (cycAt cs c)) b
  childBlocks : ∀ p, p < cs.length → ∀ ch ∈ (cycAt cs p).Children,
    ∀ b ∈ (cycAt cs ch).Blocks, b ∈ (cycAt cs p).Blocks
  mapValid : ∀ e ∈ bm, e.2 < cs.length ∧ e.1 ∈ (cycAt cs e.2).Blocks
  mapInner : ∀ c, c < cs.length → ∀ b ∈ (cycAt cs c).Blocks,
    ∃ c0, mapFind bm b = some c0 ∧ Relation.ReflTransGen (ParentLink cs) c0 c

/-- The invariant of the worklist loop of `Compute::run` for the header candidate `H`, the
cycle `New` under construction and the worklist `WL`; `old` lists the headers of the cycles
found before. -/
structure Draining (m : DFSMap) (H : BlockT) (info : GenericCycleInfo) (New : Nat)
    (WL : List BlockT) (old : List BlockT) : Prop where
  wf : Wf m info.Cycles info.BlockMap (info.TopLevelCycles ++ [New])
  last : New + 1 = info.Cycles.length
  hdrs : info.Cycles.map headerOf = old ++ [H]
  older : ∀ h ∈ old, startOf m H < startOf m h
  inside : ∀ w ∈ WL, Anc m H w

/-- The invariant of the loop over the header candidates: `hdrs` lists the headers of the
cycles found so far, in the order of their creation. -/
structure Forest (m : DFSMap) (info : GenericCycleInfo) (hdrs : List BlockT) : Prop where
  wf : Wf m info.Cycles info.BlockMap info.TopLevelCycles
  hdrs : info.Cycles.map headerOf = hdrs

/-- The arena after the blocks `es` have been appended to the entries of the cycle `New`. -/
def addEntries (cs : List GenericCycle) (New : Nat) (es : List BlockT) : List GenericCycle :=
  modifyCycle cs New (fun c => { c with Entries := c.Entries ++ es })

/-- The arena after the top-level cycle `t` has been made a child of the cycle `New`: the
child is linked, its blocks are appended to the blocks of `New`, and those of its entries
that have a predecessor outside the subtree of `H` become entries of `New`. -/
def absorbed (g : Graph) (m : DFSMap) (H : BlockT) (cs : List GenericCycle) (New t : Nat) :
    List GenericCycle :=
  addEntries
    (modifyCycle
      (modifyCycle
        (modifyCycle cs New (fun c => { c with Children := c.Children ++ [t] }))
        t (fun c => { c with ParentCycle := some New }))
      New (fun c => { c with Blocks := c.Blocks ++ (cycAt cs t).Blocks }))
    New ((cycAt cs t).Entries.filter (hasOutside g m H))

/-- The arena after the block `b` has been appended to the blocks of the cycle `New`, and to
its entries when it has a predecessor outside the subtree of `H`. -/
def enlisted (g : Graph) (m : DFSMap) (H : BlockT) (cs : List GenericCycle) (New : Nat)
    (b : BlockT) : List GenericCycle :=
  addEntries (modifyCycle cs New (fun c => { c with Blocks := c.Blocks ++ [b] }))
    New (if hasOutside g m H b then [b] else [])

/-- What one iteration of the worklist loop of `Compute::run` does to the forest and the
worklist, by the case it is in. -/
inductive DrainStep (g : Graph) (m : DFSMap) (H : BlockT) (New : Nat) :
    GenericCycleInfo × List BlockT → GenericCycleInfo × List BlockT → Prop where
  | header (info : GenericCycleInfo) (WL : List BlockT) :
      DrainStep g m H New (info, H :: WL) (info, WL)
  | known (info : GenericCycleInfo) (Block : BlockT) (WL : List BlockT) :
      Block ≠ H → Block ∈ (cycAt info.Cycles New).Blocks →
      DrainStep g m H New (info, Block :: WL) (info, WL)
  | absorb (info : GenericCycleInfo) (Block : BlockT) (WL : List BlockT) (t : Nat) :
      Block ≠ H → t ∈ info.TopLevelCycles → Block ∈ (cycAt info.Cycles t).Blocks →
      DrainStep g m H New (info, Block :: WL)
        ({ info with
           Cycles := absorbed g m H info.Cycles New t
           TopLevelCycles :=
             swapRemoveAt info.TopLevelCycles (info.TopLevelCycles.indexOf t) },
         pushAll g m H (cycAt info.Cycles t).Entries WL)
  | fresh (info : GenericCycleInfo) (Block : BlockT) (WL : List BlockT) :
      Block ≠ H → mapFind info.BlockMap Block = none →
      DrainStep g m H New (info, Block :: WL)
        ({ info with
           BlockMap := info.BlockMap ++ [(Block, New)]
           Cycles := enlisted g m H info.Cycles New Block },
         (insidePreds g m H Block).reverse ++ WL)

/-- The arena `cs1` is the arena `cs` after the cycle `New` has grown by the child `ot` (if
any), the blocks `addB` and the entries `addE`. -/
structure Grow (cs cs1 : List GenericCycle) (New : Nat) (ot : Option Nat)
    (addB addE : List BlockT) : Prop where
  len : cs1.length = cs.length
  atNew : cycAt cs1 New =
    { cycAt cs New with
      Children := (cycAt cs New).Children ++ ot.toList
      Blocks := (cycAt cs New).Blocks ++ addB
      Entries := (cycAt cs New).Entries ++ addE }
  atChild : ∀ t, ot = some t → cycAt cs1 t = { cycAt cs t with ParentCycle := some New }
  other : ∀ i, i ≠ New → ot ≠ some i → cycAt cs1 i = cycAt cs i

/-- The predecessor entries of the blocks that are not listed in `B`. -/
def unscanned (g : Graph) (B : List BlockT) : Nat :=
  (((List.range g.preds.length).filter (fun b => !B.contains b)).map
    (fun b => (predecessors g b).length)).sum

/-- The number of iterations the worklist loop of `Compute::run` can still make. -/
def drainMeasure (g : Graph) (New : Nat) (st : GenericCycleInfo × List BlockT) : Nat :=
  st.2.length + unscanned g (cycAt st.1.Cycles New).Blocks

/-- The cycle object that `Compute::run` creates for the header `H`. -/
def newCycle (H : BlockT) : GenericCycle :=
  { GenericCycle.fresh with Entries := [H], Blocks := [H] }

/-- The forest right after the cycle for the header `H` has been created and mapped. -/
def openedInfo (info : GenericCycleInfo) (H : BlockT) : GenericCycleInfo :=
  { info with
    Cycles := info.Cycles ++ [newCycle H]
    BlockMap := info.BlockMap ++ [(H, info.Cycles.length)] }

/-- The worklist after the header test of `Compute::run`. -/
def seedWorklist (g : Graph) (m : DFSMap) (H : BlockT) : List BlockT :=
  (insidePreds g m H H).reverse

/-- What one iteration of the loop over the header candidates does to the forest. -/
inductive HeaderStep (g : Graph) (m : DFSMap) (H : BlockT) :
    GenericCycleInfo → GenericCycleInfo → Prop where
  | skip (info : GenericCycleInfo) : hasBack g m H = false → HeaderStep g m H info info
  | found (info mid : GenericCycleInfo) : hasBack g m H = true →
      Relation.ReflTransGen (DrainStep g m H info.Cycles.length)
        (openedInfo info H, seedWorklist g m H) (mid, []) →
      HeaderStep g m H info
        { mid with TopLevelCycles := mid.TopLevelCycles ++ [info.Cycles.length] }

/-- What the loop over the listed header candidates does to the forest. -/
inductive HeaderChain (g : Graph) (m : DFSMap) :
    List BlockT → GenericCycleInfo → GenericCycleInfo → Prop where
  | nil (info : GenericCycleInfo) : HeaderChain g m [] info info
  | cons (H : BlockT) (rest : List BlockT) (info mid info1 : GenericCycleInfo) :
      HeaderStep g m H info mid → HeaderChain g m rest mid info1 →
      HeaderChain g m (H :: rest) info info1

/-- The arena `cs1` differs from the arena `cs` in the depth fields only. -/
def SameShape (cs cs1 : List GenericCycle) : Prop :=
  cs1.length = cs.length ∧
    ∀ i, cycAt cs1 i = { cycAt cs i with Depth := (cycAt cs1 i).Depth }

/-- The parent chain of the cycle `c` has `k` cycles. -/
inductive HasDepth (cs : List GenericCycle) : Nat → Nat → Prop where
  | root (c : Nat) : c < cs.length → (cycAt cs c).ParentCycle = none → HasDepth cs c 1
  | child (c p k : Nat) : c < cs.length → (cycAt cs c).ParentCycle = some p →
      HasDepth cs p k → HasDepth cs c (k + 1)

/-- Every listed cycle is parentless or has its parent in `S` or earlier in the list. -/
def ParentsFirst (cs : List GenericCycle) : (Nat → Prop) → List Nat → Prop
  | _, [] => True
  | S, x :: l =>
    ((cycAt cs x).ParentCycle = none ∨ ∃ p, S p ∧ (cycAt cs x).ParentCycle = some p) ∧
      ParentsFirst cs (fun y => y = x ∨ S y) l

/-- The walk of `depthFirst` through a list of children. -/
def dfChildren (cs : List GenericCycle) (fuel : Nat) (chs : List Nat) : Outcome (List Nat) :=
  chs.foldr
    (fun ch acc => (depthFirst cs fuel ch).bind fun l => acc.bind fun ls => .done (l ++ ls))
    (.done [])

/-- What `Compute::run` on an empty forest guarantees: `d` is the result of the depth-first
indexer, `info1` the forest when the loop over the header candidates ends and `info` the
final forest. -/
structure RunResult (g : Graph) (d : DfsState) (info1 info : GenericCycleInfo) : Prop where
  post : DfsPost g g.entry d
  chain : HeaderChain g d.BlockDFSInfo d.BlockPreorder.reverse GenericCycleInfo.empty info1
  shape : SameShape info1.Cycles info.Cycles
  blockMap : info.BlockMap = info1.BlockMap
  topLevel : info.TopLevelCycles = info1.TopLevelCycles
  wf : Wf d.BlockDFSInfo info.Cycles info.BlockMap info.TopLevelCycles
  headers : info.Cycles.map headerOf
    = d.BlockPreorder.reverse.filter (hasBack g d.BlockDFSInfo)
  depth : DepthIsChainLength info.Cycles

/-- The cycle `ch` is listed among the children of the cycle `p`. -/
def ChildLink (cycles : List GenericCycle) (p ch : Nat) : Prop :=
  ∃ cyc, cycles[p]? = some cyc ∧ ch ∈ cyc.Children

/-- The cycle `c` belongs to the forest: it is reached from a top-level cycle along
`Children` lists. -/
def InForest (info : GenericCycleInfo) (c : Nat) : Prop :=
  ∃ t ∈ info.TopLevelCycles, Relation.ReflTransGen (ChildLink info.Cycles) t c

/-! ### Paths of the graph -/

/-- The block `b` is reached from the block `a` along successor edges. -/
def Reachable (g : Graph) (a b : BlockT) : Prop :=
  Relation.ReflTransGen (fun x y => y ∈ successors g x) a b

/-- An edge of the graph between two blocks of the DFS subtree of `H`. -/
def StepIn (g : Graph) (m : DFSMap) (H x y : BlockT) : Prop :=
  y ∈ successors g x ∧ Anc m H x ∧ Anc m H y

/-- Every listed predecessor is the source of a listed edge. -/
def PredsAreEdges (g : Graph) : Prop :=
  ∀ q ∈ List.range g.preds.length, ∀ p ∈ predecessors g q, q ∈ successors g p

/-- The source of every listed edge is a listed predecessor of its target. -/
def EdgesArePreds (g : Graph) : Prop :=
  ∀ p ∈ List.range g.succs.length, ∀ q ∈ successors g p, p ∈ predecessors g q

/-- The adapter contract: the predecessor table is consistent with the successor table. -/
def EdgesAgree (g : Graph) : Prop := PredsAreEdges g ∧ EdgesArePreds g

instance (g : Graph) : Decidable (PredsAreEdges g) := by
  unfold PredsAreEdges; exact inferInstance

instance (g : Graph) : Decidable (EdgesArePreds g) := by
  unfold EdgesArePreds; exact inferInstance

instance (g : Graph) : Decidable (EdgesAgree g) := by
  unfold EdgesAgree; exact inferInstance

/-- What the members and entries of a finished cycle have to do with the graph. -/
structure CycleSem (g : Graph) (m : DFSMap) (cyc : GenericCycle) : Prop where
  predClosed : ∀ b ∈ cyc.Blocks, ∀ p ∈ predecessors g b,
    Anc m (headerOf cyc) p → p ∈ cyc.Blocks
  entryIff : ∀ b ∈ cyc.Blocks,
    (b ∈ cyc.Entries ↔ b = headerOf cyc ∨ hasOutside g m (headerOf cyc) b = true)
  path : PredsAreEdges g → ∀ b ∈ cyc.Blocks,
    Relation.ReflTransGen (StepIn g m (headerOf cyc)) b (headerOf cyc)

/-- What the members and entries of the cycle under construction have to do with the
graph, given the worklist `WL`. -/
structure DrainSem (g : Graph) (m : DFSMap) (cyc : GenericCycle) (WL : List BlockT) :
    Prop where
  predClosed : ∀ b ∈ cyc.Blocks, ∀ p ∈ predecessors g b,
    Anc m (headerOf cyc) p → p ∈ cyc.Blocks ∨ p ∈ WL
  entryIff : ∀ b ∈ cyc.Blocks,
    (b ∈ cyc.Entries ↔ b = headerOf cyc ∨ hasOutside g m (headerOf cyc) b = true)
  path : PredsAreEdges g → ∀ b ∈ cyc.Blocks,
    Relation.ReflTransGen (StepIn g m (headerOf cyc)) b (headerOf cyc)
  feeds : ∀ w ∈ WL, ∃ b ∈ cyc.Blocks, w ∈ predecessors g b

/-- Every cycle of the arena satisfies `CycleSem`. -/
def SemForest (g : Graph) (m : DFSMap) (cs : List GenericCycle) : Prop :=
  ∀ c, c < cs.length → CycleSem g m (cycAt cs c)

/-! ### The graphs of the scenarios -/

/-- The single reducible loop: blocks Entry = 0, A = 1, B = 2, C = 3 with the edges
Entry → A, A → B, B → A and A → C; `sA` lists the successors of A and `pA` its
predecessors. -/
def singleLoop (sA pA : List BlockT) : Graph :=
  { entry := 0, succs := [[1], sA, [1], []], preds := [[], pA, [1], [1]] }

/-- The irreducible loop: blocks Entry = 0, P = 1, Q = 2 with the edges Entry → P,
Entry → Q, P → Q and Q → P; `sE` lists the successors of Entry, `pP` the predecessors of P
and `pQ` those of Q. -/
def irreducibleLoop (sE pP pQ : List BlockT) : Graph :=
  { entry := 0, succs := [sE, [2], [1]], preds := [[], pP, pQ] }

/-- The nested loops: blocks H = 0, A = 1, B = 2, Exit = 3 with the edges H → A, A → A,
A → B, B → H and B → Exit; `sA` and `sB` list the successors of A and B and `pA` the
predecessors of A. -/
def nestedLoops (sA sB pA : List BlockT) : Graph :=
  { entry := 0, succs := [[1], sA, sB, []], preds := [[2], pA, [1], [2]] }

/-- The graph with the single edge 0 → 1. -/
def oneEdge : Graph := { entry := 0, succs := [[1], []], preds := [[], [0]] }

/-- The graph with the edges 0 → 1 and 1 → 1. -/
def selfLoop : Graph := { entry := 0, succs := [[1], [1]], preds := [[], [0, 1]] }

/-! ### The DFS spanning tree -/

/-- A record kept next to the state of `Compute::dfs`: for every entry of the traversal
stack the block whose successor expansion pushed it (none for the entry pushed before
the loop), and for every discovered block the block that pushed the stack entry at which it
was discovered. -/
structure DfsTrace where
  Pushers : List (Option BlockT)
  TreeParent : BlockT → Option BlockT

/-- What one execution of the body of the loop of `Compute::dfs` in the state `s` does to
the record: opening the block on top of the stack notes who pushed that entry and pushes
the block itself once for every successor; any other iteration pops one entry. -/
def traceStep (g : Graph) (s : DfsState) (t : DfsTrace) : DfsTrace :=
  match s.TraverseStack, t.Pushers with
  | Block :: _, q :: qs =>
    match s.BlockDFSInfo Block with
    | none =>
      { Pushers := (successors g Block).reverse.map (fun _ => some Block) ++ t.Pushers
        TreeParent := fun x => if x = Block then q else t.TreeParent x }
    | some _ => { t with Pushers := qs }
  | _, _ => t

/-- The loop of `Compute::dfs` (see `dfsLoop`) with the record kept alongside. -/
def dfsLoopT (g : Graph) : Nat → DfsState → DfsTrace → Outcome (DfsState × DfsTrace)
  | 0, _, _ => .starved
  | fuel + 1, s, t =>
    (dfsStep g s).bind fun s1 =>
      match s1.TraverseStack with
      | [] => if s1.DFSTreeStack.isEmpty then .done (s1, traceStep g s t) else .abort
      | _ :: _ => dfsLoopT g fuel s1 (traceStep g s t)

/-- The method `Compute::dfs(EntryBlock)` (see `dfs`) with the record kept alongside. -/
def dfsTraced (g : Graph) (EntryBlock : BlockT) : Outcome (DfsState × DfsTrace) :=
  dfsLoopT g (dfsFuel g) (dfsInit EntryBlock) { Pushers := [none], TreeParent := fun _ => none }

/-- The block `a` is the tree parent of the block `b`. -/
def TreeEdge (t : DfsTrace) (a b : BlockT) : Prop := t.TreeParent b = some a

/-- The pushers of the entries of the traversal stack described by a list of frames: the
pending successors of a frame were pushed by its block, the block itself by its parent. -/
def flatP (par : BlockT → Option BlockT) : List Frame → List (Option BlockT)
  | [] => []
  | f :: rest => f.pending.map (fun _ => some f.node) ++ par f.node :: flatP par rest

/-- The block `p` is open or closed around the discovery of `b`, has `b` among its
successors and is the innermost such block. -/
def TreeParentOf (g : Graph) (m : DFSMap) (p b : BlockT) : Prop :=
  Visited m p ∧ b ∈ successors g p ∧ startOf m p < startOf m b ∧
    (endOf m p ≠ 0 → startOf m b ≤ endOf m p) ∧
    ∀ a, Visited m a → startOf m a < startOf m b →
      startOf m a ≤ startOf m p ∨ (endOf m a ≠ 0 ∧ endOf m a < startOf m b)

/-- The facts that tie the record to the tables and stacks of `Compute::dfs`. -/
structure TraceInv (g : Graph) (entry : BlockT) (s : DfsState) (frames : List Frame)
    (t : DfsTrace) : Prop where
  pushers : t.Pushers = flatP t.TreeParent frames
  entryRoot : t.TreeParent entry = none
  hasParent : ∀ b, Visited s.BlockDFSInfo b → b ≠ entry → ∃ p, t.TreeParent b = some p
  parentOk : ∀ b p, t.TreeParent b = some p →
    Visited s.BlockDFSInfo b ∧ TreeParentOf g s.BlockDFSInfo p b

/-! ### The effect of `moveToNewParent` -/

/-- The container that holds the cycle `Child` according to its parent link: the children
of its parent, or the top-level list when it has no parent. -/
def containerOf (info : GenericCycleInfo) (Child : Nat) : List Nat :=
  match (cycAt info.Cycles Child).ParentCycle with
  | none => info.TopLevelCycles
  | some p => (cycAt info.Cycles p).Children

/-- The forest `info1` is the forest `info` after the cycle `Child` has been moved from the
container `old` (as it is in `info1`) to the end of the children of `NewParent`; nothing else
has changed. -/
structure MovedTo (info info1 : GenericCycleInfo) (NewParent Child : Nat) (old : List Nat) :
    Prop where
  blockMap : info1.BlockMap = info.BlockMap
  length : info1.Cycles.length = info.Cycles.length
  parent : (cycAt info1.Cycles Child).ParentCycle = some NewParent
  appended : (cycAt info1.Cycles NewParent).Children
    = (cycAt info.Cycles NewParent).Children ++ [Child]
  removed : (Child :: old).Perm (containerOf info Child)
  topLevel : (cycAt info.Cycles Child).ParentCycle ≠ none →
    info1.TopLevelCycles = info.TopLevelCycles
  fields : ∀ i, (cycAt info1.Cycles i).Blocks = (cycAt info.Cycles i).Blocks ∧
    (cycAt info1.Cycles i).Entries = (cycAt info.Cycles i).Entries ∧
    (cycAt info1.Cycles i).Depth = (cycAt info.Cycles i).Depth
  parents : ∀ i, i ≠ Child →
    (cycAt info1.Cycles i).ParentCycle = (cycAt info.Cycles i).ParentCycle
  children : ∀ i, i ≠ NewParent → (cycAt info.Cycles Child).ParentCycle ≠ some i →
    (cycAt info1.Cycles i).Children = (cycAt info.Cycles i).Children

/-! ### What `validateTree` checks -/

/-- The checks of `validateTree` that concern one cycle of the forest hold for the cycle
`cyc` at the index `c`. -/
structure CycleChecked (info : GenericCycleInfo) (c : Nat) (cyc : GenericCycle) : Prop where
  mapped : ∀ b ∈ cyc.Blocks, ∃ m, mapFind info.BlockMap b = some m ∧
    contains info.Cycles c (some m) = .done true
  blocksNodup : cyc.Blocks.Nodup
  entriesNe : cyc.Entries ≠ []
  entriesNodup : cyc.Entries.Nodup
  entriesSub : ∀ e ∈ cyc.Entries, e ∈ cyc.Blocks
  childDeeper : ∀ ch ∈ cyc.Children, ∃ chc, info.Cycles[ch]? = some chc ∧ cyc.Depth < chc.Depth
  siblings : ∀ ch1 ∈ cyc.Children, ∀ ch2 ∈ cyc.Children, ∀ c1 c2 : GenericCycle,
    info.Cycles[ch1]? = some c1 → info.Cycles[ch2]? = some c2 → c1.Depth = c2.Depth

/-- A defect of the cycle `cyc` of the forest: a block listed twice, no entry, an entry
listed twice, an entry that is not a member, a child that is not deeper, two children of
different depths, or a member without an entry in the block map. -/
def CycleDefect (info : GenericCycleInfo) (cyc : GenericCycle) : Prop :=
  ¬ cyc.Blocks.Nodup ∨ cyc.Entries = [] ∨ ¬ cyc.Entries.Nodup ∨
    (∃ e ∈ cyc.Entries, e ∉ cyc.Blocks) ∨
    (∃ ch ∈ cyc.Children, ∃ chc, info.Cycles[ch]? = some chc ∧ ¬ cyc.Depth < chc.Depth) ∨
    (∃ ch1 ∈ cyc.Children, ∃ ch2 ∈ cyc.Children, ∃ c1 c2 : GenericCycle,
      info.Cycles[ch1]? = some c1 ∧ info.Cycles[ch2]? = some c2 ∧ c1.Depth ≠ c2.Depth) ∨
    (∃ b ∈ cyc.Blocks, mapFind info.BlockMap b = none)

/-- A defect of the block map: a mapped block that is not a member of its mapped cycle or
of one of the ancestors of that cycle. -/
def MapDefect (info : GenericCycleInfo) : Prop :=
  ∃ e ∈ info.BlockMap, ∃ (a : Nat) (cyc : GenericCycle),
    Relation.ReflTransGen (ParentLink info.Cycles) e.2 a ∧ info.Cycles[a]? = some cyc ∧
      e.1 ∉ cyc.Blocks

/-! ### Forests and graphs used as explicit inputs -/

/-- The graph with the edges 0 → 1, 0 → 2, 0 → 3, 1 → 1, 1 → 0, 2 → 2 and 3 → 3. -/
def fanLoops : Graph :=
  { entry := 0, succs := [[1, 2, 3], [1, 0], [2], [3]], preds := [[1], [0, 1], [0, 2], [0, 3]] }

/-- A forest of one top-level cycle at depth 2 with one child at depth 5. -/
def deepForest : GenericCycleInfo :=
  { Cycles :=
      [ { ParentCycle := none, Entries := [0], Children := [1], Blocks := [0, 1], Depth := 2 },
        { ParentCycle := some 0, Entries := [1], Children := [], Blocks := [1], Depth := 5 } ]
    BlockMap := [(0, 0), (1, 1)]
    TopLevelCycles := [0] }

/-- A forest of two top-level cycles: cycle 0 at depth 1 lists the block 0 twice, and the
block 0 is mapped to cycle 1, which is at depth 5. -/
def brokenForest : GenericCycleInfo :=
  { Cycles :=
      [ { ParentCycle := none, Entries := [0], Children := [], Blocks := [0, 0], Depth := 1 },
        { ParentCycle := none, Entries := [0], Children := [], Blocks := [0], Depth := 5 } ]
    BlockMap := [(0, 1)]
    TopLevelCycles := [0, 1] }

/-- A forest of one top-level cycle (index 2) with the two children 0 and 1. -/
def siblings : GenericCycleInfo :=
  { Cycles :=
      [ { ParentCycle := some 2, Entries := [0], Children := [], Blocks := [0], Depth := 2 },
        { ParentCycle := some 2, Entries := [1], Children := [], Blocks := [1], Depth := 2 },
        { ParentCycle := none, Entries := [2], Children := [0, 1], Blocks := [2, 0, 1],
          Depth := 1 } ]
    BlockMap := [(0, 0), (1, 1), (2, 2)]
    TopLevelCycles := [2] }

/-- A forest of one top-level cycle (index 1) with one child (index 0) that lists the
block 0 twice. -/
def flawedChild : GenericCycleInfo :=
  { Cycles :=
      [ { ParentCycle := some 1, Entries := [0], Children := [], Blocks := [0, 0], Depth := 2 },
        { ParentCycle := none, Entries := [1], Children := [0], Blocks := [1, 0], Depth := 1 } ]
    BlockMap := [(0, 0), (1, 1)]
    TopLevelCycles := [1] }

/-! ### Sound links -/

/-- The links of the forest are sound: the entries of the top-level list, of the children
lists and of the block map name cycle objects, the children lists form a forest (some
ranking of the cycle objects, bounded by their number, decreases from every cycle to its
children; in the program the children lists own the cycle objects), and the depth of every
cycle is the length of its parent chain. -/
structure LinksSound (info : GenericCycleInfo) : Prop where
  topValid : ∀ t ∈ info.TopLevelCycles, t < info.Cycles.length
  mapValid : ∀ e ∈ info.BlockMap, e.2 < info.Cycles.length
  childValid : ∀ (p : Nat) (cyc : GenericCycle), info.Cycles[p]? = some cyc →
    ∀ ch ∈ cyc.Children, ch < info.Cycles.length
  forest : ∃ rank : Nat → Nat, (∀ c, c < info.Cycles.length → rank c ≤ info.Cycles.length) ∧
    ∀ (p : Nat) (cyc : GenericCycle), info.Cycles[p]? = some cyc →
      ∀ ch ∈ cyc.Children, rank ch < rank p
  depth : DepthIsChainLength info.Cycles

/-! ## `inline_bcmp` (libc/src/string/memory_utils/bcmp_implementations.h) -/

/-- A buffer (`const char *`): the byte at every offset. -/
abbrev Buffer := Nat → Nat

/-- Modelled from the spec: the fixed-size elements `_1`, `_2`, `_3` of elements.h, which is
not part of the sources: `_N` reads the first `n` bytes. -/
def fixedOffsets (n : Nat) : List Nat := List.range n

/-- Modelled from the spec: the element `HeadTail<_N>` of elements.h, which is not part of
the sources: it reads the first `n` bytes and the last `n` bytes of the `size` bytes. -/
def headTailOffsets (n size : Nat) : List Nat :=
  List.range n ++ (List.range n).map (fun i => size - n + i)

/-- Modelled from the spec: the element `Align<_32>::Then<Loop<_32>>` of elements.h, which is
not part of the sources: it reads the `size` bytes. -/
def loopOffsets (size : Nat) : List Nat := List.range size

/-- The call `Element::Equals(lhs, rhs)` for an element that reads the listed offsets. -/
def equalsAt (offsets : List Nat) (lhs rhs : Buffer) : Bool :=
  offsets.all (fun i => lhs i == rhs i)

/-- The function template `Differs<Element>`: `!Element::Equals(lhs, rhs)`. -/
def Differs (offsets : List Nat) (lhs rhs : Buffer) : Bool := !equalsAt offsets lhs rhs

/-- The conversion of the `bool` result of `Differs` to the `int` that `inline_bcmp`
returns. -/
def boolToInt (b : Bool) : Int := if b then 1 else 0

/-- The function `inline_bcmp(lhs, rhs, count)`. -/
def inline_bcmp (lhs rhs : Buffer) (count : Nat) : Int :=
  if count = 0 then 0
  else if count = 1 then boolToInt (Differs (fixedOffsets 1) lhs rhs)
  else if count = 2 then boolToInt (Differs (fixedOffsets 2) lhs rhs)
  else if count = 3 then boolToInt (Differs (fixedOffsets 3) lhs rhs)
  else if count ≤ 8 then boolToInt (Differs (headTailOffsets 4 count) lhs rhs)
  else if count ≤ 16 then boolToInt (Differs (headTailOffsets 8 count) lhs rhs)
  else if count ≤ 32 then boolToInt (Differs (headTailOffsets 16 count) lhs rhs)
  else if count ≤ 64 then boolToInt (Differs (headTailOffsets 32 count) lhs rhs)
  else if count ≤ 128 then boolToInt (Differs (headTailOffsets 64 count) lhs rhs)
  else boolToInt (Differs (loopOffsets count) lhs rhs)

/-- The block size of the head-and-tail comparison that `inline_bcmp` uses for a count from
4 to 128. -/
def headTailBlock (count : Nat) : Nat :=
  if count ≤ 8 then 4
  else if count ≤ 16 then 8
  else if count ≤ 32 then 16
  else if count ≤ 64 then 32
  else 64

/-! ### Strongly connected components -/

/-- An edge of the graph between two members of the cycle `cyc`. -/
def MemberStep (g : Graph) (cyc : GenericCycle) (x y : BlockT) : Prop :=
  y ∈ successors g x ∧ x ∈ cyc.Blocks ∧ y ∈ cyc.Blocks

/-- The blocks `a` and `b` lie in one strongly connected component. -/
def SameSCC (g : Graph) (a b : BlockT) : Prop := Reachable g a b ∧ Reachable g b a

/-- The block `n` lies on a closed walk of at least one edge. -/
def OnCycle (g : Graph) (n : BlockT) : Prop := ∃ y, y ∈ successors g n ∧ Reachable g y n

/-- The strongly connected component of `a` has at least two blocks, or `a` has a
self-edge. -/
def NonTrivial (g : Graph) (a : BlockT) : Prop :=
  (∃ b, b ≠ a ∧ SameSCC g a b) ∨ a ∈ successors g a

/-! ### The work of the backward scan -/

/-- The number of entries of the predecessor lists of the listed blocks. -/
def predSum (g : Graph) (l : List BlockT) : Nat :=
  (l.map (fun b => (predecessors g b).length)).sum

/-- The predecessor scan (see `scanPreds`) with a counter kept alongside: every execution
of the body of `for (BlockT *Pred : predecessors(Block))` adds one. -/
def scanPredsC (dfsInfo : DFSMap) (CandidateInfo : DFSInfo) :
    List BlockT → (List BlockT × Bool) × Nat → (List BlockT × Bool) × Nat
  | [], acc => acc
  | Pred :: rest, ((Worklist, IsEntry), n) =>
    if CandidateInfo.isAncestorOf (dfsInfo.lookup Pred) then
      scanPredsC dfsInfo CandidateInfo rest ((Pred :: Worklist, IsEntry), n + 1)
    else
      scanPredsC dfsInfo CandidateInfo rest ((Worklist, true), n + 1)

/-- The lambda `ProcessPredecessors` (see `ProcessPredecessors`) with the counter. -/
def ProcessPredecessorsC (g : Graph) (dfsInfo : DFSMap) (CandidateInfo : DFSInfo)
    (NewCycle : Nat) (Block : BlockT) (st : (GenericCycleInfo × List BlockT) × Nat) :
    Outcome ((GenericCycleInfo × List BlockT) × Nat) :=
  let r := scanPredsC dfsInfo CandidateInfo (predecessors g Block) ((st.1.2, false), st.2)
  if r.1.2 then
    match st.1.1.Cycles[NewCycle]? with
    | none => .abort
    | some cyc =>
      if cyc.Entries.contains Block then .abort
      else
        .done
          (({ st.1.1 with
              Cycles := modifyCycle st.1.1.Cycles NewCycle
                (fun c => { c with Entries := c.Entries ++ [Block] }) }, r.1.1), r.2)
  else .done ((st.1.1, r.1.1), r.2)

/-- The loop over the entries of an absorbed cycle (see `processEntries`) with the
counter. -/
def processEntriesC (g : Graph) (dfsInfo : DFSMap) (CandidateInfo : DFSInfo) (NewCycle : Nat) :
    List BlockT → (GenericCycleInfo × List BlockT) × Nat →
      Outcome ((GenericCycleInfo × List BlockT) × Nat)
  | [], st => .done st
  | ChildEntry :: rest, st =>
    (ProcessPredecessorsC g dfsInfo CandidateInfo NewCycle ChildEntry st).bind
      (processEntriesC g dfsInfo CandidateInfo NewCycle rest)

/-- One execution of the body of the worklist loop (see `drainStep`) with the counter. -/
def drainStepC (g : Graph) (dfsInfo : DFSMap) (HeaderCandidate : BlockT)
    (CandidateInfo : DFSInfo) (NewCycle : Nat) (st : (GenericCycleInfo × List BlockT) × Nat) :
    Outcome ((GenericCycleInfo × List BlockT) × Nat) :=
  match st.1.2 with
  | [] => .abort
  | Block :: Worklist =>
    if Block = HeaderCandidate then .done ((st.1.1, Worklist), st.2)
    else
      (getTopLevelParentCycle st.1.1 Block).bind fun found =>
        match found with
        | some BlockParent =>
          if BlockParent ≠ NewCycle then
            (moveToNewParent st.1.1 NewCycle BlockParent).bind fun info1 =>
              match info1.Cycles[BlockParent]? with
              | none => .abort
              | some bp =>
                let info2 :=
                  { info1 with
                    Cycles := modifyCycle info1.Cycles NewCycle
                      (fun c => { c with Blocks := c.Blocks ++ bp.Blocks }) }
                processEntriesC g dfsInfo CandidateInfo NewCycle bp.Entries
                  ((info2, Worklist), st.2)
          else .done ((st.1.1, Worklist), st.2)
        | none =>
          match st.1.1.Cycles[NewCycle]? with
          | none => .abort
          | some cyc =>
            if cyc.Blocks.contains Block then .abort
            else
              let info1 :=
                { st.1.1 with
                  BlockMap := mapTryEmplace st.1.1.BlockMap Block NewCycle
                  Cycles := modifyCycle st.1.1.Cycles NewCycle
                    (fun c => { c with Blocks := c.Blocks ++ [Block] }) }
              ProcessPredecessorsC g dfsInfo CandidateInfo NewCycle Block
                ((info1, Worklist), st.2)

/-- The worklist loop (see `drainLoop`) with the counter. -/
def drainLoopC (g : Graph) (dfsInfo : DFSMap) (HeaderCandidate : BlockT)
    (CandidateInfo : DFSInfo) (NewCycle : Nat) :
    Nat → (GenericCycleInfo × List BlockT) × Nat → Outcome (GenericCycleInfo × Nat)
  | 0, _ => .starved
  | fuel + 1, st =>
    (drainStepC g dfsInfo HeaderCandidate CandidateInfo NewCycle st).bind fun st1 =>
      match st1.1.2 with
      | [] => .done (st1.1.1, st1.2)
      | _ :: _ => drainLoopC g dfsInfo HeaderCandidate CandidateInfo NewCycle fuel st1

/-- The body of the loop over the header candidates (see `processHeader`) with the counter:
the header test looks at every predecessor of the candidate. -/
def processHeaderC (g : Graph) (dfsInfo : DFSMap) (st : GenericCycleInfo × Nat)
    (HeaderCandidate : BlockT) : Outcome (GenericCycleInfo × Nat) :=
  let CandidateInfo := dfsInfo.lookup HeaderCandidate
  let r := scanPredsC dfsInfo CandidateInfo (predecessors g HeaderCandidate) (([], false), st.2)
  match r.1.1 with
  | [] => .done (st.1, r.2)
  | _ :: _ =>
    let NewCycle := st.1.Cycles.length
    let cyc : GenericCycle :=
      { GenericCycle.fresh with Entries := [HeaderCandidate], Blocks := [HeaderCandidate] }
    let info1 : GenericCycleInfo :=
      { st.1 with
        Cycles := st.1.Cycles ++ [cyc]
        BlockMap := mapTryEmplace st.1.BlockMap HeaderCandidate NewCycle }
    (drainLoopC g dfsInfo HeaderCandidate CandidateInfo NewCycle (drainFuel g)
        ((info1, r.1.1), r.2)).bind fun r2 =>
      .done ({ r2.1 with TopLevelCycles := r2.1.TopLevelCycles ++ [NewCycle] }, r2.2)

/-- The loop over the header candidates (see `headerLoop`) with the counter. -/
def headerLoopC (g : Graph) (dfsInfo : DFSMap) :
    List BlockT → GenericCycleInfo × Nat → Outcome (GenericCycleInfo × Nat)
  | [], st => .done st
  | HeaderCandidate :: rest, st =>
    (processHeaderC g dfsInfo st HeaderCandidate).bind (headerLoopC g dfsInfo rest)

/-- The method `Compute::run` (see `run`) with the counter, which starts at zero. -/
def runCounted (g : Graph) (info : GenericCycleInfo) : Outcome (GenericCycleInfo × Nat) :=
  (dfs g g.entry).bind fun d =>
    (headerLoopC g d.BlockDFSInfo d.BlockPreorder.reverse (info, 0)).bind fun r =>
      (fixTopLevel r.1.TopLevelCycles r.1.Cycles).bind fun cycles =>
        .done ({ r.1 with Cycles := cycles }, r.2)

/-- The method `GenericCycleInfo::compute` (see `compute`) with the counter: the number of
predecessors that the header tests and the calls of `ProcessPredecessors` have looked at. -/
def computeCounted (g : Graph) (info : GenericCycleInfo) : Outcome (GenericCycleInfo × Nat) :=
  (runCounted g info).bind fun r =>
    (validateTree r.1).bind fun ok => if ok then .done r else .abort

/-- The result of a counted fragment without its counter. -/
def dropCount {α : Type} (x : Outcome (α × Nat)) : Outcome α :=
  x.bind (fun r => .done r.1)

/-- The sum over the cycles of the arena of the predecessor entries of their blocks. -/
def blockWork (g : Graph) (cs : List GenericCycle) : Nat :=
  (cs.map (fun cyc => predSum g cyc.Blocks)).sum

/-- The sum over the cycles of the arena that have a parent of the predecessor entries of
their entry blocks. -/
def nestedWork (g : Graph) (cs : List GenericCycle) : Nat :=
  (cs.map (fun cyc => if cyc.ParentCycle.isSome then predSum g cyc.Entries else 0)).sum

/-- The greatest depth of a cycle of the arena, 0 when there is no cycle. -/
def maxDepth (cs : List GenericCycle) : Nat :=
  (cs.map (fun cyc => cyc.Depth)).foldr max 0

/-- The size of the part of the graph spanned by the listed blocks: the blocks and the
edges that leave them. -/
def graphSize (g : Graph) (nodes : List BlockT) : Nat :=
  nodes.length + (nodes.map (fun b => (successors g b).length)).sum

/-- Every block that has a row in one of the two tables is reached from the entry. -/
def AllReachable (g : Graph) : Prop :=
  ∀ b, b < g.succs.length ∨ b < g.preds.length → Reachable g g.entry b

/-- The successor rows of `nestFamily k`. -/
def nestSuccs (k : Nat) (b : Nat) : List Nat :=
  if b = 0 then [1, 2]
  else if b = 1 then List.range' (k + 2) k
  else if b < 2 * k + 1 then [b + 1]
  else if b = 2 * k + 1 then List.range' 2 k
  else []

/-- The predecessor rows of `nestFamily k`. -/
def nestPreds (k : Nat) (b : Nat) : List Nat :=
  if b = 0 then []
  else if b = 1 then [0]
  else if b = 2 then [0, 2 * k + 1]
  else if b ≤ k + 1 then [b - 1, 2 * k + 1]
  else if b ≤ 2 * k + 1 then [b - 1, 1]
  else []

/-- A nest of `k` cycles with `k` common entry blocks: the entry 0 branches to the block 1
and to the path 2 → 3 → … → 2k+1; the last block of the path has an edge back to each of
the first `k` blocks of the path, and the block 1 has an edge to each of the last `k`. -/
def nestFamily (k : Nat) : Graph :=
  { entry := 0
    succs := (List.range (2 * k + 2)).map (nestSuccs k)
    preds := (List.range (2 * k + 2)).map (nestPreds k) }

@[simp] theorem Outcome.bind_done {α β : Type} (a : α) (f : α → Outcome β) :
    (Outcome.done a).bind f = f a := rfl

@[simp] theorem Outcome.bind_abort {α β : Type} (f : α → Outcome β) :
    (Outcome.abort : Outcome α).bind f = .abort := rfl

@[simp] theorem Outcome.bind_starved {α β : Type} (f : α → Outcome β) :
    (Outcome.starved : Outcome α).bind f = .starved := rfl

theorem Outcome.bind_eq_done {α β : Type} {x : Outcome α} {f : α → Outcome β} {b : β} :
    x.bind f = .done b ↔ ∃ a, x = .done a ∧ f a = .done b := by
  cases x <;> simp

/-! ### The table `BlockDFSInfo` -/

@[simp] theorem DFSMap.insert_self (m : DFSMap) (b : BlockT) (d : DFSInfo) :
    (m.insert b d) b = some d := by simp [DFSMap.insert]

theorem DFSMap.insert_other (m : DFSMap) {b x : BlockT} (d : DFSInfo) (h : x ≠ b) :
    (m.insert b d) x = m x := by simp [DFSMap.insert, h]

theorem visited_insert (m : DFSMap) (b x : BlockT) (d : DFSInfo) :
    Visited (m.insert b d) x ↔ x = b ∨ Visited m x := by
  unfold Visited
  by_cases h : x = b
  · subst h; simp
  · simp [DFSMap.insert_other m d h, h]

@[simp] theorem startOf_insert_self (m : DFSMap) (b : BlockT) (d : DFSInfo) :
    startOf (m.insert b d) b = d.Start := by simp [startOf, DFSMap.lookup]

@[simp] theorem endOf_insert_self (m : DFSMap) (b : BlockT) (d : DFSInfo) :
    endOf (m.insert b d) b = d.End := by simp [endOf, DFSMap.lookup]

theorem startOf_insert_other (m : DFSMap) {b x : BlockT} (d : DFSInfo) (h : x ≠ b) :
    startOf (m.insert b d) x = startOf m x := by
  simp [startOf, DFSMap.lookup, DFSMap.insert_other m d h]

theorem endOf_insert_other (m : DFSMap) {b x : BlockT} (d : DFSInfo) (h : x ≠ b) :
    endOf (m.insert b d) x = endOf m x := by
  simp [endOf, DFSMap.lookup, DFSMap.insert_other m d h]

theorem startOf_of_some {m : DFSMap} {b : BlockT} {d : DFSInfo} (h : m b = some d) :
    startOf m b = d.Start := by simp [startOf, DFSMap.lookup, h]

theorem endOf_of_some {m : DFSMap} {b : BlockT} {d : DFSInfo} (h : m b = some d) :
    endOf m b = d.End := by simp [endOf, DFSMap.lookup, h]

theorem startOf_of_none {m : DFSMap} {b : BlockT} (h : m b = none) :
    startOf m b = 0 := by simp [startOf, DFSMap.lookup, h]

theorem endOf_of_none {m : DFSMap} {b : BlockT} (h : m b = none) :
    endOf m b = 0 := by simp [endOf, DFSMap.lookup, h]

theorem visited_of_some {m : DFSMap} {b : BlockT} {d : DFSInfo} (h : m b = some d) :
    Visited m b := by simp [Visited, h]

theorem isAncestorOf_lookup (m : DFSMap) (a b : BlockT) :
    (m.lookup a).isAncestorOf (m.lookup b) = true ↔
      startOf m a ≤ startOf m b ∧ endOf m b ≤ endOf m a := by
  simp [DFSInfo.isAncestorOf, startOf, endOf]

/-! ### Frames -/

theorem flat_length_pos {frames : List Frame} (h : frames ≠ []) : 0 < (flat frames).length := by
  cases frames with
  | nil => exact absurd rfl h
  | cons f rest => simp [flat]

theorem DfsTables.start_le {g : Graph} {entry : BlockT} {s : DfsState}
    (h : DfsTables g entry s) {b : BlockT} (hb : Visited s.BlockDFSInfo b) :
    1 ≤ startOf s.BlockDFSInfo b ∧ startOf s.BlockDFSInfo b ≤ s.Counter := by
  obtain ⟨h1, h2⟩ := h.stamp b hb
  refine ⟨h1, ?_⟩
  have := (List.getElem?_eq_some_iff.1 h2).1
  rw [h.counter]; omega

theorem DfsTables.start_inj {g : Graph} {entry : BlockT} {s : DfsState}
    (h : DfsTables g entry s) {a b : BlockT} (ha : Visited s.BlockDFSInfo a)
    (hb : Visited s.BlockDFSInfo b)
    (e : startOf s.BlockDFSInfo a = startOf s.BlockDFSInfo b) : a = b := by
  have h1 := (h.stamp a ha).2
  have h2 := (h.stamp b hb).2
  rw [e, h2] at h1
  exact (Option.some.inj h1).symm

/-- The top of the traversal stack is either the innermost open block, with nothing
pending, or the first pending successor of the innermost open block. -/
theorem DfsStacks.top_cases {g : Graph} {s : DfsState} {frames : List Frame}
    (h : DfsStacks g s frames) {b : BlockT} {tail : List BlockT}
    (hst : s.TraverseStack = b :: tail) :
    ∃ f rest, frames = f :: rest ∧
      ((f.pending = [] ∧ f.node = b ∧ tail = flat rest) ∨
       (∃ pend, f.pending = b :: pend ∧ tail = pend ++ f.node :: flat rest)) := by
  have hs := h.stack
  rw [hst] at hs
  cases frames with
  | nil => simp [flat] at hs
  | cons f rest =>
    refine ⟨f, rest, rfl, ?_⟩
    simp only [flat] at hs
    cases hp : f.pending with
    | nil =>
      rw [hp] at hs
      simp only [List.nil_append, List.cons.injEq] at hs
      exact Or.inl ⟨rfl, hs.1.symm, hs.2⟩
    | cons x pend =>
      rw [hp] at hs
      simp only [List.cons_append, List.cons.injEq] at hs
      obtain ⟨e1, e2⟩ := hs
      subst e1
      exact Or.inr ⟨pend, rfl, e2⟩

theorem visited_open {s : DfsState} {b x : BlockT} (g : Graph) :
    Visited (openState g s b).BlockDFSInfo x ↔ x = b ∨ Visited s.BlockDFSInfo x := by
  simp [openState, visited_insert]

theorem openState_tables {g : Graph} {entry : BlockT} {s : DfsState} {b : BlockT}
    {f : Frame} {rest : List Frame} {pend : List BlockT}
    (ht : DfsTables g entry s) (hs : DfsStacks g s (f :: rest))
    (hp : f.pending = b :: pend) (hb : s.BlockDFSInfo b = none) :
    DfsTables g entry (openState g s b) := by
  have hnv : ¬ Visited s.BlockDFSInfo b := by simp [Visited, hb]
  have hne : ∀ x, Visited s.BlockDFSInfo x → x ≠ b := by
    intro x hx e; subst e; exact hnv hx
  have hS : ∀ x, Visited s.BlockDFSInfo x →
      startOf (openState g s b).BlockDFSInfo x = startOf s.BlockDFSInfo x := by
    intro x hx; exact startOf_insert_other _ _ (hne x hx)
  have hE : ∀ x, Visited s.BlockDFSInfo x →
      endOf (openState g s b).BlockDFSInfo x = endOf s.BlockDFSInfo x := by
    intro x hx; exact endOf_insert_other _ _ (hne x hx)
  have hSb : startOf (openState g s b).BlockDFSInfo b = s.Counter + 1 := by
    simp [openState]
  have hEb : endOf (openState g s b).BlockDFSInfo b = 0 := by simp [openState]
  have hfv := (hs.isOpen f (List.mem_cons_self _ _))
  have hfle := ht.start_le hfv.1
  have hpos : 0 < s.BlockPreorder.length := by rw [← ht.counter]; omega
  constructor
  · simp [openState, ht.counter]
  · intro x hx
    rcases (visited_open g).1 hx with e | hx
    · subst e
      rw [hSb]
      refine ⟨by omega, ?_⟩
      simp [openState, ht.counter]
    · rw [hS x hx]
      obtain ⟨h1, h2⟩ := ht.stamp x hx
      refine ⟨h1, ?_⟩
      have hlt := (List.getElem?_eq_some_iff.1 h2).1
      show (s.BlockPreorder ++ [b])[_]? = _
      rw [List.getElem?_append_left hlt]; exact h2
  · intro i x hx
    change (s.BlockPreorder ++ [b])[i]? = some x at hx
    by_cases hi : i < s.BlockPreorder.length
    · rw [List.getElem?_append_left hi] at hx
      obtain ⟨h1, h2⟩ := ht.listed i x hx
      exact ⟨(visited_open g).2 (Or.inr h1), by rw [hS x h1]; exact h2⟩
    · rw [List.getElem?_append_right (by omega)] at hx
      have hi0 : i - s.BlockPreorder.length = 0 := by
        by_contra hne0
        have : ([b] : List BlockT)[i - s.BlockPreorder.length]? = none := by
          apply List.getElem?_eq_none; simp; omega
        rw [this] at hx; cases hx
      rw [hi0] at hx
      simp at hx
      subst hx
      refine ⟨(visited_open g).2 (Or.inl rfl), ?_⟩
      rw [hSb, ht.counter]; omega
  · intro x hx
    change (s.BlockPreorder ++ [b])[0]? = some x at hx
    rw [List.getElem?_append_left hpos] at hx
    exact ht.first x hx
  · intro x hx hend
    rcases (visited_open g).1 hx with e | hx
    · subst e; rw [hEb] at hend; exact absurd rfl hend
    · rw [hS x hx, hE x hx]
      rw [hE x hx] at hend
      have := ht.closed x hx hend
      exact ⟨this.1, by show _ ≤ s.Counter + 1; omega⟩
  · intro a x ha hx hend hlt hle
    rcases (visited_open g).1 ha with e | ha1
    · subst e; rw [hEb] at hend; exact absurd rfl hend
    · rw [hE a ha1] at hend hle ⊢
      rw [hS a ha1] at hlt
      rcases (visited_open g).1 hx with e | hx1
      · rw [e, hSb] at hle
        have := (ht.closed a ha1 hend).2
        omega
      · rw [hS x hx1] at hlt hle
        rw [hE x hx1]
        exact ht.laminar a x ha1 hx1 hend hlt hle
  · intro a ha hend x hxs
    rcases (visited_open g).1 ha with e | ha
    · subst e; rw [hEb] at hend; exact absurd rfl hend
    · rw [hE a ha] at hend ⊢
      obtain ⟨h1, h2⟩ := ht.succClosed a ha hend x hxs
      exact ⟨(visited_open g).2 (Or.inr h1), by rw [hS x h1]; exact h2⟩
  · intro x hx hxe
    rcases (visited_open g).1 hx with e | hx
    · subst e
      refine ⟨f.node, (visited_open g).2 (Or.inr hfv.1), ?_, ?_, ?_, ?_⟩
      · exact hs.pendingSucc f (List.mem_cons_self _ _) x (by rw [hp]; exact List.mem_cons_self _ _)
      · rw [hS _ hfv.1, hSb]; omega
      · intro h0; rw [hE _ hfv.1, hfv.2] at h0; exact absurd rfl h0
      · intro a ha hlt
        rcases (visited_open g).1 ha with e | ha
        · subst e; omega
        · rw [hS a ha, hS _ hfv.1, hE a ha, hSb]
          by_cases h0 : endOf s.BlockDFSInfo a = 0
          · left
            obtain ⟨f0, hf0, e0⟩ := hs.allOpen a ha h0
            rcases List.mem_cons.1 hf0 with e1 | hmem
            · subst e1; rw [e0]
            · have := (List.pairwise_cons.1 hs.ordered).1 f0 hmem
              rw [e0] at this; omega
          · right
            exact ⟨h0, by have := (ht.closed a ha h0).2; omega⟩
    · obtain ⟨p, hpv, hps, hplt, hpend, hall⟩ := ht.parent x hx hxe
      refine ⟨p, (visited_open g).2 (Or.inr hpv), hps, ?_, ?_, ?_⟩
      · rw [hS p hpv, hS x hx]; exact hplt
      · rw [hE p hpv, hS x hx]; exact hpend
      · intro a ha hlt
        rcases (visited_open g).1 ha with e | ha1
        · rw [e, hSb, hS x hx] at hlt
          have := (ht.start_le hx).2
          omega
        · rw [hS a ha1, hS x hx] at hlt
          rw [hS a ha1, hS p hpv, hE a ha1, hS x hx]
          exact hall a ha1 hlt
  · exact (visited_open g).2 (Or.inr ht.entryVisited)

theorem openState_stacks {g : Graph} {entry : BlockT} {s : DfsState} {b : BlockT}
    {f : Frame} {rest : List Frame} {pend : List BlockT}
    (ht : DfsTables g entry s) (hs : DfsStacks g s (f :: rest))
    (hp : f.pending = b :: pend) (hb : s.BlockDFSInfo b = none) :
    DfsStacks g (openState g s b)
      (⟨b, (successors g b).reverse⟩ :: ⟨f.node, pend⟩ :: rest) := by
  have hnv : ¬ Visited s.BlockDFSInfo b := by simp [Visited, hb]
  have hne : ∀ x, Visited s.BlockDFSInfo x → x ≠ b := by
    intro x hx e; subst e; exact hnv hx
  have hS : ∀ x, Visited s.BlockDFSInfo x →
      startOf (openState g s b).BlockDFSInfo x = startOf s.BlockDFSInfo x := by
    intro x hx; exact startOf_insert_other _ _ (hne x hx)
  have hE : ∀ x, Visited s.BlockDFSInfo x →
      endOf (openState g s b).BlockDFSInfo x = endOf s.BlockDFSInfo x := by
    intro x hx; exact endOf_insert_other _ _ (hne x hx)
  have hSb : startOf (openState g s b).BlockDFSInfo b = s.Counter + 1 := by
    simp [openState]
  have hEb : endOf (openState g s b).BlockDFSInfo b = 0 := by simp [openState]
  have hopen : ∀ f0 ∈ f :: rest, Visited s.BlockDFSInfo f0.node := fun f0 h0 =>
    (hs.isOpen f0 h0).1
  constructor
  · show (successors g b).reverse ++ s.TraverseStack = _
    rw [hs.stack]; simp [flat, hp]
  · show s.TraverseStack.length :: s.DFSTreeStack = _
    rw [hs.stack, hs.tree]; simp [flat, positions, hp]
  · intro f0 hf0
    rcases List.mem_cons.1 hf0 with e | hf0
    · subst e; exact ⟨(visited_open g).2 (Or.inl rfl), hEb⟩
    · have hold : Visited s.BlockDFSInfo f0.node ∧ endOf s.BlockDFSInfo f0.node = 0 := by
        rcases List.mem_cons.1 hf0 with e | hf0
        · subst e; exact hs.isOpen f (List.mem_cons_self _ _)
        · exact hs.isOpen f0 (List.mem_cons_of_mem _ hf0)
      exact ⟨(visited_open g).2 (Or.inr hold.1), by rw [hE _ hold.1]; exact hold.2⟩
  · intro x hx hend
    rcases (visited_open g).1 hx with e | hx
    · subst e; exact ⟨_, List.mem_cons_self _ _, rfl⟩
    · rw [hE x hx] at hend
      obtain ⟨f0, hf0, e0⟩ := hs.allOpen x hx hend
      rcases List.mem_cons.1 hf0 with e | hf0
      · subst e
        exact ⟨⟨f0.node, pend⟩, List.mem_cons_of_mem _ (List.mem_cons_self _ _), e0⟩
      · exact ⟨f0, List.mem_cons_of_mem _ (List.mem_cons_of_mem _ hf0), e0⟩
  · intro f0 hf0 x hx
    rcases List.mem_cons.1 hf0 with e | hf0
    · subst e; exact List.mem_reverse.1 hx
    · rcases List.mem_cons.1 hf0 with e | hf0
      · subst e
        exact hs.pendingSucc f (List.mem_cons_self _ _) x
          (by rw [hp]; exact List.mem_cons_of_mem _ hx)
      · exact hs.pendingSucc f0 (List.mem_cons_of_mem _ hf0) x hx
  · intro f0 hf0 x hx
    rcases List.mem_cons.1 hf0 with e | hf0
    · subst e; exact Or.inl (List.mem_reverse.2 hx)
    · rcases List.mem_cons.1 hf0 with e | hf0
      · subst e
        rcases hs.cover f (List.mem_cons_self _ _) x hx with h | h
        · rw [hp] at h
          rcases List.mem_cons.1 h with e | h
          · right; exact (visited_open g).2 (Or.inl e)
          · left; exact h
        · right; exact (visited_open g).2 (Or.inr h)
      · rcases hs.cover f0 (List.mem_cons_of_mem _ hf0) x hx with h | h
        · left; exact h
        · right; exact (visited_open g).2 (Or.inr h)
  · have hord := hs.ordered
    rw [List.pairwise_cons] at hord ⊢
    constructor
    · intro f0 hf0
      have hv : Visited s.BlockDFSInfo f0.node := by
        rcases List.mem_cons.1 hf0 with e | hf0
        · subst e; exact hopen f (List.mem_cons_self _ _)
        · exact hopen f0 (List.mem_cons_of_mem _ hf0)
      show startOf _ f0.node < startOf _ b
      rw [hS _ hv, hSb]
      have := (ht.start_le hv).2
      omega
    · rw [List.pairwise_cons]
      constructor
      · intro f0 hf0
        show startOf _ f0.node < startOf _ f.node
        rw [hS _ (hopen f0 (List.mem_cons_of_mem _ hf0)), hS _ (hopen f (List.mem_cons_self _ _))]
        exact hord.1 f0 hf0
      · refine List.Pairwise.imp_of_mem ?_ hord.2
        intro f1 f2 h1 h2 hlt
        rw [hS _ (hopen f1 (List.mem_cons_of_mem _ h1)), hS _ (hopen f2 (List.mem_cons_of_mem _ h2))]
        exact hlt

theorem closeState_tables {g : Graph} {entry : BlockT} {s : DfsState} {b : BlockT}
    {d : DFSInfo} {f : Frame} {rest : List Frame} (ts : List Nat) (st : List BlockT)
    (ht : DfsTables g entry s) (hs : DfsStacks g s (f :: rest))
    (hp : f.pending = []) (hn : f.node = b) (hb : s.BlockDFSInfo b = some d) :
    DfsTables g entry (closeState s b d ts st) := by
  have hbv : Visited s.BlockDFSInfo b := visited_of_some hb
  have hV : ∀ x, Visited (closeState s b d ts st).BlockDFSInfo x ↔ Visited s.BlockDFSInfo x := by
    intro x
    simp only [closeState, visited_insert]
    constructor
    · rintro (e | h)
      · rw [e]; exact hbv
      · exact h
    · intro h; exact Or.inr h
  have hS : ∀ x, startOf (closeState s b d ts st).BlockDFSInfo x = startOf s.BlockDFSInfo x := by
    intro x
    by_cases e : x = b
    · rw [e]; simp [closeState, startOf_of_some hb]
    · exact startOf_insert_other _ _ e
  have hEb : endOf (closeState s b d ts st).BlockDFSInfo b = s.Counter := by simp [closeState]
  have hE : ∀ x, x ≠ b →
      endOf (closeState s b d ts st).BlockDFSInfo x = endOf s.BlockDFSInfo x := by
    intro x e; exact endOf_insert_other _ _ e
  have hopen : endOf s.BlockDFSInfo b = 0 := by
    rw [← hn]; exact (hs.isOpen f (List.mem_cons_self _ _)).2
  have hble := ht.start_le hbv
  constructor
  · exact ht.counter
  · intro x hx
    rw [hS]; exact ht.stamp x ((hV x).1 hx)
  · intro i x hx
    obtain ⟨h1, h2⟩ := ht.listed i x hx
    exact ⟨(hV x).2 h1, by rw [hS]; exact h2⟩
  · exact ht.first
  · intro x hx hend
    rw [hS]
    by_cases e : x = b
    · rw [e, hEb]
      exact ⟨hble.2, le_refl _⟩
    · rw [hE x e] at hend ⊢
      exact ht.closed x ((hV x).1 hx) hend
  · intro a x ha hx hend hlt hle
    rw [hS, hS] at hlt
    rw [hS] at hle
    have ha1 := (hV a).1 ha
    have hx1 := (hV x).1 hx
    by_cases ea : a = b
    · rw [ea] at hlt
      rw [ea, hEb]
      have exb : x ≠ b := by
        intro e; rw [e] at hlt; omega
      rw [hE x exb]
      have hx0 : endOf s.BlockDFSInfo x ≠ 0 := by
        intro h0
        obtain ⟨f0, hf0, e0⟩ := hs.allOpen x hx1 h0
        rcases List.mem_cons.1 hf0 with e1 | hmem
        · rw [e1, hn] at e0; exact exb e0.symm
        · have := (List.pairwise_cons.1 hs.ordered).1 f0 hmem
          rw [e0, hn] at this; omega
      exact ⟨hx0, (ht.closed x hx1 hx0).2⟩
    · rw [hE a ea] at hend hle ⊢
      by_cases exb : x = b
      · rw [exb] at hlt hle
        have := (ht.laminar a b ha1 hbv hend hlt hle).1
        exact absurd hopen this
      · rw [hE x exb]
        exact ht.laminar a x ha1 hx1 hend hlt hle
  · intro a ha hend x hxs
    have ha1 := (hV a).1 ha
    rw [hS]
    by_cases ea : a = b
    · rw [ea, hEb]
      rw [ea, ← hn] at hxs
      rcases hs.cover f (List.mem_cons_self _ _) x hxs with h | h
      · rw [hp] at h; cases h
      · exact ⟨(hV x).2 h, (ht.start_le h).2⟩
    · rw [hE a ea] at hend ⊢
      obtain ⟨h1, h2⟩ := ht.succClosed a ha1 hend x hxs
      exact ⟨(hV x).2 h1, h2⟩
  · intro x hx hxe
    have hx1 := (hV x).1 hx
    obtain ⟨p, hpv, hps, hplt, hpend, hall⟩ := ht.parent x hx1 hxe
    refine ⟨p, (hV p).2 hpv, hps, by rw [hS, hS]; exact hplt, ?_, ?_⟩
    · intro h0
      rw [hS]
      by_cases ep : p = b
      · rw [ep, hEb]; exact (ht.start_le hx1).2
      · rw [hE p ep] at h0 ⊢; exact hpend h0
    · intro a ha hlt
      rw [hS, hS] at hlt
      rw [hS, hS, hS]
      rcases hall a ((hV a).1 ha) hlt with h | ⟨h1, h2⟩
      · exact Or.inl h
      · right
        have ea : a ≠ b := by
          intro e; rw [e] at h1; exact h1 hopen
        rw [hE a ea]; exact ⟨h1, h2⟩
  · exact (hV _).2 ht.entryVisited

theorem closeState_stacks {g : Graph} {entry : BlockT} {s : DfsState} {b : BlockT}
    {d : DFSInfo} {f : Frame} {rest : List Frame}
    (ht : DfsTables g entry s) (hs : DfsStacks g s (f :: rest))
    (hn : f.node = b) (hb : s.BlockDFSInfo b = some d) :
    DfsStacks g (closeState s b d (positions rest) (flat rest)) rest := by
  have hbv : Visited s.BlockDFSInfo b := visited_of_some hb
  have hV : ∀ x, Visited (closeState s b d (positions rest) (flat rest)).BlockDFSInfo x ↔
      Visited s.BlockDFSInfo x := by
    intro x
    simp only [closeState, visited_insert]
    constructor
    · rintro (e | h)
      · rw [e]; exact hbv
      · exact h
    · intro h; exact Or.inr h
  have hS : ∀ x, startOf (closeState s b d (positions rest) (flat rest)).BlockDFSInfo x
      = startOf s.BlockDFSInfo x := by
    intro x
    by_cases e : x = b
    · rw [e]; simp [closeState, startOf_of_some hb]
    · exact startOf_insert_other _ _ e
  have hEb : endOf (closeState s b d (positions rest) (flat rest)).BlockDFSInfo b
      = s.Counter := by simp [closeState]
  have hE : ∀ x, x ≠ b →
      endOf (closeState s b d (positions rest) (flat rest)).BlockDFSInfo x
        = endOf s.BlockDFSInfo x := by
    intro x e; exact endOf_insert_other _ _ e
  have hble := ht.start_le hbv
  have hrest : ∀ f0 ∈ rest, f0.node ≠ b := by
    intro f0 hf0 e
    have := (List.pairwise_cons.1 hs.ordered).1 f0 hf0
    rw [e, hn] at this; omega
  constructor
  · rfl
  · rfl
  · intro f0 hf0
    have := hs.isOpen f0 (List.mem_cons_of_mem _ hf0)
    exact ⟨(hV _).2 this.1, by rw [hE _ (hrest f0 hf0)]; exact this.2⟩
  · intro x hx hend
    have exb : x ≠ b := by
      intro e; rw [e, hEb] at hend; omega
    rw [hE x exb] at hend
    obtain ⟨f0, hf0, e0⟩ := hs.allOpen x ((hV x).1 hx) hend
    rcases List.mem_cons.1 hf0 with e1 | hmem
    · rw [e1, hn] at e0; exact absurd e0.symm exb
    · exact ⟨f0, hmem, e0⟩
  · intro f0 hf0
    exact hs.pendingSucc f0 (List.mem_cons_of_mem _ hf0)
  · intro f0 hf0 x hx
    rcases hs.cover f0 (List.mem_cons_of_mem _ hf0) x hx with h | h
    · exact Or.inl h
    · exact Or.inr ((hV x).2 h)
  · have := (List.pairwise_cons.1 hs.ordered).2
    refine List.Pairwise.imp ?_ this
    intro f1 f2 hlt
    rw [hS, hS]; exact hlt

theorem popState_tables {g : Graph} {entry : BlockT} {s : DfsState} (st : List BlockT)
    (ht : DfsTables g entry s) : DfsTables g entry (popState s st) :=
  ⟨ht.counter, ht.stamp, ht.listed, ht.first, ht.closed, ht.laminar, ht.succClosed, ht.parent,
    ht.entryVisited⟩

theorem popState_stacks {g : Graph} {s : DfsState} {b : BlockT}
    {f : Frame} {rest : List Frame} {pend : List BlockT}
    (hs : DfsStacks g s (f :: rest))
    (hp : f.pending = b :: pend) (hb : Visited s.BlockDFSInfo b) :
    DfsStacks g (popState s (pend ++ f.node :: flat rest)) (⟨f.node, pend⟩ :: rest) := by
  constructor
  · rfl
  · show s.DFSTreeStack = _
    rw [hs.tree]; rfl
  · intro f0 hf0
    rcases List.mem_cons.1 hf0 with e | hf0
    · subst e; exact hs.isOpen f (List.mem_cons_self _ _)
    · exact hs.isOpen f0 (List.mem_cons_of_mem _ hf0)
  · intro x hx hend
    obtain ⟨f0, hf0, e0⟩ := hs.allOpen x hx hend
    rcases List.mem_cons.1 hf0 with e | hf0
    · subst e
      exact ⟨⟨f0.node, pend⟩, List.mem_cons_self _ _, e0⟩
    · exact ⟨f0, List.mem_cons_of_mem _ hf0, e0⟩
  · intro f0 hf0 x hx
    rcases List.mem_cons.1 hf0 with e | hf0
    · subst e
      exact hs.pendingSucc f (List.mem_cons_self _ _) x
        (by rw [hp]; exact List.mem_cons_of_mem _ hx)
    · exact hs.pendingSucc f0 (List.mem_cons_of_mem _ hf0) x hx
  · intro f0 hf0 x hx
    rcases List.mem_cons.1 hf0 with e | hf0
    · subst e
      rcases hs.cover f (List.mem_cons_self _ _) x hx with h | h
      · rw [hp] at h
        rcases List.mem_cons.1 h with e | h
        · right; rw [e]; exact hb
        · left; exact h
      · right; exact h
    · exact hs.cover f0 (List.mem_cons_of_mem _ hf0) x hx
  · have hord := hs.ordered
    rw [List.pairwise_cons] at hord ⊢
    exact hord

theorem sum_filter_insert (m : DFSMap) (b : BlockT) (d : DFSInfo) (hb : m b = none)
    (f : BlockT → Nat) :
    ∀ l : List BlockT, l.Nodup →
      ((l.filter (fun x => ((m.insert b d) x).isNone)).map f).sum + (if b ∈ l then f b else 0)
        = ((l.filter (fun x => (m x).isNone)).map f).sum := by
  intro l
  induction l with
  | nil => intro _; simp
  | cons x l ih =>
    intro hnd
    rw [List.nodup_cons] at hnd
    have ih1 := ih hnd.2
    by_cases e : x = b
    · subst e
      have hnot : x ∉ l := hnd.1
      simp only [hnot, if_false, Nat.add_zero] at ih1
      simp [List.filter_cons, hb, ih1]
      omega
    · have e1 : b ≠ x := fun h => e h.symm
      have hx : (m.insert b d) x = m x := DFSMap.insert_other m d e
      simp only [List.filter_cons, hx, List.mem_cons, e1, false_or]
      cases hmx : (m x).isNone
      · simpa using ih1
      · simp only [if_true, List.map_cons, List.sum_cons]
        omega

theorem unopenedEdges_open (g : Graph) (m : DFSMap) (b : BlockT) (d : DFSInfo)
    (hb : m b = none) :
    unopenedEdges g (m.insert b d) + (successors g b).length = unopenedEdges g m := by
  unfold unopenedEdges
  have h := sum_filter_insert m b d hb (fun x => (successors g x).length)
    (List.range g.succs.length) (List.nodup_range _)
  by_cases hmem : b ∈ List.range g.succs.length
  · simpa [hmem] using h
  · have hlen : (successors g b).length = 0 := by
      have : g.succs.length ≤ b := by simpa using hmem
      simp [successors, List.getD_eq_getElem?_getD, List.getElem?_eq_none this]
    simp only [hmem, if_false, Nat.add_zero] at h
    rw [hlen, h]; rfl

theorem unopenedEdges_congr (g : Graph) (m m1 : DFSMap)
    (h : ∀ x, (m1 x).isNone = (m x).isNone) : unopenedEdges g m1 = unopenedEdges g m := by
  unfold unopenedEdges
  have : (fun b => (m1 b).isNone) = (fun b => (m b).isNone) := funext h
  rw [this]

theorem dfsMeasure_open (g : Graph) (s : DfsState) (b : BlockT) (tail : List BlockT)
    (hst : s.TraverseStack = b :: tail) (hb : s.BlockDFSInfo b = none) :
    dfsMeasure g (openState g s b) < dfsMeasure g s := by
  unfold dfsMeasure
  have h1 := unopenedEdges_open g s.BlockDFSInfo b ⟨s.Counter + 1, 0⟩ hb
  have hinfo : (openState g s b).BlockDFSInfo = s.BlockDFSInfo.insert b ⟨s.Counter + 1, 0⟩ := rfl
  have hstk : (openState g s b).TraverseStack = (successors g b).reverse ++ (b :: tail) := by
    simp [openState, hst]
  rw [hinfo, hstk, hst]
  have hmono : ∀ l : List BlockT,
      l.countP (fun x => ((s.BlockDFSInfo.insert b ⟨s.Counter + 1, 0⟩) x).isNone)
        ≤ l.countP (fun x => (s.BlockDFSInfo x).isNone) := by
    intro l
    apply List.countP_mono_left
    intro x _ hx
    by_cases e : x = b
    · subst e; simp at hx
    · rw [DFSMap.insert_other _ _ e] at hx; exact hx
  have h2 : ((successors g b).reverse).countP
      (fun x => ((s.BlockDFSInfo.insert b ⟨s.Counter + 1, 0⟩) x).isNone)
      ≤ (successors g b).length := by
    calc _ ≤ ((successors g b).reverse).length := List.countP_le_length _
      _ = _ := List.length_reverse _
  have h3 := hmono tail
  simp only [List.countP_append, List.countP_cons, DFSMap.insert_self, Option.isNone_some,
    hb, Option.isNone_none, List.length_append, List.length_reverse, List.length_cons]
  simp only [Bool.false_eq_true, if_false, if_true]
  omega

theorem dfsMeasure_pop (g : Graph) (s s1 : DfsState) (b : BlockT) (tail : List BlockT)
    (hst : s.TraverseStack = b :: tail) (hb : Visited s.BlockDFSInfo b)
    (hst1 : s1.TraverseStack = tail)
    (hinfo : ∀ x, (s1.BlockDFSInfo x).isNone = (s.BlockDFSInfo x).isNone) :
    dfsMeasure g s1 < dfsMeasure g s := by
  unfold dfsMeasure
  rw [unopenedEdges_congr g _ _ hinfo, hst, hst1]
  have : (fun b => (s1.BlockDFSInfo b).isNone) = (fun b => (s.BlockDFSInfo b).isNone) :=
    funext hinfo
  rw [this]
  have hb1 : (s.BlockDFSInfo b).isNone = false := by
    unfold Visited at hb
    cases h : s.BlockDFSInfo b with
    | none => exact absurd h hb
    | some _ => rfl
  simp only [List.countP_cons, hb1, List.length_cons]
  simp

/-- One iteration of the loop of `Compute::dfs` keeps the invariant and lowers the
measure. -/
theorem dfsStep_inv {g : Graph} {entry : BlockT} {s : DfsState} {frames : List Frame}
    (ht : DfsTables g entry s) (hs : DfsStacks g s frames) (hne : s.TraverseStack ≠ []) :
    ∃ s1 frames1, dfsStep g s = .done s1 ∧ DfsTables g entry s1 ∧ DfsStacks g s1 frames1 ∧
      dfsMeasure g s1 < dfsMeasure g s := by
  obtain ⟨b, tail, hst⟩ : ∃ b tail, s.TraverseStack = b :: tail := by
    cases h : s.TraverseStack with
    | nil => exact absurd h hne
    | cons b tail => exact ⟨b, tail, rfl⟩
  obtain ⟨f, rest, hfr, hcase⟩ := hs.top_cases hst
  subst hfr
  have hfopen := hs.isOpen f (List.mem_cons_self _ _)
  cases hb : s.BlockDFSInfo b with
  | none =>
    rcases hcase with ⟨_, hn, _⟩ | ⟨pend, hp, _⟩
    · rw [hn] at hfopen; exact absurd hb hfopen.1
    · refine ⟨openState g s b, _, ?_, openState_tables ht hs hp hb,
        openState_stacks ht hs hp hb, dfsMeasure_open g s b tail hst hb⟩
      simp only [dfsStep, hst, hb]
      simp [openState, hst]
  | some d =>
    have hbv : Visited s.BlockDFSInfo b := visited_of_some hb
    have htree : s.DFSTreeStack = ((flat rest).length + 1) :: positions rest := by
      rw [hs.tree]; rfl
    rcases hcase with ⟨hp, hn, htl⟩ | ⟨pend, hp, htl⟩
    · refine ⟨closeState s b d (positions rest) (flat rest), rest, ?_,
        closeState_tables _ _ ht hs hp hn hb, closeState_stacks ht hs hn hb, ?_⟩
      · simp only [dfsStep, hst, hb, htree]
        simp [closeState, htl]
      · apply dfsMeasure_pop g s _ b tail hst hbv
        · simp [closeState, htl]
        · intro x
          by_cases e : x = b
          · subst e; simp [closeState, hb]
          · simp [closeState, DFSMap.insert_other _ _ e]
    · refine ⟨popState s (pend ++ f.node :: flat rest), _, ?_,
        popState_tables _ ht, popState_stacks hs hp hbv, ?_⟩
      · simp only [dfsStep, hst, hb, htree]
        have hneq : ¬ ((flat rest).length = pend.length + ((flat rest).length + 1)) := by
          omega
        simp [hneq, popState, htl, htree]
      · apply dfsMeasure_pop g s _ b tail hst hbv
        · simp [popState, htl]
        · intro x; rfl

theorem dfsMeasure_pos (g : Graph) (s : DfsState) (h : s.TraverseStack ≠ []) :
    0 < dfsMeasure g s := by
  unfold dfsMeasure
  have : 0 < s.TraverseStack.length := List.length_pos.2 h
  omega

theorem dfsLoop_inv {g : Graph} {entry : BlockT} :
    ∀ (fuel : Nat) (s : DfsState) (frames : List Frame),
      DfsTables g entry s → DfsStacks g s frames → s.TraverseStack ≠ [] →
      dfsMeasure g s ≤ fuel →
      ∃ s1, dfsLoop g fuel s = .done s1 ∧ DfsTables g entry s1 ∧ DfsStacks g s1 [] := by
  intro fuel
  induction fuel with
  | zero =>
    intro s frames _ _ hne hm
    have := dfsMeasure_pos g s hne
    omega
  | succ fuel ih =>
    intro s frames ht hs hne hm
    obtain ⟨s1, frames1, hstep, ht1, hs1, hlt⟩ := dfsStep_inv ht hs hne
    cases hst : s1.TraverseStack with
    | nil =>
      have hf : frames1 = [] := by
        cases frames1 with
        | nil => rfl
        | cons f rest =>
          have := hs1.stack
          rw [hst] at this
          simp [flat] at this
      subst hf
      refine ⟨s1, ?_, ht1, hs1⟩
      have htree : s1.DFSTreeStack = [] := hs1.tree
      simp [dfsLoop, hstep, hst, htree]
    | cons x xs =>
      obtain ⟨s2, hloop, ht2, hs2⟩ :=
        ih s1 frames1 ht1 hs1 (by rw [hst]; simp) (by omega)
      refine ⟨s2, ?_, ht2, hs2⟩
      simp [dfsLoop, hstep, hst, hloop]

theorem unopenedEdges_init (g : Graph) : unopenedEdges g (fun _ => none) = edgeCount g := by
  simp [unopenedEdges, edgeCount]

theorem openInit_tables (g : Graph) (entry : BlockT) :
    DfsTables g entry (openState g (dfsInit entry) entry) := by
  have hV : ∀ x, Visited (openState g (dfsInit entry) entry).BlockDFSInfo x ↔ x = entry := by
    intro x
    rw [visited_open]
    simp [dfsInit, Visited]
  have hS : startOf (openState g (dfsInit entry) entry).BlockDFSInfo entry = 1 := by
    simp [openState, dfsInit]
  have hE : endOf (openState g (dfsInit entry) entry).BlockDFSInfo entry = 0 := by
    simp [openState, dfsInit]
  have hpre : (openState g (dfsInit entry) entry).BlockPreorder = [entry] := rfl
  constructor
  · rfl
  · intro x hx
    rw [(hV x).1 hx, hS, hpre]; simp
  · intro i x hx
    rw [hpre] at hx
    cases i with
    | zero =>
      simp at hx; subst hx
      exact ⟨(hV _).2 rfl, by rw [hS]⟩
    | succ i => simp at hx
  · intro x hx
    rw [hpre] at hx
    simp at hx; exact hx.symm
  · intro x hx hend
    rw [(hV x).1 hx, hE] at hend; exact absurd rfl hend
  · intro a x ha _ hend
    rw [(hV a).1 ha, hE] at hend; exact absurd rfl hend
  · intro a ha hend
    rw [(hV a).1 ha, hE] at hend; exact absurd rfl hend
  · intro x hx hxe
    exact absurd ((hV x).1 hx) hxe
  · exact (hV _).2 rfl

theorem openInit_stacks (g : Graph) (entry : BlockT) :
    DfsStacks g (openState g (dfsInit entry) entry) [⟨entry, (successors g entry).reverse⟩] := by
  have hV : ∀ x, Visited (openState g (dfsInit entry) entry).BlockDFSInfo x ↔ x = entry := by
    intro x
    rw [visited_open]
    simp [dfsInit, Visited]
  have hE : endOf (openState g (dfsInit entry) entry).BlockDFSInfo entry = 0 := by
    simp [openState, dfsInit]
  constructor
  · simp [openState, dfsInit, flat]
  · simp [openState, dfsInit, flat, positions]
  · intro f hf
    simp at hf; subst hf
    exact ⟨(hV _).2 rfl, hE⟩
  · intro x hx _
    exact ⟨_, List.mem_cons_self _ _, ((hV x).1 hx).symm⟩
  · intro f hf x hx
    simp at hf; subst hf
    exact List.mem_reverse.1 hx
  · intro f hf x hx
    simp at hf; subst hf
    exact Or.inl (List.mem_reverse.2 hx)
  · simp

/-- `Compute::dfs` returns, and its tables satisfy the postcondition. -/
theorem dfs_post (g : Graph) (entry : BlockT) :
    ∃ d, dfs g entry = .done d ∧ DfsPost g entry d := by
  have hstep : dfsStep g (dfsInit entry) = .done (openState g (dfsInit entry) entry) := by
    simp [dfsStep, dfsInit, openState]
  have hm : dfsMeasure g (openState g (dfsInit entry) entry) < dfsMeasure g (dfsInit entry) :=
    dfsMeasure_open g (dfsInit entry) entry [] rfl rfl
  have hm0 : dfsMeasure g (dfsInit entry) = 2 * edgeCount g + 2 := by
    simp [dfsMeasure, dfsInit, unopenedEdges_init]
  obtain ⟨s1, hloop, ht1, hs1⟩ :=
    dfsLoop_inv (2 * edgeCount g + 1) _ _ (openInit_tables g entry) (openInit_stacks g entry)
      (by simp [openState, dfsInit]) (by omega)
  refine ⟨s1, ?_, ht1, ?_⟩
  · have hne : (openState g (dfsInit entry) entry).TraverseStack
        = (successors g entry).reverse ++ [entry] := rfl
    unfold dfs dfsFuel
    show dfsLoop g (2 * edgeCount g + 1 + 1) (dfsInit entry) = _
    rw [dfsLoop, hstep]
    simp only [Outcome.bind_done]
    cases hst : (openState g (dfsInit entry) entry).TraverseStack with
    | nil => rw [hne] at hst; simp at hst
    | cons x xs => simpa [hst] using hloop
  · intro b hb h0
    obtain ⟨f, hf, _⟩ := hs1.allOpen b hb h0
    cases hf

/-! ### Consequences of the postcondition of `Compute::dfs` -/

theorem DfsPost.visited_iff_mem {g : Graph} {entry : BlockT} {d : DfsState}
    (h : DfsPost g entry d) (b : BlockT) :
    Visited d.BlockDFSInfo b ↔ b ∈ d.BlockPreorder := by
  constructor
  · intro hb
    exact List.getElem?_mem (h.tables.stamp b hb).2
  · intro hb
    obtain ⟨i, hi, e⟩ := List.getElem_of_mem hb
    exact (h.tables.listed i b (by rw [List.getElem?_eq_getElem hi, e])).1

theorem DfsPost.nodup {g : Graph} {entry : BlockT} {d : DfsState}
    (h : DfsPost g entry d) : d.BlockPreorder.Nodup := by
  rw [List.nodup_iff_injective_get]
  intro i j hij
  have hi := h.tables.listed i.1 (d.BlockPreorder.get i) (by simp)
  have hj := h.tables.listed j.1 (d.BlockPreorder.get j) (by simp)
  rw [hij] at hi
  have : i.1 + 1 = j.1 + 1 := by rw [← hi.2, ← hj.2]
  exact Fin.ext (by omega)

theorem DfsPost.bounds {g : Graph} {entry : BlockT} {d : DfsState}
    (h : DfsPost g entry d) {b : BlockT} (hb : Visited d.BlockDFSInfo b) :
    1 ≤ startOf d.BlockDFSInfo b ∧ startOf d.BlockDFSInfo b ≤ endOf d.BlockDFSInfo b ∧
      endOf d.BlockDFSInfo b ≤ d.BlockPreorder.length := by
  have h1 := h.tables.start_le hb
  have h2 := h.tables.closed b hb (h.allClosed b hb)
  rw [h.tables.counter] at h2
  exact ⟨h1.1, h2.1, h2.2⟩

theorem startOf_unvisited {m : DFSMap} {b : BlockT} (hb : ¬ Visited m b) : startOf m b = 0 := by
  apply startOf_of_none
  by_contra h; exact hb h

theorem endOf_unvisited {m : DFSMap} {b : BlockT} (hb : ¬ Visited m b) : endOf m b = 0 := by
  apply endOf_of_none
  by_contra h; exact hb h

theorem DfsPost.visited_of_start_pos {g : Graph} {entry : BlockT} {d : DfsState}
    (_h : DfsPost g entry d) {b : BlockT} (hb : 1 ≤ startOf d.BlockDFSInfo b) :
    Visited d.BlockDFSInfo b := by
  by_contra hv
  rw [startOf_unvisited hv] at hb
  omega

theorem DfsPost.laminar {g : Graph} {entry : BlockT} {d : DfsState}
    (h : DfsPost g entry d) {a b : BlockT} (ha : Visited d.BlockDFSInfo a)
    (hb : Visited d.BlockDFSInfo b)
    (hlt : startOf d.BlockDFSInfo a < startOf d.BlockDFSInfo b)
    (hle : startOf d.BlockDFSInfo b ≤ endOf d.BlockDFSInfo a) :
    endOf d.BlockDFSInfo b ≤ endOf d.BlockDFSInfo a :=
  (h.tables.laminar a b ha hb (h.allClosed a ha) hlt hle).2

theorem anc_iff (m : DFSMap) (a b : BlockT) :
    Anc m a b ↔ startOf m a ≤ startOf m b ∧ endOf m b ≤ endOf m a :=
  isAncestorOf_lookup m a b

theorem Anc.refl (m : DFSMap) (a : BlockT) : Anc m a a := by
  rw [anc_iff]; exact ⟨le_refl _, le_refl _⟩

theorem Anc.trans {m : DFSMap} {a b c : BlockT} (h1 : Anc m a b) (h2 : Anc m b c) :
    Anc m a c := by
  rw [anc_iff] at *
  exact ⟨le_trans h1.1 h2.1, le_trans h2.2 h1.2⟩

theorem DfsPost.anc_visited {g : Graph} {entry : BlockT} {d : DfsState}
    (h : DfsPost g entry d) {a b : BlockT} (ha : Visited d.BlockDFSInfo a)
    (hab : Anc d.BlockDFSInfo a b) : Visited d.BlockDFSInfo b := by
  apply h.visited_of_start_pos
  have := (h.bounds ha).1
  have := ((anc_iff _ _ _).1 hab).1
  omega

/-- Two subtrees that share a block are nested. -/
theorem DfsPost.anc_of_common {g : Graph} {entry : BlockT} {d : DfsState}
    (h : DfsPost g entry d) {a b x : BlockT} (ha : Visited d.BlockDFSInfo a)
    (hb : Visited d.BlockDFSInfo b) (hax : Anc d.BlockDFSInfo a x)
    (hbx : Anc d.BlockDFSInfo b x)
    (hle : startOf d.BlockDFSInfo a ≤ startOf d.BlockDFSInfo b) : Anc d.BlockDFSInfo a b := by
  have hx := h.anc_visited ha hax
  rw [anc_iff] at hax hbx ⊢
  refine ⟨hle, ?_⟩
  rcases Nat.lt_or_ge (startOf d.BlockDFSInfo a) (startOf d.BlockDFSInfo b) with hlt | hge
  · apply h.laminar ha hb hlt
    have := (h.bounds hx).2.1
    omega
  · have e : a = b := h.tables.start_inj ha hb (by omega)
    rw [e]

/-! ### The arena -/

theorem cycAt_of_getElem? {cs : List GenericCycle} {c : Nat} {x : GenericCycle}
    (h : cs[c]? = some x) : cycAt cs c = x := by
  simp [cycAt, List.getD_eq_getElem?_getD, h]

theorem getElem?_of_lt {cs : List GenericCycle} {c : Nat} (h : c < cs.length) :
    cs[c]? = some (cycAt cs c) := by
  simp [cycAt, List.getD_eq_getElem?_getD, List.getElem?_eq_getElem h]

theorem getElem?_of_ge {cs : List GenericCycle} {c : Nat} (h : cs.length ≤ c) :
    cs[c]? = none := List.getElem?_eq_none h

theorem cycAt_of_ge {cs : List GenericCycle} {c : Nat} (h : cs.length ≤ c) :
    cycAt cs c = GenericCycle.fresh := by
  simp [cycAt, List.getD_eq_getElem?_getD, List.getElem?_eq_none h]

@[simp] theorem length_modifyCycle (cs : List GenericCycle) (c : Nat)
    (f : GenericCycle → GenericCycle) : (modifyCycle cs c f).length = cs.length := by
  unfold modifyCycle
  split <;> simp

theorem cycAt_modifyCycle {cs : List GenericCycle} {c : Nat} (hc : c < cs.length)
    (f : GenericCycle → GenericCycle) (i : Nat) :
    cycAt (modifyCycle cs c f) i = if i = c then f (cycAt cs c) else cycAt cs i := by
  unfold modifyCycle
  rw [getElem?_of_lt hc]
  simp only [cycAt, List.getD_eq_getElem?_getD, List.getElem?_set]
  by_cases e : c = i
  · subst e; simp [hc]
  · have e1 : ¬ i = c := fun h => e h.symm
    simp [e, e1]

theorem cycAt_append_left {cs : List GenericCycle} (x : GenericCycle) {i : Nat}
    (h : i < cs.length) : cycAt (cs ++ [x]) i = cycAt cs i := by
  simp [cycAt, List.getD_eq_getElem?_getD, List.getElem?_append_left h]

theorem cycAt_append_new (cs : List GenericCycle) (x : GenericCycle) :
    cycAt (cs ++ [x]) cs.length = x := by
  simp [cycAt, List.getD_eq_getElem?_getD]

theorem parentLink_iff (cs : List GenericCycle) (b a : Nat) :
    ParentLink cs b a ↔ b < cs.length ∧ (cycAt cs b).ParentCycle = some a := by
  constructor
  · rintro ⟨cyc, h1, h2⟩
    have hlt := (List.getElem?_eq_some_iff.1 h1).1
    rw [cycAt_of_getElem? h1]
    exact ⟨hlt, h2⟩
  · rintro ⟨h1, h2⟩
    exact ⟨cycAt cs b, getElem?_of_lt h1, h2⟩

theorem modifyCycle_id {cs : List GenericCycle} {c : Nat} {f : GenericCycle → GenericCycle}
    (h : f (cycAt cs c) = cycAt cs c) : modifyCycle cs c f = cs := by
  unfold modifyCycle
  by_cases hc : c < cs.length
  · rw [getElem?_of_lt hc]
    simp only [h]
    apply List.ext_getElem?
    intro i
    rw [List.getElem?_set]
    by_cases e : c = i
    · subst e; simp [hc, getElem?_of_lt hc]
    · simp [e]
  · rw [getElem?_of_ge (by omega)]

/-! ### The block map -/

theorem mapFind_mem {bm : List (BlockT × Nat)} {b : BlockT} {c : Nat}
    (h : mapFind bm b = some c) : (b, c) ∈ bm := by
  induction bm with
  | nil => simp [mapFind] at h
  | cons e rest ih =>
    obtain ⟨k, v⟩ := e
    simp only [mapFind] at h
    by_cases hk : k = b
    · simp only [hk, if_true, Option.some.injEq] at h
      subst hk; subst h
      exact List.mem_cons_self _ _
    · simp only [hk, if_false] at h
      exact List.mem_cons_of_mem _ (ih h)

theorem mapFind_append (bm : List (BlockT × Nat)) (k : BlockT) (v : Nat) (b : BlockT) :
    mapFind (bm ++ [(k, v)]) b
      = match mapFind bm b with
        | some c => some c
        | none => if k = b then some v else none := by
  induction bm with
  | nil => simp [mapFind]
  | cons e rest ih =>
    obtain ⟨k1, v1⟩ := e
    simp only [List.cons_append, mapFind]
    by_cases hk : k1 = b
    · simp [hk]
    · simp [hk, ih]

theorem mapTryEmplace_none {bm : List (BlockT × Nat)} {b : BlockT} (h : mapFind bm b = none)
    (c : Nat) : mapTryEmplace bm b c = bm ++ [(b, c)] := by
  simp [mapTryEmplace, h]

/-! ### The predecessor scan -/

theorem scanPreds_eq (m : DFSMap) (H : BlockT) (l : List BlockT) :
    ∀ (wl : List BlockT) (flag : Bool),
      scanPreds m (m.lookup H) l (wl, flag)
        = ((l.filter (fun p => ancB m H p)).reverse ++ wl,
            flag || l.any (fun p => !ancB m H p)) := by
  induction l with
  | nil => intro wl flag; simp [scanPreds]
  | cons p rest ih =>
    intro wl flag
    by_cases hp : ancB m H p = true
    · have hp1 : (m.lookup H).isAncestorOf (m.lookup p) = true := hp
      simp [scanPreds, hp1, ih, List.filter_cons, hp]
    · have hp0 : ancB m H p = false := by simpa using hp
      have hp1 : (m.lookup H).isAncestorOf (m.lookup p) = false := hp0
      simp [scanPreds, hp1, ih, List.filter_cons, hp0]

theorem ancB_iff (m : DFSMap) (H p : BlockT) : ancB m H p = true ↔ Anc m H p := Iff.rfl

theorem getElem?_modifyCycle (cs : List GenericCycle) (c : Nat)
    (f : GenericCycle → GenericCycle) (i : Nat) :
    (modifyCycle cs c f)[i]? = if i = c then (cs[i]?).map f else cs[i]? := by
  unfold modifyCycle
  cases h : cs[c]? with
  | none =>
    by_cases e : i = c
    · subst e; simp [h]
    · simp [e]
  | some x =>
    simp only [List.getElem?_set]
    by_cases e : c = i
    · subst e
      have hlt := (List.getElem?_eq_some_iff.1 h).1
      simp [hlt, h]
    · have e1 : ¬ i = c := fun h => e h.symm
      simp [e, e1]

theorem modifyCycle_modifyCycle (cs : List GenericCycle) (c : Nat)
    (f1 f2 : GenericCycle → GenericCycle) :
    modifyCycle (modifyCycle cs c f1) c f2 = modifyCycle cs c (fun x => f2 (f1 x)) := by
  apply List.ext_getElem?
  intro i
  simp only [getElem?_modifyCycle]
  by_cases e : i = c
  · simp [e, Function.comp_def]
  · simp [e]

theorem parentLink_congr {cs cs1 : List GenericCycle} (hl : cs1.length = cs.length)
    (hp : ∀ i, (cycAt cs1 i).ParentCycle = (cycAt cs i).ParentCycle) :
    ParentLink cs1 = ParentLink cs := by
  funext b a
  apply propext
  rw [parentLink_iff, parentLink_iff, hl, hp]

/-! ### Parent chains -/

theorem Wf.link_lt {m : DFSMap} {cs : List GenericCycle} {bm : List (BlockT × Nat)}
    {roots : List Nat} (h : Wf m cs bm roots) {b a : Nat} (hl : ParentLink cs b a) :
    b < a ∧ a < cs.length ∧ b ∈ (cycAt cs a).Children := by
  rw [parentLink_iff] at hl
  exact h.parentLt b hl.1 a hl.2

theorem Wf.chain_le {m : DFSMap} {cs : List GenericCycle} {bm : List (BlockT × Nat)}
    {roots : List Nat} (h : Wf m cs bm roots) {b a : Nat}
    (hl : Relation.ReflTransGen (ParentLink cs) b a) : b ≤ a := by
  induction hl with
  | refl => exact le_refl _
  | tail _ hl ih => have := (h.link_lt hl).1; omega

theorem Wf.chain_valid {m : DFSMap} {cs : List GenericCycle} {bm : List (BlockT × Nat)}
    {roots : List Nat} (h : Wf m cs bm roots) {b a : Nat} (hb : b < cs.length)
    (hl : Relation.ReflTransGen (ParentLink cs) b a) : a < cs.length := by
  induction hl with
  | refl => exact hb
  | tail _ hl _ => exact (h.link_lt hl).2.1

theorem Wf.chain_blocks {m : DFSMap} {cs : List GenericCycle} {bm : List (BlockT × Nat)}
    {roots : List Nat} (h : Wf m cs bm roots) {b a : Nat}
    (hl : Relation.ReflTransGen (ParentLink cs) b a) :
    ∀ x ∈ (cycAt cs b).Blocks, x ∈ (cycAt cs a).Blocks := by
  induction hl with
  | refl => intro x hx; exact hx
  | tail _ hl ih =>
    intro x hx
    obtain ⟨_, h2, h3⟩ := h.link_lt hl
    exact h.childBlocks _ h2 _ h3 x (ih x hx)

/-- A cycle has at most one ancestor without a parent. -/
theorem root_unique {cs : List GenericCycle} {c r1 r2 : Nat}
    (h1 : Relation.ReflTransGen (ParentLink cs) c r1)
    (h2 : Relation.ReflTransGen (ParentLink cs) c r2)
    (hr1 : (cycAt cs r1).ParentCycle = none) (hr2 : (cycAt cs r2).ParentCycle = none) :
    r1 = r2 := by
  induction h1 using Relation.ReflTransGen.head_induction_on with
  | refl =>
    rcases Relation.ReflTransGen.cases_head h2 with e | ⟨x, hl, _⟩
    · exact e
    · rw [parentLink_iff] at hl
      rw [hr1] at hl
      exact absurd hl.2 (by simp)
  | head hl _ ih =>
    rcases Relation.ReflTransGen.cases_head h2 with e | ⟨x, hl2, hrest⟩
    · subst e
      rw [parentLink_iff] at hl
      rw [hr2] at hl
      exact absurd hl.2 (by simp)
    · rw [parentLink_iff] at hl hl2
      rw [hl.2] at hl2
      have e := Option.some.inj hl2.2
      subst e
      exact ih hrest

/-- The walk of `getTopLevelParentCycle` ends at the root of the parent chain. -/
theorem Wf.topLevelWalk_spec {m : DFSMap} {cs : List GenericCycle} {bm : List (BlockT × Nat)}
    {roots : List Nat} (h : Wf m cs bm roots) :
    ∀ (fuel c : Nat), c < cs.length → cs.length - c ≤ fuel →
      ∃ t, topLevelWalk cs fuel c = .done t ∧ t < cs.length ∧
        (cycAt cs t).ParentCycle = none ∧ Relation.ReflTransGen (ParentLink cs) c t := by
  intro fuel
  induction fuel with
  | zero => intro c hc hf; omega
  | succ fuel ih =>
    intro c hc hf
    cases hp : (cycAt cs c).ParentCycle with
    | none =>
      refine ⟨c, ?_, hc, hp, Relation.ReflTransGen.refl⟩
      simp [topLevelWalk, getElem?_of_lt hc, hp]
    | some p =>
      obtain ⟨h1, h2, _⟩ := h.parentLt c hc p hp
      obtain ⟨t, ht, htl, htp, hch⟩ := ih p h2 (by omega)
      refine ⟨t, ?_, htl, htp,
        Relation.ReflTransGen.head ((parentLink_iff _ _ _).2 ⟨hc, hp⟩) hch⟩
      simp [topLevelWalk, getElem?_of_lt hc, hp, ht]

/-! ### `swapRemoveAt` -/

theorem swapRemoveAt_perm (l : List Nat) (x : Nat) (hx : x ∈ l) :
    (x :: swapRemoveAt l (l.indexOf x)).Perm l := by
  have hne : l ≠ [] := List.ne_nil_of_mem hx
  have hpos : l.indexOf x < l.length := List.indexOf_lt_length.2 hx
  unfold swapRemoveAt
  rw [List.getLast?_eq_getLast _ hne]
  simp only
  -- write l = init ++ [last]
  obtain ⟨init, last, rfl⟩ : ∃ init last, l = init ++ [last] :=
    ⟨l.dropLast, l.getLast hne, (List.dropLast_append_getLast hne).symm⟩
  simp only [List.getLast_append_singleton] at *
  by_cases hin : x ∈ init
  · have hidx : (init ++ [last]).indexOf x = init.indexOf x := List.indexOf_append_of_mem hin
    have hlt : init.indexOf x < init.length := List.indexOf_lt_length.2 hin
    rw [hidx, List.set_append_left _ _ hlt, List.dropLast_concat]
    -- x :: init.set i last ~ init ++ [last]
    have h1 : (init.set (init.indexOf x) last).Perm (last :: init.erase x) := by
      have := List.perm_cons_erase hin
      -- init ~ x :: init.erase x ; set replaces the first x
      clear hidx hx hpos hne
      induction init with
      | nil => cases hin
      | cons a rest ih =>
        by_cases e : a = x
        · subst e
          simp [List.indexOf_cons_self]
        · have hin1 : x ∈ rest := by
            rcases List.mem_cons.1 hin with h | h
            · exact absurd h.symm e
            · exact h
          have e1 : ¬ (a == x) = true := by simpa using e
          rw [List.indexOf_cons_ne _ e]
          have hlt1 : rest.indexOf x < rest.length := List.indexOf_lt_length.2 hin1
          simp only [List.set_cons_succ]
          rw [List.erase_cons_tail e1]
          refine (List.Perm.cons a (ih hin1 hlt1 (List.perm_cons_erase hin1))).trans ?_
          exact List.Perm.swap _ _ _
    calc (x :: init.set (init.indexOf x) last).Perm (x :: last :: init.erase x) :=
          List.Perm.cons x h1
      _ |>.Perm (last :: x :: init.erase x) := List.Perm.swap _ _ _
      _ |>.Perm (last :: init) := List.Perm.cons last (List.perm_cons_erase hin).symm
      _ |>.Perm (init ++ [last]) := (List.perm_append_singleton last init).symm
  · have hxl : x = last := by
      rcases List.mem_append.1 hx with h | h
      · exact absurd h hin
      · simpa using h
    subst hxl
    have hidx : (init ++ [x]).indexOf x = init.length := by
      rw [List.indexOf_append_of_not_mem hin]; simp
    rw [hidx]
    have : (init ++ [x]).set init.length x = init ++ [x] := by
      simp [List.set_append]
    rw [this, List.dropLast_concat]
    exact (List.perm_append_singleton x init).symm

theorem swapRemoveAt_mem {l : List Nat} {x : Nat} (hx : x ∈ l) (hnd : l.Nodup) (y : Nat) :
    y ∈ swapRemoveAt l (l.indexOf x) ↔ y ∈ l ∧ y ≠ x := by
  have hp := swapRemoveAt_perm l x hx
  have hnd1 : (x :: swapRemoveAt l (l.indexOf x)).Nodup := hp.nodup_iff.2 hnd
  rw [List.nodup_cons] at hnd1
  constructor
  · intro hy
    refine ⟨hp.subset (List.mem_cons_of_mem _ hy), ?_⟩
    intro e; subst e; exact hnd1.1 hy
  · rintro ⟨hy, hne⟩
    rcases List.mem_cons.1 (hp.symm.subset hy) with h | h
    · exact absurd h hne
    · exact h

theorem swapRemoveAt_nodup {l : List Nat} {x : Nat} (hx : x ∈ l) (hnd : l.Nodup) :
    (swapRemoveAt l (l.indexOf x)).Nodup := by
  have hp := swapRemoveAt_perm l x hx
  have hnd1 : (x :: swapRemoveAt l (l.indexOf x)).Nodup := hp.nodup_iff.2 hnd
  exact (List.nodup_cons.1 hnd1).2

theorem addEntries_nil (cs : List GenericCycle) (New : Nat) : addEntries cs New [] = cs := by
  unfold addEntries
  apply modifyCycle_id
  simp

theorem addEntries_addEntries (cs : List GenericCycle) (New : Nat) (l1 l2 : List BlockT) :
    addEntries (addEntries cs New l1) New l2 = addEntries cs New (l1 ++ l2) := by
  unfold addEntries
  rw [modifyCycle_modifyCycle]
  simp [List.append_assoc]

@[simp] theorem length_addEntries (cs : List GenericCycle) (New : Nat) (l : List BlockT) :
    (addEntries cs New l).length = cs.length := by simp [addEntries]

theorem cycAt_addEntries {cs : List GenericCycle} {New : Nat} (h : New < cs.length)
    (l : List BlockT) (i : Nat) :
    cycAt (addEntries cs New l) i
      = if i = New then { cycAt cs New with Entries := (cycAt cs New).Entries ++ l }
        else cycAt cs i := by
  unfold addEntries
  rw [cycAt_modifyCycle h]

theorem ProcessPredecessors_spec (g : Graph) (m : DFSMap) (H : BlockT) (New : Nat)
    (Block : BlockT) (info : GenericCycleInfo) (wl : List BlockT)
    (hNew : New < info.Cycles.length)
    (hfree : hasOutside g m H Block = true → Block ∉ (cycAt info.Cycles New).Entries) :
    ProcessPredecessors g m (m.lookup H) New Block (info, wl)
      = .done ({ info with
                 Cycles := addEntries info.Cycles New
                   (if hasOutside g m H Block then [Block] else []) },
               (insidePreds g m H Block).reverse ++ wl) := by
  unfold ProcessPredecessors
  simp only [scanPreds_eq, Bool.false_or]
  by_cases ho : hasOutside g m H Block = true
  · have ho1 : (predecessors g Block).any (fun p => !ancB m H p) = true := ho
    have hnot : (cycAt info.Cycles New).Entries.contains Block = false := by
      simpa using hfree ho
    simp only [ho1, if_true, getElem?_of_lt hNew, hnot, Bool.false_eq_true, if_false, ho]
    rfl
  · have ho0 : hasOutside g m H Block = false := by simpa using ho
    have ho1 : (predecessors g Block).any (fun p => !ancB m H p) = false := ho0
    simp only [ho1, Bool.false_eq_true, if_false, ho0, addEntries_nil]
    rfl

theorem processEntries_spec (g : Graph) (m : DFSMap) (H : BlockT) (New : Nat) :
    ∀ (es : List BlockT) (info : GenericCycleInfo) (wl : List BlockT),
      New < info.Cycles.length → es.Nodup →
      (∀ e ∈ es, e ∉ (cycAt info.Cycles New).Entries) →
      processEntries g m (m.lookup H) New es (info, wl)
        = .done ({ info with
                   Cycles := addEntries info.Cycles New (es.filter (hasOutside g m H)) },
                 pushAll g m H es wl) := by
  intro es
  induction es with
  | nil =>
    intro info wl _ _ _
    simp [processEntries, pushAll, addEntries_nil]
  | cons e rest ih =>
    intro info wl hNew hnd hfree
    rw [List.nodup_cons] at hnd
    rw [processEntries,
      ProcessPredecessors_spec g m H New e info wl hNew
        (fun _ => hfree e (List.mem_cons_self _ _))]
    simp only [Outcome.bind_done]
    rw [ih _ _ (by simpa using hNew) hnd.2]
    · simp only [addEntries_addEntries, pushAll]
      congr 2
      by_cases ho : hasOutside g m H e = true
      · simp [List.filter_cons, ho]
      · simp [List.filter_cons, ho]
    · intro e1 he1
      simp only [cycAt_addEntries hNew, if_true]
      intro hmem
      rcases List.mem_append.1 hmem with h | h
      · exact hfree e1 (List.mem_cons_of_mem _ he1) h
      · split at h
        · simp at h; subst h; exact hnd.1 he1
        · cases h

/-- `getTopLevelParentCycle` finds the root of the cycle the block is mapped to. -/
theorem Wf.getTopLevelParentCycle_spec {m : DFSMap} {info : GenericCycleInfo}
    {roots : List Nat} (h : Wf m info.Cycles info.BlockMap roots) (b : BlockT) :
    (mapFind info.BlockMap b = none ∧ getTopLevelParentCycle info b = .done none) ∨
    (∃ c0 t, mapFind info.BlockMap b = some c0 ∧
      getTopLevelParentCycle info b = .done (some t) ∧ t ∈ roots ∧
      Relation.ReflTransGen (ParentLink info.Cycles) c0 t ∧
      b ∈ (cycAt info.Cycles t).Blocks) := by
  cases hf : mapFind info.BlockMap b with
  | none => left; simp [getTopLevelParentCycle, hf]
  | some c0 =>
    right
    obtain ⟨hc0, hb⟩ := h.mapValid _ (mapFind_mem hf)
    obtain ⟨t, hw, htl, htp, hch⟩ := h.topLevelWalk_spec info.Cycles.length c0 hc0 (by omega)
    refine ⟨c0, t, rfl, ?_, (h.rootsIff t).2 ⟨htl, htp⟩, hch, h.chain_blocks hch b hb⟩
    simp [getTopLevelParentCycle, hf, hw]

theorem moveToNewParent_top {info : GenericCycleInfo} {New t : Nat}
    (hNew : New < info.Cycles.length) (ht : t < info.Cycles.length)
    (hp : (cycAt info.Cycles t).ParentCycle = none) (hmem : t ∈ info.TopLevelCycles) :
    moveToNewParent info New t
      = .done { info with
                Cycles := modifyCycle
                  (modifyCycle info.Cycles New (fun c => { c with Children := c.Children ++ [t] }))
                  t (fun c => { c with ParentCycle := some New })
                TopLevelCycles :=
                  swapRemoveAt info.TopLevelCycles (info.TopLevelCycles.indexOf t) } := by
  unfold moveToNewParent
  rw [getElem?_of_lt ht, getElem?_of_lt hNew]
  simp only [hp]
  have : info.TopLevelCycles.indexOf t < info.TopLevelCycles.length :=
    List.indexOf_lt_length.2 hmem
  simp [this]

/-- Two cycles without a parent that share a block are the same cycle. -/
theorem Wf.roots_disjoint {m : DFSMap} {cs : List GenericCycle} {bm : List (BlockT × Nat)}
    {roots : List Nat} (h : Wf m cs bm roots) {r1 r2 : Nat} {b : BlockT}
    (h1 : r1 ∈ roots) (h2 : r2 ∈ roots)
    (hb1 : b ∈ (cycAt cs r1).Blocks) (hb2 : b ∈ (cycAt cs r2).Blocks) : r1 = r2 := by
  obtain ⟨hl1, hp1⟩ := (h.rootsIff r1).1 h1
  obtain ⟨hl2, hp2⟩ := (h.rootsIff r2).1 h2
  obtain ⟨c1, hf1, hch1⟩ := h.mapInner r1 hl1 b hb1
  obtain ⟨c2, hf2, hch2⟩ := h.mapInner r2 hl2 b hb2
  rw [hf1] at hf2
  cases hf2
  exact root_unique hch1 hch2 hp1 hp2

theorem Draining.new_lt {m : DFSMap} {H : BlockT} {info : GenericCycleInfo} {New : Nat}
    {WL old : List BlockT} (h : Draining m H info New WL old) : New < info.Cycles.length := by
  have := h.last; omega

theorem Draining.new_root {m : DFSMap} {H : BlockT} {info : GenericCycleInfo} {New : Nat}
    {WL old : List BlockT} (_h : Draining m H info New WL old) :
    New ∈ info.TopLevelCycles ++ [New] := by simp

theorem Draining.top_ne_new {m : DFSMap} {H : BlockT} {info : GenericCycleInfo} {New : Nat}
    {WL old : List BlockT} (h : Draining m H info New WL old) {t : Nat}
    (ht : t ∈ info.TopLevelCycles) : t ≠ New := by
  have hnd := h.wf.rootsNodup
  rw [List.nodup_append] at hnd
  intro e
  subst e
  exact hnd.2.2 ht (List.mem_singleton_self _)

theorem Draining.top_lt {m : DFSMap} {H : BlockT} {info : GenericCycleInfo} {New : Nat}
    {WL old : List BlockT} (h : Draining m H info New WL old) {t : Nat}
    (ht : t ∈ info.TopLevelCycles) :
    t < New ∧ t < info.Cycles.length ∧ (cycAt info.Cycles t).ParentCycle = none := by
  obtain ⟨h1, h2⟩ := (h.wf.rootsIff t).1 (List.mem_append_left _ ht)
  have := h.top_ne_new ht
  have := h.last
  exact ⟨by omega, h1, h2⟩

/-- One iteration of the worklist loop returns, and does what `DrainStep` describes. -/
theorem Draining.exec {g : Graph} {m : DFSMap} {H : BlockT} {info : GenericCycleInfo}
    {New : Nat} {Block : BlockT} {WL old : List BlockT}
    (h : Draining m H info New (Block :: WL) old) :
    ∃ st1, drainStep g m H (m.lookup H) New (info, Block :: WL) = .done st1 ∧
      DrainStep g m H New (info, Block :: WL) st1 := by
  have hNew := h.new_lt
  by_cases hH : Block = H
  · subst hH
    exact ⟨(info, WL), by simp [drainStep], DrainStep.header info WL⟩
  · rcases h.wf.getTopLevelParentCycle_spec Block with ⟨hf, hg⟩ | ⟨c0, t, hf, hg, ht, hch, hbt⟩
    · -- a block that no cycle has claimed yet
      have hnb : Block ∉ (cycAt info.Cycles New).Blocks := by
        intro hb
        obtain ⟨c1, hf1, _⟩ := h.wf.mapInner New hNew Block hb
        rw [hf] at hf1; cases hf1
      have hnb1 : (cycAt info.Cycles New).Blocks.contains Block = false := by simpa using hnb
      refine ⟨_, ?_, DrainStep.fresh info Block WL hH hf⟩
      simp only [drainStep, hH, if_false, hg, Outcome.bind_done, getElem?_of_lt hNew, hnb1,
        Bool.false_eq_true]
      rw [ProcessPredecessors_spec g m H New Block _ WL (by simpa using hNew)]
      · simp [mapTryEmplace_none hf, enlisted]
      · intro _
        simp only [cycAt_modifyCycle hNew, if_true]
        intro he
        exact hnb (h.wf.entriesSub New hNew Block he)
    · rcases List.mem_append.1 ht with htop | hnew
      · -- a block of an older top-level cycle
        obtain ⟨htlt, htl, htp⟩ := h.top_lt htop
        have hne : t ≠ New := h.top_ne_new htop
        refine ⟨_, ?_, DrainStep.absorb info Block WL t hH htop hbt⟩
        simp only [drainStep, hH, if_false, hg, Outcome.bind_done, ne_eq, hne, not_false_eq_true,
          if_true]
        rw [moveToNewParent_top hNew htl htp htop]
        simp only [Outcome.bind_done]
        have hl1 : t < (modifyCycle (modifyCycle info.Cycles New
            (fun c => { c with Children := c.Children ++ [t] })) t
            (fun c => { c with ParentCycle := some New })).length := by simpa using htl
        have hbp : cycAt (modifyCycle (modifyCycle info.Cycles New
            (fun c => { c with Children := c.Children ++ [t] })) t
            (fun c => { c with ParentCycle := some New })) t
            = { cycAt info.Cycles t with ParentCycle := some New } := by
          rw [cycAt_modifyCycle (by simpa using htl)]
          simp only [if_true]
          rw [cycAt_modifyCycle hNew]
          simp [hne]
        rw [getElem?_of_lt hl1, hbp]
        simp only
        rw [processEntries_spec g m H New _ _ WL (by simpa using hNew)
          (h.wf.entriesNodup t htl)]
        · rfl
        · intro e he
          simp only
          rw [cycAt_modifyCycle (by simpa using hNew)]
          simp only [if_true]
          rw [cycAt_modifyCycle (by simpa using htl)]
          simp only [hne.symm, if_false]
          rw [cycAt_modifyCycle hNew]
          simp only [if_true]
          intro hen
          have hb1 := h.wf.entriesSub New hNew e hen
          have hb2 := h.wf.entriesSub t htl e he
          exact hne (h.wf.roots_disjoint (List.mem_append_left _ htop) h.new_root hb2 hb1)
      · -- a block of the cycle under construction
        have e : t = New := by simpa using hnew
        subst e
        refine ⟨(info, WL), ?_, DrainStep.known info Block WL hH hbt⟩
        simp [drainStep, hH, hg]

section grow

variable {m : DFSMap} {cs cs1 : List GenericCycle} {bm bm1 : List (BlockT × Nat)}
  {top roots1 : List Nat} {New : Nat} {ot : Option Nat} {addB addE : List BlockT}

theorem Grow.parent (hg : Grow cs cs1 New ot addB addE) (hot : ot ≠ some New) (i : Nat) :
    (cycAt cs1 i).ParentCycle = if ot = some i then some New else (cycAt cs i).ParentCycle := by
  by_cases h1 : ot = some i
  · rw [hg.atChild i h1]; simp [h1]
  · by_cases h2 : i = New
    · subst h2; rw [hg.atNew]; simp [h1]
    · rw [hg.other i h2 h1]; simp [h1]

theorem Grow.children (hg : Grow cs cs1 New ot addB addE) (hot : ot ≠ some New) (i : Nat) :
    (cycAt cs1 i).Children
      = if i = New then (cycAt cs New).Children ++ ot.toList else (cycAt cs i).Children := by
  by_cases h2 : i = New
  · subst h2; rw [hg.atNew]; simp
  · by_cases h1 : ot = some i
    · rw [hg.atChild i h1]; simp [h2]
    · rw [hg.other i h2 h1]; simp [h2]

theorem Grow.blocks (hg : Grow cs cs1 New ot addB addE) (hot : ot ≠ some New) (i : Nat) :
    (cycAt cs1 i).Blocks
      = if i = New then (cycAt cs New).Blocks ++ addB else (cycAt cs i).Blocks := by
  by_cases h2 : i = New
  · subst h2; rw [hg.atNew]; simp
  · by_cases h1 : ot = some i
    · rw [hg.atChild i h1]; simp [h2]
    · rw [hg.other i h2 h1]; simp [h2]

theorem Grow.entries (hg : Grow cs cs1 New ot addB addE) (hot : ot ≠ some New) (i : Nat) :
    (cycAt cs1 i).Entries
      = if i = New then (cycAt cs New).Entries ++ addE else (cycAt cs i).Entries := by
  by_cases h2 : i = New
  · subst h2; rw [hg.atNew]; simp
  · by_cases h1 : ot = some i
    · rw [hg.atChild i h1]; simp [h2]
    · rw [hg.other i h2 h1]; simp [h2]

theorem Grow.header (hg : Grow cs cs1 New ot addB addE) (hot : ot ≠ some New)
    (hne : (cycAt cs New).Entries ≠ []) (i : Nat) :
    headerOf (cycAt cs1 i) = headerOf (cycAt cs i) := by
  unfold headerOf
  rw [hg.entries hot i]
  by_cases h2 : i = New
  · subst h2
    simp only [if_true]
    cases h : (cycAt cs i).Entries with
    | nil => exact absurd h hne
    | cons a l => simp
  · simp [h2]

theorem Grow.link_mono (hg : Grow cs cs1 New ot addB addE) (hot : ot ≠ some New)
    (hroot : ∀ t, ot = some t → (cycAt cs t).ParentCycle = none) {a b : Nat}
    (h : ParentLink cs a b) : ParentLink cs1 a b := by
  rw [parentLink_iff] at h ⊢
  rw [hg.len, hg.parent hot]
  refine ⟨h.1, ?_⟩
  by_cases h1 : ot = some a
  · rw [hroot a h1] at h; exact absurd h.2 (by simp)
  · simp [h1, h.2]

theorem Grow.chain_mono (hg : Grow cs cs1 New ot addB addE) (hot : ot ≠ some New)
    (hroot : ∀ t, ot = some t → (cycAt cs t).ParentCycle = none) {a b : Nat}
    (h : Relation.ReflTransGen (ParentLink cs) a b) :
    Relation.ReflTransGen (ParentLink cs1) a b :=
  Relation.ReflTransGen.mono (fun _ _ hl => hg.link_mono hot hroot hl) h

/-- The structural invariant survives the growth of the cycle under construction. -/
theorem Wf.grow (hw : Wf m cs bm (top ++ [New])) (hlast : New + 1 = cs.length)
    (hg : Grow cs cs1 New ot addB addE)
    (hot : ∀ t, ot = some t → t ∈ top ∧ addB = (cycAt cs t).Blocks)
    (hB1 : addB.Nodup) (hB2 : ∀ b ∈ addB, b ∉ (cycAt cs New).Blocks)
    (hE1 : addE.Nodup) (hE2 : ∀ b ∈ addE, b ∈ addB)
    (hB3 : ∀ b ∈ addB, Anc m (headerOf (cycAt cs New)) b)
    (hr1 : roots1.Nodup) (hr2 : ∀ x, x ∈ roots1 ↔ x ∈ top ++ [New] ∧ ot ≠ some x)
    (hbm1 : ∀ e ∈ bm1, e ∈ bm ∨ (e.2 = New ∧ e.1 ∈ addB))
    (hbm2 : ∀ x c, mapFind bm x = some c → mapFind bm1 x = some c)
    (hbm3 : ∀ x ∈ addB, ∃ c0, mapFind bm1 x = some c0 ∧
      Relation.ReflTransGen (ParentLink cs1) c0 New) :
    Wf m cs1 bm1 roots1 := by
  have hNew : New < cs.length := by omega
  have htop : ∀ t, ot = some t →
      t < New ∧ t < cs.length ∧ (cycAt cs t).ParentCycle = none := by
    intro t ht
    obtain ⟨h1, h2⟩ := (hw.rootsIff t).1 (List.mem_append_left _ (hot t ht).1)
    have hnd := hw.rootsNodup
    rw [List.nodup_append] at hnd
    have hne : t ≠ New := by
      intro e; subst e
      exact hnd.2.2 (hot t ht).1 (List.mem_singleton_self _)
    exact ⟨by omega, h1, h2⟩
  have hotn : ot ≠ some New := by
    intro h; have := (htop New h).1; omega
  have hroot : ∀ t, ot = some t → (cycAt cs t).ParentCycle = none := fun t ht => (htop t ht).2.2
  have hPar := hg.parent hotn
  have hChi := hg.children hotn
  have hBlk := hg.blocks hotn
  have hEnt := hg.entries hotn
  obtain ⟨re, rb, hre, hrb⟩ := hw.header New hNew
  have hHdr := hg.header hotn (by rw [hre]; simp)
  have hsubB : ∀ i, ∀ b ∈ (cycAt cs i).Blocks, b ∈ (cycAt cs1 i).Blocks := by
    intro i b hb
    rw [hBlk]
    split
    · rename_i e; subst e; exact List.mem_append_left _ hb
    · exact hb
  have hsubC : ∀ i, ∀ c ∈ (cycAt cs i).Children, c ∈ (cycAt cs1 i).Children := by
    intro i c hc
    rw [hChi]
    split
    · rename_i e; subst e; exact List.mem_append_left _ hc
    · exact hc
  constructor
  · -- parentLt
    intro c hc p hp
    rw [hg.len] at hc ⊢
    rw [hPar] at hp
    by_cases h1 : ot = some c
    · simp only [h1, if_true, Option.some.injEq] at hp
      subst hp
      refine ⟨(htop c h1).1, hNew, ?_⟩
      rw [hChi]; simp [h1]
    · simp only [h1, if_false] at hp
      obtain ⟨a1, a2, a3⟩ := hw.parentLt c hc p hp
      exact ⟨a1, a2, hsubC p c a3⟩
  · -- childPar
    intro p hp ch hch
    rw [hg.len] at hp
    rw [hChi] at hch
    rw [hPar]
    by_cases h2 : p = New
    · subst h2
      simp only [if_true] at hch
      rcases List.mem_append.1 hch with h | h
      · obtain ⟨a1, a2⟩ := hw.childPar p hp ch h
        refine ⟨a1, ?_⟩
        split
        · rfl
        · exact a2
      · have h1 : ot = some ch := by
          cases ot with
          | none => simp at h
          | some t => simp at h; rw [h]
        exact ⟨(htop ch h1).1, by simp [h1]⟩
    · simp only [h2, if_false] at hch
      obtain ⟨a1, a2⟩ := hw.childPar p hp ch hch
      refine ⟨a1, ?_⟩
      have h1 : ot ≠ some ch := by
        intro h1; rw [hroot ch h1] at a2; cases a2
      simp [h1, a2]
  · -- childNodup
    intro p hp
    rw [hg.len] at hp
    rw [hChi]
    by_cases h2 : p = New
    · subst h2
      simp only [if_true]
      rw [List.nodup_append]
      refine ⟨hw.childNodup p hp, ?_, ?_⟩
      · cases ot <;> simp
      · intro x hx hx1
        have h1 : ot = some x := by
          cases ot with
          | none => simp at hx1
          | some t => simp at hx1; rw [hx1]
        have := (hw.childPar p hp x hx).2
        rw [hroot x h1] at this; cases this
    · simp only [h2, if_false]; exact hw.childNodup p hp
  · exact hr1
  · -- rootsIff
    intro x
    rw [hr2, hw.rootsIff, hg.len, hPar]
    by_cases h1 : ot = some x
    · simp [h1]
    · simp [h1]
  · -- header
    intro c hc
    rw [hg.len] at hc
    rw [hHdr, hEnt, hBlk]
    by_cases h2 : c = New
    · subst h2
      simp only [if_true]
      exact ⟨re ++ addE, rb ++ addB, by rw [hre]; simp, by rw [hrb]; simp⟩
    · simp only [h2, if_false]; exact hw.header c hc
  · intro c hc
    rw [hg.len] at hc
    rw [hHdr]; exact hw.headerVisited c hc
  · -- blocksNodup
    intro c hc
    rw [hg.len] at hc
    rw [hBlk]
    by_cases h2 : c = New
    · subst h2
      simp only [if_true]
      rw [List.nodup_append]
      exact ⟨hw.blocksNodup c hc, hB1, fun x hx hx1 => hB2 x hx1 hx⟩
    · simp only [h2, if_false]; exact hw.blocksNodup c hc
  · -- entriesNodup
    intro c hc
    rw [hg.len] at hc
    rw [hEnt]
    by_cases h2 : c = New
    · subst h2
      simp only [if_true]
      rw [List.nodup_append]
      exact ⟨hw.entriesNodup c hc, hE1,
        fun x hx hx1 => hB2 x (hE2 x hx1) (hw.entriesSub c hc x hx)⟩
    · simp only [h2, if_false]; exact hw.entriesNodup c hc
  · -- entriesSub
    intro c hc b hb
    rw [hg.len] at hc
    rw [hEnt] at hb
    rw [hBlk]
    by_cases h2 : c = New
    · subst h2
      simp only [if_true] at hb ⊢
      rcases List.mem_append.1 hb with h | h
      · exact List.mem_append_left _ (hw.entriesSub c hc b h)
      · exact List.mem_append_right _ (hE2 b h)
    · simp only [h2, if_false] at hb ⊢; exact hw.entriesSub c hc b hb
  · -- subtree
    intro c hc b hb
    rw [hg.len] at hc
    rw [hHdr]
    rw [hBlk] at hb
    by_cases h2 : c = New
    · subst h2
      simp only [if_true] at hb
      rcases List.mem_append.1 hb with h | h
      · exact hw.subtree c hc b h
      · exact hB3 b h
    · simp only [h2, if_false] at hb; exact hw.subtree c hc b hb
  · -- childBlocks
    intro p hp ch hch b hb
    rw [hg.len] at hp
    rw [hChi] at hch
    by_cases h2 : p = New
    · subst h2
      simp only [if_true] at hch
      rcases List.mem_append.1 hch with h | h
      · have hlt := (hw.childPar p hp ch h).1
        have hne : ch ≠ p := by omega
        rw [hBlk] at hb
        simp only [hne, if_false] at hb
        exact hsubB p b (hw.childBlocks p hp ch h b hb)
      · have h1 : ot = some ch := by
          cases ot with
          | none => simp at h
          | some t => simp at h; rw [h]
        have hne : ch ≠ p := by have := (htop ch h1).1; omega
        rw [hBlk] at hb
        simp only [hne, if_false] at hb
        rw [hBlk]
        simp only [if_true]
        rw [(hot ch h1).2]
        exact List.mem_append_right _ hb
    · simp only [h2, if_false] at hch
      have hlt := (hw.childPar p hp ch hch).1
      have hne : ch ≠ New := by omega
      rw [hBlk] at hb
      simp only [hne, if_false] at hb
      exact hsubB p b (hw.childBlocks p hp ch hch b hb)
  · -- mapValid
    intro e he
    rw [hg.len]
    rcases hbm1 e he with h | ⟨h1, h2⟩
    · obtain ⟨a1, a2⟩ := hw.mapValid e h
      exact ⟨a1, hsubB _ _ a2⟩
    · rw [h1, hBlk]
      simp only [if_true]
      exact ⟨hNew, List.mem_append_right _ h2⟩
  · -- mapInner
    intro c hc b hb
    rw [hg.len] at hc
    rw [hBlk] at hb
    have hold : b ∈ (cycAt cs c).Blocks →
        ∃ c0, mapFind bm1 b = some c0 ∧ Relation.ReflTransGen (ParentLink cs1) c0 c := by
      intro hb0
      obtain ⟨c0, hf, hch⟩ := hw.mapInner c hc b hb0
      exact ⟨c0, hbm2 b c0 hf, hg.chain_mono hotn hroot hch⟩
    by_cases h2 : c = New
    · subst h2
      simp only [if_true] at hb
      rcases List.mem_append.1 hb with h | h
      · exact hold h
      · exact hbm3 b h
    · simp only [h2, if_false] at hb
      exact hold hb

end grow

theorem enlisted_grow (g : Graph) (m : DFSMap) (H : BlockT) {cs : List GenericCycle}
    {New : Nat} (hNew : New < cs.length) (b : BlockT) :
    Grow cs (enlisted g m H cs New b) New none [b]
      (if hasOutside g m H b then [b] else []) := by
  constructor
  · simp [enlisted]
  · unfold enlisted
    rw [cycAt_addEntries (by simpa using hNew)]
    simp only [if_true]
    rw [cycAt_modifyCycle hNew]
    simp
  · intro t ht; cases ht
  · intro i hi _
    unfold enlisted
    rw [cycAt_addEntries (by simpa using hNew)]
    simp only [hi, if_false]
    rw [cycAt_modifyCycle hNew]
    simp [hi]

theorem absorbed_grow (g : Graph) (m : DFSMap) (H : BlockT) {cs : List GenericCycle}
    {New t : Nat} (hNew : New < cs.length) (ht : t < cs.length) (hne : t ≠ New) :
    Grow cs (absorbed g m H cs New t) New (some t) (cycAt cs t).Blocks
      ((cycAt cs t).Entries.filter (hasOutside g m H)) := by
  have h1 : New < (modifyCycle cs New
      (fun c => { c with Children := c.Children ++ [t] })).length := by simpa using hNew
  have h2 : t < (modifyCycle cs New
      (fun c => { c with Children := c.Children ++ [t] })).length := by simpa using ht
  have h3 : New < (modifyCycle (modifyCycle cs New
      (fun c => { c with Children := c.Children ++ [t] })) t
      (fun c => { c with ParentCycle := some New })).length := by simpa using hNew
  have h4 : New < (modifyCycle (modifyCycle (modifyCycle cs New
      (fun c => { c with Children := c.Children ++ [t] })) t
      (fun c => { c with ParentCycle := some New })) New
      (fun c => { c with Blocks := c.Blocks ++ (cycAt cs t).Blocks })).length := by
    simpa using hNew
  have hne1 : New ≠ t := fun e => hne e.symm
  constructor
  · simp [absorbed]
  · unfold absorbed
    rw [cycAt_addEntries h4]
    simp only [if_true]
    rw [cycAt_modifyCycle h3]
    simp only [if_true]
    rw [cycAt_modifyCycle h2]
    simp only [hne1, if_false]
    rw [cycAt_modifyCycle hNew]
    simp
  · intro t1 ht1
    have e : t = t1 := Option.some.inj ht1
    subst e
    unfold absorbed
    rw [cycAt_addEntries h4]
    simp only [hne, if_false]
    rw [cycAt_modifyCycle h3]
    simp only [hne, if_false]
    rw [cycAt_modifyCycle h2]
    simp only [if_true]
    rw [cycAt_modifyCycle hNew]
    simp [hne]
  · intro i hi hti
    have hit : i ≠ t := fun e => hti (by rw [e])
    unfold absorbed
    rw [cycAt_addEntries h4]
    simp only [hi, if_false]
    rw [cycAt_modifyCycle h3]
    simp only [hi, if_false]
    rw [cycAt_modifyCycle h2]
    simp only [hit, if_false]
    rw [cycAt_modifyCycle hNew]
    simp [hi]

theorem mem_pushAll (g : Graph) (m : DFSMap) (H : BlockT) :
    ∀ (es wl : List BlockT) (w : BlockT),
      w ∈ pushAll g m H es wl ↔ w ∈ wl ∨ ∃ e ∈ es, w ∈ insidePreds g m H e := by
  intro es
  induction es with
  | nil => intro wl w; simp [pushAll]
  | cons e rest ih =>
    intro wl w
    rw [pushAll, ih]
    simp only [List.mem_append, List.mem_reverse, List.mem_cons, exists_eq_or_imp]
    tauto

theorem mem_insidePreds {g : Graph} {m : DFSMap} {H b w : BlockT} :
    w ∈ insidePreds g m H b ↔ w ∈ predecessors g b ∧ Anc m H w := by
  simp [insidePreds, List.mem_filter, ancB_iff]

theorem map_headerOf_congr {cs cs1 : List GenericCycle} (hl : cs1.length = cs.length)
    (h : ∀ i, headerOf (cycAt cs1 i) = headerOf (cycAt cs i)) :
    cs1.map headerOf = cs.map headerOf := by
  apply List.ext_getElem?
  intro i
  simp only [List.getElem?_map]
  by_cases hi : i < cs.length
  · rw [getElem?_of_lt hi, getElem?_of_lt (by rw [hl]; exact hi)]
    simp [h]
  · rw [getElem?_of_ge (by omega), getElem?_of_ge (by omega)]

theorem Draining.header_new {m : DFSMap} {H : BlockT} {info : GenericCycleInfo} {New : Nat}
    {WL old : List BlockT} (h : Draining m H info New WL old) :
    headerOf (cycAt info.Cycles New) = H ∧ old.length = New := by
  have hl : (info.Cycles.map headerOf).length = (old ++ [H]).length := by rw [h.hdrs]
  simp only [List.length_map, List.length_append, List.length_singleton] at hl
  have hlast := h.last
  have hlen : old.length = New := by omega
  refine ⟨?_, hlen⟩
  have h1 : (info.Cycles.map headerOf)[New]? = some (headerOf (cycAt info.Cycles New)) := by
    rw [List.getElem?_map, getElem?_of_lt h.new_lt]; rfl
  rw [h.hdrs, List.getElem?_append_right (by omega), hlen] at h1
  simpa using h1.symm

theorem Draining.header_old {m : DFSMap} {H : BlockT} {info : GenericCycleInfo} {New : Nat}
    {WL old : List BlockT} (h : Draining m H info New WL old) {t : Nat} (ht : t < New) :
    headerOf (cycAt info.Cycles t) ∈ old := by
  have hlen := h.header_new.2
  have hlast := h.last
  have h1 : (info.Cycles.map headerOf)[t]? = some (headerOf (cycAt info.Cycles t)) := by
    rw [List.getElem?_map, getElem?_of_lt (by omega)]; rfl
  rw [h.hdrs, List.getElem?_append_left (by omega)] at h1
  exact List.getElem?_mem h1

/-- The invariant of the worklist loop survives one iteration. -/
theorem Draining.step {g : Graph} {entry : BlockT} {d : DfsState} (hp : DfsPost g entry d)
    {H : BlockT} {New : Nat} {old : List BlockT}
    {st st1 : GenericCycleInfo × List BlockT}
    (h : Draining d.BlockDFSInfo H st.1 New st.2 old)
    (hs : DrainStep g d.BlockDFSInfo H New st st1) :
    Draining d.BlockDFSInfo H st1.1 New st1.2 old := by
  cases hs with
  | header info WL =>
    exact ⟨h.wf, h.last, h.hdrs, h.older, fun w hw => h.inside w (List.mem_cons_of_mem _ hw)⟩
  | known info Block WL _ _ =>
    exact ⟨h.wf, h.last, h.hdrs, h.older, fun w hw => h.inside w (List.mem_cons_of_mem _ hw)⟩
  | absorb info Block WL t hH htop hbt =>
    simp only at h ⊢
    have hNew := h.new_lt
    obtain ⟨htlt, htl, htp⟩ := h.top_lt htop
    have hne : t ≠ New := h.top_ne_new htop
    have hg := absorbed_grow g d.BlockDFSInfo H hNew htl hne
    have hhn := h.header_new
    have hHv : Visited d.BlockDFSInfo H := by
      rw [← hhn.1]; exact h.wf.headerVisited New hNew
    have hancH : Anc d.BlockDFSInfo H (headerOf (cycAt info.Cycles t)) := by
      apply hp.anc_of_common hHv (h.wf.headerVisited t htl)
        (h.inside Block (List.mem_cons_self _ _)) (h.wf.subtree t htl Block hbt)
      exact Nat.le_of_lt (h.older _ (h.header_old htlt))
    have hnd := h.wf.rootsNodup
    rw [List.nodup_append] at hnd
    have hwf : Wf d.BlockDFSInfo (absorbed g d.BlockDFSInfo H info.Cycles New t) info.BlockMap
        (swapRemoveAt info.TopLevelCycles (info.TopLevelCycles.indexOf t) ++ [New]) := by
      apply Wf.grow h.wf h.last hg
      · intro t1 ht1
        have e : t = t1 := Option.some.inj ht1
        subst e; exact ⟨htop, rfl⟩
      · exact h.wf.blocksNodup t htl
      · intro b hb hbn
        exact hne (h.wf.roots_disjoint (List.mem_append_left _ htop) h.new_root hb hbn)
      · exact (h.wf.entriesNodup t htl).filter _
      · intro b hb
        exact h.wf.entriesSub t htl b (List.mem_of_mem_filter hb)
      · intro b hb
        rw [hhn.1]
        exact hancH.trans (h.wf.subtree t htl b hb)
      · rw [List.nodup_append]
        refine ⟨swapRemoveAt_nodup htop hnd.1, hnd.2.1, ?_⟩
        intro x hx hx1
        exact hnd.2.2 ((swapRemoveAt_mem htop hnd.1 x).1 hx).1 hx1
      · intro x
        simp only [List.mem_append, swapRemoveAt_mem htop hnd.1, List.mem_singleton]
        constructor
        · rintro (⟨h1, h2⟩ | h1)
          · exact ⟨Or.inl h1, fun e => h2 (Option.some.inj e).symm⟩
          · exact ⟨Or.inr h1, fun e => hne (by rw [Option.some.inj e, h1])⟩
        · rintro ⟨h1 | h1, h2⟩
          · exact Or.inl ⟨h1, fun e => h2 (by rw [e])⟩
          · exact Or.inr h1
      · intro e he; exact Or.inl he
      · intro x c hx; exact hx
      · intro x hx
        obtain ⟨c0, hf, hch⟩ := h.wf.mapInner t htl x hx
        refine ⟨c0, hf, ?_⟩
        have hotn : (some t : Option Nat) ≠ some New := fun e => hne (Option.some.inj e)
        have hroot : ∀ t1, (some t : Option Nat) = some t1 →
            (cycAt info.Cycles t1).ParentCycle = none := by
          intro t1 ht1
          have e : t = t1 := Option.some.inj ht1
          subst e; exact htp
        refine (hg.chain_mono hotn hroot hch).tail ?_
        rw [parentLink_iff, hg.len, hg.parent hotn]
        exact ⟨htl, by simp⟩
    have hotn : (some t : Option Nat) ≠ some New := fun e => hne (Option.some.inj e)
    obtain ⟨re, _, hre, _⟩ := h.wf.header New hNew
    refine ⟨hwf, by rw [hg.len]; exact h.last, ?_, h.older, ?_⟩
    · rw [map_headerOf_congr hg.len (hg.header hotn (by rw [hre]; simp))]
      exact h.hdrs
    · intro w hw
      rcases (mem_pushAll g d.BlockDFSInfo H _ _ w).1 hw with h1 | ⟨e, _, h1⟩
      · exact h.inside w (List.mem_cons_of_mem _ h1)
      · exact (mem_insidePreds.1 h1).2
  | fresh info Block WL hH hf =>
    simp only at h ⊢
    have hNew := h.new_lt
    have hg := enlisted_grow g d.BlockDFSInfo H hNew Block
    have hhn := h.header_new
    have hnb : Block ∉ (cycAt info.Cycles New).Blocks := by
      intro hb
      obtain ⟨c1, hf1, _⟩ := h.wf.mapInner New hNew Block hb
      rw [hf] at hf1; cases hf1
    have hotn : (none : Option Nat) ≠ some New := by simp
    have hwf : Wf d.BlockDFSInfo (enlisted g d.BlockDFSInfo H info.Cycles New Block)
        (info.BlockMap ++ [(Block, New)]) (info.TopLevelCycles ++ [New]) := by
      apply Wf.grow h.wf h.last hg
      · intro t ht; cases ht
      · simp
      · intro b hb; simp at hb; subst hb; exact hnb
      · split <;> simp
      · intro b hb
        split at hb
        · exact hb
        · cases hb
      · intro b hb
        simp at hb; subst hb
        rw [hhn.1]
        exact h.inside b (List.mem_cons_self _ _)
      · exact h.wf.rootsNodup
      · intro x; simp
      · intro e he
        rcases List.mem_append.1 he with h1 | h1
        · exact Or.inl h1
        · simp at h1; subst h1; exact Or.inr ⟨rfl, by simp⟩
      · intro x c hx
        rw [mapFind_append, hx]
      · intro x hx
        simp at hx; subst hx
        refine ⟨New, ?_, Relation.ReflTransGen.refl⟩
        rw [mapFind_append, hf]; simp
    obtain ⟨re, _, hre, _⟩ := h.wf.header New hNew
    refine ⟨hwf, by rw [hg.len]; exact h.last, ?_, h.older, ?_⟩
    · rw [map_headerOf_congr hg.len (hg.header hotn (by rw [hre]; simp))]
      exact h.hdrs
    · intro w hw
      rcases List.mem_append.1 hw with h1 | h1
      · exact (mem_insidePreds.1 (List.mem_reverse.1 h1)).2
      · exact h.inside w (List.mem_cons_of_mem _ h1)

theorem sum_filter_drop (f : BlockT → Nat) (B : List BlockT) (b : BlockT) (hb : b ∉ B) :
    ∀ l : List BlockT, l.Nodup →
      ((l.filter (fun x => !(B ++ [b]).contains x)).map f).sum + (if b ∈ l then f b else 0)
        = ((l.filter (fun x => !B.contains x)).map f).sum := by
  intro l
  induction l with
  | nil => intro _; simp
  | cons x l ih =>
    intro hnd
    rw [List.nodup_cons] at hnd
    have ih1 := ih hnd.2
    by_cases e : x = b
    · subst e
      have hnot : x ∉ l := hnd.1
      simp only [hnot, if_false, Nat.add_zero] at ih1
      have h1 : (!(B ++ [x]).contains x) = false := by simp
      have h2 : (!B.contains x) = true := by simpa using hb
      simp only [List.filter_cons, h1, h2, Bool.false_eq_true, if_false, if_true, List.map_cons,
        List.sum_cons, List.mem_cons, true_or, ih1]
      omega
    · have e1 : b ≠ x := fun h => e h.symm
      have h1 : (!(B ++ [b]).contains x) = (!B.contains x) := by
        simp [e]
      simp only [List.filter_cons, h1, List.mem_cons, e1, false_or]
      cases hmx : (!B.contains x)
      · simpa using ih1
      · simp only [if_true, List.map_cons, List.sum_cons]
        omega

theorem predecessors_of_ge {g : Graph} {b : BlockT} (h : g.preds.length ≤ b) :
    predecessors g b = [] := by
  simp [predecessors, List.getD_eq_getElem?_getD, List.getElem?_eq_none h]

theorem unscanned_push (g : Graph) (B : List BlockT) (b : BlockT) (hb : b ∉ B) :
    unscanned g (B ++ [b]) + (predecessors g b).length = unscanned g B := by
  unfold unscanned
  have h := sum_filter_drop (fun x => (predecessors g x).length) B b hb
    (List.range g.preds.length) (List.nodup_range _)
  by_cases hmem : b ∈ List.range g.preds.length
  · simpa [hmem] using h
  · have hlen : (predecessors g b).length = 0 := by
      rw [predecessors_of_ge (by simpa using hmem)]; rfl
    simp only [hmem, if_false, Nat.add_zero] at h
    rw [hlen, h]; rfl

theorem unscanned_append (g : Graph) :
    ∀ (A B : List BlockT), A.Nodup → (∀ a ∈ A, a ∉ B) →
      unscanned g (B ++ A) + (A.map (fun b => (predecessors g b).length)).sum
        = unscanned g B := by
  intro A
  induction A with
  | nil => intro B _ _; simp
  | cons a rest ih =>
    intro B hnd hdis
    rw [List.nodup_cons] at hnd
    have h1 := unscanned_push g B a (hdis a (List.mem_cons_self _ _))
    have h2 := ih (B ++ [a]) hnd.2 (by
      intro x hx hxb
      rcases List.mem_append.1 hxb with h | h
      · exact hdis x (List.mem_cons_of_mem _ hx) h
      · simp at h; subst h; exact hnd.1 hx)
    have e : B ++ a :: rest = B ++ [a] ++ rest := by simp
    rw [e]
    simp only [List.map_cons, List.sum_cons]
    omega

theorem length_insidePreds_le (g : Graph) (m : DFSMap) (H b : BlockT) :
    (insidePreds g m H b).length ≤ (predecessors g b).length :=
  List.length_filter_le _ _

theorem length_pushAll_le (g : Graph) (m : DFSMap) (H : BlockT) :
    ∀ (es wl : List BlockT),
      (pushAll g m H es wl).length
        ≤ wl.length + (es.map (fun b => (predecessors g b).length)).sum := by
  intro es
  induction es with
  | nil => intro wl; simp [pushAll]
  | cons e rest ih =>
    intro wl
    rw [pushAll]
    have := ih ((insidePreds g m H e).reverse ++ wl)
    have h2 := length_insidePreds_le g m H e
    simp only [List.length_append, List.length_reverse, List.map_cons, List.sum_cons] at this ⊢
    omega

theorem sum_le_of_subset (f : BlockT → Nat) {A B : List BlockT} (hnd : A.Nodup)
    (hsub : ∀ a ∈ A, a ∈ B) : (A.map f).sum ≤ (B.map f).sum := by
  obtain ⟨l, hl1, hl2⟩ := List.subperm_of_subset hnd hsub
  calc (A.map f).sum = (l.map f).sum := ((hl1.map f).sum_eq).symm
    _ ≤ (B.map f).sum := (hl2.map f).sum_le_sum (fun a _ => Nat.zero_le a)

/-- Every iteration of the worklist loop lowers the measure. -/
theorem Draining.measure_lt {g : Graph} {m : DFSMap} {H : BlockT} {New : Nat}
    {old : List BlockT} {st st1 : GenericCycleInfo × List BlockT}
    (h : Draining m H st.1 New st.2 old) (hs : DrainStep g m H New st st1) :
    drainMeasure g New st1 < drainMeasure g New st := by
  cases hs with
  | header info WL => simp [drainMeasure]
  | known info Block WL _ _ => simp [drainMeasure]
  | absorb info Block WL t hH htop hbt =>
    simp only at h
    have hNew := h.new_lt
    obtain ⟨htlt, htl, htp⟩ := h.top_lt htop
    have hne : t ≠ New := h.top_ne_new htop
    have hg := absorbed_grow g m H hNew htl hne
    have hotn : (some t : Option Nat) ≠ some New := fun e => hne (Option.some.inj e)
    have hb := hg.blocks hotn New
    simp only [if_true] at hb
    have h1 := unscanned_append g (cycAt info.Cycles t).Blocks (cycAt info.Cycles New).Blocks
      (h.wf.blocksNodup t htl) (by
        intro b hb1 hbn
        exact hne (h.wf.roots_disjoint (List.mem_append_left _ htop) h.new_root hb1 hbn))
    have h2 := length_pushAll_le g m H (cycAt info.Cycles t).Entries WL
    have h3 := sum_le_of_subset (fun b => (predecessors g b).length)
      (h.wf.entriesNodup t htl) (h.wf.entriesSub t htl)
    simp only [drainMeasure, hb, List.length_cons]
    omega
  | fresh info Block WL hH hf =>
    simp only at h
    have hNew := h.new_lt
    have hg := enlisted_grow g m H hNew Block
    have hotn : (none : Option Nat) ≠ some New := by simp
    have hb := hg.blocks hotn New
    simp only [if_true] at hb
    have hnb : Block ∉ (cycAt info.Cycles New).Blocks := by
      intro hb1
      obtain ⟨c1, hf1, _⟩ := h.wf.mapInner New hNew Block hb1
      rw [hf] at hf1; cases hf1
    have h1 := unscanned_push g (cycAt info.Cycles New).Blocks Block hnb
    have h2 := length_insidePreds_le g m H Block
    simp only [drainMeasure, hb, List.length_cons, List.length_append, List.length_reverse]
    omega

theorem drainMeasure_pos (g : Graph) (New : Nat) (st : GenericCycleInfo × List BlockT)
    (h : st.2 ≠ []) : 0 < drainMeasure g New st := by
  unfold drainMeasure
  have : 0 < st.2.length := List.length_pos.2 h
  omega

/-- The worklist loop returns; its iterations are described by `DrainStep`. -/
theorem drainLoop_spec {g : Graph} {entry : BlockT} {d : DfsState} (hp : DfsPost g entry d)
    {H : BlockT} {New : Nat} {old : List BlockT} :
    ∀ (fuel : Nat) (st : GenericCycleInfo × List BlockT),
      Draining d.BlockDFSInfo H st.1 New st.2 old → st.2 ≠ [] →
      drainMeasure g New st ≤ fuel →
      ∃ mid, drainLoop g d.BlockDFSInfo H (d.BlockDFSInfo.lookup H) New fuel st = .done mid ∧
        Relation.ReflTransGen (DrainStep g d.BlockDFSInfo H New) st (mid, []) ∧
        Draining d.BlockDFSInfo H mid New [] old := by
  intro fuel
  induction fuel with
  | zero =>
    intro st _ hne hm
    have := drainMeasure_pos g New st hne
    omega
  | succ fuel ih =>
    intro st hdr hne hm
    obtain ⟨info, wl⟩ := st
    cases wl with
    | nil => exact absurd rfl hne
    | cons Block WL =>
      obtain ⟨st1, hex, hstep⟩ := Draining.exec (g := g) hdr
      have hdr1 := Draining.step hp hdr hstep
      have hlt := Draining.measure_lt hdr hstep
      obtain ⟨info1, wl1⟩ := st1
      cases wl1 with
      | nil =>
        refine ⟨info1, ?_, Relation.ReflTransGen.single hstep, hdr1⟩
        simp [drainLoop, hex]
      | cons x xs =>
        obtain ⟨mid, hloop, hstar, hdr2⟩ := ih (info1, x :: xs) hdr1 (by simp) (by omega)
        refine ⟨mid, ?_, Relation.ReflTransGen.head hstep hstar, hdr2⟩
        simp [drainLoop, hex, hloop]

theorem parentLink_append {cs : List GenericCycle} (x : GenericCycle) {a b : Nat}
    (h : ParentLink cs a b) : ParentLink (cs ++ [x]) a b := by
  rw [parentLink_iff] at h ⊢
  rw [cycAt_append_left x h.1]
  exact ⟨by simp; omega, h.2⟩

theorem Wf.unmapped {m : DFSMap} {cs : List GenericCycle} {bm : List (BlockT × Nat)}
    {roots : List Nat} (h : Wf m cs bm roots) {H : BlockT}
    (hold : ∀ c, c < cs.length → startOf m H < startOf m (headerOf (cycAt cs c))) :
    mapFind bm H = none := by
  cases hf : mapFind bm H with
  | none => rfl
  | some c0 =>
    obtain ⟨h1, h2⟩ := h.mapValid _ (mapFind_mem hf)
    have := (anc_iff _ _ _).1 (h.subtree c0 h1 H h2)
    have := hold c0 h1
    omega

/-- The structural invariant holds after a new cycle has been created for the header `H`. -/
theorem Wf.opened {m : DFSMap} {cs : List GenericCycle} {bm : List (BlockT × Nat)}
    {top : List Nat} (h : Wf m cs bm top) {H : BlockT} (hv : Visited m H)
    (hold : ∀ c, c < cs.length → startOf m H < startOf m (headerOf (cycAt cs c))) :
    Wf m (cs ++ [newCycle H]) (bm ++ [(H, cs.length)]) (top ++ [cs.length]) := by
  have hnone := h.unmapped hold
  have hlen : (cs ++ [newCycle H]).length = cs.length + 1 := by simp
  have hcase : ∀ c, c < (cs ++ [newCycle H]).length →
      (c < cs.length ∧ cycAt (cs ++ [newCycle H]) c = cycAt cs c) ∨
      (c = cs.length ∧ cycAt (cs ++ [newCycle H]) c = newCycle H) := by
    intro c hc
    rw [hlen] at hc
    by_cases h1 : c < cs.length
    · exact Or.inl ⟨h1, cycAt_append_left _ h1⟩
    · have e : c = cs.length := by omega
      subst e
      exact Or.inr ⟨rfl, cycAt_append_new cs _⟩
  have htoplt : ∀ t ∈ top, t < cs.length := fun t ht => ((h.rootsIff t).1 ht).1
  constructor
  · intro c hc p hpar
    rcases hcase c hc with ⟨h1, e⟩ | ⟨_, e⟩
    · rw [e] at hpar
      obtain ⟨a1, a2, a3⟩ := h.parentLt c h1 p hpar
      rw [cycAt_append_left _ a2]
      exact ⟨a1, by rw [hlen]; omega, a3⟩
    · rw [e] at hpar; simp [newCycle, GenericCycle.fresh] at hpar
  · intro p hpl ch hch
    rcases hcase p hpl with ⟨h1, e⟩ | ⟨_, e⟩
    · rw [e] at hch
      obtain ⟨a1, a2⟩ := h.childPar p h1 ch hch
      rw [cycAt_append_left _ (by omega)]
      exact ⟨a1, a2⟩
    · rw [e] at hch; simp [newCycle, GenericCycle.fresh] at hch
  · intro p hpl
    rcases hcase p hpl with ⟨h1, e⟩ | ⟨_, e⟩
    · rw [e]; exact h.childNodup p h1
    · rw [e]; simp [newCycle, GenericCycle.fresh]
  · rw [List.nodup_append]
    refine ⟨h.rootsNodup, by simp, ?_⟩
    intro x hx hx1
    have := htoplt x hx
    simp at hx1; omega
  · intro t
    rw [List.mem_append, List.mem_singleton]
    constructor
    · rintro (ht | ht)
      · obtain ⟨a1, a2⟩ := (h.rootsIff t).1 ht
        rw [cycAt_append_left _ a1]
        exact ⟨by rw [hlen]; omega, a2⟩
      · subst ht
        rw [cycAt_append_new]
        exact ⟨by rw [hlen]; omega, rfl⟩
    · rintro ⟨hc, hpar⟩
      rcases hcase t hc with ⟨h1, e⟩ | ⟨h1, _⟩
      · rw [e] at hpar
        exact Or.inl ((h.rootsIff t).2 ⟨h1, hpar⟩)
      · exact Or.inr h1
  · intro c hc
    rcases hcase c hc with ⟨h1, e⟩ | ⟨_, e⟩
    · rw [e]; exact h.header c h1
    · rw [e]; exact ⟨[], [], rfl, rfl⟩
  · intro c hc
    rcases hcase c hc with ⟨h1, e⟩ | ⟨_, e⟩
    · rw [e]; exact h.headerVisited c h1
    · rw [e]; exact hv
  · intro c hc
    rcases hcase c hc with ⟨h1, e⟩ | ⟨_, e⟩
    · rw [e]; exact h.blocksNodup c h1
    · rw [e]; simp [newCycle]
  · intro c hc
    rcases hcase c hc with ⟨h1, e⟩ | ⟨_, e⟩
    · rw [e]; exact h.entriesNodup c h1
    · rw [e]; simp [newCycle]
  · intro c hc
    rcases hcase c hc with ⟨h1, e⟩ | ⟨_, e⟩
    · rw [e]; exact h.entriesSub c h1
    · rw [e]; simp [newCycle]
  · intro c hc b hb
    rcases hcase c hc with ⟨h1, e⟩ | ⟨_, e⟩
    · rw [e] at hb ⊢; exact h.subtree c h1 b hb
    · rw [e] at hb ⊢
      simp [newCycle] at hb
      subst hb
      exact Anc.refl _ _
  · intro p hpl ch hch b hb
    rcases hcase p hpl with ⟨h1, e⟩ | ⟨_, e⟩
    · rw [e] at hch ⊢
      have := (h.childPar p h1 ch hch).1
      rw [cycAt_append_left _ (by omega)] at hb
      exact h.childBlocks p h1 ch hch b hb
    · rw [e] at hch; simp [newCycle, GenericCycle.fresh] at hch
  · intro e he
    rcases List.mem_append.1 he with h1 | h1
    · obtain ⟨a1, a2⟩ := h.mapValid e h1
      rw [cycAt_append_left _ a1]
      exact ⟨by rw [hlen]; omega, a2⟩
    · simp at h1; subst h1
      simp only [cycAt_append_new]
      exact ⟨by rw [hlen]; omega, by simp [newCycle]⟩
  · intro c hc b hb
    rcases hcase c hc with ⟨h1, e⟩ | ⟨h1, e⟩
    · rw [e] at hb
      obtain ⟨c0, hf, hch⟩ := h.mapInner c h1 b hb
      refine ⟨c0, by rw [mapFind_append, hf], ?_⟩
      exact Relation.ReflTransGen.mono (fun _ _ hl => parentLink_append _ hl) hch
    · rw [e] at hb
      simp [newCycle] at hb
      subst hb; subst h1
      exact ⟨cs.length, by rw [mapFind_append, hnone]; simp, Relation.ReflTransGen.refl⟩

theorem seed_eq (g : Graph) (m : DFSMap) (H : BlockT) :
    (scanPreds m (m.lookup H) (predecessors g H) ([], false)).1 = seedWorklist g m H := by
  rw [scanPreds_eq]
  simp [seedWorklist, insidePreds]

theorem hasBack_iff_seed (g : Graph) (m : DFSMap) (H : BlockT) :
    hasBack g m H = true ↔ seedWorklist g m H ≠ [] := by
  unfold hasBack seedWorklist insidePreds
  rw [List.any_eq_true]
  constructor
  · rintro ⟨p, hp1, hp2⟩ he
    have : p ∈ (List.filter (fun p => ancB m H p) (predecessors g H)).reverse :=
      List.mem_reverse.2 (List.mem_filter.2 ⟨hp1, hp2⟩)
    rw [he] at this; cases this
  · intro hne
    obtain ⟨p, hp⟩ := List.exists_mem_of_ne_nil _ hne
    have := List.mem_filter.1 (List.mem_reverse.1 hp)
    exact ⟨p, this.1, this.2⟩

theorem unscanned_nil (g : Graph) : unscanned g [] = predCount g := by
  simp [unscanned, predCount]

theorem headerOf_mem_map {cs : List GenericCycle} {c : Nat} (h : c < cs.length) :
    headerOf (cycAt cs c) ∈ cs.map headerOf := by
  apply List.mem_map.2
  refine ⟨cycAt cs c, ?_, rfl⟩
  exact List.getElem?_mem (getElem?_of_lt h)

/-- One iteration of the loop over the header candidates returns and keeps the forest
invariant. -/
theorem processHeader_spec {g : Graph} {entry : BlockT} {d : DfsState}
    (hp : DfsPost g entry d) {info : GenericCycleInfo} {hdrs : List BlockT} {H : BlockT}
    (hf : Forest d.BlockDFSInfo info hdrs) (hv : Visited d.BlockDFSInfo H)
    (hold : ∀ h ∈ hdrs, startOf d.BlockDFSInfo H < startOf d.BlockDFSInfo h) :
    ∃ info1, processHeader g d.BlockDFSInfo info H = .done info1 ∧
      HeaderStep g d.BlockDFSInfo H info info1 ∧
      Forest d.BlockDFSInfo info1
        (hdrs ++ (if hasBack g d.BlockDFSInfo H then [H] else [])) := by
  by_cases hb : hasBack g d.BlockDFSInfo H = true
  · have hne := (hasBack_iff_seed g _ H).1 hb
    have hold1 : ∀ c, c < info.Cycles.length →
        startOf d.BlockDFSInfo H < startOf d.BlockDFSInfo (headerOf (cycAt info.Cycles c)) := by
      intro c hc
      apply hold
      rw [← hf.hdrs]
      exact headerOf_mem_map hc
    have hnone := hf.wf.unmapped hold1
    have hdr : Draining d.BlockDFSInfo H (openedInfo info H) info.Cycles.length
        (seedWorklist g d.BlockDFSInfo H) hdrs := by
      refine ⟨hf.wf.opened hv hold1, by simp [openedInfo], ?_, hold, ?_⟩
      · simp [openedInfo, hf.hdrs, headerOf, newCycle]
      · intro w hw
        exact (mem_insidePreds.1 (List.mem_reverse.1 hw)).2
    have hmeas : drainMeasure g info.Cycles.length
        (openedInfo info H, seedWorklist g d.BlockDFSInfo H) ≤ drainFuel g := by
      have h1 := unscanned_push g [] H (by simp)
      have h2 := length_insidePreds_le g d.BlockDFSInfo H H
      have h3 : (cycAt (openedInfo info H).Cycles info.Cycles.length).Blocks = [H] := by
        simp [openedInfo, cycAt_append_new, newCycle]
      simp only [drainMeasure, h3, seedWorklist, List.length_reverse, drainFuel]
      rw [unscanned_nil] at h1
      simp only [List.nil_append] at h1
      omega
    obtain ⟨mid, hloop, hstar, hdr1⟩ := drainLoop_spec hp (drainFuel g) _ hdr hne hmeas
    refine ⟨_, ?_, HeaderStep.found info mid hb hstar, ?_⟩
    · unfold processHeader
      simp only [seed_eq]
      cases hs : seedWorklist g d.BlockDFSInfo H with
      | nil => exact absurd hs hne
      | cons x xs =>
        simp only
        rw [mapTryEmplace_none hnone]
        rw [hs] at hloop
        have : ({ info with
            Cycles := info.Cycles ++ [{ GenericCycle.fresh with Entries := [H], Blocks := [H] }]
            BlockMap := info.BlockMap ++ [(H, info.Cycles.length)] } : GenericCycleInfo)
            = openedInfo info H := rfl
        rw [this, hloop]
        rfl
    · simp only [hb, if_true]
      exact ⟨hdr1.wf, hdr1.hdrs⟩
  · have hb0 : hasBack g d.BlockDFSInfo H = false := by simpa using hb
    have hnil : seedWorklist g d.BlockDFSInfo H = [] := by
      by_contra hne
      exact hb ((hasBack_iff_seed g _ H).2 hne)
    refine ⟨info, ?_, HeaderStep.skip info hb0, ?_⟩
    · unfold processHeader
      simp only [seed_eq, hnil]
    · simp only [hb0, Bool.false_eq_true, if_false, List.append_nil]
      exact hf

/-- The loop over the header candidates returns and keeps the forest invariant. -/
theorem headerLoop_spec {g : Graph} {entry : BlockT} {d : DfsState}
    (hp : DfsPost g entry d) :
    ∀ (cands seen : List BlockT) (info : GenericCycleInfo),
      Forest d.BlockDFSInfo info (seen.filter (hasBack g d.BlockDFSInfo)) →
      (∀ c ∈ cands, Visited d.BlockDFSInfo c) →
      (seen ++ cands).Pairwise
        (fun x y => startOf d.BlockDFSInfo y < startOf d.BlockDFSInfo x) →
      ∃ info1, headerLoop g d.BlockDFSInfo cands info = .done info1 ∧
        HeaderChain g d.BlockDFSInfo cands info info1 ∧
        Forest d.BlockDFSInfo info1 ((seen ++ cands).filter (hasBack g d.BlockDFSInfo)) := by
  intro cands
  induction cands with
  | nil =>
    intro seen info hf _ _
    exact ⟨info, rfl, HeaderChain.nil info, by simpa using hf⟩
  | cons H rest ih =>
    intro seen info hf hv hpw
    have hold : ∀ h ∈ seen.filter (hasBack g d.BlockDFSInfo),
        startOf d.BlockDFSInfo H < startOf d.BlockDFSInfo h := by
      intro h hh
      have h1 := List.mem_of_mem_filter hh
      rw [List.pairwise_append] at hpw
      exact hpw.2.2 h h1 H (List.mem_cons_self _ _)
    obtain ⟨mid, hrun, hstep, hf1⟩ :=
      processHeader_spec hp hf (hv H (List.mem_cons_self _ _)) hold
    have hf2 : Forest d.BlockDFSInfo mid ((seen ++ [H]).filter (hasBack g d.BlockDFSInfo)) := by
      rw [List.filter_append]
      have : List.filter (hasBack g d.BlockDFSInfo) [H]
          = if hasBack g d.BlockDFSInfo H then [H] else [] := by
        by_cases hb : hasBack g d.BlockDFSInfo H = true
        · simp [hb]
        · simp [hb]
      rw [this]; exact hf1
    obtain ⟨info1, hloop, hchain, hf3⟩ :=
      ih (seen ++ [H]) mid hf2 (fun c hc => hv c (List.mem_cons_of_mem _ hc))
        (by simpa using hpw)
    refine ⟨info1, ?_, HeaderChain.cons H rest info mid info1 hstep hchain, by simpa using hf3⟩
    simp [headerLoop, hrun, hloop]

theorem depthFirst_succ (cs : List GenericCycle) (fuel c : Nat) :
    depthFirst cs (fuel + 1) c
      = match cs[c]? with
        | none => .abort
        | some cyc => (dfChildren cs fuel cyc.Children).bind fun sub => .done (c :: sub) := rfl

theorem dfChildren_cons (cs : List GenericCycle) (fuel ch : Nat) (rest : List Nat) :
    dfChildren cs fuel (ch :: rest)
      = (depthFirst cs fuel ch).bind fun l =>
          (dfChildren cs fuel rest).bind fun ls => .done (l ++ ls) := rfl

theorem ParentsFirst.mono {cs : List GenericCycle} :
    ∀ (l : List Nat) (S T : Nat → Prop), (∀ x, S x → T x) →
      ParentsFirst cs S l → ParentsFirst cs T l := by
  intro l
  induction l with
  | nil => intro _ _ _ _; trivial
  | cons x l ih =>
    intro S T hST h
    obtain ⟨h1, h2⟩ := h
    refine ⟨?_, ih _ _ ?_ h2⟩
    · rcases h1 with h1 | ⟨p, hp, hpar⟩
      · exact Or.inl h1
      · exact Or.inr ⟨p, hST p hp, hpar⟩
    · rintro y (hy | hy)
      · exact Or.inl hy
      · exact Or.inr (hST y hy)

theorem ParentsFirst.append {cs : List GenericCycle} :
    ∀ (l1 l2 : List Nat) (S : Nat → Prop),
      ParentsFirst cs S l1 → ParentsFirst cs S l2 → ParentsFirst cs S (l1 ++ l2) := by
  intro l1
  induction l1 with
  | nil => intro l2 S _ h2; exact h2
  | cons x l ih =>
    intro l2 S h1 h2
    obtain ⟨a, b⟩ := h1
    exact ⟨a, ih l2 _ b (ParentsFirst.mono l2 S _ (fun y hy => Or.inr hy) h2)⟩

/-- The depth-first walk of a subtree of a well-formed forest returns the cycle followed
by its descendants, every cycle after its parent. -/
theorem Wf.depthFirst_spec {m : DFSMap} {cs : List GenericCycle} {bm : List (BlockT × Nat)}
    {roots : List Nat} (h : Wf m cs bm roots) :
    ∀ (fuel c : Nat), c < cs.length → c < fuel →
      ∃ l, depthFirst cs fuel c = .done (c :: l) ∧ (∀ x ∈ l, x < c) ∧
        ParentsFirst cs (fun y => y = c) l ∧
        (∀ x, Relation.ReflTransGen (ParentLink cs) x c → x ∈ c :: l) := by
  intro fuel
  induction fuel with
  | zero => intro c _ hf; omega
  | succ fuel ih =>
    intro c hc hf
    have hkids : ∀ (chs : List Nat), (∀ ch ∈ chs, ch ∈ (cycAt cs c).Children) →
        ∃ sub, dfChildren cs fuel chs = .done sub ∧ (∀ x ∈ sub, x < c) ∧
          ParentsFirst cs (fun y => y = c) sub ∧
          (∀ ch ∈ chs, ∀ x, Relation.ReflTransGen (ParentLink cs) x ch → x ∈ sub) := by
      intro chs
      induction chs with
      | nil => intro _; exact ⟨[], rfl, by simp, trivial, by simp⟩
      | cons ch rest ihc =>
        intro hsub
        obtain ⟨hlt, hpar⟩ := h.childPar c hc ch (hsub ch (List.mem_cons_self _ _))
        obtain ⟨l1, hd1, hb1, hp1, hc1⟩ := ih ch (by omega) (by omega)
        obtain ⟨sub, hd2, hb2, hp2, hc2⟩ :=
          ihc (fun x hx => hsub x (List.mem_cons_of_mem _ hx))
        refine ⟨(ch :: l1) ++ sub, ?_, ?_, ?_, ?_⟩
        · rw [dfChildren_cons, hd1, hd2]; rfl
        · intro x hx
          rcases List.mem_append.1 hx with hx | hx
          · rcases List.mem_cons.1 hx with e | hx
            · omega
            · have := hb1 x hx; omega
          · exact hb2 x hx
        · refine ⟨Or.inr ⟨c, rfl, hpar⟩, ?_⟩
          apply ParentsFirst.append
          · exact ParentsFirst.mono l1 _ _ (fun y hy => Or.inl hy) hp1
          · exact ParentsFirst.mono sub _ _ (fun y hy => Or.inr hy) hp2
        · intro ch1 hch1 x hx
          rcases List.mem_cons.1 hch1 with e | hch1
          · subst e
            exact List.mem_append_left _ (hc1 x hx)
          · exact List.mem_append_right _ (hc2 ch1 hch1 x hx)
    obtain ⟨sub, hd, hb, hpf, hcov⟩ := hkids (cycAt cs c).Children (fun _ hx => hx)
    refine ⟨sub, ?_, hb, hpf, ?_⟩
    · rw [depthFirst_succ, getElem?_of_lt hc]
      simp only [hd, Outcome.bind_done]
    · intro x hx
      rcases Relation.ReflTransGen.cases_tail hx with e | ⟨y, hxy, hyc⟩
      · rw [e]; exact List.mem_cons_self _ _
      · have := (h.link_lt hyc).2.2
        exact List.mem_cons_of_mem _ (hcov y this x hxy)

theorem SameShape.shape_refl (cs : List GenericCycle) : SameShape cs cs :=
  ⟨rfl, fun _ => rfl⟩

theorem SameShape.same_parent {cs cs1 : List GenericCycle} (h : SameShape cs cs1) (i : Nat) :
    (cycAt cs1 i).ParentCycle = (cycAt cs i).ParentCycle := by rw [h.2 i]

theorem SameShape.same_children {cs cs1 : List GenericCycle} (h : SameShape cs cs1) (i : Nat) :
    (cycAt cs1 i).Children = (cycAt cs i).Children := by rw [h.2 i]

theorem SameShape.same_blocks {cs cs1 : List GenericCycle} (h : SameShape cs cs1) (i : Nat) :
    (cycAt cs1 i).Blocks = (cycAt cs i).Blocks := by rw [h.2 i]

theorem SameShape.same_entries {cs cs1 : List GenericCycle} (h : SameShape cs cs1) (i : Nat) :
    (cycAt cs1 i).Entries = (cycAt cs i).Entries := by rw [h.2 i]

theorem SameShape.same_header {cs cs1 : List GenericCycle} (h : SameShape cs cs1) (i : Nat) :
    headerOf (cycAt cs1 i) = headerOf (cycAt cs i) := by
  unfold headerOf; rw [h.same_entries]

theorem SameShape.link {cs cs1 : List GenericCycle} (h : SameShape cs cs1) :
    ParentLink cs1 = ParentLink cs :=
  parentLink_congr h.1 h.same_parent

/-- The structural invariant does not depend on the depth fields. -/
theorem Wf.sameShape {m : DFSMap} {cs cs1 : List GenericCycle} {bm : List (BlockT × Nat)}
    {roots : List Nat} (h : Wf m cs bm roots) (hs : SameShape cs cs1) : Wf m cs1 bm roots := by
  have hl := hs.1
  have hP := hs.same_parent
  have hC := hs.same_children
  have hB := hs.same_blocks
  have hE := hs.same_entries
  have hH := hs.same_header
  have hL := hs.link
  constructor
  · intro c hc p hp
    rw [hl] at hc ⊢; rw [hP] at hp; rw [hC]
    exact h.parentLt c hc p hp
  · intro p hp ch hch
    rw [hl] at hp; rw [hC] at hch; rw [hP]
    exact h.childPar p hp ch hch
  · intro p hp
    rw [hl] at hp; rw [hC]
    exact h.childNodup p hp
  · exact h.rootsNodup
  · intro t
    rw [hl, hP]; exact h.rootsIff t
  · intro c hc
    rw [hl] at hc; rw [hH, hE, hB]
    exact h.header c hc
  · intro c hc
    rw [hl] at hc; rw [hH]
    exact h.headerVisited c hc
  · intro c hc
    rw [hl] at hc; rw [hB]
    exact h.blocksNodup c hc
  · intro c hc
    rw [hl] at hc; rw [hE]
    exact h.entriesNodup c hc
  · intro c hc b hb
    rw [hl] at hc; rw [hE] at hb; rw [hB]
    exact h.entriesSub c hc b hb
  · intro c hc b hb
    rw [hl] at hc; rw [hB] at hb; rw [hH]
    exact h.subtree c hc b hb
  · intro p hp ch hch b hb
    rw [hl] at hp; rw [hC] at hch; rw [hB] at hb ⊢
    exact h.childBlocks p hp ch hch b hb
  · intro e he
    rw [hl, hB]
    exact h.mapValid e he
  · intro c hc b hb
    rw [hl] at hc; rw [hB] at hb; rw [hL]
    exact h.mapInner c hc b hb

theorem ParentsFirst.congr {cs cs1 : List GenericCycle} (hs : SameShape cs cs1) :
    ∀ (l : List Nat) (S : Nat → Prop), ParentsFirst cs1 S l → ParentsFirst cs S l := by
  intro l
  induction l with
  | nil => intro _ _; trivial
  | cons x l ih =>
    intro S h
    obtain ⟨h1, h2⟩ := h
    rw [hs.same_parent] at h1
    exact ⟨h1, ih _ h2⟩

theorem HasDepth.unique {cs : List GenericCycle} {c k1 k2 : Nat}
    (h1 : HasDepth cs c k1) (h2 : HasDepth cs c k2) : k1 = k2 := by
  induction h1 generalizing k2 with
  | root c _ hp =>
    cases h2 with
    | root _ _ _ => rfl
    | child _ p k _ hp2 _ => rw [hp] at hp2; cases hp2
  | child c p k _ hp _ ih =>
    cases h2 with
    | root _ _ hp2 => rw [hp] at hp2; cases hp2
    | child _ p2 k2 _ hp2 hd2 =>
      rw [hp] at hp2
      have e := Option.some.inj hp2
      subst e
      rw [ih hd2]

/-- Correct depths make `DepthIsChainLength` hold. -/
theorem depthIsChainLength_of_hasDepth {cs cs1 : List GenericCycle} (hs : SameShape cs cs1)
    (h : ∀ c, c < cs.length → HasDepth cs c (cycAt cs1 c).Depth) :
    DepthIsChainLength cs1 := by
  intro c cyc hc
  have hlt : c < cs.length := by
    have := (List.getElem?_eq_some_iff.1 hc).1
    rw [hs.1] at this; exact this
  have e := cycAt_of_getElem? hc
  subst e
  have hd := h c hlt
  cases hpar : (cycAt cs1 c).ParentCycle with
  | none =>
    simp only
    rw [hs.same_parent] at hpar
    exact HasDepth.unique hd (HasDepth.root c hlt hpar)
  | some p =>
    simp only
    rw [hs.same_parent] at hpar
    obtain ⟨k0, hk0⟩ : ∃ k0, (cycAt cs1 c).Depth = k0 := ⟨_, rfl⟩
    rw [hk0] at hd ⊢
    cases hd with
    | root _ _ hp2 => rw [hpar] at hp2; cases hp2
    | child _ p2 k hlt2 hp2 hdp =>
      rw [hpar] at hp2
      have e := Option.some.inj hp2
      subst e
      have hplt : p < cs.length := by
        cases hdp with
        | root _ h1 _ => exact h1
        | child _ _ _ h1 _ _ => exact h1
      refine ⟨cycAt cs1 p, getElem?_of_lt (by rw [hs.1]; exact hplt), ?_⟩
      have := HasDepth.unique hdp (h p hplt)
      omega

theorem hasDepth_congr {cs cs1 : List GenericCycle} (hs : SameShape cs cs1) {c k : Nat}
    (h : HasDepth cs1 c k) : HasDepth cs c k := by
  induction h with
  | root c hc hp => exact HasDepth.root c (by rw [← hs.1]; exact hc) (by rw [← hs.same_parent]; exact hp)
  | child c p k hc hp _ ih =>
    exact HasDepth.child c p k (by rw [← hs.1]; exact hc) (by rw [← hs.same_parent]; exact hp) ih

/-- The assignment of one depth keeps the shape of the arena and makes the depth of the
cycle right when the depth of its parent is. -/
theorem setDepth_spec {m : DFSMap} {cs0 cs1 : List GenericCycle} {bm : List (BlockT × Nat)}
    {roots : List Nat} (hw : Wf m cs0 bm roots) (hs : SameShape cs0 cs1) {c : Nat}
    (hc : c < cs0.length)
    (hpar : (cycAt cs0 c).ParentCycle = none ∨
      ∃ p, (cycAt cs0 c).ParentCycle = some p ∧ HasDepth cs0 p (cycAt cs1 p).Depth) :
    ∃ cs2, setDepth cs1 c = .done cs2 ∧ SameShape cs0 cs2 ∧
      HasDepth cs0 c (cycAt cs2 c).Depth ∧
      ∀ x, x ≠ c → (cycAt cs2 x).Depth = (cycAt cs1 x).Depth := by
  have hc1 : c < cs1.length := by rw [hs.1]; exact hc
  have key : ∀ k, SameShape cs0 (cs1.set c { cycAt cs1 c with Depth := k }) ∧
      (cycAt (cs1.set c { cycAt cs1 c with Depth := k }) c).Depth = k ∧
      ∀ x, x ≠ c → (cycAt (cs1.set c { cycAt cs1 c with Depth := k }) x).Depth
        = (cycAt cs1 x).Depth := by
    intro k
    have e : cs1.set c { cycAt cs1 c with Depth := k }
        = modifyCycle cs1 c (fun x => { x with Depth := k }) := by
      unfold modifyCycle; rw [getElem?_of_lt hc1]
    rw [e]
    refine ⟨⟨by simp [hs.1], ?_⟩, ?_, ?_⟩
    · intro i
      rw [cycAt_modifyCycle hc1]
      by_cases hi : i = c
      · subst hi
        simp only [if_true]
        rw [hs.2 i]
      · simp only [hi, if_false]
        exact hs.2 i
    · rw [cycAt_modifyCycle hc1]; simp
    · intro x hx
      rw [cycAt_modifyCycle hc1]; simp [hx]
  rcases hpar with hp | ⟨p, hp, hd⟩
  · obtain ⟨a1, a2, a3⟩ := key 1
    refine ⟨_, ?_, a1, ?_, a3⟩
    · unfold setDepth
      rw [getElem?_of_lt hc1]
      simp only [hs.same_parent, hp]
    · rw [a2]; exact HasDepth.root c hc hp
  · obtain ⟨_, hpl, _⟩ := hw.parentLt c hc p hp
    have hp1 : p < cs1.length := by rw [hs.1]; exact hpl
    obtain ⟨a1, a2, a3⟩ := key ((cycAt cs1 p).Depth + 1)
    refine ⟨_, ?_, a1, ?_, a3⟩
    · unfold setDepth
      rw [getElem?_of_lt hc1]
      simp only [hs.same_parent, hp, getElem?_of_lt hp1]
    · rw [a2]; exact HasDepth.child c p _ hc hp hd

theorem setDepths_spec {m : DFSMap} {cs0 : List GenericCycle} {bm : List (BlockT × Nat)}
    {roots : List Nat} (hw : Wf m cs0 bm roots) :
    ∀ (l : List Nat) (S : Nat → Prop) (cs1 : List GenericCycle), SameShape cs0 cs1 →
      (∀ x, S x → HasDepth cs0 x (cycAt cs1 x).Depth) →
      ParentsFirst cs0 S l → (∀ x ∈ l, x < cs0.length) →
      ∃ cs2, setDepths l cs1 = .done cs2 ∧ SameShape cs0 cs2 ∧
        ∀ x, (S x ∨ x ∈ l) → HasDepth cs0 x (cycAt cs2 x).Depth := by
  intro l
  induction l with
  | nil =>
    intro S cs1 hs hS _ _
    refine ⟨cs1, rfl, hs, ?_⟩
    rintro x (hx | hx)
    · exact hS x hx
    · cases hx
  | cons c l ih =>
    intro S cs1 hs hS hpf hval
    obtain ⟨hhead, hrest⟩ := hpf
    have hc := hval c (List.mem_cons_self _ _)
    obtain ⟨cs2, hset, hs2, hd2, hother⟩ := setDepth_spec hw hs hc (by
      rcases hhead with h | ⟨p, hp, hpar⟩
      · exact Or.inl h
      · exact Or.inr ⟨p, hpar, hS p hp⟩)
    obtain ⟨cs3, hsets, hs3, hd3⟩ := ih (fun y => y = c ∨ S y) cs2 hs2 (by
        rintro x (hx | hx)
        · rw [hx]; exact hd2
        · by_cases e : x = c
          · rw [e]; exact hd2
          · rw [hother x e]; exact hS x hx)
      hrest (fun x hx => hval x (List.mem_cons_of_mem _ hx))
    refine ⟨cs3, ?_, hs3, ?_⟩
    · simp [setDepths, hset, hsets]
    · rintro x (hx | hx)
      · exact hd3 x (Or.inl (Or.inr hx))
      · rcases List.mem_cons.1 hx with e | hx
        · exact hd3 x (Or.inl (Or.inl e))
        · exact hd3 x (Or.inr hx)

theorem modifyCycle_parent_none {cs : List GenericCycle} {t : Nat}
    (h : (cycAt cs t).ParentCycle = none) :
    modifyCycle cs t (fun c => { c with ParentCycle := none }) = cs := by
  apply modifyCycle_id
  cases hc : cycAt cs t with
  | mk p e c b dd =>
    rw [hc] at h
    simp only at h
    subst h
    rfl

/-- The final loop of `Compute::run` returns; it changes depth fields only and gives every
cycle below a top-level cycle its depth. -/
theorem fixTopLevel_spec {m : DFSMap} {cs0 : List GenericCycle} {bm : List (BlockT × Nat)}
    {roots : List Nat} (hw : Wf m cs0 bm roots) :
    ∀ (tops : List Nat) (S : Nat → Prop) (cs1 : List GenericCycle), (∀ t ∈ tops, t ∈ roots) →
      SameShape cs0 cs1 → (∀ x, S x → HasDepth cs0 x (cycAt cs1 x).Depth) →
      ∃ cs2, fixTopLevel tops cs1 = .done cs2 ∧ SameShape cs0 cs2 ∧
        ∀ x, (S x ∨ ∃ t ∈ tops, Relation.ReflTransGen (ParentLink cs0) x t) →
          HasDepth cs0 x (cycAt cs2 x).Depth := by
  intro tops
  induction tops with
  | nil =>
    intro S cs1 _ hs hS
    refine ⟨cs1, rfl, hs, ?_⟩
    rintro x (hx | ⟨t, ht, _⟩)
    · exact hS x hx
    · cases ht
  | cons t rest ih =>
    intro S cs1 htops hs hS
    obtain ⟨htl, htp⟩ := (hw.rootsIff t).1 (htops t (List.mem_cons_self _ _))
    have ht1 : t < cs1.length := by rw [hs.1]; exact htl
    have hw1 := hw.sameShape hs
    obtain ⟨l, hdf, hlt, hpf, hcov⟩ := hw1.depthFirst_spec (cs1.length + 1) t ht1 (by omega)
    have hpf0 : ParentsFirst cs0 S (t :: l) := by
      refine ⟨Or.inl htp, ?_⟩
      exact ParentsFirst.mono l _ _ (fun y hy => Or.inl hy) (ParentsFirst.congr hs l _ hpf)
    obtain ⟨cs2, hset, hs2, hd2⟩ := setDepths_spec hw (t :: l) S cs1 hs hS hpf0 (by
      intro x hx
      rcases List.mem_cons.1 hx with e | hx
      · rw [e]; exact htl
      · have := hlt x hx; omega)
    obtain ⟨cs3, hfix, hs3, hd3⟩ := ih (fun x => S x ∨ x ∈ t :: l) cs2
      (fun x hx => htops x (List.mem_cons_of_mem _ hx)) hs2 hd2
    refine ⟨cs3, ?_, hs3, ?_⟩
    · unfold fixTopLevel
      rw [getElem?_of_lt ht1]
      simp only
      rw [modifyCycle_parent_none (by rw [hs.same_parent]; exact htp)]
      unfold updateDepth depth_first
      simp [hdf, hset, hfix]
    · rintro x (hx | ⟨t1, ht1m, hch⟩)
      · exact hd3 x (Or.inl (Or.inl hx))
      · rcases List.mem_cons.1 ht1m with e | hmem
        · subst e
          rw [← hs.link] at hch
          exact hd3 x (Or.inl (Or.inr (hcov x hch)))
        · exact hd3 x (Or.inr ⟨t1, hmem, hch⟩)

theorem Wf.empty (m : DFSMap) : Wf m [] [] [] := by
  constructor <;> simp

theorem DfsPost.reverse_pairwise {g : Graph} {entry : BlockT} {d : DfsState}
    (h : DfsPost g entry d) :
    d.BlockPreorder.reverse.Pairwise
      (fun x y => startOf d.BlockDFSInfo y < startOf d.BlockDFSInfo x) := by
  rw [List.pairwise_reverse]
  rw [List.pairwise_iff_getElem]
  intro i j hi hj hij
  have h1 := (h.tables.listed i _ (List.getElem?_eq_getElem hi)).2
  have h2 := (h.tables.listed j _ (List.getElem?_eq_getElem hj)).2
  omega

theorem Wf.has_root {m : DFSMap} {cs : List GenericCycle} {bm : List (BlockT × Nat)}
    {roots : List Nat} (h : Wf m cs bm roots) {c : Nat} (hc : c < cs.length) :
    ∃ t ∈ roots, Relation.ReflTransGen (ParentLink cs) c t := by
  obtain ⟨t, _, htl, htp, hch⟩ := h.topLevelWalk_spec cs.length c hc (by omega)
  exact ⟨t, (h.rootsIff t).2 ⟨htl, htp⟩, hch⟩

/-- `Compute::run` on an empty forest returns, and its result is a well-formed forest with
consistent depths. -/
theorem run_spec (g : Graph) :
    ∃ d info1 info, dfs g g.entry = .done d ∧ run g GenericCycleInfo.empty = .done info ∧
      RunResult g d info1 info := by
  obtain ⟨d, hdfs, hp⟩ := dfs_post g g.entry
  obtain ⟨info1, hloop, hchain, hforest⟩ :=
    headerLoop_spec hp d.BlockPreorder.reverse [] GenericCycleInfo.empty
      ⟨Wf.empty _, rfl⟩
      (fun c hc => (hp.visited_iff_mem c).2 (List.mem_reverse.1 hc))
      (by simpa using hp.reverse_pairwise)
  obtain ⟨cs2, hfix, hs2, hd2⟩ :=
    fixTopLevel_spec hforest.wf info1.TopLevelCycles (fun _ => False) info1.Cycles
      (fun t ht => ht) (SameShape.shape_refl _) (fun x hx => hx.elim)
  have hdepth : ∀ c, c < info1.Cycles.length → HasDepth info1.Cycles c (cycAt cs2 c).Depth := by
    intro c hc
    obtain ⟨t, ht, hch⟩ := hforest.wf.has_root hc
    exact hd2 c (Or.inr ⟨t, ht, hch⟩)
  refine ⟨d, info1, { info1 with Cycles := cs2 }, hdfs, ?_, ?_⟩
  · unfold run
    simp [hdfs, hloop, hfix]
  · refine ⟨hp, hchain, hs2, rfl, rfl, hforest.wf.sameShape hs2, ?_,
      depthIsChainLength_of_hasDepth hs2 hdepth⟩
    show cs2.map headerOf = _
    rw [map_headerOf_congr hs2.1 hs2.same_header]
    simpa using hforest.hdrs

theorem depth_pos_of_chain {cycles : List GenericCycle} (h : DepthIsChainLength cycles)
    {c : Nat} {cyc : GenericCycle} (hc : cycles[c]? = some cyc) : 1 ≤ cyc.Depth := by
  have := h c cyc hc
  cases hp : cyc.ParentCycle with
  | none => rw [hp] at this; omega
  | some p => rw [hp] at this; obtain ⟨par, _, e⟩ := this; omega

theorem parentLink_depth {cycles : List GenericCycle} (h : DepthIsChainLength cycles)
    {b a : Nat} (hl : ParentLink cycles b a) :
    ∃ cb ca, cycles[b]? = some cb ∧ cycles[a]? = some ca ∧ cb.Depth = ca.Depth + 1 := by
  obtain ⟨cb, hb, hp⟩ := hl
  have := h b cb hb
  rw [hp] at this
  obtain ⟨ca, ha, e⟩ := this
  exact ⟨cb, ca, hb, ha, e⟩

theorem transGen_depth {cycles : List GenericCycle} (h : DepthIsChainLength cycles)
    {b a : Nat} (hl : Relation.TransGen (ParentLink cycles) b a) :
    ∃ cb ca, cycles[b]? = some cb ∧ cycles[a]? = some ca ∧ ca.Depth < cb.Depth := by
  induction hl with
  | single hl =>
    obtain ⟨cb, ca, hb, ha, e⟩ := parentLink_depth h hl
    exact ⟨cb, ca, hb, ha, by omega⟩
  | tail _ hl ih =>
    obtain ⟨cb, cm, hb, hm, e⟩ := ih
    obtain ⟨cm1, ca, hm1, ha, e1⟩ := parentLink_depth h hl
    rw [hm] at hm1
    cases hm1
    exact ⟨cb, ca, hb, ha, by omega⟩

theorem parentLink_functional {cycles : List GenericCycle} {b a a1 : Nat}
    (h1 : ParentLink cycles b a) (h2 : ParentLink cycles b a1) : a = a1 := by
  obtain ⟨c1, hc1, hp1⟩ := h1
  obtain ⟨c2, hc2, hp2⟩ := h2
  rw [hc1] at hc2
  cases hc2
  rw [hp1] at hp2
  exact Option.some.inj hp2

/-- Two ancestors of one cycle that have the same depth are the same cycle. -/
theorem ancestor_unique {cycles : List GenericCycle} (h : DepthIsChainLength cycles)
    {b x y : Nat} {cx cy : GenericCycle}
    (hx : Relation.ReflTransGen (ParentLink cycles) b x)
    (hy : Relation.ReflTransGen (ParentLink cycles) b y)
    (hcx : cycles[x]? = some cx) (hcy : cycles[y]? = some cy) (hd : cx.Depth = cy.Depth) :
    x = y := by
  induction hx using Relation.ReflTransGen.head_induction_on with
  | refl =>
    rcases Relation.reflTransGen_iff_eq_or_transGen.1 hy with e | t
    · exact e.symm
    · obtain ⟨cb, ca, hb, ha, lt⟩ := transGen_depth h t
      rw [hcx] at hb; rw [hcy] at ha
      cases hb; cases ha
      omega
  | head hl hrest ih =>
    rename_i b0 m
    rcases Relation.ReflTransGen.cases_head hy with e | ⟨m1, hl1, hrest1⟩
    · -- y = b0, but x is a proper ancestor of b0
      subst e
      have t : Relation.TransGen (ParentLink cycles) b0 x :=
        Relation.TransGen.head' hl hrest
      obtain ⟨cb, ca, hb, ha, lt⟩ := transGen_depth h t
      rw [hcy] at hb; rw [hcx] at ha
      cases hb; cases ha
      omega
    · have e := parentLink_functional hl hl1
      subst e
      exact ih hrest1

theorem exists_depth_below {cycles : List GenericCycle} (h : DepthIsChainLength cycles) :
    ∀ (k : Nat) (c : Nat) (cyc : GenericCycle), cycles[c]? = some cyc →
      ∀ j, 1 ≤ j → j + k = cyc.Depth →
        ∃ (c1 : Nat) (cyc1 : GenericCycle), cycles[c1]? = some cyc1 ∧ cyc1.Depth = j := by
  intro k
  induction k with
  | zero => intro c cyc hc j _ hj; exact ⟨c, cyc, hc, by omega⟩
  | succ k ih =>
    intro c cyc hc j hj1 hj
    have hcon := h c cyc hc
    cases hp : cyc.ParentCycle with
    | none => rw [hp] at hcon; omega
    | some p =>
      rw [hp] at hcon
      obtain ⟨par, hpar, e⟩ := hcon
      exact ih p par hpar j hj1 (by omega)

theorem depth_le_length {cycles : List GenericCycle} (h : DepthIsChainLength cycles)
    {c : Nat} {cyc : GenericCycle} (hc : cycles[c]? = some cyc) :
    cyc.Depth ≤ cycles.length := by
  have hsub : Finset.Icc 1 cyc.Depth ⊆
      (Finset.range cycles.length).image (fun i => (cycles.getD i GenericCycle.fresh).Depth) := by
    intro j hj
    rw [Finset.mem_Icc] at hj
    obtain ⟨c1, cyc1, hc1, e⟩ := exists_depth_below h (cyc.Depth - j) c cyc hc j hj.1 (by omega)
    rw [Finset.mem_image]
    refine ⟨c1, ?_, ?_⟩
    · rw [Finset.mem_range]
      exact (List.getElem?_eq_some_iff.1 hc1).1
    · simp [List.getD_eq_getElem?_getD, hc1, e]
  have h1 := Finset.card_le_card hsub
  have h2 : ((Finset.range cycles.length).image
      (fun i => (cycles.getD i GenericCycle.fresh).Depth)).card ≤ cycles.length := by
    calc _ ≤ (Finset.range cycles.length).card := Finset.card_image_le
      _ = cycles.length := Finset.card_range _
  simp only [Nat.card_Icc, Nat.add_sub_cancel] at h1
  omega

/-- The loop of `contains` climbs from `c` to its ancestor of depth `d`. -/
theorem containsWalk_climbs {cycles : List GenericCycle} (h : DepthIsChainLength cycles)
    (d : Nat) (hd : 1 ≤ d) :
    ∀ (k fuel c : Nat) (cyc : GenericCycle), cycles[c]? = some cyc → cyc.Depth = d + k →
      k < fuel →
      ∃ c1 cyc1, containsWalk cycles d fuel (some c) = .done (some c1) ∧
        cycles[c1]? = some cyc1 ∧ cyc1.Depth = d ∧
        Relation.ReflTransGen (ParentLink cycles) c c1 := by
  intro k
  induction k with
  | zero =>
    intro fuel c cyc hc hdep hf
    obtain ⟨f, rfl⟩ : ∃ f, fuel = f + 1 := ⟨fuel - 1, by omega⟩
    refine ⟨c, cyc, ?_, hc, by omega, Relation.ReflTransGen.refl⟩
    simp [containsWalk, hc, hdep]
  | succ k ih =>
    intro fuel c cyc hc hdep hf
    obtain ⟨f, rfl⟩ : ∃ f, fuel = f + 1 := ⟨fuel - 1, by omega⟩
    have hcon := h c cyc hc
    cases hp : cyc.ParentCycle with
    | none => rw [hp] at hcon; omega
    | some p =>
      rw [hp] at hcon
      obtain ⟨par, hpar, e⟩ := hcon
      obtain ⟨c1, cyc1, hw, hc1, hd1, hr⟩ := ih f p par hpar (by omega) (by omega)
      refine ⟨c1, cyc1, ?_, hc1, hd1, Relation.ReflTransGen.head ⟨cyc, hc, hp⟩ hr⟩
      have : d < cyc.Depth := by omega
      simp [containsWalk, hc, this, hp, hw]

/-- With depths that are the lengths of the parent chains, `contains` returns, and returns
true exactly for the cycle itself and its ancestors along the parent links. -/
theorem contains_chain_spec (cycles : List GenericCycle)
    (h : DepthIsChainLength cycles) (A B : Nat)
    (hA : A < cycles.length) (hB : B < cycles.length) :
    (∃ r, contains cycles A (some B) = .done r ∧
      (r = true ↔ (A = B ∨ Relation.TransGen (ParentLink cycles) B A))) ∧
    contains cycles A none = .done false := by
  obtain ⟨ca, hca⟩ : ∃ ca, cycles[A]? = some ca := ⟨cycles[A], List.getElem?_eq_getElem hA⟩
  obtain ⟨cb, hcb⟩ : ∃ cb, cycles[B]? = some cb := ⟨cycles[B], List.getElem?_eq_getElem hB⟩
  refine ⟨?_, by simp [contains, hca]⟩
  by_cases hgt : ca.Depth > cb.Depth
  · refine ⟨false, by simp [contains, hca, hcb, hgt], ?_⟩
    constructor
    · intro hf; cases hf
    · rintro (e | t)
      · subst e; rw [hca] at hcb; cases hcb; omega
      · obtain ⟨cb1, ca1, hb1, ha1, lt⟩ := transGen_depth h t
        rw [hcb] at hb1; rw [hca] at ha1
        cases hb1; cases ha1
        omega
  · have hle : cb.Depth ≤ cycles.length := depth_le_length h hcb
    obtain ⟨c1, cyc1, hw, hc1, hd1, hr⟩ :=
      containsWalk_climbs h ca.Depth (depth_pos_of_chain h hca) (cb.Depth - ca.Depth)
        (cycles.length + 1) B cb hcb (by omega) (by omega)
    refine ⟨decide (some A = some c1), by simp [contains, hca, hcb, hgt, hw], ?_⟩
    constructor
    · intro hdec
      have e : A = c1 := by simpa using hdec
      subst e
      rcases Relation.reflTransGen_iff_eq_or_transGen.1 hr with e | t
      · exact Or.inl e
      · exact Or.inr t
    · intro hor
      have hanc : Relation.ReflTransGen (ParentLink cycles) B A := by
        rcases hor with e | t
        · subst e; exact Relation.ReflTransGen.refl
        · exact t.to_reflTransGen
      have e : A = c1 := ancestor_unique h hanc hr hca hc1 hd1.symm
      simp [e]

/-- C8: in a forest whose depths are the lengths of the parent chains, `A.contains(B)` is
true iff `A` is `B` or is reached from `B` along one or more parent links, and
`A.contains(nullptr)` is false. -/
theorem contains_iff_parent_chain (cycles : List GenericCycle)
    (h : DepthIsChainLength cycles) (A B : Nat)
    (hA : A < cycles.length) (hB : B < cycles.length) :
    (∃ r, contains cycles A (some B) = .done r ∧
      (r = true ↔ (A = B ∨ Relation.TransGen (ParentLink cycles) B A))) ∧
    contains cycles A none = .done false :=
  contains_chain_spec cycles h A B hA hB

/-- C9: if `A.contains(B)` returns true and `A` is not `B`, the depth of `A` is smaller
than the depth of `B`. -/
theorem contains_depth_lt (cycles : List GenericCycle) (A B : Nat) (cA cB : GenericCycle)
    (hA : cycles[A]? = some cA) (hB : cycles[B]? = some cB)
    (h : contains cycles A (some B) = .done true) (hne : A ≠ B) :
    cA.Depth < cB.Depth := by
  by_cases hgt : cA.Depth > cB.Depth
  · simp [contains, hA, hB, hgt] at h
  · by_cases heq : cA.Depth = cB.Depth
    · have hlt : ¬ cA.Depth < cB.Depth := by omega
      simp [contains, hA, hB, hgt, containsWalk, hlt] at h
      exact absurd h hne
    · omega

theorem nestedPair_chain : DepthIsChainLength nestedPair := by
  intro c cyc hc
  match c, hc with
  | 0, hc => cases hc; exact ⟨_, rfl, rfl⟩
  | 1, hc => cases hc; rfl
  | n + 2, hc => simp [nestedPair] at hc

theorem contains_iff_parent_chain_witness :
    DepthIsChainLength nestedPair ∧
    ((∃ r, contains nestedPair 1 (some 0) = .done r ∧
      (r = true ↔ (1 = 0 ∨ Relation.TransGen (ParentLink nestedPair) 0 1))) ∧
    contains nestedPair 1 none = .done false) :=
  ⟨nestedPair_chain,
   contains_iff_parent_chain nestedPair nestedPair_chain 1 0 (by decide) (by decide)⟩

theorem contains_depth_lt_witness :
    contains nestedPair 1 (some 0) = .done true ∧ (1 : Nat) < 2 :=
  ⟨by decide,
   contains_depth_lt nestedPair 1 0 _ _ rfl rfl (by decide) (by decide)⟩

theorem checkAll_true {α : Type} (f : α → Outcome Bool) :
    ∀ l : List α, (∀ a ∈ l, f a = .done true) → checkAll f l = .done true := by
  intro l
  induction l with
  | nil => intro _; rfl
  | cons a rest ih =>
    intro h
    simp [checkAll, h a (List.mem_cons_self _ _),
      ih (fun x hx => h x (List.mem_cons_of_mem _ hx))]

theorem contains_of_chain {cs : List GenericCycle} (hd : DepthIsChainLength cs) {A B : Nat}
    (hA : A < cs.length) (hB : B < cs.length)
    (hch : Relation.ReflTransGen (ParentLink cs) B A) :
    contains cs A (some B) = .done true := by
  obtain ⟨⟨r, hr, hiff⟩, _⟩ := contains_chain_spec cs hd A B hA hB
  have : r = true := by
    apply hiff.2
    rcases Relation.reflTransGen_iff_eq_or_transGen.1 hch with e | t
    · exact Or.inl e
    · exact Or.inr t
  rw [hr, this]

section validate

variable {m : DFSMap} {info : GenericCycleInfo}

theorem checkBlocks_true (hw : Wf m info.Cycles info.BlockMap info.TopLevelCycles)
    (hd : DepthIsChainLength info.Cycles) {c : Nat} (hc : c < info.Cycles.length) :
    ∀ (l seen : List BlockT), l.Nodup → (∀ b ∈ l, b ∉ seen) →
      (∀ b ∈ l, b ∈ (cycAt info.Cycles c).Blocks) →
      checkBlocks info c l seen = .done true := by
  intro l
  induction l with
  | nil => intro _ _ _ _; rfl
  | cons b rest ih =>
    intro seen hnd hdis hsub
    rw [List.nodup_cons] at hnd
    obtain ⟨c0, hf, hch⟩ := hw.mapInner c hc b (hsub b (List.mem_cons_self _ _))
    have hc0 := (hw.mapValid _ (mapFind_mem hf)).1
    have hcont := contains_of_chain hd hc hc0 hch
    have hseen : seen.contains b = false := by
      simpa using hdis b (List.mem_cons_self _ _)
    simp only [checkBlocks, hf, hcont, Outcome.bind_done, Bool.not_true, Bool.false_eq_true,
      if_false, hseen]
    apply ih (b :: seen) hnd.2
    · intro x hx hx1
      rcases List.mem_cons.1 hx1 with e | h1
      · subst e; exact hnd.1 hx
      · exact hdis x (List.mem_cons_of_mem _ hx) h1
    · intro x hx; exact hsub x (List.mem_cons_of_mem _ hx)

theorem checkEntries_true (cyc : GenericCycle) :
    ∀ (l seen : List BlockT), l.Nodup → (∀ b ∈ l, b ∉ seen) → (∀ b ∈ l, b ∈ cyc.Blocks) →
      checkEntries cyc l seen = true := by
  intro l
  induction l with
  | nil => intro _ _ _ _; rfl
  | cons b rest ih =>
    intro seen hnd hdis hsub
    rw [List.nodup_cons] at hnd
    have hseen : seen.contains b = false := by
      simpa using hdis b (List.mem_cons_self _ _)
    have hin : cyc.Blocks.contains b = true := by
      simpa using hsub b (List.mem_cons_self _ _)
    simp only [checkEntries, hseen, hin, Bool.false_eq_true, if_false, Bool.not_true]
    apply ih (b :: seen) hnd.2
    · intro x hx hx1
      rcases List.mem_cons.1 hx1 with e | h1
      · subst e; exact hnd.1 hx
      · exact hdis x (List.mem_cons_of_mem _ hx) h1
    · intro x hx; exact hsub x (List.mem_cons_of_mem _ hx)

theorem checkChildren_true (cs : List GenericCycle) (cyc : GenericCycle) (D : Nat)
    (hD : cyc.Depth < D) :
    ∀ (l : List Nat) (cd : Nat), (∀ ch ∈ l, ch < cs.length ∧ (cycAt cs ch).Depth = D) →
      (cd = 0 ∨ cd = D) → checkChildren cs cyc l cd = .done true := by
  intro l
  induction l with
  | nil => intro _ _ _; rfl
  | cons ch rest ih =>
    intro cd hall hcd
    obtain ⟨hlt, hdep⟩ := hall ch (List.mem_cons_self _ _)
    have hgt : (cycAt cs ch).Depth > cyc.Depth := by omega
    simp only [checkChildren, getElem?_of_lt hlt, hgt, decide_True, Bool.not_true,
      Bool.false_eq_true, if_false]
    rcases hcd with h0 | hcdD
    · simp only [h0, if_true]
      exact ih _ (fun x hx => hall x (List.mem_cons_of_mem _ hx)) (Or.inr hdep)
    · by_cases h0 : cd = 0
      · simp only [h0, if_true]
        exact ih _ (fun x hx => hall x (List.mem_cons_of_mem _ hx)) (Or.inr hdep)
      · subst hcdD
        simp only [h0, if_false, hdep, if_true]
        exact ih _ (fun x hx => hall x (List.mem_cons_of_mem _ hx)) (Or.inr rfl)

theorem child_depth {cs : List GenericCycle} (hd : DepthIsChainLength cs) {ch p : Nat}
    (hch : ch < cs.length) (hpar : (cycAt cs ch).ParentCycle = some p) :
    (cycAt cs ch).Depth = (cycAt cs p).Depth + 1 := by
  have := hd ch (cycAt cs ch) (getElem?_of_lt hch)
  rw [hpar] at this
  obtain ⟨par, h1, h2⟩ := this
  rw [cycAt_of_getElem? h1]; exact h2

theorem checkCycle_true (hw : Wf m info.Cycles info.BlockMap info.TopLevelCycles)
    (hd : DepthIsChainLength info.Cycles) {c : Nat} (hc : c < info.Cycles.length) :
    checkCycle info c = .done true := by
  have hblocks := checkBlocks_true hw hd hc _ [] (hw.blocksNodup c hc) (by simp)
    (fun _ hb => hb)
  obtain ⟨re, _, hre, _⟩ := hw.header c hc
  have hne : (cycAt info.Cycles c).Entries.isEmpty = false := by rw [hre]; rfl
  have hent := checkEntries_true (cycAt info.Cycles c) _ [] (hw.entriesNodup c hc) (by simp)
    (hw.entriesSub c hc)
  have hchildren : checkChildren info.Cycles (cycAt info.Cycles c)
      (cycAt info.Cycles c).Children 0 = .done true := by
    apply checkChildren_true info.Cycles _ ((cycAt info.Cycles c).Depth + 1) (by omega)
    · intro ch hch
      obtain ⟨hlt, hpar⟩ := hw.childPar c hc ch hch
      exact ⟨by omega, child_depth hd (by omega) hpar⟩
    · exact Or.inl rfl
  unfold checkCycle
  rw [getElem?_of_lt hc]
  simp only
  cases hp : (cycAt info.Cycles c).ParentCycle with
  | none =>
    simp [hblocks, hne, hent, hchildren]
  | some p =>
    obtain ⟨_, hpl, hmem⟩ := hw.parentLt c hc p hp
    simp [getElem?_of_lt hpl, hmem, hblocks, hne, hent, hchildren]

theorem checkChain_true (hw : Wf m info.Cycles info.BlockMap info.TopLevelCycles)
    (b : BlockT) :
    ∀ (fuel c : Nat), c < info.Cycles.length → info.Cycles.length - c < fuel →
      b ∈ (cycAt info.Cycles c).Blocks →
      checkChain info.Cycles b fuel (some c) = .done true := by
  intro fuel
  induction fuel with
  | zero => intro c _ hf; omega
  | succ fuel ih =>
    intro c hc hf hb
    have hin : (cycAt info.Cycles c).Blocks.contains b = true := by simpa using hb
    simp only [checkChain, getElem?_of_lt hc, hin, if_true]
    cases hp : (cycAt info.Cycles c).ParentCycle with
    | none =>
      obtain ⟨f, rfl⟩ : ∃ f, fuel = f + 1 := ⟨fuel - 1, by omega⟩
      rfl
    | some p =>
      obtain ⟨h1, h2, h3⟩ := hw.parentLt c hc p hp
      exact ih p h2 (by omega) (hw.childBlocks p h2 c h3 b hb)

/-- `validateTree` accepts every well-formed forest with consistent depths. -/
theorem validateTree_true (hw : Wf m info.Cycles info.BlockMap info.TopLevelCycles)
    (hd : DepthIsChainLength info.Cycles) : validateTree info = .done true := by
  unfold validateTree
  rw [checkAll_true]
  · simp only [Outcome.bind_done, Bool.not_true, Bool.false_eq_true, if_false]
    apply checkAll_true
    intro e he
    obtain ⟨h1, h2⟩ := hw.mapValid e he
    exact checkChain_true hw e.1 _ e.2 h1 (by omega) h2
  · intro t ht
    obtain ⟨htl, _⟩ := (hw.rootsIff t).1 ht
    obtain ⟨l, hdf, hlt, _, _⟩ := hw.depthFirst_spec (info.Cycles.length + 1) t htl (by omega)
    unfold depth_first
    rw [hdf]
    simp only [Outcome.bind_done]
    apply checkAll_true
    intro x hx
    apply checkCycle_true hw hd
    rcases List.mem_cons.1 hx with e | hx
    · rw [e]; exact htl
    · have := hlt x hx; omega

end validate

/-- `GenericCycleInfo::compute` on an empty forest returns (its assertion holds), and its
result satisfies `RunResult`. -/
theorem compute_spec (g : Graph) :
    ∃ d info1 info, dfs g g.entry = .done d ∧ compute g GenericCycleInfo.empty = .done info ∧
      validateTree info = .done true ∧ RunResult g d info1 info := by
  obtain ⟨d, info1, info, hdfs, hrun, hres⟩ := run_spec g
  have hval := validateTree_true hres.wf hres.depth
  refine ⟨d, info1, info, hdfs, ?_, hval, hres⟩
  simp [compute, hrun, hval]

theorem Wf.inForest {m : DFSMap} {info : GenericCycleInfo}
    (hw : Wf m info.Cycles info.BlockMap info.TopLevelCycles) {c : Nat}
    (hc : c < info.Cycles.length) : InForest info c := by
  obtain ⟨t, ht, hch⟩ := hw.has_root hc
  refine ⟨t, ht, ?_⟩
  rw [← Relation.reflTransGen_swap]
  refine Relation.ReflTransGen.mono ?_ hch
  intro a b hl
  obtain ⟨_, h2, h3⟩ := hw.link_lt hl
  exact ⟨cycAt info.Cycles b, getElem?_of_lt h2, h3⟩

theorem RunResult.getCycle_spec {g : Graph} {d : DfsState} {info1 info : GenericCycleInfo}
    (h : RunResult g d info1 info) (N : BlockT) :
    (getCycle info N = none ↔
      ∀ (c : Nat) (cyc : GenericCycle), info.Cycles[c]? = some cyc → N ∉ cyc.Blocks) ∧
    (∀ c0, getCycle info N = some c0 →
      ∃ cyc0, info.Cycles[c0]? = some cyc0 ∧ N ∈ cyc0.Blocks ∧
        ∀ (c : Nat) (cyc : GenericCycle), info.Cycles[c]? = some cyc → N ∈ cyc.Blocks →
          contains info.Cycles c (some c0) = .done true) := by
  unfold getCycle
  constructor
  · constructor
    · intro hnone c cyc hc hN
      have hlt := (List.getElem?_eq_some_iff.1 hc).1
      rw [← cycAt_of_getElem? hc] at hN
      obtain ⟨c0, hf, _⟩ := h.wf.mapInner c hlt N hN
      rw [hnone] at hf; cases hf
    · intro hall
      cases hf : mapFind info.BlockMap N with
      | none => rfl
      | some c0 =>
        obtain ⟨h1, h2⟩ := h.wf.mapValid _ (mapFind_mem hf)
        exact absurd h2 (hall c0 _ (getElem?_of_lt h1))
  · intro c0 hf
    obtain ⟨h1, h2⟩ := h.wf.mapValid _ (mapFind_mem hf)
    refine ⟨cycAt info.Cycles c0, getElem?_of_lt h1, h2, ?_⟩
    intro c cyc hc hN
    have hlt := (List.getElem?_eq_some_iff.1 hc).1
    rw [← cycAt_of_getElem? hc] at hN
    obtain ⟨c1, hf1, hch⟩ := h.wf.mapInner c hlt N hN
    rw [hf] at hf1
    cases hf1
    exact contains_of_chain h.depth hlt h1 hch

theorem RunResult.depth_spec {g : Graph} {d : DfsState} {info1 info : GenericCycleInfo}
    (h : RunResult g d info1 info) :
    (∀ t ∈ info.TopLevelCycles, ∃ cyc, info.Cycles[t]? = some cyc ∧
      cyc.ParentCycle = none ∧ cyc.Depth = 1) ∧
    (∀ (c : Nat) (cyc : GenericCycle) (p : Nat), info.Cycles[c]? = some cyc →
      cyc.ParentCycle = some p →
      ∃ par, info.Cycles[p]? = some par ∧ c ∈ par.Children ∧ cyc.Depth = par.Depth + 1) ∧
    (∀ (p : Nat) (par : GenericCycle) (c1 c2 : Nat), info.Cycles[p]? = some par →
      c1 ∈ par.Children → c2 ∈ par.Children →
      ∃ cyc1 cyc2, info.Cycles[c1]? = some cyc1 ∧ info.Cycles[c2]? = some cyc2 ∧
        cyc1.Depth = cyc2.Depth) := by
  refine ⟨?_, ?_, ?_⟩
  · intro t ht
    obtain ⟨h1, h2⟩ := (h.wf.rootsIff t).1 ht
    refine ⟨cycAt info.Cycles t, getElem?_of_lt h1, h2, ?_⟩
    have := h.depth t _ (getElem?_of_lt h1)
    rw [h2] at this
    exact this
  · intro c cyc p hc hp
    have hlt := (List.getElem?_eq_some_iff.1 hc).1
    have e := cycAt_of_getElem? hc
    subst e
    obtain ⟨_, h2, h3⟩ := h.wf.parentLt c hlt p hp
    exact ⟨cycAt info.Cycles p, getElem?_of_lt h2, h3, child_depth h.depth hlt hp⟩
  · intro p par c1 c2 hp h1 h2
    have hlt := (List.getElem?_eq_some_iff.1 hp).1
    have e := cycAt_of_getElem? hp
    subst e
    obtain ⟨a1, a2⟩ := h.wf.childPar p hlt c1 h1
    obtain ⟨b1, b2⟩ := h.wf.childPar p hlt c2 h2
    refine ⟨cycAt info.Cycles c1, cycAt info.Cycles c2, getElem?_of_lt (by omega),
      getElem?_of_lt (by omega), ?_⟩
    rw [child_depth h.depth (by omega) a2, child_depth h.depth (by omega) b2]

theorem predsAreEdges_iff (g : Graph) :
    PredsAreEdges g ↔ ∀ q p, p ∈ predecessors g q → q ∈ successors g p := by
  constructor
  · intro h q p hp
    by_cases hq : q < g.preds.length
    · exact h q (List.mem_range.2 hq) p hp
    · rw [predecessors_of_ge (Nat.le_of_not_lt hq)] at hp; cases hp
  · intro h q _ p hp; exact h q p hp

theorem successors_of_ge {g : Graph} {b : BlockT} (h : g.succs.length ≤ b) :
    successors g b = [] := by
  simp [successors, List.getD_eq_getElem?_getD, List.getElem?_eq_none h]

theorem edgesArePreds_iff (g : Graph) :
    EdgesArePreds g ↔ ∀ p q, q ∈ successors g p → p ∈ predecessors g q := by
  constructor
  · intro h p q hq
    by_cases hp : p < g.succs.length
    · exact h p (List.mem_range.2 hp) q hq
    · rw [successors_of_ge (Nat.le_of_not_lt hp)] at hq; cases hq
  · intro h p _ q hq; exact h p q hq

/-! ### The blocks the depth-first indexer visits -/

theorem DfsPost.visited_succ {g : Graph} {entry : BlockT} {d : DfsState}
    (h : DfsPost g entry d) {a x : BlockT} (ha : Visited d.BlockDFSInfo a)
    (hx : x ∈ successors g a) :
    Visited d.BlockDFSInfo x ∧ startOf d.BlockDFSInfo x ≤ endOf d.BlockDFSInfo a :=
  h.tables.succClosed a ha (h.allClosed a ha) x hx

theorem DfsPost.visited_of_reachable {g : Graph} {entry : BlockT} {d : DfsState}
    (h : DfsPost g entry d) {b : BlockT} (hb : Reachable g entry b) :
    Visited d.BlockDFSInfo b := by
  induction hb with
  | refl => exact h.tables.entryVisited
  | tail _ hstep ih => exact (h.visited_succ ih hstep).1

theorem DfsPost.reachable_of_visited {g : Graph} {entry : BlockT} {d : DfsState}
    (h : DfsPost g entry d) :
    ∀ (n : Nat) (b : BlockT), Visited d.BlockDFSInfo b → startOf d.BlockDFSInfo b ≤ n →
      Reachable g entry b := by
  intro n
  induction n with
  | zero =>
    intro b hb hn
    have := (h.bounds hb).1
    omega
  | succ n ih =>
    intro b hb hn
    by_cases he : b = entry
    · rw [he]; exact Relation.ReflTransGen.refl
    · obtain ⟨p, hpv, hps, hplt, _, _⟩ := h.tables.parent b hb he
      exact Relation.ReflTransGen.tail (ih p hpv (by omega)) hps

theorem DfsPost.visited_iff_reachable {g : Graph} {entry : BlockT} {d : DfsState}
    (h : DfsPost g entry d) (b : BlockT) :
    Visited d.BlockDFSInfo b ↔ Reachable g entry b :=
  ⟨fun hb => h.reachable_of_visited _ b hb (le_refl _), h.visited_of_reachable⟩

theorem DfsPost.entry_start {g : Graph} {entry : BlockT} {d : DfsState}
    (h : DfsPost g entry d) : startOf d.BlockDFSInfo entry = 1 := by
  have hv := h.tables.entryVisited
  obtain ⟨h1, h2⟩ := h.tables.stamp entry hv
  have hlen : 0 < d.BlockPreorder.length := by
    have := (List.getElem?_eq_some_iff.1 h2).1; omega
  have h0 := h.tables.first _ (List.getElem?_eq_getElem hlen)
  have := (h.tables.listed 0 _ (List.getElem?_eq_getElem hlen)).2
  rw [h0] at this
  exact this

/-- The tree path: every block of the DFS subtree of a visited block `H` is reached from `H`
along edges inside that subtree. -/
theorem DfsPost.tree_path {g : Graph} {entry : BlockT} {d : DfsState}
    (h : DfsPost g entry d) {H : BlockT} (hH : Visited d.BlockDFSInfo H) :
    ∀ (n : Nat) (b : BlockT), Anc d.BlockDFSInfo H b → startOf d.BlockDFSInfo b ≤ n →
      Relation.ReflTransGen (StepIn g d.BlockDFSInfo H) H b := by
  intro n
  induction n with
  | zero =>
    intro b hab hn
    have := (h.bounds (h.anc_visited hH hab)).1
    omega
  | succ n ih =>
    intro b hab hn
    by_cases hbH : b = H
    · rw [hbH]
    · have hbv := h.anc_visited hH hab
      have hab' := (anc_iff _ _ _).1 hab
      have hne : startOf d.BlockDFSInfo H ≠ startOf d.BlockDFSInfo b := by
        intro e; exact hbH (h.tables.start_inj hH hbv e).symm
      have hlt : startOf d.BlockDFSInfo H < startOf d.BlockDFSInfo b := by omega
      have hbe : b ≠ entry := by
        intro e
        rw [e, h.entry_start] at hlt
        have := (h.bounds hH).1
        omega
      obtain ⟨p, hpv, hps, hplt, _, hall⟩ := h.tables.parent b hbv hbe
      have hHp : startOf d.BlockDFSInfo H ≤ startOf d.BlockDFSInfo p := by
        rcases hall H hH hlt with h1 | ⟨_, h2⟩
        · exact h1
        · have := (h.bounds hbv).2.1
          omega
      have hap : Anc d.BlockDFSInfo H p := by
        rw [anc_iff]
        refine ⟨hHp, ?_⟩
        rcases Nat.lt_or_ge (startOf d.BlockDFSInfo H) (startOf d.BlockDFSInfo p) with h1 | h1
        · apply h.laminar hH hpv h1
          have := (h.bounds hbv).2.1
          omega
        · have e : H = p := h.tables.start_inj hH hpv (by omega)
          rw [e]
      exact Relation.ReflTransGen.tail (ih p hap (by omega)) ⟨hps, hap, hab⟩

theorem StepIn.lift {g : Graph} {m : DFSMap} {H K : BlockT} (hHK : Anc m H K) {a b : BlockT}
    (h : Relation.ReflTransGen (StepIn g m K) a b) :
    Relation.ReflTransGen (StepIn g m H) a b :=
  Relation.ReflTransGen.mono
    (fun _ _ hs => ⟨hs.1, hHK.trans hs.2.1, hHK.trans hs.2.2⟩) h

theorem hasOutside_iff {g : Graph} {m : DFSMap} {H b : BlockT} :
    hasOutside g m H b = true ↔ ∃ p ∈ predecessors g b, ¬ Anc m H p := by
  unfold hasOutside
  rw [List.any_eq_true]
  constructor
  · rintro ⟨p, hp, h⟩
    refine ⟨p, hp, ?_⟩
    intro ha
    rw [← ancB_iff] at ha
    simp [ha] at h
  · rintro ⟨p, hp, h⟩
    refine ⟨p, hp, ?_⟩
    rw [← ancB_iff] at h
    simpa using h

theorem hasOutside_false {g : Graph} {m : DFSMap} {H b : BlockT}
    (h : ¬ hasOutside g m H b = true) : ∀ p ∈ predecessors g b, Anc m H p := by
  intro p hp
  by_contra hn
  exact h (hasOutside_iff.2 ⟨p, hp, hn⟩)

theorem CycleSem.sem_congr {g : Graph} {m : DFSMap} {cyc cyc1 : GenericCycle}
    (h : CycleSem g m cyc) (hB : cyc1.Blocks = cyc.Blocks) (hE : cyc1.Entries = cyc.Entries) :
    CycleSem g m cyc1 := by
  have hH : headerOf cyc1 = headerOf cyc := by unfold headerOf; rw [hE]
  constructor
  · rw [hB, hH]; exact h.predClosed
  · rw [hB, hH, hE]; exact h.entryIff
  · rw [hB, hH]; exact h.path

/-- The semantic invariant of the cycle under construction survives the growth of the
cycle by the blocks `addB` and the entries `addE`. -/
theorem DrainSem.extend {g : Graph} {m : DFSMap} {H Block : BlockT} {cyc cyc1 : GenericCycle}
    {WL WL1 addB addE : List BlockT}
    (hsem : DrainSem g m cyc (Block :: WL))
    (hH : headerOf cyc = H) (hH1 : headerOf cyc1 = H)
    (hB : cyc1.Blocks = cyc.Blocks ++ addB) (hE : cyc1.Entries = cyc.Entries ++ addE)
    (hEB : ∀ b ∈ cyc.Entries, b ∈ cyc.Blocks) (hHB : H ∈ cyc.Blocks)
    (hsub : ∀ b ∈ cyc.Blocks, Anc m H b) (hBlock : Anc m H Block)
    (ha : ∀ w ∈ WL, w ∈ WL1) (hb : Block ∈ addB) (hc : ∀ b ∈ addB, b ∉ cyc.Blocks)
    (hd : ∀ b ∈ addB, ∀ p ∈ predecessors g b, Anc m H p → p ∈ addB ∨ p ∈ WL1)
    (he : ∀ b ∈ addB, (b ∈ addE ↔ hasOutside g m H b = true))
    (hf : ∀ b ∈ addE, b ∈ addB)
    (hg : PredsAreEdges g → ∀ b ∈ addB, Relation.ReflTransGen (StepIn g m H) b Block)
    (hh : ∀ w ∈ WL1, w ∈ WL ∨ ∃ b ∈ addB, w ∈ predecessors g b) :
    DrainSem g m cyc1 WL1 := by
  constructor
  · intro b hbm p hp hanc
    rw [hH1] at hanc
    rw [hB] at hbm ⊢
    rcases List.mem_append.1 hbm with h1 | h1
    · rcases hsem.predClosed b h1 p hp (by rw [hH]; exact hanc) with h2 | h2
      · exact Or.inl (List.mem_append_left _ h2)
      · rcases List.mem_cons.1 h2 with e | h3
        · rw [e]; exact Or.inl (List.mem_append_right _ hb)
        · exact Or.inr (ha p h3)
    · rcases hd b h1 p hp hanc with h2 | h2
      · exact Or.inl (List.mem_append_right _ h2)
      · exact Or.inr h2
  · intro b hbm
    rw [hH1, hE]
    rw [hB] at hbm
    rcases List.mem_append.1 hbm with h1 | h1
    · have hna : b ∉ addE := fun h2 => hc b (hf b h2) h1
      have := hsem.entryIff b h1
      rw [hH] at this
      rw [List.mem_append]
      constructor
      · rintro (h2 | h2)
        · exact this.1 h2
        · exact absurd h2 hna
      · intro h2; exact Or.inl (this.2 h2)
    · have hnb : b ∉ cyc.Entries := fun h2 => hc b h1 (hEB b h2)
      have hne : b ≠ H := by
        intro e; rw [e] at h1; exact hc H h1 hHB
      rw [List.mem_append]
      constructor
      · rintro (h2 | h2)
        · exact absurd h2 hnb
        · exact Or.inr ((he b h1).1 h2)
      · rintro (h2 | h2)
        · exact absurd h2 hne
        · exact Or.inr ((he b h1).2 h2)
  · intro hpe b hbm
    rw [hH1]
    rw [hB] at hbm
    have hold : ∀ x ∈ cyc.Blocks, Relation.ReflTransGen (StepIn g m H) x H := by
      intro x hx
      have := hsem.path hpe x hx
      rw [hH] at this; exact this
    rcases List.mem_append.1 hbm with h1 | h1
    · exact hold b h1
    · obtain ⟨b0, hb0, hfeed⟩ := hsem.feeds Block (List.mem_cons_self _ _)
      have hedge : b0 ∈ successors g Block := (predsAreEdges_iff g).1 hpe b0 Block hfeed
      exact (hg hpe b h1).trans
        (Relation.ReflTransGen.head ⟨hedge, hBlock, hsub b0 hb0⟩ (hold b0 hb0))
  · intro w hw
    rw [hB]
    rcases hh w hw with h1 | ⟨b, h1, h2⟩
    · obtain ⟨b, h2, h3⟩ := hsem.feeds w (List.mem_cons_of_mem _ h1)
      exact ⟨b, List.mem_append_left _ h2, h3⟩
    · exact ⟨b, List.mem_append_right _ h1, h2⟩

theorem DrainSem.drop {g : Graph} {m : DFSMap} {Block : BlockT} {cyc : GenericCycle}
    {WL : List BlockT} (hsem : DrainSem g m cyc (Block :: WL)) (hb : Block ∈ cyc.Blocks) :
    DrainSem g m cyc WL := by
  constructor
  · intro b hbm p hp hanc
    rcases hsem.predClosed b hbm p hp hanc with h2 | h2
    · exact Or.inl h2
    · rcases List.mem_cons.1 h2 with e | h3
      · rw [e]; exact Or.inl hb
      · exact Or.inr h3
  · exact hsem.entryIff
  · exact hsem.path
  · intro w hw; exact hsem.feeds w (List.mem_cons_of_mem _ hw)

theorem Draining.anc_child {g : Graph} {entry : BlockT} {d : DfsState} (hp : DfsPost g entry d)
    {H : BlockT} {info : GenericCycleInfo} {New : Nat} {Block : BlockT} {WL old : List BlockT}
    (h : Draining d.BlockDFSInfo H info New (Block :: WL) old) {t : Nat}
    (htop : t ∈ info.TopLevelCycles) (hbt : Block ∈ (cycAt info.Cycles t).Blocks) :
    Anc d.BlockDFSInfo H (headerOf (cycAt info.Cycles t)) := by
  obtain ⟨htlt, htl, _⟩ := h.top_lt htop
  have hHv : Visited d.BlockDFSInfo H := by
    rw [← h.header_new.1]; exact h.wf.headerVisited New h.new_lt
  apply hp.anc_of_common hHv (h.wf.headerVisited t htl)
    (h.inside Block (List.mem_cons_self _ _)) (h.wf.subtree t htl Block hbt)
  exact Nat.le_of_lt (h.older _ (h.header_old htlt))

theorem Wf.header_mem {m : DFSMap} {cs : List GenericCycle} {bm : List (BlockT × Nat)}
    {roots : List Nat} (h : Wf m cs bm roots) {c : Nat} (hc : c < cs.length) :
    headerOf (cycAt cs c) ∈ (cycAt cs c).Blocks ∧
      headerOf (cycAt cs c) ∈ (cycAt cs c).Entries := by
  obtain ⟨re, rb, h1, h2⟩ := h.header c hc
  constructor
  · rw [h2]; exact List.mem_cons_self _ _
  · rw [h1]; exact List.mem_cons_self _ _

/-- One iteration of the worklist loop keeps the semantic invariants of the finished cycles
and of the cycle under construction. -/
theorem sem_step {g : Graph} {entry : BlockT} {d : DfsState} (hp : DfsPost g entry d)
    {H : BlockT} {New : Nat} {old : List BlockT}
    {st st1 : GenericCycleInfo × List BlockT}
    (hdr : Draining d.BlockDFSInfo H st.1 New st.2 old)
    (hold : ∀ c, c < New → CycleSem g d.BlockDFSInfo (cycAt st.1.Cycles c))
    (hsem : DrainSem g d.BlockDFSInfo (cycAt st.1.Cycles New) st.2)
    (hs : DrainStep g d.BlockDFSInfo H New st st1) :
    (∀ c, c < New → CycleSem g d.BlockDFSInfo (cycAt st1.1.Cycles c)) ∧
      DrainSem g d.BlockDFSInfo (cycAt st1.1.Cycles New) st1.2 := by
  cases hs with
  | header info WL =>
    simp only at hdr hold hsem ⊢
    refine ⟨hold, hsem.drop ?_⟩
    rw [← hdr.header_new.1]
    exact (hdr.wf.header_mem hdr.new_lt).1
  | known info Block WL _ hb =>
    exact ⟨hold, hsem.drop hb⟩
  | absorb info Block WL t hH htop hbt =>
    simp only at hdr hold hsem ⊢
    have hNew := hdr.new_lt
    obtain ⟨htlt, htl, htp⟩ := hdr.top_lt htop
    have hne : t ≠ New := hdr.top_ne_new htop
    have hg := absorbed_grow g d.BlockDFSInfo H hNew htl hne
    have hotn : (some t : Option Nat) ≠ some New := fun e => hne (Option.some.inj e)
    have hhn := hdr.header_new.1
    obtain ⟨re, _, hre, _⟩ := hdr.wf.header New hNew
    have hhn1 : headerOf (cycAt (absorbed g d.BlockDFSInfo H info.Cycles New t) New) = H := by
      rw [hg.header hotn (by rw [hre]; simp)]; exact hhn
    have hanc := hdr.anc_child hp htop hbt
    have hst := hold t htlt
    have htv := hdr.wf.headerVisited t htl
    constructor
    · intro c hc
      have hcn : c ≠ New := by omega
      apply (hold c hc).sem_congr
      · rw [hg.blocks hotn]; simp [hcn]
      · rw [hg.entries hotn]; simp [hcn]
    · have hBl := hg.blocks hotn New
      have hEn := hg.entries hotn New
      simp only [if_true] at hBl hEn
      have hnotEntry : ∀ b ∈ (cycAt info.Cycles t).Blocks, b ∉ (cycAt info.Cycles t).Entries →
          ∀ p ∈ predecessors g b, Anc d.BlockDFSInfo (headerOf (cycAt info.Cycles t)) p := by
        intro b hb hbe
        apply hasOutside_false
        intro ho
        exact hbe ((hst.entryIff b hb).2 (Or.inr ho))
      apply DrainSem.extend hsem hhn hhn1 hBl hEn (hdr.wf.entriesSub New hNew)
        (by rw [← hhn]; exact (hdr.wf.header_mem hNew).1)
        (by intro b hb; rw [← hhn]; exact hdr.wf.subtree New hNew b hb)
        (hdr.inside Block (List.mem_cons_self _ _))
      · intro w hw
        exact (mem_pushAll g _ H _ _ w).2 (Or.inl hw)
      · exact hbt
      · intro b hb hbn
        exact hne (hdr.wf.roots_disjoint (List.mem_append_left _ htop) hdr.new_root hb hbn)
      · intro b hb p hpp hancp
        by_cases hbe : b ∈ (cycAt info.Cycles t).Entries
        · right
          exact (mem_pushAll g _ H _ _ p).2 (Or.inr ⟨b, hbe, mem_insidePreds.2 ⟨hpp, hancp⟩⟩)
        · left
          exact hst.predClosed b hb p hpp (hnotEntry b hb hbe p hpp)
      · intro b hb
        rw [List.mem_filter]
        constructor
        · intro h1; exact h1.2
        · intro ho
          refine ⟨?_, ho⟩
          by_contra hbe
          obtain ⟨p, hpp, hnp⟩ := hasOutside_iff.1 ho
          exact hnp (hanc.trans (hnotEntry b hb hbe p hpp))
      · intro b hb
        exact hdr.wf.entriesSub t htl b (List.mem_of_mem_filter hb)
      · intro hpe b hb
        have h1 := StepIn.lift hanc (hst.path hpe b hb)
        have h2 := StepIn.lift hanc
          (hp.tree_path htv _ Block (hdr.wf.subtree t htl Block hbt) (le_refl _))
        exact h1.trans h2
      · intro w hw
        rcases (mem_pushAll g _ H _ _ w).1 hw with h1 | ⟨e, he, h1⟩
        · exact Or.inl h1
        · exact Or.inr ⟨e, hdr.wf.entriesSub t htl e he, (mem_insidePreds.1 h1).1⟩
  | fresh info Block WL hH hf =>
    simp only at hdr hold hsem ⊢
    have hNew := hdr.new_lt
    have hg := enlisted_grow g d.BlockDFSInfo H hNew Block
    have hotn : (none : Option Nat) ≠ some New := by simp
    have hhn := hdr.header_new.1
    obtain ⟨re, _, hre, _⟩ := hdr.wf.header New hNew
    have hhn1 : headerOf (cycAt (enlisted g d.BlockDFSInfo H info.Cycles New Block) New) = H := by
      rw [hg.header hotn (by rw [hre]; simp)]; exact hhn
    have hnb : Block ∉ (cycAt info.Cycles New).Blocks := by
      intro hb
      obtain ⟨c1, hf1, _⟩ := hdr.wf.mapInner New hNew Block hb
      rw [hf] at hf1; cases hf1
    constructor
    · intro c hc
      have hcn : c ≠ New := by omega
      apply (hold c hc).sem_congr
      · rw [hg.blocks hotn]; simp [hcn]
      · rw [hg.entries hotn]; simp [hcn]
    · have hBl := hg.blocks hotn New
      have hEn := hg.entries hotn New
      simp only [if_true] at hBl hEn
      apply DrainSem.extend hsem hhn hhn1 hBl hEn (hdr.wf.entriesSub New hNew)
        (by rw [← hhn]; exact (hdr.wf.header_mem hNew).1)
        (by intro b hb; rw [← hhn]; exact hdr.wf.subtree New hNew b hb)
        (hdr.inside Block (List.mem_cons_self _ _))
      · intro w hw; exact List.mem_append_right _ hw
      · exact List.mem_singleton_self _
      · intro b hb
        rw [List.mem_singleton.1 hb]; exact hnb
      · intro b hb p hpp hancp
        rw [List.mem_singleton.1 hb] at hpp
        exact Or.inr (List.mem_append_left _
          (List.mem_reverse.2 (mem_insidePreds.2 ⟨hpp, hancp⟩)))
      · intro b hb
        rw [List.mem_singleton.1 hb]
        by_cases ho : hasOutside g d.BlockDFSInfo H Block = true
        · simp [ho]
        · simp [ho]
      · intro b hb
        split at hb
        · exact hb
        · cases hb
      · intro _ b hb
        rw [List.mem_singleton.1 hb]
      · intro w hw
        rcases List.mem_append.1 hw with h1 | h1
        · exact Or.inr ⟨Block, List.mem_singleton_self _,
            (mem_insidePreds.1 (List.mem_reverse.1 h1)).1⟩
        · exact Or.inl h1

/-- The invariants of the worklist loop hold after any number of its iterations. -/
theorem drain_star {g : Graph} {entry : BlockT} {d : DfsState} (hp : DfsPost g entry d)
    {H : BlockT} {New : Nat} {old : List BlockT}
    {st st1 : GenericCycleInfo × List BlockT}
    (hstar : Relation.ReflTransGen (DrainStep g d.BlockDFSInfo H New) st st1) :
    Draining d.BlockDFSInfo H st.1 New st.2 old →
    (∀ c, c < New → CycleSem g d.BlockDFSInfo (cycAt st.1.Cycles c)) →
    DrainSem g d.BlockDFSInfo (cycAt st.1.Cycles New) st.2 →
    Draining d.BlockDFSInfo H st1.1 New st1.2 old ∧
    (∀ c, c < New → CycleSem g d.BlockDFSInfo (cycAt st1.1.Cycles c)) ∧
    DrainSem g d.BlockDFSInfo (cycAt st1.1.Cycles New) st1.2 := by
  induction hstar using Relation.ReflTransGen.head_induction_on with
  | refl => intro h1 h2 h3; exact ⟨h1, h2, h3⟩
  | head hstep _ ih =>
    intro h1 h2 h3
    obtain ⟨a, b⟩ := sem_step hp h1 h2 h3 hstep
    exact ih (Draining.step hp h1 hstep) a b

/-- When the worklist is empty the cycle under construction is a finished cycle. -/
theorem DrainSem.finish {g : Graph} {m : DFSMap} {cyc : GenericCycle}
    (h : DrainSem g m cyc []) : CycleSem g m cyc := by
  refine ⟨?_, h.entryIff, h.path⟩
  intro b hb p hp hanc
  rcases h.predClosed b hb p hp hanc with h1 | h1
  · exact h1
  · cases h1

/-- The semantic invariant holds for a cycle that has just been created. -/
theorem DrainSem.sem_opened (g : Graph) (m : DFSMap) (H : BlockT) :
    DrainSem g m (newCycle H) (seedWorklist g m H) := by
  have hH : headerOf (newCycle H) = H := rfl
  have hB : (newCycle H).Blocks = [H] := rfl
  have hE : (newCycle H).Entries = [H] := rfl
  constructor
  · intro b hb p hp hanc
    rw [hB, List.mem_singleton] at hb
    rw [hb] at hp
    rw [hH] at hanc
    exact Or.inr (List.mem_reverse.2 (mem_insidePreds.2 ⟨hp, hanc⟩))
  · intro b hb
    rw [hB, List.mem_singleton] at hb
    rw [hE, hH, hb]
    simp
  · intro _ b hb
    rw [hB, List.mem_singleton] at hb
    rw [hH, hb]
  · intro w hw
    refine ⟨H, by rw [hB]; exact List.mem_singleton_self _, ?_⟩
    exact (mem_insidePreds.1 (List.mem_reverse.1 hw)).1

/-- One iteration of the loop over the header candidates keeps the structural and the
semantic invariant of the forest. -/
theorem HeaderStep.step_sem {g : Graph} {entry : BlockT} {d : DfsState}
    (hp : DfsPost g entry d) {info info1 : GenericCycleInfo} {hdrs : List BlockT} {H : BlockT}
    (hf : Forest d.BlockDFSInfo info hdrs) (hv : Visited d.BlockDFSInfo H)
    (hold : ∀ h ∈ hdrs, startOf d.BlockDFSInfo H < startOf d.BlockDFSInfo h)
    (hsem : SemForest g d.BlockDFSInfo info.Cycles)
    (hs : HeaderStep g d.BlockDFSInfo H info info1) :
    Forest d.BlockDFSInfo info1 (hdrs ++ (if hasBack g d.BlockDFSInfo H then [H] else [])) ∧
      SemForest g d.BlockDFSInfo info1.Cycles := by
  cases hs with
  | skip hb =>
    simp only [hb, Bool.false_eq_true, if_false, List.append_nil]
    exact ⟨hf, hsem⟩
  | found mid hb hstar =>
    have hold1 : ∀ c, c < info.Cycles.length →
        startOf d.BlockDFSInfo H < startOf d.BlockDFSInfo (headerOf (cycAt info.Cycles c)) := by
      intro c hc
      apply hold
      rw [← hf.hdrs]
      exact headerOf_mem_map hc
    have hdr : Draining d.BlockDFSInfo H (openedInfo info H) info.Cycles.length
        (seedWorklist g d.BlockDFSInfo H) hdrs := by
      refine ⟨hf.wf.opened hv hold1, by simp [openedInfo], ?_, hold, ?_⟩
      · simp [openedInfo, hf.hdrs, headerOf, newCycle]
      · intro w hw
        exact (mem_insidePreds.1 (List.mem_reverse.1 hw)).2
    have h0 : ∀ c, c < info.Cycles.length →
        CycleSem g d.BlockDFSInfo (cycAt (openedInfo info H).Cycles c) := by
      intro c hc
      have : cycAt (openedInfo info H).Cycles c = cycAt info.Cycles c := by
        simp only [openedInfo]
        exact cycAt_append_left _ hc
      rw [this]
      exact hsem c hc
    have h1 : DrainSem g d.BlockDFSInfo (cycAt (openedInfo info H).Cycles info.Cycles.length)
        (seedWorklist g d.BlockDFSInfo H) := by
      have : cycAt (openedInfo info H).Cycles info.Cycles.length = newCycle H := by
        simp only [openedInfo]
        exact cycAt_append_new _ _
      rw [this]
      exact DrainSem.sem_opened g _ H
    obtain ⟨hdr1, hold2, hnew⟩ := drain_star hp hstar hdr h0 h1
    simp only at hdr1 hold2 hnew
    simp only [hb, if_true]
    refine ⟨⟨hdr1.wf, hdr1.hdrs⟩, ?_⟩
    intro c hc
    have hc : c < mid.Cycles.length := hc
    have hl := hdr1.last
    by_cases hcn : c = info.Cycles.length
    · rw [hcn]; exact hnew.finish
    · exact hold2 c (by omega)

/-- The loop over the header candidates keeps the structural and the semantic invariant of
the forest. -/
theorem HeaderChain.chain_sem {g : Graph} {entry : BlockT} {d : DfsState}
    (hp : DfsPost g entry d) {cands : List BlockT} {info info1 : GenericCycleInfo}
    (hc : HeaderChain g d.BlockDFSInfo cands info info1) :
    ∀ seen : List BlockT,
      Forest d.BlockDFSInfo info (seen.filter (hasBack g d.BlockDFSInfo)) →
      (∀ c ∈ cands, Visited d.BlockDFSInfo c) →
      (seen ++ cands).Pairwise
        (fun x y => startOf d.BlockDFSInfo y < startOf d.BlockDFSInfo x) →
      SemForest g d.BlockDFSInfo info.Cycles →
      SemForest g d.BlockDFSInfo info1.Cycles := by
  induction hc with
  | nil _ => intro _ _ _ _ h; exact h
  | cons H rest info mid info1 hstep _ ih =>
    intro seen hf hv hpw hsem
    have hold : ∀ h ∈ seen.filter (hasBack g d.BlockDFSInfo),
        startOf d.BlockDFSInfo H < startOf d.BlockDFSInfo h := by
      intro h hh
      have h1 := List.mem_of_mem_filter hh
      rw [List.pairwise_append] at hpw
      exact hpw.2.2 h h1 H (List.mem_cons_self _ _)
    obtain ⟨hf1, hsem1⟩ := hstep.step_sem hp hf (hv H (List.mem_cons_self _ _)) hold hsem
    have hf2 : Forest d.BlockDFSInfo mid ((seen ++ [H]).filter (hasBack g d.BlockDFSInfo)) := by
      rw [List.filter_append]
      have : List.filter (hasBack g d.BlockDFSInfo) [H]
          = if hasBack g d.BlockDFSInfo H then [H] else [] := by
        by_cases hb : hasBack g d.BlockDFSInfo H = true
        · simp [hb]
        · simp [hb]
      rw [this]; exact hf1
    exact ih (seen ++ [H]) hf2 (fun c hc => hv c (List.mem_cons_of_mem _ hc))
      (by simpa using hpw) hsem1

/-- Every cycle of the forest that `Compute::run` returns satisfies the semantic
invariant. -/
theorem RunResult.forest_sem {g : Graph} {d : DfsState} {info1 info : GenericCycleInfo}
    (h : RunResult g d info1 info) : SemForest g d.BlockDFSInfo info.Cycles := by
  have h1 : SemForest g d.BlockDFSInfo info1.Cycles :=
    h.chain.chain_sem h.post [] ⟨Wf.empty _, rfl⟩
      (fun c hc => (h.post.visited_iff_mem c).2 (List.mem_reverse.1 hc))
      (by simpa using h.post.reverse_pairwise)
      (fun c hc => by simp [GenericCycleInfo.empty] at hc)
  intro c hc
  have hc1 : c < info1.Cycles.length := by rw [← h.shape.1]; exact hc
  exact (h1 c hc1).sem_congr (h.shape.same_blocks c) (h.shape.same_entries c)

/-! ### The inner loop of `getExitBlocks` -/

theorem scanSuccs_spec (cyc : GenericCycle) (pending : List BlockT) :
    ∀ (E junk : List BlockT),
      ∃ junk1 : List BlockT,
        scanSuccs cyc pending.length (E ++ junk).length (E ++ junk ++ pending) E.length
          = (addExits cyc E pending ++ junk1, (addExits cyc E pending).length) := by
  induction pending with
  | nil =>
    intro E junk
    exact ⟨junk, by simp [scanSuccs, addExits]⟩
  | cons x rest ih =>
    intro E junk
    have hget : (E ++ junk ++ x :: rest)[(E ++ junk).length]? = some x := by
      rw [List.getElem?_append_right (le_refl _)]
      simp
    have htake : (E ++ junk ++ x :: rest).take E.length = E := by
      rw [List.append_assoc, List.take_left]
    simp only [List.length_cons, scanSuccs, hget, htake, containsBlock]
    by_cases hx : cyc.Blocks.contains x || E.contains x
    · have hx1 : (!cyc.Blocks.contains x && !E.contains x) = false := by
        cases h1 : cyc.Blocks.contains x <;> cases h2 : E.contains x <;> simp_all
      obtain ⟨j1, hj⟩ := ih E (junk ++ [x])
      refine ⟨j1, ?_⟩
      have e1 : (E ++ junk).length + 1 = (E ++ (junk ++ [x])).length := by simp; omega
      have e2 : E ++ junk ++ x :: rest = E ++ (junk ++ [x]) ++ rest := by simp
      rw [hx1]
      simp only [Bool.false_eq_true, if_false]
      rw [e1, e2, hj]
      have hx2 : x ∈ cyc.Blocks ∨ x ∈ E := by simpa using hx
      simp [addExits, hx2]
    · have hx1 : (!cyc.Blocks.contains x && !E.contains x) = true := by
        cases h1 : cyc.Blocks.contains x <;> cases h2 : E.contains x <;> simp_all
      rw [hx1]
      simp only [if_true]
      cases junk with
      | nil =>
        obtain ⟨j1, hj⟩ := ih (E ++ [x]) []
        refine ⟨j1, ?_⟩
        have e2 : (E ++ [] ++ x :: rest).set E.length x = E ++ [x] ++ [] ++ rest := by
          simp [List.set_append]
        have e1 : (E ++ ([] : List BlockT)).length + 1 = (E ++ [x] ++ ([] : List BlockT)).length := by
          simp
        have e3 : E.length + 1 = (E ++ [x]).length := by simp
        rw [e2, e1, e3, hj]
        have hx2 : ¬ (x ∈ cyc.Blocks ∨ x ∈ E) := by simpa using hx
        simp [addExits, hx2]
      | cons j js =>
        obtain ⟨j1, hj⟩ := ih (E ++ [x]) (js ++ [x])
        refine ⟨j1, ?_⟩
        have e2 : (E ++ j :: js ++ x :: rest).set E.length x
            = E ++ [x] ++ (js ++ [x]) ++ rest := by
          simp [List.set_append]
        have e1 : (E ++ j :: js).length + 1 = (E ++ [x] ++ (js ++ [x])).length := by
          simp; omega
        have e3 : E.length + 1 = (E ++ [x]).length := by simp
        rw [e2, e1, e3, hj]
        have hx2 : ¬ (x ∈ cyc.Blocks ∨ x ∈ E) := by simpa using hx
        simp [addExits, hx2]

theorem exitLoop_spec (g : Graph) (cyc : GenericCycle) (blocks : List BlockT) :
    ∀ E : List BlockT,
      exitLoop g cyc blocks E E.length = addExits cyc E (blocks.flatMap (successors g)) := by
  induction blocks with
  | nil => intro E; simp [exitLoop, addExits]
  | cons b rest ih =>
    intro E
    obtain ⟨j1, hj⟩ := scanSuccs_spec cyc (successors g b) E []
    simp only [List.append_nil] at hj
    simp only [exitLoop, List.length_append, Nat.add_sub_cancel_left, hj, List.take_left]
    rw [ih]
    simp [addExits, List.foldl_append]

theorem addExits_eq_keepFirst (cyc : GenericCycle) (l : List BlockT) :
    ∀ E : List BlockT, (∀ e ∈ E, cyc.Blocks.contains e = false) →
      addExits cyc E l
        = (l.filter (fun s => !cyc.Blocks.contains s)).foldl
            (fun acc x => if acc.contains x then acc else acc ++ [x]) E := by
  induction l with
  | nil => intro E _; simp [addExits]
  | cons x rest ih =>
    intro E hE
    unfold addExits at ih ⊢
    by_cases hx : cyc.Blocks.contains x = true
    · simp only [List.foldl_cons, hx, Bool.true_or, if_true]
      rw [ih E hE]
      have hx2 : x ∈ cyc.Blocks := by simpa using hx
      simp [List.filter_cons, hx2]
    · have hx0 : cyc.Blocks.contains x = false := by simpa using hx
      simp only [List.foldl_cons, hx0, Bool.false_or]
      rw [List.filter_cons]
      simp only [hx0, Bool.not_false, if_true, List.foldl_cons]
      apply ih
      intro e he
      split at he
      · exact hE e he
      · rcases List.mem_append.1 he with h | h
        · exact hE e h
        · simp at h; subst h; exact hx0

/-- C10: `getExitBlocks` leaves in the buffer the concatenated successor lists of the members
(member order), without the successors that are members, first occurrences only. -/
theorem getExitBlocks_eq_spec (g : Graph) (cyc : GenericCycle) (TmpStorage : List BlockT) :
    getExitBlocks g cyc TmpStorage = exitBlocksSpec g cyc := by
  unfold getExitBlocks exitBlocksSpec keepFirst
  simp only [List.take_zero]
  have h := exitLoop_spec g cyc cyc.Blocks []
  simp only [List.length_nil] at h
  rw [h, addExits_eq_keepFirst cyc _ [] (by simp)]

/-- C1: for every graph (so in particular for every graph whose predecessor lists are
consistent with its successor lists), `compute` on an empty forest returns, and
`validateTree` returns true on the forest it leaves. -/
theorem compute_validates (g : Graph) :
    ∃ info, compute g GenericCycleInfo.empty = .done info ∧
      run g GenericCycleInfo.empty = .done info ∧ validateTree info = .done true := by
  obtain ⟨d, info1, info, hdfs, hrun, hres⟩ := run_spec g
  have hval := validateTree_true hres.wf hres.depth
  exact ⟨info, by simp [compute, hrun, hval], hrun, hval⟩

/-- C2: for every graph and entry block the loop of `Compute::dfs` ends within its budget of
`2 * edges + 2` iterations, and `Compute::run` on an empty forest returns: for every header
candidate the worklist loop ends within its budget of `predecessor entries + 1`
iterations. -/
theorem dfs_run_terminate (g : Graph) (EntryBlock : BlockT) :
    (∃ d, dfsLoop g (2 * edgeCount g + 2) (dfsInit EntryBlock) = .done d ∧
      dfs g EntryBlock = .done d) ∧
    (∃ info, run g GenericCycleInfo.empty = .done info) := by
  obtain ⟨d, hd, _⟩ := dfs_post g EntryBlock
  obtain ⟨_, _, info, _, hrun, _⟩ := run_spec g
  exact ⟨⟨d, hd, hd⟩, info, hrun⟩

/-- C3: after `compute` on an empty forest, `getCycle(N)` is none iff no cycle has `N` among
its members; otherwise it is a cycle that has `N` among its members and that every cycle
with `N` among its members contains.  The cycles of the arena are exactly the cycles of the
forest. -/
theorem getCycle_innermost (g : Graph) :
    ∃ info, compute g GenericCycleInfo.empty = .done info ∧
      (∀ c, InForest info c ↔ c < info.Cycles.length) ∧
      ∀ N : BlockT,
        (getCycle info N = none ↔
          ∀ (c : Nat) (cyc : GenericCycle), info.Cycles[c]? = some cyc → N ∉ cyc.Blocks) ∧
        (∀ c0, getCycle info N = some c0 →
          ∃ cyc0, info.Cycles[c0]? = some cyc0 ∧ N ∈ cyc0.Blocks ∧
            ∀ (c : Nat) (cyc : GenericCycle), info.Cycles[c]? = some cyc → N ∈ cyc.Blocks →
              contains info.Cycles c (some c0) = .done true) := by
  obtain ⟨d, info1, info, _, hc, _, hres⟩ := compute_spec g
  refine ⟨info, hc, ?_, hres.getCycle_spec⟩
  intro c
  constructor
  · rintro ⟨t, ht, hch⟩
    have htl := ((hres.wf.rootsIff t).1 ht).1
    clear ht
    induction hch with
    | refl => exact htl
    | tail _ hl ih =>
      obtain ⟨cyc, h1, h2⟩ := hl
      have hlt := (List.getElem?_eq_some_iff.1 h1).1
      rw [← cycAt_of_getElem? h1] at h2
      have := (hres.wf.childPar _ hlt _ h2).1
      omega
  · exact hres.wf.inForest

/-- C7: after `compute` on an empty forest, every top-level cycle has no parent and depth 1,
every cycle with a parent is listed among the children of that parent and has the parent's
depth plus one, and all children of one cycle have the same depth. -/
theorem depth_assignment (g : Graph) :
    ∃ info, compute g GenericCycleInfo.empty = .done info ∧
      (∀ t ∈ info.TopLevelCycles, ∃ cyc, info.Cycles[t]? = some cyc ∧
        cyc.ParentCycle = none ∧ cyc.Depth = 1) ∧
      (∀ (c : Nat) (cyc : GenericCycle) (p : Nat), info.Cycles[c]? = some cyc →
        cyc.ParentCycle = some p →
        ∃ par, info.Cycles[p]? = some par ∧ c ∈ par.Children ∧ cyc.Depth = par.Depth + 1) ∧
      (∀ (p : Nat) (par : GenericCycle) (c1 c2 : Nat), info.Cycles[p]? = some par →
        c1 ∈ par.Children → c2 ∈ par.Children →
        ∃ cyc1 cyc2, info.Cycles[c1]? = some cyc1 ∧ info.Cycles[c2]? = some cyc2 ∧
          cyc1.Depth = cyc2.Depth) := by
  obtain ⟨d, info1, info, _, hc, _, hres⟩ := compute_spec g
  exact ⟨info, hc, hres.depth_spec⟩

/-- The headers of the cycles of the final forest are pairwise different. -/
theorem RunResult.headers_nodup {g : Graph} {d : DfsState} {info1 info : GenericCycleInfo}
    (h : RunResult g d info1 info) : (info.Cycles.map headerOf).Nodup := by
  rw [h.headers]
  exact (List.nodup_reverse.2 h.post.nodup).filter _

/-- A block is the header of a cycle of the final forest iff it is visited and has a
predecessor inside its DFS subtree. -/
theorem RunResult.mem_headers {g : Graph} {d : DfsState} {info1 info : GenericCycleInfo}
    (h : RunResult g d info1 info) (H : BlockT) :
    H ∈ info.Cycles.map headerOf ↔
      Reachable g g.entry H ∧ ∃ P ∈ predecessors g H,
        startOf d.BlockDFSInfo H ≤ startOf d.BlockDFSInfo P ∧
          endOf d.BlockDFSInfo P ≤ endOf d.BlockDFSInfo H := by
  rw [h.headers, List.mem_filter, List.mem_reverse, ← h.post.visited_iff_mem,
    h.post.visited_iff_reachable]
  unfold hasBack
  rw [List.any_eq_true]
  constructor
  · rintro ⟨h1, P, hP, h2⟩
    exact ⟨h1, P, hP, (anc_iff _ _ _).1 ((ancB_iff _ _ _).1 h2)⟩
  · rintro ⟨h1, P, hP, h2⟩
    exact ⟨h1, P, hP, (ancB_iff _ _ _).2 ((anc_iff _ _ _).2 h2)⟩

/-- The first entry of a cycle of the arena, when there is one, is its header. -/
theorem headerOf_of_head? {cyc : GenericCycle} {H : BlockT}
    (h : cyc.Entries.head? = some H) : headerOf cyc = H := by
  unfold headerOf
  cases he : cyc.Entries with
  | nil => rw [he] at h; cases h
  | cons a l => rw [he] at h; simpa using h

/-- C4: after `compute` on an empty forest, for a graph whose predecessor table agrees with
its successor table, the members of every cycle with header `H` (its first entry) are exactly
the blocks `B` of the DFS subtree of `H` from which `H` is reached along edges between
blocks of the DFS subtree of `H`. -/
theorem members_are_subtree_paths (g : Graph) (hg : EdgesAgree g) :
    ∃ d info, dfs g g.entry = .done d ∧ compute g GenericCycleInfo.empty = .done info ∧
      ∀ (c : Nat) (cyc : GenericCycle), info.Cycles[c]? = some cyc →
        ∃ H, cyc.Entries.head? = some H ∧
          ∀ B, B ∈ cyc.Blocks ↔
            (Anc d.BlockDFSInfo H B ∧
              Relation.ReflTransGen (StepIn g d.BlockDFSInfo H) B H) := by
  obtain ⟨d, info1, info, hdfs, hc, _, hres⟩ := compute_spec g
  refine ⟨d, info, hdfs, hc, ?_⟩
  intro c cyc hcy
  have hlt : c < info.Cycles.length := by
    by_contra hn
    rw [getElem?_of_ge (Nat.le_of_not_lt hn)] at hcy
    cases hcy
  have hat : cycAt info.Cycles c = cyc := cycAt_of_getElem? hcy
  have hsem := hres.forest_sem c hlt
  rw [hat] at hsem
  obtain ⟨re, rb, h1, h2⟩ := hres.wf.header c hlt
  have hsub := hres.wf.subtree c hlt
  have hmem := (hres.wf.header_mem hlt).1
  rw [hat] at h1 h2 hsub hmem
  refine ⟨headerOf cyc, by rw [h1]; rfl, ?_⟩
  intro B
  constructor
  · intro hB
    exact ⟨hsub B hB, hsem.path hg.1 B hB⟩
  · rintro ⟨-, hpath⟩
    induction hpath using Relation.ReflTransGen.head_induction_on with
    | refl => exact hmem
    | head hstep _ ih =>
      exact hsem.predClosed _ ih _ ((edgesArePreds_iff g).1 hg.2 _ _ hstep.1) hstep.2.1

/-- The statement of C4 on the graph with the edges 0 → 1, 1 → 2, 1 → 0 and 2 → 1. -/
theorem members_are_subtree_paths_witness :
    EdgesAgree { entry := 0, succs := [[1], [2, 0], [1]], preds := [[1], [0, 2], [1]] } ∧
    ∃ d info,
      dfs { entry := 0, succs := [[1], [2, 0], [1]], preds := [[1], [0, 2], [1]] } 0
        = .done d ∧
      compute { entry := 0, succs := [[1], [2, 0], [1]], preds := [[1], [0, 2], [1]] }
        GenericCycleInfo.empty = .done info ∧
      ∀ (c : Nat) (cyc : GenericCycle), info.Cycles[c]? = some cyc →
        ∃ H, cyc.Entries.head? = some H ∧
          ∀ B, B ∈ cyc.Blocks ↔
            (Anc d.BlockDFSInfo H B ∧
              Relation.ReflTransGen
                (StepIn { entry := 0, succs := [[1], [2, 0], [1]], preds := [[1], [0, 2], [1]] }
                  d.BlockDFSInfo H) B H) :=
  ⟨by decide, members_are_subtree_paths _ (by decide)⟩

/-- C5: after `compute` on an empty forest, the entries of every cycle start with its
header and are members of the cycle, and a member other than the header is an entry iff it
has a predecessor that is not a member of the cycle. -/
theorem entries_iff_outside_pred (g : Graph) :
    ∃ info, compute g GenericCycleInfo.empty = .done info ∧
      ∀ (c : Nat) (cyc : GenericCycle), info.Cycles[c]? = some cyc →
        ∃ H rest, cyc.Entries = H :: rest ∧ (∀ e ∈ cyc.Entries, e ∈ cyc.Blocks) ∧
          ∀ B ∈ cyc.Blocks, B ≠ H →
            (B ∈ cyc.Entries ↔ ∃ P ∈ predecessors g B, P ∉ cyc.Blocks) := by
  obtain ⟨d, info1, info, _, hc, _, hres⟩ := compute_spec g
  refine ⟨info, hc, ?_⟩
  intro c cyc hcy
  have hlt : c < info.Cycles.length := by
    by_contra hn
    rw [getElem?_of_ge (Nat.le_of_not_lt hn)] at hcy
    cases hcy
  have hat : cycAt info.Cycles c = cyc := cycAt_of_getElem? hcy
  have hsem := hres.forest_sem c hlt
  rw [hat] at hsem
  obtain ⟨re, rb, h1, _⟩ := hres.wf.header c hlt
  have hsub := hres.wf.subtree c hlt
  have hes := hres.wf.entriesSub c hlt
  rw [hat] at h1 hsub hes
  refine ⟨headerOf cyc, re, h1, hes, ?_⟩
  intro B hB hne
  rw [hsem.entryIff B hB, hasOutside_iff]
  constructor
  · rintro (e | ⟨P, hP, hn⟩)
    · exact absurd e hne
    · exact ⟨P, hP, fun hm => hn (hsub P hm)⟩
  · rintro ⟨P, hP, hn⟩
    exact Or.inr ⟨P, hP, fun ha => hn (hsem.predClosed B hB P hP ha)⟩

/-- C6: after `compute` on an empty forest, a block `H` reachable from the entry is the
first entry and first member of a cycle iff it has a predecessor `P` with
`H.Start <= P.Start` and `P.End <= H.End`; two cycles of the forest with the same first
entry are the same cycle; and the number of cycles is the length of every duplicate-free
list of the reachable blocks that have such a predecessor. -/
theorem header_iff_back_pred (g : Graph) :
    ∃ d info, dfs g g.entry = .done d ∧ compute g GenericCycleInfo.empty = .done info ∧
      (∀ H, Reachable g g.entry H →
        ((∃ (c : Nat) (cyc : GenericCycle), info.Cycles[c]? = some cyc ∧
            cyc.Entries.head? = some H ∧ cyc.Blocks.head? = some H) ↔
          ∃ P ∈ predecessors g H,
            startOf d.BlockDFSInfo H ≤ startOf d.BlockDFSInfo P ∧
              endOf d.BlockDFSInfo P ≤ endOf d.BlockDFSInfo H)) ∧
      (∀ (c1 c2 : Nat) (cyc1 cyc2 : GenericCycle) (H : BlockT),
        info.Cycles[c1]? = some cyc1 → info.Cycles[c2]? = some cyc2 →
        cyc1.Entries.head? = some H → cyc2.Entries.head? = some H → c1 = c2) ∧
      (∀ l : List BlockT, l.Nodup →
        (∀ H, H ∈ l ↔ (Reachable g g.entry H ∧ ∃ P ∈ predecessors g H,
          startOf d.BlockDFSInfo H ≤ startOf d.BlockDFSInfo P ∧
            endOf d.BlockDFSInfo P ≤ endOf d.BlockDFSInfo H)) →
        info.Cycles.length = l.length) := by
  obtain ⟨d, info1, info, hdfs, hc, _, hres⟩ := compute_spec g
  refine ⟨d, info, hdfs, hc, ?_, ?_, ?_⟩
  · intro H hr
    constructor
    · rintro ⟨c, cyc, hcy, he, _⟩
      have hm : H ∈ info.Cycles.map headerOf :=
        List.mem_map.2 ⟨cyc, List.getElem?_mem hcy, headerOf_of_head? he⟩
      exact ((hres.mem_headers H).1 hm).2
    · intro hP
      have hm := (hres.mem_headers H).2 ⟨hr, hP⟩
      obtain ⟨cyc, hcm, hh⟩ := List.mem_map.1 hm
      obtain ⟨c, hlt, hcy⟩ := List.getElem_of_mem hcm
      have hcy1 : info.Cycles[c]? = some cyc := by rw [List.getElem?_eq_getElem hlt, hcy]
      have hat : cycAt info.Cycles c = cyc := cycAt_of_getElem? hcy1
      obtain ⟨re, rb, h1, h2⟩ := hres.wf.header c hlt
      rw [hat, hh] at h1 h2
      exact ⟨c, cyc, hcy1, by rw [h1]; rfl, by rw [h2]; rfl⟩
  · intro c1 c2 cyc1 cyc2 H h1 h2 e1 e2
    have hl1 : c1 < info.Cycles.length := by
      by_contra hn
      rw [getElem?_of_ge (Nat.le_of_not_lt hn)] at h1
      cases h1
    have hl2 : c2 < info.Cycles.length := by
      by_contra hn
      rw [getElem?_of_ge (Nat.le_of_not_lt hn)] at h2
      cases h2
    have hn := hres.headers_nodup
    have hm1 : (info.Cycles.map headerOf)[c1]? = some H := by
      rw [List.getElem?_map, h1]; simp [headerOf_of_head? e1]
    have hm2 : (info.Cycles.map headerOf)[c2]? = some H := by
      rw [List.getElem?_map, h2]; simp [headerOf_of_head? e2]
    have hl1m : c1 < (info.Cycles.map headerOf).length := by simpa using hl1
    have hl2m : c2 < (info.Cycles.map headerOf).length := by simpa using hl2
    rw [List.getElem?_eq_getElem hl1m] at hm1
    rw [List.getElem?_eq_getElem hl2m] at hm2
    exact (hn.getElem_inj_iff).1 (by rw [Option.some.inj hm1, Option.some.inj hm2])
  · intro l hl hmem
    have hperm : (info.Cycles.map headerOf).Perm l := by
      rw [List.perm_ext_iff_of_nodup hres.headers_nodup hl]
      intro H
      rw [hres.mem_headers H, hmem H]
    have := hperm.length_eq
    simpa using this

/-! ### Exit blocks -/

theorem addExits_nodup (cyc : GenericCycle) (l : List BlockT) :
    ∀ E : List BlockT, E.Nodup → (addExits cyc E l).Nodup := by
  induction l with
  | nil => intro E h; simpa [addExits] using h
  | cons x rest ih =>
    intro E h
    unfold addExits at ih ⊢
    simp only [List.foldl_cons]
    apply ih
    split
    · exact h
    · rename_i hx
      have hx2 : x ∉ E := by
        intro hm
        apply hx
        simp [hm]
      exact List.nodup_append.2 ⟨h, List.nodup_singleton x, by
        intro a ha hb
        rw [List.mem_singleton] at hb
        exact hx2 (hb ▸ ha)⟩

theorem mem_addExits (cyc : GenericCycle) (l : List BlockT) (x : BlockT) :
    ∀ E : List BlockT, x ∈ addExits cyc E l ↔ x ∈ E ∨ (x ∉ cyc.Blocks ∧ x ∈ l) := by
  induction l with
  | nil => intro E; simp [addExits]
  | cons y rest ih =>
    intro E
    unfold addExits at ih ⊢
    simp only [List.foldl_cons]
    rw [ih]
    by_cases hy : (cyc.Blocks.contains y || E.contains y) = true
    · simp only [hy, if_true]
      have hy2 : y ∈ cyc.Blocks ∨ y ∈ E := by simpa using hy
      constructor
      · rintro (h | ⟨h1, h2⟩)
        · exact Or.inl h
        · exact Or.inr ⟨h1, List.mem_cons_of_mem _ h2⟩
      · rintro (h | ⟨h1, h2⟩)
        · exact Or.inl h
        · rcases List.mem_cons.1 h2 with e | h3
          · rcases hy2 with h4 | h4
            · exact absurd (e ▸ h4) h1
            · exact Or.inl (e ▸ h4)
          · exact Or.inr ⟨h1, h3⟩
    · simp only [hy, if_false]
      have hy2 : ¬ (y ∈ cyc.Blocks ∨ y ∈ E) := by simpa using hy
      constructor
      · rintro (h | ⟨h1, h2⟩)
        · rcases List.mem_append.1 h with h3 | h3
          · exact Or.inl h3
          · rw [List.mem_singleton] at h3
            refine Or.inr ⟨?_, by rw [h3]; exact List.mem_cons_self _ _⟩
            rw [h3]; exact fun hm => hy2 (Or.inl hm)
        · exact Or.inr ⟨h1, List.mem_cons_of_mem _ h2⟩
      · rintro (h | ⟨h1, h2⟩)
        · exact Or.inl (List.mem_append_left _ h)
        · rcases List.mem_cons.1 h2 with e | h3
          · exact Or.inl (List.mem_append_right _ (by rw [e]; exact List.mem_singleton_self _))
          · exact Or.inr ⟨h1, h3⟩

/-- The buffer after `getExitBlocks` is the exit list built from the empty list. -/
theorem getExitBlocks_eq_addExits (g : Graph) (cyc : GenericCycle) (TmpStorage : List BlockT) :
    getExitBlocks g cyc TmpStorage = addExits cyc [] (cyc.Blocks.flatMap (successors g)) := by
  unfold getExitBlocks
  simp only [List.take_zero]
  exact exitLoop_spec g cyc cyc.Blocks []

/-! ### Lists of two elements -/

theorem perm_pair {l : List BlockT} {a b : BlockT} (h : l.Perm [a, b]) :
    l = [a, b] ∨ l = [b, a] := by
  have hlen := h.length_eq
  match l, h, hlen with
  | [x, y], h, _ =>
    have hx : x ∈ [a, b] := h.subset (List.mem_cons_self _ _)
    simp only [List.mem_cons, List.mem_singleton, List.not_mem_nil, or_false] at hx
    rcases hx with e | e
    · subst e
      have h1 := List.Perm.cons_inv h
      have := List.perm_singleton.1 h1
      left; rw [this]
    · subst e
      have h1 : [x, y].Perm [x, a] := h.trans (List.Perm.swap _ _ _)
      have h2 := List.Perm.cons_inv h1
      have := List.perm_singleton.1 h2
      right; rw [this]

/-- C11: the list that `getExitBlocks` leaves in the buffer has no block twice, and a block
is in it iff it is not a member of the cycle and is a successor of a member. -/
theorem getExitBlocks_nodup_mem (g : Graph) (cyc : GenericCycle) (TmpStorage : List BlockT) :
    (getExitBlocks g cyc TmpStorage).Nodup ∧
      ∀ X, X ∈ getExitBlocks g cyc TmpStorage ↔
        (containsBlock cyc X = false ∧ ∃ B ∈ cyc.Blocks, X ∈ successors g B) := by
  rw [getExitBlocks_eq_addExits]
  refine ⟨addExits_nodup cyc _ [] List.nodup_nil, ?_⟩
  intro X
  rw [mem_addExits]
  simp only [List.not_mem_nil, false_or, List.mem_flatMap, containsBlock]
  constructor
  · rintro ⟨h1, h2⟩
    exact ⟨by simpa using h1, h2⟩
  · rintro ⟨h1, h2⟩
    exact ⟨by simpa using h1, h2⟩

/-- C12: the buffer after `getExitBlocks` does not depend on what it held before the
call. -/
theorem getExitBlocks_buffer_independent (g : Graph) (cyc : GenericCycle)
    (Tmp1 Tmp2 : List BlockT) :
    getExitBlocks g cyc Tmp1 = getExitBlocks g cyc Tmp2 := by
  unfold getExitBlocks
  simp only [List.take_zero]

/-- C13: after `compute` on an empty forest, every member of a cycle that has a parent
cycle is a member of the parent. -/
theorem child_blocks_in_parent (g : Graph) :
    ∃ info, compute g GenericCycleInfo.empty = .done info ∧
      ∀ (x : Nat) (X : GenericCycle) (c : Nat), info.Cycles[x]? = some X →
        X.ParentCycle = some c →
        ∃ C, info.Cycles[c]? = some C ∧ ∀ b ∈ X.Blocks, b ∈ C.Blocks := by
  obtain ⟨d, info1, info, _, hc, _, hres⟩ := compute_spec g
  refine ⟨info, hc, ?_⟩
  intro x X c hX hpar
  have hlt : x < info.Cycles.length := by
    by_contra hn
    rw [getElem?_of_ge (Nat.le_of_not_lt hn)] at hX
    cases hX
  have hat : cycAt info.Cycles x = X := cycAt_of_getElem? hX
  obtain ⟨_, hcl, hch⟩ := hres.wf.parentLt x hlt c (by rw [hat]; exact hpar)
  refine ⟨cycAt info.Cycles c, getElem?_of_lt hcl, ?_⟩
  intro b hb
  exact hres.wf.childBlocks c hcl x hch b (by rw [hat]; exact hb)

/-- C14: after `compute` on an empty forest, a cycle is in the top-level list iff it has no
parent; a parentless cycle is in the top-level list once and in no children list; a cycle
with a parent is once in the children list of its parent and in no other children list. -/
theorem single_owner (g : Graph) :
    ∃ info, compute g GenericCycleInfo.empty = .done info ∧
      ∀ (c : Nat) (cyc : GenericCycle), info.Cycles[c]? = some cyc →
        (c ∈ info.TopLevelCycles ↔ cyc.ParentCycle = none) ∧
        (cyc.ParentCycle = none →
          info.TopLevelCycles.count c = 1 ∧
            ∀ (q : Nat) (other : GenericCycle), info.Cycles[q]? = some other →
              c ∉ other.Children) ∧
        (∀ p, cyc.ParentCycle = some p →
          ∃ par, info.Cycles[p]? = some par ∧ par.Children.count c = 1 ∧
            ∀ (q : Nat) (other : GenericCycle), q ≠ p → info.Cycles[q]? = some other →
              c ∉ other.Children) := by
  obtain ⟨d, info1, info, _, hc, _, hres⟩ := compute_spec g
  refine ⟨info, hc, ?_⟩
  intro c cyc hcy
  have hlt : c < info.Cycles.length := by
    by_contra hn
    rw [getElem?_of_ge (Nat.le_of_not_lt hn)] at hcy
    cases hcy
  have hat : cycAt info.Cycles c = cyc := cycAt_of_getElem? hcy
  have hown : ∀ (q : Nat) (other : GenericCycle), info.Cycles[q]? = some other →
      c ∈ other.Children → cyc.ParentCycle = some q := by
    intro q other hq hmem
    have hql : q < info.Cycles.length := by
      by_contra hn
      rw [getElem?_of_ge (Nat.le_of_not_lt hn)] at hq
      cases hq
    have hqa : cycAt info.Cycles q = other := cycAt_of_getElem? hq
    have := (hres.wf.childPar q hql c (by rw [hqa]; exact hmem)).2
    rw [hat] at this
    exact this
  refine ⟨?_, ?_, ?_⟩
  · rw [hres.wf.rootsIff c, hat]
    exact ⟨fun h => h.2, fun h => ⟨hlt, h⟩⟩
  · intro hnone
    refine ⟨?_, ?_⟩
    · apply List.count_eq_one_of_mem hres.wf.rootsNodup
      exact (hres.wf.rootsIff c).2 ⟨hlt, by rw [hat]; exact hnone⟩
    · intro q other hq hmem
      have := hown q other hq hmem
      rw [hnone] at this
      cases this
  · intro p hpar
    obtain ⟨_, hpl, hch⟩ := hres.wf.parentLt c hlt p (by rw [hat]; exact hpar)
    refine ⟨cycAt info.Cycles p, getElem?_of_lt hpl, ?_, ?_⟩
    · exact List.count_eq_one_of_mem (hres.wf.childNodup p hpl) hch
    · intro q other hqp hq hmem
      have := hown q other hq hmem
      rw [hpar] at this
      exact hqp (Option.some.inj this).symm

/-- C20: after `compute` on an empty forest, every member of every cycle is reachable from
the entry block, and a block that is not reachable has no cycle, is in no member list and
no entry list, and is not in the preorder. -/
theorem unreachable_untouched (g : Graph) :
    ∃ d info, dfs g g.entry = .done d ∧ compute g GenericCycleInfo.empty = .done info ∧
      (∀ (c : Nat) (cyc : GenericCycle), info.Cycles[c]? = some cyc →
        ∀ b ∈ cyc.Blocks, Reachable g g.entry b) ∧
      ∀ N, ¬ Reachable g g.entry N →
        getCycle info N = none ∧
        (∀ (c : Nat) (cyc : GenericCycle), info.Cycles[c]? = some cyc →
          N ∉ cyc.Blocks ∧ N ∉ cyc.Entries) ∧
        N ∉ d.BlockPreorder := by
  obtain ⟨d, info1, info, hdfs, hc, _, hres⟩ := compute_spec g
  have hmem : ∀ (c : Nat) (cyc : GenericCycle), info.Cycles[c]? = some cyc →
      ∀ b ∈ cyc.Blocks, Reachable g g.entry b := by
    intro c cyc hcy b hb
    have hlt : c < info.Cycles.length := by
      by_contra hn
      rw [getElem?_of_ge (Nat.le_of_not_lt hn)] at hcy
      cases hcy
    have hat : cycAt info.Cycles c = cyc := cycAt_of_getElem? hcy
    rw [← hres.post.visited_iff_reachable]
    apply hres.post.anc_visited (hres.wf.headerVisited c hlt)
    exact hres.wf.subtree c hlt b (by rw [hat]; exact hb)
  refine ⟨d, info, hdfs, hc, hmem, ?_⟩
  intro N hN
  refine ⟨?_, ?_, ?_⟩
  · unfold getCycle
    cases hf : mapFind info.BlockMap N with
    | none => rfl
    | some c =>
      exfalso
      obtain ⟨hcl, hb⟩ := hres.wf.mapValid _ (mapFind_mem hf)
      exact hN (hmem c _ (getElem?_of_lt hcl) N hb)
  · intro c cyc hcy
    have hlt : c < info.Cycles.length := by
      by_contra hn
      rw [getElem?_of_ge (Nat.le_of_not_lt hn)] at hcy
      cases hcy
    have hat : cycAt info.Cycles c = cyc := cycAt_of_getElem? hcy
    have h1 : N ∉ cyc.Blocks := fun hb => hN (hmem c cyc hcy N hb)
    refine ⟨h1, fun he => h1 ?_⟩
    have := hres.wf.entriesSub c hlt N (by rw [hat]; exact he)
    rw [hat] at this
    exact this
  · rw [← hres.post.visited_iff_mem, hres.post.visited_iff_reachable]
    exact hN

/-- C15: on the single reducible loop, whatever the order of the successors and the
predecessors of A, `compute` on an empty forest returns a forest with exactly one cycle; it
is top-level, its members are A and B, its entry list is [A], its depth is 1 and
`getExitBlocks` on it leaves [C] in the buffer. -/
theorem single_loop_scenario (sA pA TmpStorage : List BlockT)
    (hs : sA.Perm [2, 3]) (hp : pA.Perm [0, 2]) :
    ∃ info cyc, compute (singleLoop sA pA) GenericCycleInfo.empty = .done info ∧
      info.Cycles = [cyc] ∧ info.TopLevelCycles = [0] ∧ cyc.ParentCycle = none ∧
      cyc.Blocks.Perm [1, 2] ∧ cyc.Entries = [1] ∧ cyc.Depth = 1 ∧
      getExitBlocks (singleLoop sA pA) cyc TmpStorage = [3] := by
  have hT : ∀ (g : Graph) (cyc : GenericCycle),
      getExitBlocks g cyc TmpStorage = getExitBlocks g cyc [] := by
    intro g cyc
    unfold getExitBlocks
    simp only [List.take_zero]
  refine ⟨{ Cycles := [{ ParentCycle := none, Entries := [1], Children := [], Blocks := [1, 2], Depth := 1 }], BlockMap := [(1, 0), (2, 0)], TopLevelCycles := [0] },
    { ParentCycle := none, Entries := [1], Children := [], Blocks := [1, 2], Depth := 1 },
    ?_, rfl, rfl, rfl, List.Perm.refl _, rfl, rfl, ?_⟩
  · rcases perm_pair hs with e1 | e1 <;> rcases perm_pair hp with e2 | e2 <;>
      subst e1 <;> subst e2 <;> decide
  · rw [hT]
    rcases perm_pair hs with e1 | e1 <;> rcases perm_pair hp with e2 | e2 <;>
      subst e1 <;> subst e2 <;> decide

/-- The statement of C15 for the successors of A in the order C, B and its predecessors in
the order B, Entry. -/
theorem single_loop_scenario_witness :
    [3, 2].Perm [2, 3] ∧ [2, 0].Perm [0, 2] ∧
    ∃ info cyc, compute (singleLoop [3, 2] [2, 0]) GenericCycleInfo.empty = .done info ∧
      info.Cycles = [cyc] ∧ info.TopLevelCycles = [0] ∧ cyc.ParentCycle = none ∧
      cyc.Blocks.Perm [1, 2] ∧ cyc.Entries = [1] ∧ cyc.Depth = 1 ∧
      getExitBlocks (singleLoop [3, 2] [2, 0]) cyc [7, 7] = [3] :=
  ⟨by decide, by decide, single_loop_scenario [3, 2] [2, 0] [7, 7] (by decide) (by decide)⟩

/-- C16: on the irreducible loop, whatever the order of the successors of Entry and of the
predecessors of P and Q, `compute` on an empty forest returns a forest with exactly one
cycle, whose members are P and Q and whose entries are P and Q. -/
theorem irreducible_loop_scenario (sE pP pQ : List BlockT)
    (hs : sE.Perm [1, 2]) (hp : pP.Perm [0, 2]) (hq : pQ.Perm [0, 1]) :
    ∃ info cyc, compute (irreducibleLoop sE pP pQ) GenericCycleInfo.empty = .done info ∧
      info.Cycles = [cyc] ∧ cyc.Blocks.Perm [1, 2] ∧ cyc.Entries.Perm [1, 2] := by
  rcases perm_pair hs with e1 | e1
  · subst e1
    refine ⟨{ Cycles := [{ ParentCycle := none, Entries := [2, 1], Children := [], Blocks := [2, 1], Depth := 1 }], BlockMap := [(2, 0), (1, 0)], TopLevelCycles := [0] },
      { ParentCycle := none, Entries := [2, 1], Children := [], Blocks := [2, 1], Depth := 1 },
      ?_, rfl, by decide, by decide⟩
    rcases perm_pair hp with e2 | e2 <;> rcases perm_pair hq with e3 | e3 <;>
      subst e2 <;> subst e3 <;> decide
  · subst e1
    refine ⟨{ Cycles := [{ ParentCycle := none, Entries := [1, 2], Children := [], Blocks := [1, 2], Depth := 1 }], BlockMap := [(1, 0), (2, 0)], TopLevelCycles := [0] },
      { ParentCycle := none, Entries := [1, 2], Children := [], Blocks := [1, 2], Depth := 1 },
      ?_, rfl, by decide, by decide⟩
    rcases perm_pair hp with e2 | e2 <;> rcases perm_pair hq with e3 | e3 <;>
      subst e2 <;> subst e3 <;> decide

/-- The statement of C16 for the successors of Entry in the order Q, P and the predecessors
of P and Q in the orders Q, Entry and P, Entry. -/
theorem irreducible_loop_scenario_witness :
    [2, 1].Perm [1, 2] ∧ [2, 0].Perm [0, 2] ∧ [1, 0].Perm [0, 1] ∧
    ∃ info cyc, compute (irreducibleLoop [2, 1] [2, 0] [1, 0]) GenericCycleInfo.empty
        = .done info ∧
      info.Cycles = [cyc] ∧ cyc.Blocks.Perm [1, 2] ∧ cyc.Entries.Perm [1, 2] :=
  ⟨by decide, by decide, by decide,
    irreducible_loop_scenario [2, 1] [2, 0] [1, 0] (by decide) (by decide) (by decide)⟩

/-- C17: on the nested loops, whatever the order of the successors of A and B and of the
predecessors of A, `compute` on an empty forest returns a forest with exactly two cycles:
the outer one is top-level, has the members H, A and B and depth 1; the inner one has the
member list [A], depth 2 and the outer cycle as its parent; `getCycle` gives the inner cycle
for A, the outer cycle for B and none for Exit. -/
theorem nested_loops_scenario (sA sB pA : List BlockT)
    (hsA : sA.Perm [1, 2]) (hsB : sB.Perm [0, 3]) (hpA : pA.Perm [0, 1]) :
    ∃ info inner outer, compute (nestedLoops sA sB pA) GenericCycleInfo.empty = .done info ∧
      info.Cycles = [inner, outer] ∧ info.TopLevelCycles = [1] ∧
      outer.ParentCycle = none ∧ outer.Blocks.Perm [0, 1, 2] ∧ outer.Depth = 1 ∧
      outer.Children = [0] ∧
      inner.ParentCycle = some 1 ∧ inner.Blocks = [1] ∧ inner.Depth = 2 ∧
      getCycle info 1 = some 0 ∧ getCycle info 2 = some 1 ∧ getCycle info 3 = none := by
  refine ⟨{ Cycles := [{ ParentCycle := some 1, Entries := [1], Children := [], Blocks := [1], Depth := 2 }, { ParentCycle := none, Entries := [0], Children := [0], Blocks := [0, 2, 1], Depth := 1 }], BlockMap := [(1, 0), (0, 1), (2, 1)], TopLevelCycles := [1] },
    { ParentCycle := some 1, Entries := [1], Children := [], Blocks := [1], Depth := 2 },
    { ParentCycle := none, Entries := [0], Children := [0], Blocks := [0, 2, 1], Depth := 1 },
    ?_, rfl, rfl, rfl, by decide, rfl, rfl, rfl, rfl, rfl, by decide, by decide, by decide⟩
  rcases perm_pair hsA with e1 | e1 <;> rcases perm_pair hsB with e2 | e2 <;>
    rcases perm_pair hpA with e3 | e3 <;> subst e1 <;> subst e2 <;> subst e3 <;> decide

/-- The statement of C17 for the successors of A in the order B, A, those of B in the order
Exit, H and the predecessors of A in the order A, H. -/
theorem nested_loops_scenario_witness :
    [2, 1].Perm [1, 2] ∧ [3, 0].Perm [0, 3] ∧ [1, 0].Perm [0, 1] ∧
    ∃ info inner outer,
      compute (nestedLoops [2, 1] [3, 0] [1, 0]) GenericCycleInfo.empty = .done info ∧
      info.Cycles = [inner, outer] ∧ info.TopLevelCycles = [1] ∧
      outer.ParentCycle = none ∧ outer.Blocks.Perm [0, 1, 2] ∧ outer.Depth = 1 ∧
      outer.Children = [0] ∧
      inner.ParentCycle = some 1 ∧ inner.Blocks = [1] ∧ inner.Depth = 2 ∧
      getCycle info 1 = some 0 ∧ getCycle info 2 = some 1 ∧ getCycle info 3 = none :=
  ⟨by decide, by decide, by decide,
    nested_loops_scenario [2, 1] [3, 0] [1, 0] (by decide) (by decide) (by decide)⟩

/-- A graph whose visited blocks have no predecessor inside their own DFS subtree gets an
empty forest. -/
theorem RunResult.no_header {g : Graph} {d : DfsState} {info1 info : GenericCycleInfo}
    (h : RunResult g d info1 info)
    (hno : ∀ H, Visited d.BlockDFSInfo H → ∀ P ∈ predecessors g H, ¬ Anc d.BlockDFSInfo H P) :
    info.Cycles = [] := by
  have h1 : d.BlockPreorder.reverse.filter (hasBack g d.BlockDFSInfo) = [] := by
    rw [List.filter_eq_nil_iff]
    intro H hH hb
    unfold hasBack at hb
    rw [List.any_eq_true] at hb
    obtain ⟨P, hP, hanc⟩ := hb
    exact hno H ((h.post.visited_iff_mem H).2 (List.mem_reverse.1 hH)) P hP
      ((ancB_iff _ _ _).1 hanc)
  have h2 := h.headers
  rw [h1] at h2
  exact List.map_eq_nil_iff.1 h2

/-- A forest without cycles has no top-level cycle and maps no block. -/
theorem Wf.of_no_cycle {m : DFSMap} {bm : List (BlockT × Nat)} {roots : List Nat}
    (h : Wf m [] bm roots) : roots = [] ∧ ∀ N, mapFind bm N = none := by
  constructor
  · apply List.eq_nil_iff_forall_not_mem.2
    intro t ht
    have := ((h.rootsIff t).1 ht).1
    simp at this
  · intro N
    cases hf : mapFind bm N with
    | none => rfl
    | some c =>
      have := (h.mapValid _ (mapFind_mem hf)).1
      simp at this

/-- C18: for a graph whose predecessor rows list only sources of edges and in which no edge
P → H between blocks reachable from the entry has the interval of H around the interval of
P, `compute` on an empty forest returns a forest with an empty top-level list in which
`getCycle` is none for every block. -/
theorem no_back_edge_no_cycle (g : Graph) (hg : PredsAreEdges g)
    (hno : ∀ d, dfs g g.entry = .done d → ∀ P H, Reachable g g.entry P →
      Reachable g g.entry H → H ∈ successors g P → ¬ Anc d.BlockDFSInfo H P) :
    ∃ info, compute g GenericCycleInfo.empty = .done info ∧
      info.TopLevelCycles = [] ∧ ∀ N, getCycle info N = none := by
  obtain ⟨d, info1, info, hdfs, hc, _, hres⟩ := compute_spec g
  have hnil : info.Cycles = [] := by
    apply hres.no_header
    intro H hH P hP hanc
    have hPv := hres.post.anc_visited hH hanc
    exact hno d hdfs P H ((hres.post.visited_iff_reachable P).1 hPv)
      ((hres.post.visited_iff_reachable H).1 hH)
      ((predsAreEdges_iff g).1 hg H P hP) hanc
  have hw := hres.wf
  rw [hnil] at hw
  exact ⟨info, hc, hw.of_no_cycle.1, hw.of_no_cycle.2⟩

/-- The statement of C18 on the graph with the single edge 0 → 1. -/
theorem no_back_edge_no_cycle_witness :
    PredsAreEdges oneEdge ∧
    (∀ d, dfs oneEdge oneEdge.entry = .done d → ∀ P H, Reachable oneEdge oneEdge.entry P →
      Reachable oneEdge oneEdge.entry H → H ∈ successors oneEdge P →
      ¬ Anc d.BlockDFSInfo H P) ∧
    ∃ info, compute oneEdge GenericCycleInfo.empty = .done info ∧
      info.TopLevelCycles = [] ∧ ∀ N, getCycle info N = none := by
  have hno : ∀ d, dfs oneEdge oneEdge.entry = .done d → ∀ P H,
      Reachable oneEdge oneEdge.entry P → Reachable oneEdge oneEdge.entry H →
      H ∈ successors oneEdge P → ¬ Anc d.BlockDFSInfo H P := by
    intro d hd P H _ _ hedge hanc
    have key : (match dfs oneEdge oneEdge.entry with
        | .done d => (d.BlockDFSInfo.lookup 1).isAncestorOf (d.BlockDFSInfo.lookup 0)
        | _ => false) = false := by decide
    rw [hd] at key
    have hP : P = 0 ∧ H = 1 := by
      rcases P with _ | _ | P <;> simp [successors, oneEdge] at hedge
      exact ⟨rfl, hedge⟩
    obtain ⟨e1, e2⟩ := hP
    subst e1; subst e2
    have key2 : (d.BlockDFSInfo.lookup 1).isAncestorOf (d.BlockDFSInfo.lookup 0) = false :=
      key
    unfold Anc at hanc
    rw [hanc] at key2
    cases key2
  exact ⟨by decide, hno, no_back_edge_no_cycle oneEdge (by decide) hno⟩

/-- Two cycles of the final forest with the same header are the same cycle. -/
theorem RunResult.header_inj {g : Graph} {d : DfsState} {info1 info : GenericCycleInfo}
    (h : RunResult g d info1 info) {c1 c2 : Nat} (h1 : c1 < info.Cycles.length)
    (h2 : c2 < info.Cycles.length)
    (e : headerOf (cycAt info.Cycles c1) = headerOf (cycAt info.Cycles c2)) : c1 = c2 := by
  have hn := h.headers_nodup
  have hl1 : c1 < (info.Cycles.map headerOf).length := by simpa using h1
  have hl2 : c2 < (info.Cycles.map headerOf).length := by simpa using h2
  have e1 : (info.Cycles.map headerOf)[c1] = headerOf (cycAt info.Cycles c1) := by
    have := getElem?_of_lt h1
    rw [List.getElem?_eq_getElem h1] at this
    rw [List.getElem_map, Option.some.inj this]
  have e2 : (info.Cycles.map headerOf)[c2] = headerOf (cycAt info.Cycles c2) := by
    have := getElem?_of_lt h2
    rw [List.getElem?_eq_getElem h2] at this
    rw [List.getElem_map, Option.some.inj this]
  exact (hn.getElem_inj_iff).1 (by rw [e1, e2, e])

/-- A list without repetition whose head is `a` and whose elements all equal `a` is
`[a]`. -/
theorem eq_singleton_of_all_eq {l rest : List BlockT} {a : BlockT} (h : l = a :: rest)
    (hn : l.Nodup) (hall : ∀ b ∈ l, b = a) : l = [a] := by
  subst h
  cases rest with
  | nil => rfl
  | cons x xs =>
    exfalso
    have hx : x = a := hall x (by simp)
    rw [hx] at hn
    simp at hn

/-- C19: for a graph whose predecessor table agrees with its successor table, a block `N`
reachable from the entry that has the edge N → N and no other predecessor inside its DFS
subtree is the only member and the only entry of a cycle of the forest that `compute`
returns on an empty forest, and `getCycle(N)` is that cycle. -/
theorem self_loop_singleton (g : Graph) (hg : EdgesAgree g) (N : BlockT)
    (hr : Reachable g g.entry N) (hself : N ∈ successors g N)
    (honly : ∀ d, dfs g g.entry = .done d → ∀ P ∈ predecessors g N,
      Anc d.BlockDFSInfo N P → P = N) :
    ∃ info c cyc, compute g GenericCycleInfo.empty = .done info ∧
      info.Cycles[c]? = some cyc ∧ cyc.Blocks = [N] ∧ cyc.Entries = [N] ∧
      getCycle info N = some c := by
  obtain ⟨d, info1, info, hdfs, hc, _, hres⟩ := compute_spec g
  have hpred : N ∈ predecessors g N := (edgesArePreds_iff g).1 hg.2 N N hself
  have hm : N ∈ info.Cycles.map headerOf := by
    rw [hres.mem_headers N]
    exact ⟨hr, N, hpred, le_refl _, le_refl _⟩
  obtain ⟨cyc, hcm, hh⟩ := List.mem_map.1 hm
  obtain ⟨c, hlt, hcy⟩ := List.getElem_of_mem hcm
  have hcy1 : info.Cycles[c]? = some cyc := by rw [List.getElem?_eq_getElem hlt, hcy]
  have hat : cycAt info.Cycles c = cyc := cycAt_of_getElem? hcy1
  have hsem := hres.forest_sem c hlt
  obtain ⟨re, rb, h1, h2⟩ := hres.wf.header c hlt
  have hnd := hres.wf.blocksNodup c hlt
  have hend := hres.wf.entriesNodup c hlt
  have hes := hres.wf.entriesSub c hlt
  rw [hat] at hsem h1 h2 hnd hend hes
  rw [hh] at h1 h2
  have hback : ∀ b, Relation.ReflTransGen (StepIn g d.BlockDFSInfo N) b N → b = N := by
    intro b hpath
    induction hpath using Relation.ReflTransGen.head_induction_on with
    | refl => rfl
    | head hstep _ ih =>
      rw [ih] at hstep
      exact honly d hdfs _ ((edgesArePreds_iff g).1 hg.2 _ _ hstep.1) hstep.2.1
  have hall : ∀ b ∈ cyc.Blocks, b = N := by
    intro b hb
    have hpath := hsem.path hg.1 b hb
    rw [hh] at hpath
    exact hback b hpath
  have hB : cyc.Blocks = [N] := eq_singleton_of_all_eq h2 hnd hall
  have hE : cyc.Entries = [N] :=
    eq_singleton_of_all_eq h1 hend (fun b hb => hall b (hes b hb))
  refine ⟨info, c, cyc, hc, hcy1, hB, hE, ?_⟩
  obtain ⟨c0, hf, hch⟩ := hres.wf.mapInner c hlt N (by rw [hat, hB]; exact List.mem_singleton_self _)
  obtain ⟨hc0, _⟩ := hres.wf.mapValid _ (mapFind_mem hf)
  have hsub := hres.wf.chain_blocks hch
  have hhd : headerOf (cycAt info.Cycles c0) = N := by
    have := hsub _ (hres.wf.header_mem hc0).1
    rw [hat, hB, List.mem_singleton] at this
    exact this
  have : c0 = c := hres.header_inj hc0 hlt (by rw [hhd, hat, hh])
  unfold getCycle
  rw [hf, this]

/-- The statement of C19 for the block 1 of the graph with the edges 0 → 1 and 1 → 1. -/
theorem self_loop_singleton_witness :
    EdgesAgree selfLoop ∧ Reachable selfLoop selfLoop.entry 1 ∧ 1 ∈ successors selfLoop 1 ∧
    (∀ d, dfs selfLoop selfLoop.entry = .done d → ∀ P ∈ predecessors selfLoop 1,
      Anc d.BlockDFSInfo 1 P → P = 1) ∧
    ∃ info c cyc, compute selfLoop GenericCycleInfo.empty = .done info ∧
      info.Cycles[c]? = some cyc ∧ cyc.Blocks = [1] ∧ cyc.Entries = [1] ∧
      getCycle info 1 = some c := by
  have hr : Reachable selfLoop selfLoop.entry 1 :=
    Relation.ReflTransGen.single (by decide)
  have honly : ∀ d, dfs selfLoop selfLoop.entry = .done d → ∀ P ∈ predecessors selfLoop 1,
      Anc d.BlockDFSInfo 1 P → P = 1 := by
    intro d hd P hP hanc
    have key : (match dfs selfLoop selfLoop.entry with
        | .done d => (d.BlockDFSInfo.lookup 1).isAncestorOf (d.BlockDFSInfo.lookup 0)
        | _ => false) = false := by decide
    rw [hd] at key
    have key2 : (d.BlockDFSInfo.lookup 1).isAncestorOf (d.BlockDFSInfo.lookup 0) = false :=
      key
    have hP2 : P = 0 ∨ P = 1 := by simpa [predecessors, selfLoop] using hP
    rcases hP2 with e | e
    · subst e
      unfold Anc at hanc
      rw [hanc] at key2
      cases key2
    · exact e
  exact ⟨by decide, hr, by decide, honly,
    self_loop_singleton selfLoop (by decide) 1 hr (by decide) honly⟩

/-- C21: for every graph and entry block, `Compute::dfs` returns; the preorder list has no
block twice and holds a block iff the block is reached from the entry block along
successor edges, and exactly these blocks have an entry in `BlockDFSInfo`. -/
theorem dfs_visits_reachable (g : Graph) (EntryBlock : BlockT) :
    ∃ d, dfs g EntryBlock = .done d ∧ d.BlockPreorder.Nodup ∧
      (∀ b, b ∈ d.BlockPreorder ↔ Reachable g EntryBlock b) ∧
      (∀ b, d.BlockDFSInfo b ≠ none ↔ Reachable g EntryBlock b) := by
  obtain ⟨d, hd, hp⟩ := dfs_post g EntryBlock
  refine ⟨d, hd, hp.nodup, ?_, ?_⟩
  · intro b
    rw [← hp.visited_iff_mem, hp.visited_iff_reachable]
  · intro b
    exact hp.visited_iff_reachable b

/-- C23: for every forest state, after `clear()` the top-level list is empty and `getCycle`
is none for every block; the state is that of a freshly constructed forest, so `compute`
after `clear()` gives what `compute` gives on a new forest. -/
theorem clear_resets (info : GenericCycleInfo) :
    (clear info).TopLevelCycles = [] ∧ (∀ N, getCycle (clear info) N = none) ∧
      clear info = GenericCycleInfo.empty ∧
      ∀ g, compute g (clear info) = compute g GenericCycleInfo.empty :=
  ⟨rfl, fun _ => rfl, rfl, fun _ => rfl⟩

/-- C24, as amended: `compute` on a forest that holds the result of `compute` for the same
graph and has been cleared gives that result again. -/
theorem recompute_after_clear (g : Graph) :
    ∃ info, compute g GenericCycleInfo.empty = .done info ∧
      compute g (clear info) = .done info := by
  obtain ⟨d, info1, info, _, hc, _, _⟩ := compute_spec g
  exact ⟨info, hc, hc⟩

/-- C24 fails as stated: on the single reducible loop, `compute` on the forest that holds
the result of the first `compute` does not return a forest. -/
theorem recompute_counterexample :
    ∃ info, compute (singleLoop [2, 3] [0, 2]) GenericCycleInfo.empty = .done info ∧
      info.Cycles.length = 1 ∧
      compute (singleLoop [2, 3] [0, 2]) info = .abort ∧
      run (singleLoop [2, 3] [0, 2]) info = .abort :=
  ⟨{ Cycles := [{ ParentCycle := none, Entries := [1], Children := [], Blocks := [1, 2], Depth := 1 }], BlockMap := [(1, 0), (2, 0)], TopLevelCycles := [0] },
    by decide, rfl, by decide, by decide⟩

/-- C25, as amended: after `compute` on an empty forest the top-level list is a
rearrangement of the list of the parentless cycles in the order of their creation. -/
theorem top_level_is_perm (g : Graph) :
    ∃ info, compute g GenericCycleInfo.empty = .done info ∧
      info.TopLevelCycles.Perm
        ((List.range info.Cycles.length).filter
          (fun c => decide ((cycAt info.Cycles c).ParentCycle = none))) := by
  obtain ⟨d, info1, info, _, hc, _, hres⟩ := compute_spec g
  refine ⟨info, hc, ?_⟩
  rw [List.perm_ext_iff_of_nodup hres.wf.rootsNodup
    ((List.nodup_range _).filter _)]
  intro t
  rw [hres.wf.rootsIff t, List.mem_filter, List.mem_range]
  simp

/-- C25 fails as stated: on the graph `fanLoops` the cycle with header 2 is created before
the cycle with header 3 (its header has the larger preorder number), both are top-level,
and the cycle with header 3 comes first in the top-level list. -/
theorem top_level_order_counterexample :
    ∃ d info X Y cx cy, dfs fanLoops fanLoops.entry = .done d ∧
      compute fanLoops GenericCycleInfo.empty = .done info ∧
      info.Cycles[X]? = some cx ∧ info.Cycles[Y]? = some cy ∧
      X ∈ info.TopLevelCycles ∧ Y ∈ info.TopLevelCycles ∧ X < Y ∧
      startOf d.BlockDFSInfo (headerOf cy) < startOf d.BlockDFSInfo (headerOf cx) ∧
      info.TopLevelCycles.indexOf Y < info.TopLevelCycles.indexOf X := by
  have key : (match dfs fanLoops fanLoops.entry with
      | .done d => decide (startOf d.BlockDFSInfo 3 < startOf d.BlockDFSInfo 2)
      | _ => false) = true := by decide
  cases hd : dfs fanLoops fanLoops.entry with
  | done d =>
    rw [hd] at key
    have key2 : startOf d.BlockDFSInfo 3 < startOf d.BlockDFSInfo 2 := of_decide_eq_true key
    exact ⟨d, { Cycles := [{ ParentCycle := some 3, Entries := [1], Children := [], Blocks := [1], Depth := 2 }, { ParentCycle := none, Entries := [2], Children := [], Blocks := [2], Depth := 1 }, { ParentCycle := none, Entries := [3], Children := [], Blocks := [3], Depth := 1 }, { ParentCycle := none, Entries := [0], Children := [0], Blocks := [0, 1], Depth := 1 }], BlockMap := [(1, 0), (2, 1), (3, 2), (0, 3)], TopLevelCycles := [2, 1, 3] },
      1, 2, _, _, rfl, by decide, rfl, rfl, by decide, by decide, by decide, key2, by decide⟩
  | abort => rw [hd] at key; cases key
  | starved => rw [hd] at key; cases key

/-- C28: after `compute` on an empty forest, the header of a cycle with a parent cycle has a
larger discovery stamp than the header of the parent, and its finish stamp is at most that
of the header of the parent. -/
theorem child_header_in_parent_subtree (g : Graph) :
    ∃ d info, dfs g g.entry = .done d ∧ compute g GenericCycleInfo.empty = .done info ∧
      ∀ (x c : Nat) (X C : GenericCycle) (hX hC : BlockT), info.Cycles[x]? = some X →
        X.ParentCycle = some c → info.Cycles[c]? = some C →
        X.Entries.head? = some hX → C.Entries.head? = some hC →
        startOf d.BlockDFSInfo hC < startOf d.BlockDFSInfo hX ∧
          endOf d.BlockDFSInfo hX ≤ endOf d.BlockDFSInfo hC := by
  obtain ⟨d, info1, info, hdfs, hc, _, hres⟩ := compute_spec g
  refine ⟨d, info, hdfs, hc, ?_⟩
  intro x c X C hX hC hx hpar hcc heX heC
  have hxl : x < info.Cycles.length := by
    by_contra hn
    rw [getElem?_of_ge (Nat.le_of_not_lt hn)] at hx
    cases hx
  have hxa : cycAt info.Cycles x = X := cycAt_of_getElem? hx
  have hca : cycAt info.Cycles c = C := cycAt_of_getElem? hcc
  obtain ⟨hlt, hcl, hch⟩ := hres.wf.parentLt x hxl c (by rw [hxa]; exact hpar)
  have h1 : headerOf (cycAt info.Cycles x) = hX := by rw [hxa]; exact headerOf_of_head? heX
  have h2 : headerOf (cycAt info.Cycles c) = hC := by rw [hca]; exact headerOf_of_head? heC
  have hmem := hres.wf.childBlocks c hcl x hch _ (hres.wf.header_mem hxl).1
  have hanc := hres.wf.subtree c hcl _ hmem
  rw [h1, h2] at hanc
  obtain ⟨ha, hb⟩ := (anc_iff _ _ _).1 hanc
  refine ⟨?_, hb⟩
  rcases Nat.lt_or_ge (startOf d.BlockDFSInfo hC) (startOf d.BlockDFSInfo hX) with h | h
  · exact h
  · exfalso
    have e : startOf d.BlockDFSInfo hC = startOf d.BlockDFSInfo hX := by omega
    have hv1 := hres.wf.headerVisited x hxl
    have hv2 := hres.wf.headerVisited c hcl
    rw [h1] at hv1
    rw [h2] at hv2
    have := hres.post.tables.start_inj hv2 hv1 e
    have hxc : x = c := hres.header_inj hxl hcl (by rw [h1, h2, this])
    omega

theorem checkAll_sound {α : Type} (f : α → Outcome Bool) :
    ∀ l : List α, checkAll f l = .done true → ∀ a ∈ l, f a = .done true := by
  intro l
  induction l with
  | nil => intro _ a ha; cases ha
  | cons x rest ih =>
    intro h a ha
    simp only [checkAll] at h
    obtain ⟨ok, h1, h2⟩ := Outcome.bind_eq_done.1 h
    cases ok with
    | false => simp at h2
    | true =>
      simp only [if_true] at h2
      rcases List.mem_cons.1 ha with e | hr
      · rw [e]; exact h1
      · exact ih h2 a hr

theorem dfChildren_sound (cs : List GenericCycle) (fuel : Nat) :
    ∀ (chs : List Nat) (sub : List Nat), dfChildren cs fuel chs = .done sub →
      ∀ ch ∈ chs, ∃ l, depthFirst cs fuel ch = .done l ∧ ∀ x ∈ l, x ∈ sub := by
  intro chs
  induction chs with
  | nil => intro _ _ ch hch; cases hch
  | cons c rest ih =>
    intro sub h ch hch
    rw [dfChildren_cons] at h
    obtain ⟨l, h1, h2⟩ := Outcome.bind_eq_done.1 h
    obtain ⟨ls, h3, h4⟩ := Outcome.bind_eq_done.1 h2
    have h5 : sub = l ++ ls := by
      have := Outcome.done.inj h4
      exact this.symm
    rcases List.mem_cons.1 hch with e | hr
    · rw [e]
      exact ⟨l, h1, fun x hx => by rw [h5]; exact List.mem_append_left _ hx⟩
    · obtain ⟨l1, h6, h7⟩ := ih ls h3 ch hr
      exact ⟨l1, h6, fun x hx => by rw [h5]; exact List.mem_append_right _ (h7 x hx)⟩

/-- A completed walk `depth_first(c)` lists every cycle reached from `c` along `Children`
lists. -/
theorem depthFirst_covers (cs : List GenericCycle) :
    ∀ (fuel c : Nat) (l : List Nat), depthFirst cs fuel c = .done l →
      ∀ c1, Relation.ReflTransGen (ChildLink cs) c c1 → c1 ∈ l := by
  intro fuel
  induction fuel with
  | zero => intro c l h; simp [depthFirst] at h
  | succ fuel ih =>
    intro c l h c1 hreach
    rw [depthFirst_succ] at h
    cases hc : cs[c]? with
    | none => rw [hc] at h; simp at h
    | some cyc =>
      rw [hc] at h
      simp only at h
      obtain ⟨sub, h1, h2⟩ := Outcome.bind_eq_done.1 h
      have hl : l = c :: sub := (Outcome.done.inj h2).symm
      rcases Relation.ReflTransGen.cases_head hreach with e | ⟨ch, hlink, hrest⟩
      · rw [← e, hl]; exact List.mem_cons_self _ _
      · obtain ⟨cyc1, hc1, hmem⟩ := hlink
        rw [hc] at hc1
        cases hc1
        obtain ⟨l1, h3, h4⟩ := dfChildren_sound cs fuel _ sub h1 ch hmem
        rw [hl]
        exact List.mem_cons_of_mem _ (h4 c1 (ih ch l1 h3 c1 hrest))

theorem checkBlocks_sound (info : GenericCycleInfo) (c : Nat) :
    ∀ (blocks seen : List BlockT), checkBlocks info c blocks seen = .done true →
      blocks.Nodup ∧ (∀ b ∈ blocks, b ∉ seen) ∧
        ∀ b ∈ blocks, ∃ m, mapFind info.BlockMap b = some m ∧
          contains info.Cycles c (some m) = .done true := by
  intro blocks
  induction blocks with
  | nil => intro _ _; exact ⟨List.nodup_nil, (fun _ h => by cases h), (fun _ h => by cases h)⟩
  | cons b rest ih =>
    intro seen h
    simp only [checkBlocks] at h
    cases hm : mapFind info.BlockMap b with
    | none => rw [hm] at h; simp at h
    | some m =>
      rw [hm] at h
      simp only at h
      obtain ⟨ok, h1, h2⟩ := Outcome.bind_eq_done.1 h
      cases ok with
      | false => simp at h2
      | true =>
        simp only [Bool.not_true, Bool.false_eq_true, if_false] at h2
        by_cases hbs : b ∈ seen
        · simp [hbs] at h2
        · simp [hbs] at h2
          obtain ⟨hn, hd, hall⟩ := ih (b :: seen) h2
          refine ⟨List.nodup_cons.2 ⟨fun hb => hd b hb (List.mem_cons_self _ _), hn⟩, ?_, ?_⟩
          · intro x hx
            rcases List.mem_cons.1 hx with e | hr
            · rw [e]; exact hbs
            · exact fun hxs => hd x hr (List.mem_cons_of_mem _ hxs)
          · intro x hx
            rcases List.mem_cons.1 hx with e | hr
            · rw [e]; exact ⟨m, hm, h1⟩
            · exact hall x hr

theorem checkEntries_sound (cyc : GenericCycle) :
    ∀ (entries seen : List BlockT), checkEntries cyc entries seen = true →
      entries.Nodup ∧ (∀ e ∈ entries, e ∉ seen) ∧ ∀ e ∈ entries, e ∈ cyc.Blocks := by
  intro entries
  induction entries with
  | nil => intro _ _; exact ⟨List.nodup_nil, (fun _ h => by cases h), (fun _ h => by cases h)⟩
  | cons e rest ih =>
    intro seen h
    simp only [checkEntries] at h
    by_cases hes : e ∈ seen
    · simp [hes] at h
    · by_cases hb : e ∈ cyc.Blocks
      · simp [hes, hb] at h
        obtain ⟨hn, hd, hall⟩ := ih (e :: seen) h
        refine ⟨List.nodup_cons.2 ⟨fun he => hd e he (List.mem_cons_self _ _), hn⟩, ?_, ?_⟩
        · intro x hx
          rcases List.mem_cons.1 hx with e1 | hr
          · rw [e1]; exact hes
          · exact fun hxs => hd x hr (List.mem_cons_of_mem _ hxs)
        · intro x hx
          rcases List.mem_cons.1 hx with e1 | hr
          · rw [e1]; exact hb
          · exact hall x hr
      · simp [hes, hb] at h

theorem checkChildren_sound (cs : List GenericCycle) (cyc : GenericCycle) :
    ∀ (chs : List Nat) (cd : Nat), checkChildren cs cyc chs cd = .done true →
      ∃ d, (cd ≠ 0 → d = cd) ∧
        ∀ ch ∈ chs, ∃ chc, cs[ch]? = some chc ∧ cyc.Depth < chc.Depth ∧ chc.Depth = d := by
  intro chs
  induction chs with
  | nil => intro cd _; exact ⟨cd, fun _ => rfl, fun _ h => by cases h⟩
  | cons ch rest ih =>
    intro cd h
    simp only [checkChildren] at h
    cases hc : cs[ch]? with
    | none => rw [hc] at h; simp at h
    | some chc =>
      rw [hc] at h
      simp only at h
      by_cases hgt : chc.Depth > cyc.Depth
      · simp only [hgt, decide_True, Bool.not_true, Bool.false_eq_true, if_false] at h
        by_cases h0 : cd = 0
        · simp only [h0, if_true] at h
          obtain ⟨d, hd, hall⟩ := ih chc.Depth h
          have hne : chc.Depth ≠ 0 := by omega
          have hdd := hd hne
          refine ⟨d, fun h1 => absurd h0 h1, ?_⟩
          intro x hx
          rcases List.mem_cons.1 hx with e | hr
          · rw [e]; exact ⟨chc, hc, hgt, hdd.symm⟩
          · exact hall x hr
        · simp only [h0, if_false] at h
          by_cases he : cd = chc.Depth
          · simp only [he, if_true] at h
            obtain ⟨d, hd, hall⟩ := ih chc.Depth h
            have hne : chc.Depth ≠ 0 := by omega
            have hdd := hd hne
            refine ⟨d, fun _ => by rw [he]; exact hdd, ?_⟩
            intro x hx
            rcases List.mem_cons.1 hx with e | hr
            · rw [e]; exact ⟨chc, hc, hgt, hdd.symm⟩
            · exact hall x hr
          · simp [he] at h
      · simp [hgt] at h

theorem checkCycle_sound (info : GenericCycleInfo) (c : Nat)
    (h : checkCycle info c = .done true) :
    ∃ cyc, info.Cycles[c]? = some cyc ∧ CycleChecked info c cyc := by
  unfold checkCycle at h
  cases hc : info.Cycles[c]? with
  | none => rw [hc] at h; simp at h
  | some cyc =>
    rw [hc] at h
    simp only at h
    obtain ⟨ok1, _, h2⟩ := Outcome.bind_eq_done.1 h
    cases ok1 with
    | false => simp at h2
    | true =>
      simp only [Bool.not_true, Bool.false_eq_true, if_false] at h2
      obtain ⟨ok2, h3, h4⟩ := Outcome.bind_eq_done.1 h2
      cases ok2 with
      | false => simp at h4
      | true =>
        simp only [Bool.not_true, Bool.false_eq_true, if_false] at h4
        by_cases he : cyc.Entries.isEmpty = true
        · simp [he] at h4
        · simp only [he, if_false] at h4
          by_cases hce : checkEntries cyc cyc.Entries [] = true
          · simp only [hce, Bool.not_true, Bool.false_eq_true, if_false] at h4
            obtain ⟨hbn, _, hbm⟩ := checkBlocks_sound info c _ _ h3
            obtain ⟨hen, _, hes⟩ := checkEntries_sound cyc _ _ hce
            obtain ⟨d, _, hch⟩ := checkChildren_sound info.Cycles cyc _ _ h4
            refine ⟨cyc, rfl, ⟨hbm, hbn, ?_, hen, hes, ?_, ?_⟩⟩
            · intro e; rw [e] at he; simp at he
            · intro ch hm
              obtain ⟨chc, h5, h6, _⟩ := hch ch hm
              exact ⟨chc, h5, h6⟩
            · intro ch1 hm1 ch2 hm2 c1 c2 e1 e2
              obtain ⟨x1, h5, _, h6⟩ := hch ch1 hm1
              obtain ⟨x2, h7, _, h8⟩ := hch ch2 hm2
              rw [e1] at h5; rw [e2] at h7
              cases h5; cases h7
              rw [h6, h8]
          · simp [hce] at h4

theorem checkChain_sound (cs : List GenericCycle) (b : BlockT) :
    ∀ (fuel c : Nat), checkChain cs b fuel (some c) = .done true →
      ∀ a, Relation.ReflTransGen (ParentLink cs) c a →
        ∃ cyc, cs[a]? = some cyc ∧ b ∈ cyc.Blocks := by
  intro fuel
  induction fuel with
  | zero => intro c h; simp [checkChain] at h
  | succ fuel ih =>
    intro c h a hreach
    simp only [checkChain] at h
    cases hc : cs[c]? with
    | none => rw [hc] at h; simp at h
    | some cyc =>
      rw [hc] at h
      simp only at h
      by_cases hb : b ∈ cyc.Blocks
      · simp [hb] at h
        rcases Relation.ReflTransGen.cases_head hreach with e | ⟨p, hlink, hrest⟩
        · rw [← e]; exact ⟨cyc, hc, hb⟩
        · obtain ⟨cyc1, hc1, hpar⟩ := hlink
          rw [hc] at hc1
          cases hc1
          rw [hpar] at h
          exact ih p h a hrest
      · simp [hb] at h

/-- When `validateTree` returns true, every cycle of the forest has passed its checks and
every entry of the block map has passed the walk up its parent chain. -/
theorem validateTree_sound (info : GenericCycleInfo) (h : validateTree info = .done true) :
    (∀ c, InForest info c → ∃ cyc, info.Cycles[c]? = some cyc ∧ CycleChecked info c cyc) ∧
    ∀ e ∈ info.BlockMap, ∀ a, Relation.ReflTransGen (ParentLink info.Cycles) e.2 a →
      ∃ cyc, info.Cycles[a]? = some cyc ∧ e.1 ∈ cyc.Blocks := by
  unfold validateTree at h
  obtain ⟨ok, h1, h2⟩ := Outcome.bind_eq_done.1 h
  cases ok with
  | false => simp at h2
  | true =>
    simp only [Bool.not_true, Bool.false_eq_true, if_false] at h2
    constructor
    · rintro c ⟨t, ht, hreach⟩
      have h3 := checkAll_sound _ _ h1 t ht
      obtain ⟨order, h4, h5⟩ := Outcome.bind_eq_done.1 h3
      have hmem := depthFirst_covers info.Cycles _ t order h4 c hreach
      exact checkCycle_sound info c (checkAll_sound _ _ h5 c hmem)
    · intro e he a hreach
      exact checkChain_sound info.Cycles e.1 _ e.2 (checkAll_sound _ _ h2 e he) a hreach

/-! ### `validateTree` returns on a forest with sound links -/

theorem checkAll_returns {α : Type} (f : α → Outcome Bool) :
    ∀ l : List α, (∀ a ∈ l, ∃ b, f a = .done b) → ∃ b, checkAll f l = .done b := by
  intro l
  induction l with
  | nil => intro _; exact ⟨true, rfl⟩
  | cons a rest ih =>
    intro h
    obtain ⟨b, hb⟩ := h a (List.mem_cons_self _ _)
    obtain ⟨b1, hb1⟩ := ih (fun x hx => h x (List.mem_cons_of_mem _ hx))
    cases b with
    | true => exact ⟨b1, by simp [checkAll, hb, hb1]⟩
    | false => exact ⟨false, by simp [checkAll, hb]⟩

/-- The depth-first walk of a subtree returns when the children lists form a forest. -/
theorem depthFirst_returns {cs : List GenericCycle} (rank : Nat → Nat)
    (hvalid : ∀ (p : Nat) (cyc : GenericCycle), cs[p]? = some cyc →
      ∀ ch ∈ cyc.Children, ch < cs.length)
    (hrank : ∀ (p : Nat) (cyc : GenericCycle), cs[p]? = some cyc →
      ∀ ch ∈ cyc.Children, rank ch < rank p) :
    ∀ (fuel c : Nat), c < cs.length → rank c < fuel →
      ∃ l, depthFirst cs fuel c = .done l ∧ ∀ x ∈ l, x < cs.length := by
  intro fuel
  induction fuel with
  | zero => intro c _ hf; omega
  | succ fuel ih =>
    intro c hc hf
    have hcy := getElem?_of_lt hc
    have hkids : ∀ (chs : List Nat), (∀ ch ∈ chs, ch ∈ (cycAt cs c).Children) →
        ∃ sub, dfChildren cs fuel chs = .done sub ∧ ∀ x ∈ sub, x < cs.length := by
      intro chs
      induction chs with
      | nil => intro _; exact ⟨[], rfl, fun x hx => by cases hx⟩
      | cons ch rest ihr =>
        intro hsub
        have hch := hsub ch (List.mem_cons_self _ _)
        obtain ⟨l1, h1, h2⟩ := ih ch (hvalid c _ hcy ch hch)
          (by have := hrank c _ hcy ch hch; omega)
        obtain ⟨l2, h3, h4⟩ := ihr (fun x hx => hsub x (List.mem_cons_of_mem _ hx))
        refine ⟨l1 ++ l2, by simp [dfChildren_cons, h1, h3], ?_⟩
        intro x hx
        rcases List.mem_append.1 hx with h | h
        · exact h2 x h
        · exact h4 x h
    obtain ⟨sub, hs1, hs2⟩ := hkids (cycAt cs c).Children (fun _ h => h)
    refine ⟨c :: sub, by rw [depthFirst_succ, hcy]; simp [hs1], ?_⟩
    intro x hx
    rcases List.mem_cons.1 hx with e | h
    · rw [e]; exact hc
    · exact hs2 x h

theorem checkBlocks_returns {info : GenericCycleInfo} (hl : LinksSound info) {c : Nat}
    (hc : c < info.Cycles.length) :
    ∀ (blocks seen : List BlockT), ∃ b, checkBlocks info c blocks seen = .done b := by
  intro blocks
  induction blocks with
  | nil => intro _; exact ⟨true, rfl⟩
  | cons Block rest ih =>
    intro seen
    cases hf : mapFind info.BlockMap Block with
    | none => exact ⟨false, by simp [checkBlocks, hf]⟩
    | some mapped =>
      have hm : mapped < info.Cycles.length := hl.mapValid _ (mapFind_mem hf)
      obtain ⟨⟨r, hr, _⟩, _⟩ := contains_chain_spec info.Cycles hl.depth c mapped hc hm
      cases r with
      | false => exact ⟨false, by simp [checkBlocks, hf, hr]⟩
      | true =>
        by_cases hs : Block ∈ seen
        · exact ⟨false, by simp [checkBlocks, hf, hr, hs]⟩
        · obtain ⟨b, hb⟩ := ih (Block :: seen)
          exact ⟨b, by simp [checkBlocks, hf, hr, hs, hb]⟩

theorem checkChildren_returns (cs : List GenericCycle) (cyc : GenericCycle) :
    ∀ (chs : List Nat) (d : Nat), (∀ ch ∈ chs, ch < cs.length) →
      ∃ b, checkChildren cs cyc chs d = .done b := by
  intro chs
  induction chs with
  | nil => intro _ _; exact ⟨true, rfl⟩
  | cons ch rest ih =>
    intro d h
    have hch := getElem?_of_lt (h ch (List.mem_cons_self _ _))
    have hrest : ∀ x ∈ rest, x < cs.length := fun x hx => h x (List.mem_cons_of_mem _ hx)
    simp only [checkChildren, hch]
    split_ifs
    · exact ⟨false, rfl⟩
    · exact ih _ hrest
    · exact ih _ hrest
    · exact ⟨false, rfl⟩

theorem checkCycle_returns {info : GenericCycleInfo} (hl : LinksSound info) {c : Nat}
    (hc : c < info.Cycles.length) : ∃ b, checkCycle info c = .done b := by
  have hcy := getElem?_of_lt hc
  obtain ⟨b2, hb2⟩ := checkBlocks_returns hl hc (cycAt info.Cycles c).Blocks []
  obtain ⟨b3, hb3⟩ := checkChildren_returns info.Cycles (cycAt info.Cycles c)
    (cycAt info.Cycles c).Children 0 (hl.childValid c _ hcy)
  have hd := hl.depth c _ hcy
  have htail : ∃ b, ((checkBlocks info c (cycAt info.Cycles c).Blocks []).bind fun ok2 =>
      if !ok2 then .done false
      else if (cycAt info.Cycles c).Entries.isEmpty then .done false
      else if !checkEntries (cycAt info.Cycles c) (cycAt info.Cycles c).Entries [] then
        .done false
      else checkChildren info.Cycles (cycAt info.Cycles c) (cycAt info.Cycles c).Children 0)
      = .done b := by
    rw [hb2]
    simp only [Outcome.bind_done]
    split_ifs
    · exact ⟨false, rfl⟩
    · exact ⟨false, rfl⟩
    · exact ⟨false, rfl⟩
    · exact ⟨b3, hb3⟩
  obtain ⟨bt, hbt⟩ := htail
  unfold checkCycle
  rw [hcy]
  simp only
  cases hp : (cycAt info.Cycles c).ParentCycle with
  | none =>
    simp only [Outcome.bind_done, Bool.not_true, Bool.false_eq_true, if_false]
    exact ⟨bt, hbt⟩
  | some p =>
    rw [hp] at hd
    obtain ⟨par, hpar, _⟩ := hd
    simp only [hpar, Outcome.bind_done]
    cases hk : par.Children.contains c with
    | true =>
      simp only [Bool.not_true, Bool.false_eq_true, if_false]
      exact ⟨bt, hbt⟩
    | false =>
      simp only [Bool.not_false, if_true]
      exact ⟨false, rfl⟩

theorem checkChain_returns {cs : List GenericCycle} (hd : DepthIsChainLength cs)
    (Block : BlockT) :
    ∀ (fuel c : Nat) (cyc : GenericCycle), cs[c]? = some cyc → cyc.Depth < fuel →
      ∃ b, checkChain cs Block fuel (some c) = .done b := by
  intro fuel
  induction fuel with
  | zero => intro c cyc _ h; omega
  | succ fuel ih =>
    intro c cyc hc hf
    have hpos := depth_pos_of_chain hd hc
    have hdc := hd c cyc hc
    simp only [checkChain, hc]
    split_ifs
    · cases hp : cyc.ParentCycle with
      | none =>
        obtain ⟨f, rfl⟩ : ∃ f, fuel = f + 1 := ⟨fuel - 1, by omega⟩
        exact ⟨true, rfl⟩
      | some p =>
        rw [hp] at hdc
        obtain ⟨par, hpar, e⟩ := hdc
        exact ih p par hpar (by omega)
    · exact ⟨false, rfl⟩

/-- On a forest with sound links `validateTree` returns. -/
theorem validateTree_returns {info : GenericCycleInfo} (hl : LinksSound info) :
    ∃ b, validateTree info = .done b := by
  obtain ⟨rank, hbound, hrank⟩ := hl.forest
  have h1 : ∃ b, checkAll
      (fun TLC => (depth_first info.Cycles TLC).bind fun order =>
        checkAll (checkCycle info) order) info.TopLevelCycles = .done b := by
    apply checkAll_returns
    intro t ht
    have htl := hl.topValid t ht
    obtain ⟨order, ho, hvalid⟩ := depthFirst_returns rank hl.childValid hrank
      (info.Cycles.length + 1) t htl (by have := hbound t htl; omega)
    obtain ⟨b, hb⟩ := checkAll_returns (checkCycle info) order
      (fun c hc => checkCycle_returns hl (hvalid c hc))
    exact ⟨b, by simp [depth_first, ho, hb]⟩
  have h2 : ∃ b, checkAll
      (fun e : BlockT × Nat => checkChain info.Cycles e.1 (info.Cycles.length + 1) (some e.2))
      info.BlockMap = .done b := by
    apply checkAll_returns
    intro e he
    have hv := hl.mapValid e he
    exact checkChain_returns hl.depth e.1 _ e.2 _ (getElem?_of_lt hv)
      (by have := depth_le_length hl.depth (getElem?_of_lt hv); omega)
  obtain ⟨b1, hb1⟩ := h1
  obtain ⟨b2, hb2⟩ := h2
  cases b1 with
  | true => exact ⟨b2, by simp [validateTree, hb1, hb2]⟩
  | false => exact ⟨false, by simp [validateTree, hb1]⟩

theorem flawedChild_chain : DepthIsChainLength flawedChild.Cycles := by
  intro c cyc hc
  match c, hc with
  | 0, hc => cases hc; exact ⟨_, rfl, rfl⟩
  | 1, hc => cases hc; rfl
  | n + 2, hc => simp [flawedChild] at hc

theorem flawedChild_links : LinksSound flawedChild := by
  refine ⟨by decide, by decide, ?_, ⟨fun c => c, ?_, ?_⟩, flawedChild_chain⟩
  · intro p cyc hp ch hch
    match p, hp with
    | 0, hp => cases hp; cases hch
    | 1, hp =>
      cases hp
      have e : ch = 0 := by simpa [flawedChild] using hch
      rw [e]; decide
    | n + 2, hp => simp [flawedChild] at hp
  · intro c hc; exact Nat.le_of_lt hc
  · intro p cyc hp ch hch
    match p, hp with
    | 0, hp => cases hp; cases hch
    | 1, hp =>
      cases hp
      have e : ch = 0 := by simpa [flawedChild] using hch
      rw [e]; decide
    | n + 2, hp => simp [flawedChild] at hp

/-- C26, as amended: in every forest state in which `validateTree` returns true, every cycle
of the forest has a member list without repetition and a non-empty entry list without
repetition whose blocks are members, every child of a cycle is deeper than the cycle and
all children of one cycle have the same depth, and every mapped block is a member of its
mapped cycle and of all ancestors of that cycle. -/
theorem validateTree_true_implies (info : GenericCycleInfo)
    (h : validateTree info = .done true) :
    (∀ c, InForest info c → ∃ cyc, info.Cycles[c]? = some cyc ∧
      cyc.Blocks.Nodup ∧ cyc.Entries ≠ [] ∧ cyc.Entries.Nodup ∧
      (∀ e ∈ cyc.Entries, e ∈ cyc.Blocks) ∧
      (∀ ch ∈ cyc.Children, ∃ chc, info.Cycles[ch]? = some chc ∧ cyc.Depth < chc.Depth) ∧
      (∀ ch1 ∈ cyc.Children, ∀ ch2 ∈ cyc.Children, ∀ c1 c2 : GenericCycle,
        info.Cycles[ch1]? = some c1 → info.Cycles[ch2]? = some c2 → c1.Depth = c2.Depth)) ∧
    ∀ e ∈ info.BlockMap, ∀ a, Relation.ReflTransGen (ParentLink info.Cycles) e.2 a →
      ∃ cyc, info.Cycles[a]? = some cyc ∧ e.1 ∈ cyc.Blocks := by
  obtain ⟨h1, h2⟩ := validateTree_sound info h
  refine ⟨?_, h2⟩
  intro c hc
  obtain ⟨cyc, hcy, hck⟩ := h1 c hc
  exact ⟨cyc, hcy, hck.blocksNodup, hck.entriesNe, hck.entriesNodup, hck.entriesSub,
    hck.childDeeper, hck.siblings⟩

/-- The statement of C26 for the forest `deepForest`. -/
theorem validateTree_true_implies_witness :
    validateTree deepForest = .done true ∧
    (∀ c, InForest deepForest c → ∃ cyc, deepForest.Cycles[c]? = some cyc ∧
      cyc.Blocks.Nodup ∧ cyc.Entries ≠ [] ∧ cyc.Entries.Nodup ∧
      (∀ e ∈ cyc.Entries, e ∈ cyc.Blocks) ∧
      (∀ ch ∈ cyc.Children, ∃ chc, deepForest.Cycles[ch]? = some chc ∧
        cyc.Depth < chc.Depth) ∧
      (∀ ch1 ∈ cyc.Children, ∀ ch2 ∈ cyc.Children, ∀ c1 c2 : GenericCycle,
        deepForest.Cycles[ch1]? = some c1 → deepForest.Cycles[ch2]? = some c2 →
        c1.Depth = c2.Depth)) ∧
    ∀ e ∈ deepForest.BlockMap, ∀ a,
      Relation.ReflTransGen (ParentLink deepForest.Cycles) e.2 a →
      ∃ cyc, deepForest.Cycles[a]? = some cyc ∧ e.1 ∈ cyc.Blocks :=
  ⟨by decide, validateTree_true_implies deepForest (by decide)⟩

/-- C26 fails as stated: `validateTree` returns true on the forest `deepForest`, whose
top-level cycle has depth 2 and whose child cycle has depth 5. -/
theorem validateTree_depth_counterexample :
    validateTree deepForest = .done true ∧
    ∃ (t ch : Nat) (top child : GenericCycle), t ∈ deepForest.TopLevelCycles ∧
      deepForest.Cycles[t]? = some top ∧ top.Depth ≠ 1 ∧
      deepForest.Cycles[ch]? = some child ∧ child.ParentCycle = some t ∧
      child.Depth ≠ top.Depth + 1 :=
  ⟨by decide, 0, 1, _, _, by decide, rfl, by decide, rfl, rfl, by decide⟩

theorem flatP_congr {par par1 : BlockT → Option BlockT} :
    ∀ frames : List Frame, (∀ f ∈ frames, par1 f.node = par f.node) →
      flatP par1 frames = flatP par frames := by
  intro frames
  induction frames with
  | nil => intro _; rfl
  | cons f rest ih =>
    intro h
    simp only [flatP]
    rw [h f (List.mem_cons_self _ _), ih (fun x hx => h x (List.mem_cons_of_mem _ hx))]

/-- The tree-parent property survives the opening of another block. -/
theorem TreeParentOf.of_open {g : Graph} {entry : BlockT} {s : DfsState} {b p x : BlockT}
    (ht : DfsTables g entry s) (hb : s.BlockDFSInfo b = none)
    (hx : Visited s.BlockDFSInfo x) (h : TreeParentOf g s.BlockDFSInfo p x) :
    TreeParentOf g (openState g s b).BlockDFSInfo p x := by
  have hnv : ¬ Visited s.BlockDFSInfo b := by simp [Visited, hb]
  have hne : ∀ y, Visited s.BlockDFSInfo y → y ≠ b := by
    intro y hy e; subst e; exact hnv hy
  have hS : ∀ y, Visited s.BlockDFSInfo y →
      startOf (openState g s b).BlockDFSInfo y = startOf s.BlockDFSInfo y := by
    intro y hy; exact startOf_insert_other _ _ (hne y hy)
  have hE : ∀ y, Visited s.BlockDFSInfo y →
      endOf (openState g s b).BlockDFSInfo y = endOf s.BlockDFSInfo y := by
    intro y hy; exact endOf_insert_other _ _ (hne y hy)
  have hSb : startOf (openState g s b).BlockDFSInfo b = s.Counter + 1 := by
    simp [openState]
  obtain ⟨hpv, hps, hplt, hpend, hall⟩ := h
  refine ⟨(visited_open g).2 (Or.inr hpv), hps, ?_, ?_, ?_⟩
  · rw [hS p hpv, hS x hx]; exact hplt
  · rw [hE p hpv, hS x hx]; exact hpend
  · intro a ha hlt
    rcases (visited_open g).1 ha with e | ha1
    · rw [e, hSb, hS x hx] at hlt
      have := (ht.start_le hx).2
      omega
    · rw [hS a ha1, hS x hx] at hlt
      rw [hS a ha1, hS p hpv, hE a ha1, hS x hx]
      exact hall a ha1 hlt

/-- The block from whose pending successors a block is opened is its tree parent. -/
theorem TreeParentOf.at_open {g : Graph} {entry : BlockT} {s : DfsState} {b : BlockT}
    {f : Frame} {rest : List Frame} {pend : List BlockT}
    (ht : DfsTables g entry s) (hs : DfsStacks g s (f :: rest))
    (hp : f.pending = b :: pend) (hb : s.BlockDFSInfo b = none) :
    TreeParentOf g (openState g s b).BlockDFSInfo f.node b := by
  have hnv : ¬ Visited s.BlockDFSInfo b := by simp [Visited, hb]
  have hne : ∀ y, Visited s.BlockDFSInfo y → y ≠ b := by
    intro y hy e; subst e; exact hnv hy
  have hS : ∀ y, Visited s.BlockDFSInfo y →
      startOf (openState g s b).BlockDFSInfo y = startOf s.BlockDFSInfo y := by
    intro y hy; exact startOf_insert_other _ _ (hne y hy)
  have hE : ∀ y, Visited s.BlockDFSInfo y →
      endOf (openState g s b).BlockDFSInfo y = endOf s.BlockDFSInfo y := by
    intro y hy; exact endOf_insert_other _ _ (hne y hy)
  have hSb : startOf (openState g s b).BlockDFSInfo b = s.Counter + 1 := by
    simp [openState]
  have hfv := (hs.isOpen f (List.mem_cons_self _ _))
  have hfle := ht.start_le hfv.1
  refine ⟨(visited_open g).2 (Or.inr hfv.1), ?_, ?_, ?_, ?_⟩
  · exact hs.pendingSucc f (List.mem_cons_self _ _) b (by rw [hp]; exact List.mem_cons_self _ _)
  · rw [hS _ hfv.1, hSb]; omega
  · intro h0; rw [hE _ hfv.1, hfv.2] at h0; exact absurd rfl h0
  · intro a ha hlt
    rcases (visited_open g).1 ha with e | ha
    · subst e; omega
    · rw [hS a ha, hS _ hfv.1, hE a ha, hSb]
      by_cases h0 : endOf s.BlockDFSInfo a = 0
      · left
        obtain ⟨f0, hf0, e0⟩ := hs.allOpen a ha h0
        rcases List.mem_cons.1 hf0 with e1 | hmem
        · subst e1; rw [e0]
        · have := (List.pairwise_cons.1 hs.ordered).1 f0 hmem
          rw [e0] at this; omega
      · right
        exact ⟨h0, by have := (ht.closed a ha h0).2; omega⟩

/-- The tree-parent property survives the closing of the innermost open block. -/
theorem TreeParentOf.of_close {g : Graph} {entry : BlockT} {s : DfsState} {b p x : BlockT}
    {d : DFSInfo} (ts : List Nat) (st : List BlockT)
    (ht : DfsTables g entry s) (hb : s.BlockDFSInfo b = some d)
    (hopen : endOf s.BlockDFSInfo b = 0)
    (hx : Visited s.BlockDFSInfo x) (h : TreeParentOf g s.BlockDFSInfo p x) :
    TreeParentOf g (closeState s b d ts st).BlockDFSInfo p x := by
  have hbv : Visited s.BlockDFSInfo b := visited_of_some hb
  have hV : ∀ y, Visited (closeState s b d ts st).BlockDFSInfo y ↔ Visited s.BlockDFSInfo y := by
    intro y
    simp only [closeState, visited_insert]
    constructor
    · rintro (e | h)
      · rw [e]; exact hbv
      · exact h
    · intro h; exact Or.inr h
  have hS : ∀ y, startOf (closeState s b d ts st).BlockDFSInfo y = startOf s.BlockDFSInfo y := by
    intro y
    by_cases e : y = b
    · rw [e]; simp [closeState, startOf_of_some hb]
    · exact startOf_insert_other _ _ e
  have hEb : endOf (closeState s b d ts st).BlockDFSInfo b = s.Counter := by simp [closeState]
  have hE : ∀ y, y ≠ b →
      endOf (closeState s b d ts st).BlockDFSInfo y = endOf s.BlockDFSInfo y := by
    intro y e; exact endOf_insert_other _ _ e
  obtain ⟨hpv, hps, hplt, hpend, hall⟩ := h
  refine ⟨(hV p).2 hpv, hps, by rw [hS, hS]; exact hplt, ?_, ?_⟩
  · intro h0
    rw [hS]
    by_cases ep : p = b
    · rw [ep, hEb]; exact (ht.start_le hx).2
    · rw [hE p ep] at h0 ⊢; exact hpend h0
  · intro a ha hlt
    rw [hS, hS] at hlt
    rw [hS, hS, hS]
    rcases hall a ((hV a).1 ha) hlt with h | ⟨h1, h2⟩
    · exact Or.inl h
    · right
      have ea : a ≠ b := by
        intro e; rw [e] at h1; exact h1 hopen
      rw [hE a ea]; exact ⟨h1, h2⟩

/-- One iteration of the loop of `Compute::dfs` keeps the invariants of the tables, the
stacks and the record. -/
theorem traceStep_inv {g : Graph} {entry : BlockT} {s : DfsState} {frames : List Frame}
    {t : DfsTrace}
    (ht : DfsTables g entry s) (hs : DfsStacks g s frames) (hi : TraceInv g entry s frames t)
    (hne : s.TraverseStack ≠ []) :
    ∃ s1 frames1, dfsStep g s = .done s1 ∧ DfsTables g entry s1 ∧ DfsStacks g s1 frames1 ∧
      TraceInv g entry s1 frames1 (traceStep g s t) ∧ dfsMeasure g s1 < dfsMeasure g s := by
  obtain ⟨b, tail, hst⟩ : ∃ b tail, s.TraverseStack = b :: tail := by
    cases h : s.TraverseStack with
    | nil => exact absurd h hne
    | cons b tail => exact ⟨b, tail, rfl⟩
  obtain ⟨f, rest, hfr, hcase⟩ := hs.top_cases hst
  subst hfr
  have hfopen := hs.isOpen f (List.mem_cons_self _ _)
  have hpush := hi.pushers
  cases hb : s.BlockDFSInfo b with
  | none =>
    have hnv : ¬ Visited s.BlockDFSInfo b := by simp [Visited, hb]
    rcases hcase with ⟨_, hn, _⟩ | ⟨pend, hp, _⟩
    · rw [hn] at hfopen; exact absurd hb hfopen.1
    · have hq : t.Pushers = some f.node ::
          (pend.map (fun _ => some f.node) ++ t.TreeParent f.node :: flatP t.TreeParent rest) := by
        rw [hpush]; simp [flatP, hp]
      have htr : traceStep g s t =
          { Pushers := (successors g b).reverse.map (fun _ => some b) ++ t.Pushers
            TreeParent := fun x => if x = b then some f.node else t.TreeParent x } := by
        simp only [traceStep, hst, hq, hb]
      have hfb : f.node ≠ b := fun e => hnv (e ▸ hfopen.1)
      refine ⟨openState g s b, _, ?_, openState_tables ht hs hp hb,
        openState_stacks ht hs hp hb, ?_, dfsMeasure_open g s b tail hst hb⟩
      · simp only [dfsStep, hst, hb]
        simp [openState, hst]
      · rw [htr]
        constructor
        · have hc : flatP (fun x => if x = b then some f.node else t.TreeParent x) rest
              = flatP t.TreeParent rest := by
            apply flatP_congr
            intro f0 hf0
            have hv := (hs.isOpen f0 (List.mem_cons_of_mem _ hf0)).1
            have : f0.node ≠ b := fun e => hnv (e ▸ hv)
            simp [this]
          simp [flatP, hq, hfb, hc]
        · have : entry ≠ b := fun e => hnv (e ▸ ht.entryVisited)
          simp only [this, if_false]
          exact hi.entryRoot
        · intro x hx hxe
          by_cases e : x = b
          · exact ⟨f.node, by simp [e]⟩
          · simp only [e, if_false]
            rcases (visited_open g).1 hx with e1 | hx1
            · exact absurd e1 e
            · exact hi.hasParent x hx1 hxe
        · intro x p hxp
          by_cases e : x = b
          · simp only [e, if_true] at hxp
            cases hxp
            rw [e]
            exact ⟨(visited_open g).2 (Or.inl rfl), TreeParentOf.at_open ht hs hp hb⟩
          · simp only [e, if_false] at hxp
            obtain ⟨hxv, hpo⟩ := hi.parentOk x p hxp
            exact ⟨(visited_open g).2 (Or.inr hxv), hpo.of_open ht hb hxv⟩
  | some d =>
    have hbv : Visited s.BlockDFSInfo b := visited_of_some hb
    have htree : s.DFSTreeStack = ((flat rest).length + 1) :: positions rest := by
      rw [hs.tree]; rfl
    rcases hcase with ⟨hp, hn, htl⟩ | ⟨pend, hp, htl⟩
    · have hq : t.Pushers = t.TreeParent f.node :: flatP t.TreeParent rest := by
        rw [hpush]; simp [flatP, hp]
      have htr : traceStep g s t = ⟨flatP t.TreeParent rest, t.TreeParent⟩ := by
        simp only [traceStep, hst, hq, hb]
      have hopen : endOf s.BlockDFSInfo b = 0 := by rw [← hn]; exact hfopen.2
      refine ⟨closeState s b d (positions rest) (flat rest), rest, ?_,
        closeState_tables _ _ ht hs hp hn hb, closeState_stacks ht hs hn hb, ?_, ?_⟩
      · simp only [dfsStep, hst, hb, htree]
        simp [closeState, htl]
      · rw [htr]
        have hV : ∀ y, Visited (closeState s b d (positions rest) (flat rest)).BlockDFSInfo y ↔
            Visited s.BlockDFSInfo y := by
          intro y
          simp only [closeState, visited_insert]
          constructor
          · rintro (e | h)
            · rw [e]; exact hbv
            · exact h
          · intro h; exact Or.inr h
        constructor
        · rfl
        · exact hi.entryRoot
        · intro x hx hxe
          exact hi.hasParent x ((hV x).1 hx) hxe
        · intro x p hxp
          obtain ⟨hxv, hpo⟩ := hi.parentOk x p hxp
          exact ⟨(hV x).2 hxv, hpo.of_close _ _ ht hb hopen hxv⟩
      · apply dfsMeasure_pop g s _ b tail hst hbv
        · simp [closeState, htl]
        · intro x
          by_cases e : x = b
          · subst e; simp [closeState, hb]
          · simp [closeState, DFSMap.insert_other _ _ e]
    · have hq : t.Pushers = some f.node ::
          (pend.map (fun _ => some f.node) ++ t.TreeParent f.node :: flatP t.TreeParent rest) := by
        rw [hpush]; simp [flatP, hp]
      have htr : traceStep g s t =
          ⟨pend.map (fun _ => some f.node) ++ t.TreeParent f.node :: flatP t.TreeParent rest,
            t.TreeParent⟩ := by
        simp only [traceStep, hst, hq, hb]
      refine ⟨popState s (pend ++ f.node :: flat rest), _, ?_,
        popState_tables _ ht, popState_stacks hs hp hbv, ?_, ?_⟩
      · simp only [dfsStep, hst, hb, htree]
        have hneq : ¬ ((flat rest).length = pend.length + ((flat rest).length + 1)) := by
          omega
        simp [hneq, popState, htl, htree]
      · rw [htr]
        exact ⟨rfl, hi.entryRoot, hi.hasParent, hi.parentOk⟩
      · apply dfsMeasure_pop g s _ b tail hst hbv
        · simp [popState, htl]
        · intro x; rfl

/-- The loop of `Compute::dfs` with the record returns what the loop without it returns, and
the record satisfies its invariant at the end. -/
theorem dfsLoopT_inv {g : Graph} {entry : BlockT} :
    ∀ (fuel : Nat) (s : DfsState) (frames : List Frame) (t : DfsTrace),
      DfsTables g entry s → DfsStacks g s frames → TraceInv g entry s frames t →
      s.TraverseStack ≠ [] → dfsMeasure g s ≤ fuel →
      ∃ s1 t1, dfsLoopT g fuel s t = .done (s1, t1) ∧ dfsLoop g fuel s = .done s1 ∧
        DfsTables g entry s1 ∧ DfsStacks g s1 [] ∧ TraceInv g entry s1 [] t1 := by
  intro fuel
  induction fuel with
  | zero =>
    intro s frames t _ _ _ hne hm
    have := dfsMeasure_pos g s hne
    omega
  | succ fuel ih =>
    intro s frames t ht hs hi hne hm
    obtain ⟨s1, frames1, hstep, ht1, hs1, hi1, hlt⟩ := traceStep_inv ht hs hi hne
    cases hst : s1.TraverseStack with
    | nil =>
      have hf : frames1 = [] := by
        cases frames1 with
        | nil => rfl
        | cons f rest =>
          have := hs1.stack
          rw [hst] at this
          simp [flat] at this
      subst hf
      have htree : s1.DFSTreeStack = [] := hs1.tree
      refine ⟨s1, traceStep g s t, ?_, ?_, ht1, hs1, hi1⟩
      · simp [dfsLoopT, hstep, hst, htree]
      · simp [dfsLoop, hstep, hst, htree]
    | cons x xs =>
      obtain ⟨s2, t2, hloopT, hloop, ht2, hs2, hi2⟩ :=
        ih s1 frames1 (traceStep g s t) ht1 hs1 hi1 (by rw [hst]; simp) (by omega)
      refine ⟨s2, t2, ?_, ?_, ht2, hs2, hi2⟩
      · simp [dfsLoopT, hstep, hst, hloopT]
      · simp [dfsLoop, hstep, hst, hloop]

/-- `Compute::dfs` with the record returns the tables of `Compute::dfs` together with a
record that satisfies its invariant. -/
theorem dfsTraced_spec (g : Graph) (entry : BlockT) :
    ∃ d t, dfsTraced g entry = .done (d, t) ∧ dfs g entry = .done d ∧ DfsPost g entry d ∧
      TraceInv g entry d [] t := by
  have hstep : dfsStep g (dfsInit entry) = .done (openState g (dfsInit entry) entry) := by
    simp [dfsStep, dfsInit, openState]
  have hm : dfsMeasure g (openState g (dfsInit entry) entry) < dfsMeasure g (dfsInit entry) :=
    dfsMeasure_open g (dfsInit entry) entry [] rfl rfl
  have hm0 : dfsMeasure g (dfsInit entry) = 2 * edgeCount g + 2 := by
    simp [dfsMeasure, dfsInit, unopenedEdges_init]
  have htr : traceStep g (dfsInit entry) ⟨[none], fun _ => none⟩
      = ⟨(successors g entry).reverse.map (fun _ => some entry) ++ [none],
          fun x => if x = entry then none else none⟩ := by
    simp [traceStep, dfsInit]
  have hV : ∀ x, Visited (openState g (dfsInit entry) entry).BlockDFSInfo x ↔ x = entry := by
    intro x
    rw [visited_open]
    simp [dfsInit, Visited]
  have hi : TraceInv g entry (openState g (dfsInit entry) entry)
      [⟨entry, (successors g entry).reverse⟩]
      (traceStep g (dfsInit entry) ⟨[none], fun _ => none⟩) := by
    rw [htr]
    constructor
    · simp [flatP]
    · simp
    · intro x hx hxe
      exact absurd ((hV x).1 hx) hxe
    · intro x p hxp
      simp at hxp
  obtain ⟨s1, t1, hloopT, hloop, ht1, hs1, hi1⟩ :=
    dfsLoopT_inv (2 * edgeCount g + 1) _ _ _ (openInit_tables g entry) (openInit_stacks g entry)
      hi (by simp [openState, dfsInit]) (by omega)
  have hne : (openState g (dfsInit entry) entry).TraverseStack
      = (successors g entry).reverse ++ [entry] := rfl
  refine ⟨s1, t1, ?_, ?_, ⟨ht1, ?_⟩, hi1⟩
  · unfold dfsTraced dfsFuel
    show dfsLoopT g (2 * edgeCount g + 1 + 1) (dfsInit entry) _ = _
    rw [dfsLoopT, hstep]
    simp only [Outcome.bind_done]
    cases hst : (openState g (dfsInit entry) entry).TraverseStack with
    | nil => rw [hne] at hst; simp at hst
    | cons x xs => simpa [hst] using hloopT
  · unfold dfs dfsFuel
    show dfsLoop g (2 * edgeCount g + 1 + 1) (dfsInit entry) = _
    rw [dfsLoop, hstep]
    simp only [Outcome.bind_done]
    cases hst : (openState g (dfsInit entry) entry).TraverseStack with
    | nil => rw [hne] at hst; simp at hst
    | cons x xs => simpa [hst] using hloop
  · intro b hb h0
    obtain ⟨f, hf, _⟩ := hs1.allOpen b hb h0
    cases hf

/-- A tree edge goes from a visited block to a visited block inside its interval. -/
theorem TraceInv.edge_anc {g : Graph} {entry : BlockT} {d : DfsState} {t : DfsTrace}
    (hp : DfsPost g entry d) (hi : TraceInv g entry d [] t) {a b : BlockT}
    (h : TreeEdge t a b) :
    Visited d.BlockDFSInfo a ∧ Visited d.BlockDFSInfo b ∧ b ∈ successors g a ∧
      startOf d.BlockDFSInfo a < startOf d.BlockDFSInfo b ∧ Anc d.BlockDFSInfo a b := by
  obtain ⟨hbv, hav, hsucc, hlt, hend, _⟩ := hi.parentOk b a h
  refine ⟨hav, hbv, hsucc, hlt, ?_⟩
  rw [anc_iff]
  exact ⟨Nat.le_of_lt hlt, hp.laminar hav hbv hlt (hend (hp.allClosed a hav))⟩

/-- A block reached along tree edges lies in the interval of the block it is reached
from. -/
theorem TraceInv.anc_of_tree {g : Graph} {entry : BlockT} {d : DfsState} {t : DfsTrace}
    (hp : DfsPost g entry d) (hi : TraceInv g entry d [] t) {a b : BlockT}
    (h : Relation.ReflTransGen (TreeEdge t) a b) : Anc d.BlockDFSInfo a b := by
  induction h with
  | refl => exact Anc.refl _ _
  | tail _ hstep ih => exact ih.trans (hi.edge_anc hp hstep).2.2.2.2

/-- A visited block in the interval of a visited block is reached from it along tree
edges. -/
theorem TraceInv.tree_of_anc {g : Graph} {entry : BlockT} {d : DfsState} {t : DfsTrace}
    (hp : DfsPost g entry d) (hi : TraceInv g entry d [] t) {a : BlockT}
    (ha : Visited d.BlockDFSInfo a) :
    ∀ (n : Nat) (b : BlockT), startOf d.BlockDFSInfo b ≤ n → Visited d.BlockDFSInfo b →
      Anc d.BlockDFSInfo a b → Relation.ReflTransGen (TreeEdge t) a b := by
  intro n
  induction n with
  | zero =>
    intro b hn hb _
    have := (hp.bounds hb).1
    omega
  | succ n ih =>
    intro b hn hb hanc
    obtain ⟨h1, h2⟩ := (anc_iff _ _ _).1 hanc
    by_cases e : a = b
    · rw [e]
    · have hlt : startOf d.BlockDFSInfo a < startOf d.BlockDFSInfo b := by
        rcases Nat.lt_or_ge (startOf d.BlockDFSInfo a) (startOf d.BlockDFSInfo b) with h | h
        · exact h
        · exact absurd (hp.tables.start_inj ha hb (by omega)) e
      have hbe : b ≠ entry := by
        intro e1
        rw [e1, hp.entry_start] at hlt
        have := (hp.bounds ha).1
        omega
      obtain ⟨p, hpar⟩ := hi.hasParent b hb hbe
      obtain ⟨_, hpv, _, hplt, _, hinner⟩ := hi.parentOk b p hpar
      have hbb := hp.bounds hb
      have hap : startOf d.BlockDFSInfo a ≤ startOf d.BlockDFSInfo p := by
        rcases hinner a ha hlt with h | ⟨_, h⟩
        · exact h
        · omega
      have hancp : Anc d.BlockDFSInfo a p := by
        rw [anc_iff]
        refine ⟨hap, ?_⟩
        by_cases e2 : startOf d.BlockDFSInfo a = startOf d.BlockDFSInfo p
        · rw [hp.tables.start_inj ha hpv e2]
        · exact hp.laminar ha hpv (by omega) (by omega)
      exact (ih p (by omega) hpv hancp).tail hpar

/-- After `Compute::dfs`, interval containment of two visited blocks is reachability along
tree edges. -/
theorem TraceInv.anc_iff_tree {g : Graph} {entry : BlockT} {d : DfsState} {t : DfsTrace}
    (hp : DfsPost g entry d) (hi : TraceInv g entry d [] t) {a b : BlockT}
    (ha : Visited d.BlockDFSInfo a) (hb : Visited d.BlockDFSInfo b) :
    Anc d.BlockDFSInfo a b ↔ Relation.ReflTransGen (TreeEdge t) a b :=
  ⟨hi.tree_of_anc hp ha _ b (le_refl _) hb, hi.anc_of_tree hp⟩

/-- A visited block whose discovery stamp lies in the interval of a visited block lies in
that interval. -/
theorem DfsPost.anc_of_start {g : Graph} {entry : BlockT} {d : DfsState}
    (hp : DfsPost g entry d) {a b : BlockT} (ha : Visited d.BlockDFSInfo a)
    (hb : Visited d.BlockDFSInfo b) (h1 : startOf d.BlockDFSInfo a ≤ startOf d.BlockDFSInfo b)
    (h2 : startOf d.BlockDFSInfo b ≤ endOf d.BlockDFSInfo a) : Anc d.BlockDFSInfo a b := by
  rw [anc_iff]
  refine ⟨h1, ?_⟩
  by_cases e : startOf d.BlockDFSInfo a = startOf d.BlockDFSInfo b
  · rw [hp.tables.start_inj ha hb e]
  · exact hp.laminar ha hb (by omega) h2

/-- Every visited block lies in the interval of the entry block. -/
theorem DfsPost.anc_entry {g : Graph} {entry : BlockT} {d : DfsState} {t : DfsTrace}
    (hp : DfsPost g entry d) (hi : TraceInv g entry d [] t) :
    ∀ (n : Nat) (b : BlockT), startOf d.BlockDFSInfo b ≤ n → Visited d.BlockDFSInfo b →
      Anc d.BlockDFSInfo entry b := by
  intro n
  induction n with
  | zero =>
    intro b hn hb
    have := (hp.bounds hb).1
    omega
  | succ n ih =>
    intro b hn hb
    by_cases e : b = entry
    · rw [e]; exact Anc.refl _ _
    · obtain ⟨p, hpar⟩ := hi.hasParent b hb e
      obtain ⟨hpv, _, _, hlt, hanc⟩ := hi.edge_anc hp hpar
      exact (ih p (by omega) hpv).trans hanc

theorem mem_slice {l : List BlockT} {a k : Nat} {x : BlockT} :
    x ∈ (l.drop a).take k ↔ ∃ i, a ≤ i ∧ i < a + k ∧ l[i]? = some x := by
  rw [List.mem_iff_getElem?]
  constructor
  · rintro ⟨j, hj⟩
    rw [List.getElem?_take] at hj
    split at hj
    · rw [List.getElem?_drop] at hj
      exact ⟨a + j, by omega, by omega, hj⟩
    · cases hj
  · rintro ⟨i, h1, h2, h3⟩
    refine ⟨i - a, ?_⟩
    rw [List.getElem?_take]
    have : i - a < k := by omega
    simp only [this, if_true]
    rw [List.getElem?_drop]
    have : a + (i - a) = i := by omega
    rw [this]; exact h3

/-- The proper descendants of a visited block in the DFS spanning tree are the blocks of the
preorder list at the positions from its discovery stamp up to its finish stamp. -/
theorem TraceInv.descendants_slice {g : Graph} {entry : BlockT} {d : DfsState} {t : DfsTrace}
    (hp : DfsPost g entry d) (hi : TraceInv g entry d [] t) {b : BlockT}
    (hb : Visited d.BlockDFSInfo b) (x : BlockT) :
    x ∈ (d.BlockPreorder.drop (startOf d.BlockDFSInfo b)).take
        (endOf d.BlockDFSInfo b - startOf d.BlockDFSInfo b) ↔
      (x ≠ b ∧ Relation.ReflTransGen (TreeEdge t) b x) := by
  have hbb := hp.bounds hb
  rw [mem_slice]
  constructor
  · rintro ⟨i, h1, h2, h3⟩
    obtain ⟨hxv, hxs⟩ := hp.tables.listed i x h3
    have hne : x ≠ b := by
      intro e; rw [e] at hxs; omega
    refine ⟨hne, ?_⟩
    rw [← hi.anc_iff_tree hp hb hxv]
    exact hp.anc_of_start hb hxv (by omega) (by omega)
  · rintro ⟨hne, hreach⟩
    have hanc := hi.anc_of_tree hp hreach
    have hxv := hp.anc_visited hb hanc
    obtain ⟨h1, h2⟩ := (anc_iff _ _ _).1 hanc
    have hxb := hp.bounds hxv
    have hlt : startOf d.BlockDFSInfo b < startOf d.BlockDFSInfo x := by
      rcases Nat.lt_or_ge (startOf d.BlockDFSInfo b) (startOf d.BlockDFSInfo x) with h | h
      · exact h
      · exact absurd (hp.tables.start_inj hxv hb (by omega)) hne
    refine ⟨startOf d.BlockDFSInfo x - 1, by omega, by omega, (hp.tables.stamp x hxv).2⟩

/-- C22: after `Compute::dfs`, for two visited blocks A and B the test
`A.isAncestorOf(B)` on their stamps holds iff B is reached from A along the edges of the DFS
spanning tree (in no step when A is B), where the tree parent of a block is the block whose
successor expansion pushed the stack entry at which the block was discovered; tree edges
are edges of the graph and the entry block has no tree parent. -/
theorem ancestor_iff_interval (g : Graph) (EntryBlock : BlockT) :
    ∃ d t, dfsTraced g EntryBlock = .done (d, t) ∧ dfs g EntryBlock = .done d ∧
      t.TreeParent EntryBlock = none ∧
      (∀ a b, TreeEdge t a b → b ∈ successors g a) ∧
      ∀ A B, d.BlockDFSInfo A ≠ none → d.BlockDFSInfo B ≠ none →
        ((d.BlockDFSInfo.lookup A).isAncestorOf (d.BlockDFSInfo.lookup B) = true ↔
          Relation.ReflTransGen (TreeEdge t) A B) := by
  obtain ⟨d, t, hT, hd, hp, hi⟩ := dfsTraced_spec g EntryBlock
  refine ⟨d, t, hT, hd, hi.entryRoot, ?_, ?_⟩
  · intro a b h
    exact (hi.edge_anc hp h).2.2.1
  · intro A B hA hB
    exact hi.anc_iff_tree hp hA hB

/-- C30: after `Compute::dfs`, the block at position `i` of the preorder list has the
discovery stamp `i + 1` and the entry block has the stamp 1; the finish stamp of a visited
block is its discovery stamp plus the number of its proper descendants in the DFS spanning
tree, and it is the largest discovery stamp among its descendants; with `n` the number of
blocks reachable from the entry block, `1 <= Start <= End <= n` for every visited block and
`End = n` for the entry block. -/
theorem stamps_count_descendants (g : Graph) (EntryBlock : BlockT) :
    ∃ d t, dfsTraced g EntryBlock = .done (d, t) ∧ dfs g EntryBlock = .done d ∧
      (∀ (i : Nat) (b : BlockT), d.BlockPreorder[i]? = some b →
        (d.BlockDFSInfo.lookup b).Start = i + 1) ∧
      (d.BlockDFSInfo.lookup EntryBlock).Start = 1 ∧
      (∀ b, d.BlockDFSInfo b ≠ none →
        (∀ l : List BlockT, l.Nodup →
          (∀ x, x ∈ l ↔ (x ≠ b ∧ Relation.ReflTransGen (TreeEdge t) b x)) →
          (d.BlockDFSInfo.lookup b).End = (d.BlockDFSInfo.lookup b).Start + l.length) ∧
        (∃ x, Relation.ReflTransGen (TreeEdge t) b x ∧
          (d.BlockDFSInfo.lookup x).Start = (d.BlockDFSInfo.lookup b).End) ∧
        (∀ x, Relation.ReflTransGen (TreeEdge t) b x →
          (d.BlockDFSInfo.lookup x).Start ≤ (d.BlockDFSInfo.lookup b).End)) ∧
      ∀ r : List BlockT, r.Nodup → (∀ x, x ∈ r ↔ Reachable g EntryBlock x) →
        (∀ b, d.BlockDFSInfo b ≠ none →
          1 ≤ (d.BlockDFSInfo.lookup b).Start ∧
          (d.BlockDFSInfo.lookup b).Start ≤ (d.BlockDFSInfo.lookup b).End ∧
          (d.BlockDFSInfo.lookup b).End ≤ r.length) ∧
        (d.BlockDFSInfo.lookup EntryBlock).End = r.length := by
  obtain ⟨d, t, hT, hd, hp, hi⟩ := dfsTraced_spec g EntryBlock
  refine ⟨d, t, hT, hd, ?_, hp.entry_start, ?_, ?_⟩
  · intro i b h
    exact (hp.tables.listed i b h).2
  · intro b hb
    have hbv : Visited d.BlockDFSInfo b := hb
    have hbb := hp.bounds hbv
    refine ⟨?_, ?_, ?_⟩
    · intro l hl hmem
      have hnd : ((d.BlockPreorder.drop (startOf d.BlockDFSInfo b)).take
          (endOf d.BlockDFSInfo b - startOf d.BlockDFSInfo b)).Nodup :=
        (hp.nodup.sublist (List.drop_sublist _ _)).sublist (List.take_sublist _ _)
      have hperm : l.Perm ((d.BlockPreorder.drop (startOf d.BlockDFSInfo b)).take
          (endOf d.BlockDFSInfo b - startOf d.BlockDFSInfo b)) := by
        rw [List.perm_ext_iff_of_nodup hl hnd]
        intro x
        rw [hmem x, hi.descendants_slice hp hbv x]
      have hlen := hperm.length_eq
      rw [List.length_take, List.length_drop] at hlen
      show endOf d.BlockDFSInfo b = startOf d.BlockDFSInfo b + l.length
      omega
    · have hlt : endOf d.BlockDFSInfo b - 1 < d.BlockPreorder.length := by omega
      obtain ⟨hxv, hxs⟩ := hp.tables.listed _ _ (List.getElem?_eq_getElem hlt)
      refine ⟨d.BlockPreorder[endOf d.BlockDFSInfo b - 1], ?_, ?_⟩
      · rw [← hi.anc_iff_tree hp hbv hxv]
        exact hp.anc_of_start hbv hxv (by omega) (by omega)
      · show startOf d.BlockDFSInfo _ = endOf d.BlockDFSInfo b
        omega
    · intro x hx
      have hanc := hi.anc_of_tree hp hx
      have hxv := hp.anc_visited hbv hanc
      have := hp.bounds hxv
      have := ((anc_iff _ _ _).1 hanc).2
      show startOf d.BlockDFSInfo x ≤ endOf d.BlockDFSInfo b
      omega
  · intro r hr hmem
    have hperm : r.Perm d.BlockPreorder := by
      rw [List.perm_ext_iff_of_nodup hr hp.nodup]
      intro x
      rw [hmem x, ← hp.visited_iff_reachable, hp.visited_iff_mem]
    have hlen := hperm.length_eq
    have hev := hp.tables.entryVisited
    have heb := hp.bounds hev
    refine ⟨?_, ?_⟩
    · intro b hb
      have := hp.bounds (show Visited d.BlockDFSInfo b from hb)
      rw [hlen]
      exact this
    · show endOf d.BlockDFSInfo EntryBlock = r.length
      have hlt : d.BlockPreorder.length - 1 < d.BlockPreorder.length := by omega
      obtain ⟨hxv, hxs⟩ := hp.tables.listed _ _ (List.getElem?_eq_getElem hlt)
      have hanc := hp.anc_entry hi _ _ (le_refl _) hxv
      have := ((anc_iff _ _ _).1 hanc).2
      have := hp.bounds hxv
      omega

theorem mem_headTailOffsets {n size i : Nat} (h1 : n ≤ size) (h2 : size ≤ 2 * n) :
    i ∈ headTailOffsets n size ↔ i < size := by
  unfold headTailOffsets
  rw [List.mem_append, List.mem_range, List.mem_map]
  constructor
  · rintro (h | ⟨j, hj, e⟩)
    · omega
    · rw [List.mem_range] at hj
      omega
  · intro h
    by_cases hi : i < n
    · exact Or.inl hi
    · exact Or.inr ⟨i - (size - n), List.mem_range.2 (by omega), by omega⟩

theorem differs_eq_false_iff (offsets : List Nat) (lhs rhs : Buffer) :
    Differs offsets lhs rhs = false ↔ ∀ i ∈ offsets, lhs i = rhs i := by
  unfold Differs equalsAt
  simp

theorem boolToInt_eq_zero (b : Bool) : boolToInt b = 0 ↔ b = false := by
  cases b <;> simp [boolToInt]

/-- C38: `inline_bcmp` returns 0 for the count 0; for the counts 1, 2 and 3 it compares
exactly the first 1, 2 and 3 bytes; for a count from 4 to 128 it runs the head-and-tail
comparison with the block size N = 4, 8, 16, 32, 64 for counts up to 8, 16, 32, 64, 128, and
N <= count <= 2N, so the offsets it reads are exactly the offsets below the count and the
result is 0 iff the two buffers agree on the first `count` bytes. -/
theorem inline_bcmp_dispatch (lhs rhs : Buffer) :
    inline_bcmp lhs rhs 0 = 0 ∧
    inline_bcmp lhs rhs 1 = boolToInt (Differs (fixedOffsets 1) lhs rhs) ∧
    inline_bcmp lhs rhs 2 = boolToInt (Differs (fixedOffsets 2) lhs rhs) ∧
    inline_bcmp lhs rhs 3 = boolToInt (Differs (fixedOffsets 3) lhs rhs) ∧
    (∀ n, fixedOffsets n = List.range n) ∧
    ∀ count, 4 ≤ count → count ≤ 128 →
      inline_bcmp lhs rhs count
        = boolToInt (Differs (headTailOffsets (headTailBlock count) count) lhs rhs) ∧
      ((count ≤ 8 ∧ headTailBlock count = 4) ∨ (8 < count ∧ count ≤ 16 ∧ headTailBlock count = 8) ∨
        (16 < count ∧ count ≤ 32 ∧ headTailBlock count = 16) ∨
        (32 < count ∧ count ≤ 64 ∧ headTailBlock count = 32) ∨
        (64 < count ∧ headTailBlock count = 64)) ∧
      headTailBlock count ≤ count ∧ count ≤ 2 * headTailBlock count ∧
      (∀ i, i ∈ headTailOffsets (headTailBlock count) count ↔ i < count) ∧
      (inline_bcmp lhs rhs count = 0 ↔ ∀ i, i < count → lhs i = rhs i) := by
  refine ⟨rfl, rfl, rfl, rfl, fun _ => rfl, ?_⟩
  intro count h4 h128
  have hN1 : headTailBlock count ≤ count := by
    unfold headTailBlock; split_ifs <;> omega
  have hN2 : count ≤ 2 * headTailBlock count := by
    unfold headTailBlock; split_ifs <;> omega
  have hcall : inline_bcmp lhs rhs count
      = boolToInt (Differs (headTailOffsets (headTailBlock count) count) lhs rhs) := by
    unfold inline_bcmp headTailBlock
    have h0 : ¬ count = 0 := by omega
    have h1 : ¬ count = 1 := by omega
    have h2 : ¬ count = 2 := by omega
    have h3 : ¬ count = 3 := by omega
    simp only [h0, h1, h2, h3, if_false]
    split_ifs <;> rfl
  refine ⟨hcall, ?_, hN1, hN2, fun i => mem_headTailOffsets hN1 hN2, ?_⟩
  · unfold headTailBlock
    split_ifs <;> omega
  · rw [hcall, boolToInt_eq_zero, differs_eq_false_iff]
    constructor
    · intro h i hi
      exact h i ((mem_headTailOffsets hN1 hN2).2 hi)
    · intro h i hi
      exact h i ((mem_headTailOffsets hN1 hN2).1 hi)

/-- Two cycles that share a block lie on one parent chain. -/
theorem Wf.common_block_chain {m : DFSMap} {cs : List GenericCycle} {bm : List (BlockT × Nat)}
    {roots : List Nat} (h : Wf m cs bm roots) {c1 c2 : Nat} {b : BlockT}
    (h1 : c1 < cs.length) (h2 : c2 < cs.length)
    (hb1 : b ∈ (cycAt cs c1).Blocks) (hb2 : b ∈ (cycAt cs c2).Blocks) :
    Relation.ReflTransGen (ParentLink cs) c1 c2 ∨ Relation.ReflTransGen (ParentLink cs) c2 c1 := by
  obtain ⟨x1, hf1, hch1⟩ := h.mapInner c1 h1 b hb1
  obtain ⟨x2, hf2, hch2⟩ := h.mapInner c2 h2 b hb2
  rw [hf1] at hf2
  cases hf2
  exact Relation.ReflTransGen.total_of_right_unique
    (fun _ _ _ ha hb => parentLink_functional ha hb) hch1 hch2

/-- Two different children of one cycle share no block. -/
theorem Wf.children_disjoint {m : DFSMap} {cs : List GenericCycle} {bm : List (BlockT × Nat)}
    {roots : List Nat} (h : Wf m cs bm roots) {p c1 c2 : Nat} {b : BlockT}
    (hp : p < cs.length) (h1 : c1 ∈ (cycAt cs p).Children) (h2 : c2 ∈ (cycAt cs p).Children)
    (hb1 : b ∈ (cycAt cs c1).Blocks) (hb2 : b ∈ (cycAt cs c2).Blocks) : c1 = c2 := by
  obtain ⟨hl1, hp1⟩ := h.childPar p hp c1 h1
  obtain ⟨hl2, hp2⟩ := h.childPar p hp c2 h2
  have hc1 : c1 < cs.length := by omega
  have hc2 : c2 < cs.length := by omega
  have key : ∀ x y : Nat, x < p → y < p → (cycAt cs x).ParentCycle = some p →
      Relation.ReflTransGen (ParentLink cs) x y → x = y := by
    intro x y hx hy hxp hxy
    rcases Relation.ReflTransGen.cases_head hxy with e | ⟨z, hl, hrest⟩
    · exact e
    · exfalso
      have hz : z = p := by
        rw [parentLink_iff] at hl
        rw [hxp] at hl
        exact (Option.some.inj hl.2).symm
      rw [hz] at hrest
      have := h.chain_le hrest
      omega
  rcases h.common_block_chain hc1 hc2 hb1 hb2 with hch | hch
  · exact key c1 c2 hl1 hl2 hp1 hch
  · exact (key c2 c1 hl2 hl1 hp2 hch).symm

theorem dfsLoop_stacks (g : Graph) :
    ∀ (fuel : Nat) (s s1 : DfsState), dfsLoop g fuel s = .done s1 →
      s1.TraverseStack = [] ∧ s1.DFSTreeStack = [] := by
  intro fuel
  induction fuel with
  | zero => intro s s1 h; simp [dfsLoop] at h
  | succ fuel ih =>
    intro s s1 h
    simp only [dfsLoop] at h
    obtain ⟨s2, _, h2⟩ := Outcome.bind_eq_done.1 h
    cases hst : s2.TraverseStack with
    | nil =>
      rw [hst] at h2
      simp only at h2
      cases htr : s2.DFSTreeStack with
      | nil =>
        rw [htr] at h2
        simp only [List.isEmpty_nil, if_true] at h2
        cases h2
        exact ⟨hst, htr⟩
      | cons x xs =>
        rw [htr] at h2
        simp at h2
    | cons x xs =>
      rw [hst] at h2
      exact ih s2 s1 h2

/-- C35: after `compute` on an empty forest, two different top-level cycles share no
member, two different children of one cycle share no member, and of two cycles that share
a member one holds all members of the other. -/
theorem cycles_are_laminar (g : Graph) :
    ∃ info, compute g GenericCycleInfo.empty = .done info ∧
      (∀ t1 ∈ info.TopLevelCycles, ∀ t2 ∈ info.TopLevelCycles, t1 ≠ t2 →
        ∀ cyc1 cyc2 : GenericCycle, info.Cycles[t1]? = some cyc1 →
          info.Cycles[t2]? = some cyc2 → ∀ b ∈ cyc1.Blocks, b ∉ cyc2.Blocks) ∧
      (∀ (p : Nat) (par : GenericCycle), info.Cycles[p]? = some par →
        ∀ c1 ∈ par.Children, ∀ c2 ∈ par.Children, c1 ≠ c2 →
        ∀ cyc1 cyc2 : GenericCycle, info.Cycles[c1]? = some cyc1 →
          info.Cycles[c2]? = some cyc2 → ∀ b ∈ cyc1.Blocks, b ∉ cyc2.Blocks) ∧
      ∀ (c1 c2 : Nat) (cyc1 cyc2 : GenericCycle), info.Cycles[c1]? = some cyc1 →
        info.Cycles[c2]? = some cyc2 →
        (∀ b ∈ cyc1.Blocks, b ∉ cyc2.Blocks) ∨ (∀ b ∈ cyc1.Blocks, b ∈ cyc2.Blocks) ∨
          (∀ b ∈ cyc2.Blocks, b ∈ cyc1.Blocks) := by
  obtain ⟨d, info1, info, _, hc, _, hres⟩ := compute_spec g
  have hlt : ∀ (c : Nat) (cyc : GenericCycle), info.Cycles[c]? = some cyc →
      c < info.Cycles.length := by
    intro c cyc hcy
    by_contra hn
    rw [getElem?_of_ge (Nat.le_of_not_lt hn)] at hcy
    cases hcy
  refine ⟨info, hc, ?_, ?_, ?_⟩
  · intro t1 h1 t2 h2 hne cyc1 cyc2 e1 e2 b hb1 hb2
    apply hne
    apply hres.wf.roots_disjoint h1 h2
    · rw [cycAt_of_getElem? e1]; exact hb1
    · rw [cycAt_of_getElem? e2]; exact hb2
  · intro p par ep c1 h1 c2 h2 hne cyc1 cyc2 e1 e2 b hb1 hb2
    apply hne
    apply hres.wf.children_disjoint (hlt p par ep)
    · rw [cycAt_of_getElem? ep]; exact h1
    · rw [cycAt_of_getElem? ep]; exact h2
    · rw [cycAt_of_getElem? e1]; exact hb1
    · rw [cycAt_of_getElem? e2]; exact hb2
  · intro c1 c2 cyc1 cyc2 e1 e2
    by_cases hd : ∀ b ∈ cyc1.Blocks, b ∉ cyc2.Blocks
    · exact Or.inl hd
    · right
      push_neg at hd
      obtain ⟨b, hb1, hb2⟩ := hd
      have ha1 := cycAt_of_getElem? e1
      have ha2 := cycAt_of_getElem? e2
      rcases hres.wf.common_block_chain (hlt c1 cyc1 e1) (hlt c2 cyc2 e2)
        (by rw [ha1]; exact hb1) (by rw [ha2]; exact hb2) with hch | hch
      · left
        have := hres.wf.chain_blocks hch
        rw [ha1, ha2] at this
        exact this
      · right
        have := hres.wf.chain_blocks hch
        rw [ha1, ha2] at this
        exact this

/-- C36: after `Compute::dfs`, the ancestor test of a visited block against a block without
DFS info fails; so in `compute` on an empty forest a block whose predecessors all lack DFS
info is not the header of a cycle, the predecessor scan pushes no block without DFS info on
the worklist, and a member of a cycle that has a predecessor without DFS info is an entry
of that cycle. -/
theorem unvisited_pred_is_outside (g : Graph) :
    ∃ d info, dfs g g.entry = .done d ∧ compute g GenericCycleInfo.empty = .done info ∧
      (∀ H P, d.BlockDFSInfo H ≠ none → d.BlockDFSInfo P = none →
        d.BlockDFSInfo.lookup P = ⟨0, 0⟩ ∧
        (d.BlockDFSInfo.lookup H).isAncestorOf (d.BlockDFSInfo.lookup P) = false) ∧
      (∀ H, (∀ P ∈ predecessors g H, d.BlockDFSInfo P = none) →
        ∀ (c : Nat) (cyc : GenericCycle), info.Cycles[c]? = some cyc →
          cyc.Entries.head? ≠ some H) ∧
      (∀ H, d.BlockDFSInfo H ≠ none → ∀ (preds Worklist : List BlockT) (IsEntry : Bool),
        ∀ w ∈ (scanPreds d.BlockDFSInfo (d.BlockDFSInfo.lookup H) preds (Worklist, IsEntry)).1,
          w ∈ Worklist ∨ d.BlockDFSInfo w ≠ none) ∧
      ∀ (c : Nat) (cyc : GenericCycle), info.Cycles[c]? = some cyc →
        ∀ B ∈ cyc.Blocks, ∀ P ∈ predecessors g B, d.BlockDFSInfo P = none →
          B ∈ cyc.Entries := by
  obtain ⟨d, info1, info, hdfs, hc, _, hres⟩ := compute_spec g
  have hout : ∀ H P, Visited d.BlockDFSInfo H → d.BlockDFSInfo P = none →
      ¬ Anc d.BlockDFSInfo H P := by
    intro H P hH hP hanc
    have hv := hres.post.anc_visited hH hanc
    exact hv hP
  refine ⟨d, info, hdfs, hc, ?_, ?_, ?_, ?_⟩
  · intro H P hH hP
    refine ⟨by simp [DFSMap.lookup, hP], ?_⟩
    have := hout H P hH hP
    unfold Anc at this
    simpa using this
  · intro H hall c cyc hcy he
    have hm : H ∈ info.Cycles.map headerOf :=
      List.mem_map.2 ⟨cyc, List.getElem?_mem hcy, headerOf_of_head? he⟩
    rw [hres.headers, List.mem_filter, List.mem_reverse, ← hres.post.visited_iff_mem] at hm
    obtain ⟨hv, hb⟩ := hm
    unfold hasBack at hb
    rw [List.any_eq_true] at hb
    obtain ⟨P, hP, hanc⟩ := hb
    exact hout H P hv (hall P hP) ((ancB_iff _ _ _).1 hanc)
  · intro H hH preds Worklist IsEntry w hw
    rw [scanPreds_eq] at hw
    rcases List.mem_append.1 hw with h | h
    · right
      have h1 := (List.mem_filter.1 (List.mem_reverse.1 h)).2
      exact hres.post.anc_visited hH ((ancB_iff _ _ _).1 h1)
    · exact Or.inl h
  · intro c cyc hcy B hB P hP hPn
    have hlt : c < info.Cycles.length := by
      by_contra hn
      rw [getElem?_of_ge (Nat.le_of_not_lt hn)] at hcy
      cases hcy
    have hat : cycAt info.Cycles c = cyc := cycAt_of_getElem? hcy
    have hsem := hres.forest_sem c hlt
    have hv := hres.wf.headerVisited c hlt
    rw [hat] at hsem hv
    rw [hsem.entryIff B hB]
    right
    rw [hasOutside_iff]
    exact ⟨P, hP, hout _ P hv hPn⟩

/-- C37: in `compute` on an empty forest no assertion fails, whatever the graph: the DFS
returns with both of its stacks empty and with every block listed once in the preorder, the
loop over the header candidates returns (so every re-parented cycle is found in its
container and no block is appended twice to an entry list or a member list), and the final
validation returns true. -/
theorem no_assertion_fails (g : Graph) :
    ∃ d info1 info, dfs g g.entry = .done d ∧ d.TraverseStack = [] ∧ d.DFSTreeStack = [] ∧
      d.BlockPreorder.Nodup ∧
      headerLoop g d.BlockDFSInfo d.BlockPreorder.reverse GenericCycleInfo.empty
        = .done info1 ∧
      run g GenericCycleInfo.empty = .done info ∧ validateTree info = .done true ∧
      compute g GenericCycleInfo.empty = .done info := by
  obtain ⟨d, _, info, hdfs, hc, hval, hres⟩ := compute_spec g
  have hst := dfsLoop_stacks g _ _ _ hdfs
  have hrun : run g GenericCycleInfo.empty = .done info := by
    unfold compute at hc
    obtain ⟨i1, h1, h2⟩ := Outcome.bind_eq_done.1 hc
    obtain ⟨ok, h3, h4⟩ := Outcome.bind_eq_done.1 h2
    cases ok with
    | false => simp at h4
    | true =>
      simp only [if_true] at h4
      cases h4
      exact h1
  have hrun2 := hrun
  unfold run at hrun2
  rw [hdfs] at hrun2
  simp only [Outcome.bind_done] at hrun2
  obtain ⟨info1, h5, _⟩ := Outcome.bind_eq_done.1 hrun2
  exact ⟨d, info1, info, hdfs, hst.1, hst.2, hres.post.nodup, h5, hrun, hval, hc⟩

theorem stepIn_reachable {g : Graph} {m : DFSMap} {H a b : BlockT}
    (h : Relation.ReflTransGen (StepIn g m H) a b) : Reachable g a b :=
  Relation.ReflTransGen.mono (fun _ _ hs => hs.1) h

/-- A block of the DFS subtree of the header with an edge to a member is a member, and so
is every block on a path inside the subtree to a member. -/
theorem CycleSem.member_path {g : Graph} {m : DFSMap} {cyc : GenericCycle}
    (hsem : CycleSem g m cyc) (hg : EdgesArePreds g) {x y : BlockT}
    (hy : y ∈ cyc.Blocks) (h : Relation.ReflTransGen (StepIn g m (headerOf cyc)) x y) :
    x ∈ cyc.Blocks ∧ Relation.ReflTransGen (MemberStep g cyc) x y := by
  induction h using Relation.ReflTransGen.head_induction_on with
  | refl => exact ⟨hy, Relation.ReflTransGen.refl⟩
  | head hstep _ ih =>
    have hx := hsem.predClosed _ ih.1 _ ((edgesArePreds_iff g).1 hg _ _ hstep.1) hstep.2.1
    exact ⟨hx, Relation.ReflTransGen.head ⟨hstep.1, hx, ih.1⟩ ih.2⟩

theorem onCycle_of_nonTrivial {g : Graph} {a : BlockT} (h : NonTrivial g a) : OnCycle g a := by
  rcases h with ⟨b, hne, hab, hba⟩ | h
  · rcases Relation.ReflTransGen.cases_head hab with e | ⟨y, hy, hyb⟩
    · exact absurd e.symm hne
    · exact ⟨y, hy, hyb.trans hba⟩
  · exact ⟨a, h, Relation.ReflTransGen.refl⟩

theorem nonTrivial_of_onCycle {g : Graph} {a : BlockT} (h : OnCycle g a) : NonTrivial g a := by
  obtain ⟨y, hy, hya⟩ := h
  by_cases e : y = a
  · right; rw [e] at hy; exact hy
  · left
    exact ⟨y, e, Relation.ReflTransGen.single hy, hya⟩

theorem SameSCC.symm {g : Graph} {a b : BlockT} (h : SameSCC g a b) : SameSCC g b a :=
  ⟨h.2, h.1⟩

theorem SameSCC.scc_trans {g : Graph} {a b c : BlockT} (h1 : SameSCC g a b) (h2 : SameSCC g b c) :
    SameSCC g a c :=
  ⟨h1.1.trans h2.1, h2.2.trans h1.2⟩

/-- Every strongly connected component of visited blocks has a block that was discovered
first. -/
theorem exists_first_discovered (g : Graph) (m : DFSMap) (N : BlockT) :
    ∃ R, SameSCC g N R ∧ ∀ X, SameSCC g N X → startOf m R ≤ startOf m X := by
  have hne : ∃ k, ∃ X, SameSCC g N X ∧ startOf m X = k :=
    ⟨_, N, ⟨Relation.ReflTransGen.refl, Relation.ReflTransGen.refl⟩, rfl⟩
  obtain ⟨k, ⟨R, hR, hk⟩, hmin⟩ :=
    WellFounded.has_min Nat.lt_wfRel.wf {k | ∃ X, SameSCC g N X ∧ startOf m X = k} hne
  refine ⟨R, hR, ?_⟩
  intro X hX
  have := hmin (startOf m X) ⟨X, hX, rfl⟩
  rw [hk]
  exact Nat.le_of_not_lt this

/-- The blocks of a strongly connected component lie in the DFS subtree of the block of the
component that was discovered first. -/
theorem DfsPost.scc_in_subtree {g : Graph} {entry : BlockT} {d : DfsState}
    (hp : DfsPost g entry d) {R : BlockT} (hR : Visited d.BlockDFSInfo R)
    (hmin : ∀ X, SameSCC g R X → startOf d.BlockDFSInfo R ≤ startOf d.BlockDFSInfo X)
    {X : BlockT} (h1 : Reachable g R X) :
    Reachable g X R → Anc d.BlockDFSInfo R X := by
  induction h1 with
  | refl => intro _; exact Anc.refl _ _
  | tail hry hstep ih =>
    rename_i y X
    intro hXR
    have hyR : Reachable g y R := Relation.ReflTransGen.head hstep hXR
    have hanc := ih hyR
    have hyv := hp.anc_visited hR hanc
    obtain ⟨hXv, hle⟩ := hp.visited_succ hyv hstep
    have h2 := ((anc_iff _ _ _).1 hanc).2
    exact hp.anc_of_start hR hXv (hmin X ⟨hry.tail hstep, hXR⟩) (by omega)

/-- The header of a cycle lies on a closed walk. -/
theorem RunResult.header_onCycle {g : Graph} {d : DfsState} {info1 info : GenericCycleInfo}
    (h : RunResult g d info1 info) (hg : PredsAreEdges g) {c : Nat}
    (hc : c < info.Cycles.length) : OnCycle g (headerOf (cycAt info.Cycles c)) := by
  have hm : headerOf (cycAt info.Cycles c) ∈ info.Cycles.map headerOf := headerOf_mem_map hc
  rw [h.headers, List.mem_filter] at hm
  obtain ⟨_, hb⟩ := hm
  unfold hasBack at hb
  rw [List.any_eq_true] at hb
  obtain ⟨P, hP, hanc⟩ := hb
  have hedge := (predsAreEdges_iff g).1 hg _ _ hP
  have hv := h.wf.headerVisited c hc
  have hpath := stepIn_reachable (h.post.tree_path hv _ P ((ancB_iff _ _ _).1 hanc) (le_refl _))
  rcases Relation.ReflTransGen.cases_head hpath with e | ⟨y, hy, hyP⟩
  · rw [← e] at hedge
    exact ⟨_, hedge, Relation.ReflTransGen.refl⟩
  · exact ⟨y, hy, hyP.tail hedge⟩

/-- The members of a cycle lie in the strongly connected component of its header. -/
theorem RunResult.member_scc {g : Graph} {d : DfsState} {info1 info : GenericCycleInfo}
    (h : RunResult g d info1 info) (hg : PredsAreEdges g) {c : Nat}
    (hc : c < info.Cycles.length) {B : BlockT} (hB : B ∈ (cycAt info.Cycles c).Blocks) :
    SameSCC g (headerOf (cycAt info.Cycles c)) B := by
  have hv := h.wf.headerVisited c hc
  have hsub := h.wf.subtree c hc B hB
  exact ⟨stepIn_reachable (h.post.tree_path hv _ B hsub (le_refl _)),
    stepIn_reachable ((h.forest_sem c hc).path hg B hB)⟩

/-- A visited block on a closed walk lies in a top-level cycle whose members are the blocks
of its strongly connected component. -/
theorem RunResult.scc_cycle {g : Graph} {d : DfsState} {info1 info : GenericCycleInfo}
    (h : RunResult g d info1 info) (hg : EdgesAgree g) {N : BlockT}
    (hN : Visited d.BlockDFSInfo N) (hcyc : OnCycle g N) :
    ∃ c, c < info.Cycles.length ∧ c ∈ info.TopLevelCycles ∧
      ∀ B, B ∈ (cycAt info.Cycles c).Blocks ↔ SameSCC g N B := by
  obtain ⟨R, hNR, hmin0⟩ := exists_first_discovered g d.BlockDFSInfo N
  have hRv : Visited d.BlockDFSInfo R := by
    rw [h.post.visited_iff_reachable] at hN ⊢
    exact hN.trans hNR.1
  have hmin : ∀ X, SameSCC g R X → startOf d.BlockDFSInfo R ≤ startOf d.BlockDFSInfo X :=
    fun X hX => hmin0 X (hNR.scc_trans hX)
  have hsub : ∀ X, SameSCC g R X → Anc d.BlockDFSInfo R X :=
    fun X hX => h.post.scc_in_subtree hRv hmin hX.1 hX.2
  -- a predecessor of `R` inside the component
  obtain ⟨y, hy, hyN⟩ := hcyc
  have htg : Relation.TransGen (fun x z => z ∈ successors g x) N R :=
    Relation.TransGen.head' hy (hyN.trans hNR.1)
  obtain ⟨Z, hNZ, hZR⟩ := Relation.TransGen.tail'_iff.1 htg
  have hZ : SameSCC g R Z := ⟨hNR.2.trans hNZ, Relation.ReflTransGen.single hZR⟩
  have hback : hasBack g d.BlockDFSInfo R = true := by
    unfold hasBack
    rw [List.any_eq_true]
    exact ⟨Z, (edgesArePreds_iff g).1 hg.2 _ _ hZR, (ancB_iff _ _ _).2 (hsub Z hZ)⟩
  have hm : R ∈ info.Cycles.map headerOf := by
    rw [h.headers, List.mem_filter, List.mem_reverse, ← h.post.visited_iff_mem]
    exact ⟨hRv, hback⟩
  obtain ⟨cyc, hcm, hh⟩ := List.mem_map.1 hm
  obtain ⟨c, hlt, hcy⟩ := List.getElem_of_mem hcm
  have hcy1 : info.Cycles[c]? = some cyc := by rw [List.getElem?_eq_getElem hlt, hcy]
  have hat : cycAt info.Cycles c = cyc := cycAt_of_getElem? hcy1
  have hhd : headerOf (cycAt info.Cycles c) = R := by rw [hat]; exact hh
  have hsem := h.forest_sem c hlt
  have hRmem := (h.wf.header_mem hlt).1
  rw [hhd] at hRmem
  have hin : ∀ B, Reachable g B R → Reachable g R B → B ∈ (cycAt info.Cycles c).Blocks := by
    intro B hBR
    induction hBR using Relation.ReflTransGen.head_induction_on with
    | refl => intro _; exact hRmem
    | head hstep hrest ih =>
      rename_i B y
      intro hRB
      have hym := ih (hRB.tail hstep)
      have hanc := hsub B ⟨hRB, Relation.ReflTransGen.head hstep hrest⟩
      rw [← hhd] at hanc
      exact hsem.predClosed _ hym _ ((edgesArePreds_iff g).1 hg.2 _ _ hstep) hanc
  have hblocks : ∀ B, B ∈ (cycAt info.Cycles c).Blocks ↔ SameSCC g N B := by
    intro B
    constructor
    · intro hB
      have := h.member_scc hg.1 hlt hB
      rw [hhd] at this
      exact hNR.scc_trans this
    · intro hB
      have hRB := hNR.symm.scc_trans hB
      exact hin B hRB.2 hRB.1
  refine ⟨c, hlt, ?_, hblocks⟩
  rw [h.wf.rootsIff c]
  refine ⟨hlt, ?_⟩
  cases hpar : (cycAt info.Cycles c).ParentCycle with
  | none => rfl
  | some p =>
    exfalso
    obtain ⟨hcp, hpl, hch⟩ := h.wf.parentLt c hlt p hpar
    have hRp := h.wf.childBlocks p hpl c hch R hRmem
    have hscc := h.member_scc hg.1 hpl hRp
    have h1 := hmin _ hscc.symm
    have hanc := h.wf.subtree p hpl R hRp
    have h2 := ((anc_iff _ _ _).1 hanc).1
    have e := h.post.tables.start_inj (h.wf.headerVisited p hpl) hRv (by omega)
    have : p = c := h.header_inj hpl hlt (by rw [e, hhd])
    omega

/-- C32: for a graph whose predecessor table agrees with its successor table, after
`compute` on an empty forest the members of every top-level cycle are the blocks of the
strongly connected component of one of its members, which is reachable from the entry and
non-trivial; and for every block that is reachable from the entry and has a non-trivial
component, the blocks of that component are the members of exactly one top-level cycle. -/
theorem top_level_cycles_are_sccs (g : Graph) (hg : EdgesAgree g) :
    ∃ info, compute g GenericCycleInfo.empty = .done info ∧
      (∀ t ∈ info.TopLevelCycles, ∃ (cyc : GenericCycle) (H : BlockT),
        info.Cycles[t]? = some cyc ∧ H ∈ cyc.Blocks ∧ Reachable g g.entry H ∧
        NonTrivial g H ∧ ∀ B, B ∈ cyc.Blocks ↔ SameSCC g H B) ∧
      ∀ H, Reachable g g.entry H → NonTrivial g H →
        ∃ t ∈ info.TopLevelCycles, ∃ cyc, info.Cycles[t]? = some cyc ∧
          (∀ B, B ∈ cyc.Blocks ↔ SameSCC g H B) ∧
          ∀ t1 ∈ info.TopLevelCycles, ∀ cyc1, info.Cycles[t1]? = some cyc1 →
            (∀ B, B ∈ cyc1.Blocks ↔ SameSCC g H B) → t1 = t := by
  obtain ⟨d, info1, info, _, hc, _, hres⟩ := compute_spec g
  have hself : ∀ X, SameSCC g X X := fun X =>
    ⟨Relation.ReflTransGen.refl, Relation.ReflTransGen.refl⟩
  refine ⟨info, hc, ?_, ?_⟩
  · intro t ht
    have htl := ((hres.wf.rootsIff t).1 ht).1
    have hv := hres.wf.headerVisited t htl
    have hon := hres.header_onCycle hg.1 htl
    obtain ⟨c, hcl, hctop, hblocks⟩ := hres.scc_cycle hg hv hon
    have hHt := (hres.wf.header_mem htl).1
    have hHc := (hblocks _).2 (hself _)
    have e : t = c := hres.wf.roots_disjoint ht hctop hHt hHc
    refine ⟨cycAt info.Cycles t, headerOf (cycAt info.Cycles t), getElem?_of_lt htl, hHt,
      (hres.post.visited_iff_reachable _).1 hv, nonTrivial_of_onCycle hon, ?_⟩
    rw [e]
    rw [e] at hblocks
    exact hblocks
  · intro H hr hnt
    have hv := (hres.post.visited_iff_reachable H).2 hr
    obtain ⟨c, hcl, hctop, hblocks⟩ := hres.scc_cycle hg hv (onCycle_of_nonTrivial hnt)
    refine ⟨c, hctop, cycAt info.Cycles c, getElem?_of_lt hcl, hblocks, ?_⟩
    intro t1 ht1 cyc1 hcy1 hb1
    apply hres.wf.roots_disjoint ht1 hctop (b := H)
    · rw [cycAt_of_getElem? hcy1]; exact (hb1 H).2 (hself H)
    · exact (hblocks H).2 (hself H)

/-- The statement of C32 on the single reducible loop. -/
theorem top_level_cycles_are_sccs_witness :
    EdgesAgree (singleLoop [2, 3] [0, 2]) ∧
    ∃ info, compute (singleLoop [2, 3] [0, 2]) GenericCycleInfo.empty = .done info ∧
      (∀ t ∈ info.TopLevelCycles, ∃ (cyc : GenericCycle) (H : BlockT),
        info.Cycles[t]? = some cyc ∧ H ∈ cyc.Blocks ∧
        Reachable (singleLoop [2, 3] [0, 2]) (singleLoop [2, 3] [0, 2]).entry H ∧
        NonTrivial (singleLoop [2, 3] [0, 2]) H ∧
        ∀ B, B ∈ cyc.Blocks ↔ SameSCC (singleLoop [2, 3] [0, 2]) H B) ∧
      ∀ H, Reachable (singleLoop [2, 3] [0, 2]) (singleLoop [2, 3] [0, 2]).entry H →
        NonTrivial (singleLoop [2, 3] [0, 2]) H →
        ∃ t ∈ info.TopLevelCycles, ∃ cyc, info.Cycles[t]? = some cyc ∧
          (∀ B, B ∈ cyc.Blocks ↔ SameSCC (singleLoop [2, 3] [0, 2]) H B) ∧
          ∀ t1 ∈ info.TopLevelCycles, ∀ cyc1, info.Cycles[t1]? = some cyc1 →
            (∀ B, B ∈ cyc1.Blocks ↔ SameSCC (singleLoop [2, 3] [0, 2]) H B) → t1 = t :=
  ⟨by decide, top_level_cycles_are_sccs _ (by decide)⟩

/-- C33: for a graph whose predecessor table agrees with its successor table, after
`compute` on an empty forest `getCycle(N)` is not none iff `N` is reachable from the entry
and lies on a closed walk of at least one edge. -/
theorem getCycle_iff_on_cycle (g : Graph) (hg : EdgesAgree g) :
    ∃ info, compute g GenericCycleInfo.empty = .done info ∧
      ∀ N, getCycle info N ≠ none ↔ (Reachable g g.entry N ∧ OnCycle g N) := by
  obtain ⟨d, info1, info, _, hc, _, hres⟩ := compute_spec g
  refine ⟨info, hc, ?_⟩
  intro N
  unfold getCycle
  constructor
  · intro hne
    cases hf : mapFind info.BlockMap N with
    | none => exact absurd hf hne
    | some c =>
      have hval := hres.wf.mapValid _ (mapFind_mem hf)
      have hcl : c < info.Cycles.length := hval.1
      have hb : N ∈ (cycAt info.Cycles c).Blocks := hval.2
      have hscc := hres.member_scc hg.1 hcl hb
      have hv := hres.post.anc_visited (hres.wf.headerVisited c hcl)
        (hres.wf.subtree c hcl N hb)
      refine ⟨(hres.post.visited_iff_reachable N).1 hv, ?_⟩
      rcases Relation.ReflTransGen.cases_head hscc.2 with e | ⟨y, hy, hyH⟩
      · rw [e]; exact hres.header_onCycle hg.1 hcl
      · exact ⟨y, hy, hyH.trans hscc.1⟩
  · rintro ⟨hr, hon⟩
    have hv := (hres.post.visited_iff_reachable N).2 hr
    obtain ⟨c, hcl, _, hblocks⟩ := hres.scc_cycle hg hv hon
    have hN : N ∈ (cycAt info.Cycles c).Blocks :=
      (hblocks N).2 ⟨Relation.ReflTransGen.refl, Relation.ReflTransGen.refl⟩
    obtain ⟨c0, hf, _⟩ := hres.wf.mapInner c hcl N hN
    rw [hf]
    simp

/-- The statement of C33 on the single reducible loop. -/
theorem getCycle_iff_on_cycle_witness :
    EdgesAgree (singleLoop [2, 3] [0, 2]) ∧
    ∃ info, compute (singleLoop [2, 3] [0, 2]) GenericCycleInfo.empty = .done info ∧
      ∀ N, getCycle info N ≠ none ↔
        (Reachable (singleLoop [2, 3] [0, 2]) (singleLoop [2, 3] [0, 2]).entry N ∧
          OnCycle (singleLoop [2, 3] [0, 2]) N) :=
  ⟨by decide, getCycle_iff_on_cycle _ (by decide)⟩

/-- C34: for a graph whose predecessor table agrees with its successor table, after
`compute` on an empty forest every member of a cycle is reached from every member of that
cycle along edges between members of that cycle. -/
theorem members_strongly_connected (g : Graph) (hg : EdgesAgree g) :
    ∃ info, compute g GenericCycleInfo.empty = .done info ∧
      ∀ (c : Nat) (cyc : GenericCycle), info.Cycles[c]? = some cyc →
        ∀ X ∈ cyc.Blocks, ∀ Y ∈ cyc.Blocks,
          Relation.ReflTransGen (MemberStep g cyc) X Y := by
  obtain ⟨d, info1, info, _, hc, _, hres⟩ := compute_spec g
  refine ⟨info, hc, ?_⟩
  intro c cyc hcy X hX Y hY
  have hlt : c < info.Cycles.length := by
    by_contra hn
    rw [getElem?_of_ge (Nat.le_of_not_lt hn)] at hcy
    cases hcy
  have hat : cycAt info.Cycles c = cyc := cycAt_of_getElem? hcy
  have hsem := hres.forest_sem c hlt
  have hv := hres.wf.headerVisited c hlt
  have hsub := hres.wf.subtree c hlt
  have hH := (hres.wf.header_mem hlt).1
  rw [hat] at hsem hv hsub hH
  have h1 := (hsem.member_path hg.2 hH (hsem.path hg.1 X hX)).2
  have h2 := (hsem.member_path hg.2 hY
    (hres.post.tree_path hv _ Y (hsub Y hY) (le_refl _))).2
  exact h1.trans h2

/-- The statement of C34 on the single reducible loop. -/
theorem members_strongly_connected_witness :
    EdgesAgree (singleLoop [2, 3] [0, 2]) ∧
    ∃ info, compute (singleLoop [2, 3] [0, 2]) GenericCycleInfo.empty = .done info ∧
      ∀ (c : Nat) (cyc : GenericCycle), info.Cycles[c]? = some cyc →
        ∀ X ∈ cyc.Blocks, ∀ Y ∈ cyc.Blocks,
          Relation.ReflTransGen (MemberStep (singleLoop [2, 3] [0, 2]) cyc) X Y :=
  ⟨by decide, members_strongly_connected _ (by decide)⟩

/-! ### The counter does not change what the program does -/

theorem scanPredsC_eq (m : DFSMap) (ci : DFSInfo) :
    ∀ (l : List BlockT) (acc : List BlockT × Bool) (n : Nat),
      scanPredsC m ci l (acc, n) = (scanPreds m ci l acc, n + l.length) := by
  intro l
  induction l with
  | nil => intro acc n; simp [scanPredsC, scanPreds]
  | cons p rest ih =>
    intro acc n
    obtain ⟨wl, e⟩ := acc
    by_cases h : ci.isAncestorOf (m.lookup p) = true
    · simp only [scanPredsC, scanPreds, h, if_true, ih, List.length_cons]
      rw [show n + 1 + rest.length = n + (rest.length + 1) by omega]
    · have h0 : ci.isAncestorOf (m.lookup p) = false := by simpa using h
      simp only [scanPredsC, scanPreds, h0, Bool.false_eq_true, if_false, ih, List.length_cons]
      rw [show n + 1 + rest.length = n + (rest.length + 1) by omega]

theorem ProcessPredecessorsC_eq (g : Graph) (m : DFSMap) (ci : DFSInfo) (New : Nat)
    (Block : BlockT) (st : GenericCycleInfo × List BlockT) (n : Nat) :
    ProcessPredecessorsC g m ci New Block (st, n)
      = (ProcessPredecessors g m ci New Block st).bind
          (fun st1 => .done (st1, n + (predecessors g Block).length)) := by
  unfold ProcessPredecessorsC ProcessPredecessors
  simp only [scanPredsC_eq]
  split_ifs with h1
  · cases hc : st.1.Cycles[New]? with
    | none => rfl
    | some cyc =>
      simp only
      split_ifs <;> rfl
  · rfl

theorem predSum_cons (g : Graph) (b : BlockT) (l : List BlockT) :
    predSum g (b :: l) = (predecessors g b).length + predSum g l := by
  simp [predSum]

theorem predSum_append (g : Graph) (l1 l2 : List BlockT) :
    predSum g (l1 ++ l2) = predSum g l1 + predSum g l2 := by
  simp [predSum]

theorem processEntriesC_eq (g : Graph) (m : DFSMap) (ci : DFSInfo) (New : Nat) :
    ∀ (es : List BlockT) (st : GenericCycleInfo × List BlockT) (n : Nat),
      processEntriesC g m ci New es (st, n)
        = (processEntries g m ci New es st).bind
            (fun st1 => .done (st1, n + predSum g es)) := by
  intro es
  induction es with
  | nil => intro st n; simp [processEntriesC, processEntries, predSum]
  | cons e rest ih =>
    intro st n
    simp only [processEntriesC, processEntries, ProcessPredecessorsC_eq]
    cases hp : ProcessPredecessors g m ci New e st with
    | done st1 =>
      simp only [Outcome.bind_done, ih, predSum_cons]
      cases processEntries g m ci New rest st1 with
      | done st2 =>
        simp only [Outcome.bind_done]
        rw [show n + (predecessors g e).length + predSum g rest
          = n + ((predecessors g e).length + predSum g rest) by omega]
      | abort => rfl
      | starved => rfl
    | abort => rfl
    | starved => rfl

theorem dropCount_bind_done {α : Type} (x : Outcome α) (k : α → Nat) :
    dropCount (x.bind (fun a => .done (a, k a))) = x := by
  cases x <;> rfl

theorem dropCount_eq_done {α : Type} {x : Outcome (α × Nat)} {a : α}
    (h : dropCount x = .done a) : ∃ n, x = .done (a, n) := by
  cases x with
  | done r =>
    obtain ⟨a1, n⟩ := r
    simp only [dropCount, Outcome.bind_done] at h
    cases h
    exact ⟨n, rfl⟩
  | abort => cases h
  | starved => cases h

theorem drainStepC_erase (g : Graph) (m : DFSMap) (H : BlockT) (ci : DFSInfo) (New : Nat)
    (st : GenericCycleInfo × List BlockT) (n : Nat) :
    dropCount (drainStepC g m H ci New (st, n)) = drainStep g m H ci New st := by
  obtain ⟨info, wl⟩ := st
  cases wl with
  | nil => rfl
  | cons Block WL =>
    unfold drainStepC drainStep
    simp only
    split_ifs with hH
    · rfl
    · cases hg : getTopLevelParentCycle info Block with
      | abort => rfl
      | starved => rfl
      | done found =>
        simp only [Outcome.bind_done]
        cases found with
        | none =>
          simp only
          cases hc : info.Cycles[New]? with
          | none => rfl
          | some cyc =>
            simp only
            split_ifs
            · rfl
            · rw [ProcessPredecessorsC_eq]
              exact dropCount_bind_done _ _
        | some BlockParent =>
          simp only
          split_ifs with hne
          · cases hmv : moveToNewParent info New BlockParent with
            | abort => rfl
            | starved => rfl
            | done info1 =>
              simp only [Outcome.bind_done]
              cases hbp : info1.Cycles[BlockParent]? with
              | none => rfl
              | some bp =>
                simp only
                rw [processEntriesC_eq]
                exact dropCount_bind_done _ _
          · rfl

theorem drainLoopC_erase (g : Graph) (m : DFSMap) (H : BlockT) (ci : DFSInfo) (New : Nat) :
    ∀ (fuel : Nat) (st : GenericCycleInfo × List BlockT) (n : Nat),
      dropCount (drainLoopC g m H ci New fuel (st, n)) = drainLoop g m H ci New fuel st := by
  intro fuel
  induction fuel with
  | zero => intro st n; rfl
  | succ fuel ih =>
    intro st n
    have he := drainStepC_erase g m H ci New st n
    simp only [drainLoopC, drainLoop]
    cases hs : drainStepC g m H ci New (st, n) with
    | abort => rw [hs] at he; rw [← he]; rfl
    | starved => rw [hs] at he; rw [← he]; rfl
    | done r =>
      rw [hs] at he
      obtain ⟨⟨info1, wl1⟩, n1⟩ := r
      rw [← he]
      simp only [dropCount, Outcome.bind_done]
      cases wl1 with
      | nil => rfl
      | cons x xs => exact ih (info1, x :: xs) n1

theorem processHeaderC_erase (g : Graph) (m : DFSMap) (info : GenericCycleInfo) (n : Nat)
    (H : BlockT) :
    dropCount (processHeaderC g m (info, n) H) = processHeader g m info H := by
  unfold processHeaderC processHeader
  simp only [scanPredsC_eq]
  cases hw : (scanPreds m (m.lookup H) (predecessors g H) ([], false)).1 with
  | nil => rfl
  | cons x xs =>
    simp only
    rw [← drainLoopC_erase g m H (m.lookup H) info.Cycles.length (drainFuel g) _
      (n + (predecessors g H).length)]
    cases drainLoopC g m H (m.lookup H) info.Cycles.length (drainFuel g)
      (({ info with
          Cycles := info.Cycles ++
            [{ GenericCycle.fresh with Entries := [H], Blocks := [H] }]
          BlockMap := mapTryEmplace info.BlockMap H info.Cycles.length }, x :: xs),
        n + (predecessors g H).length) with
    | done r => rfl
    | abort => rfl
    | starved => rfl

theorem headerLoopC_erase (g : Graph) (m : DFSMap) :
    ∀ (l : List BlockT) (info : GenericCycleInfo) (n : Nat),
      dropCount (headerLoopC g m l (info, n)) = headerLoop g m l info := by
  intro l
  induction l with
  | nil => intro info n; rfl
  | cons H rest ih =>
    intro info n
    have he := processHeaderC_erase g m info n H
    simp only [headerLoopC, headerLoop]
    cases hs : processHeaderC g m (info, n) H with
    | abort => rw [hs] at he; rw [← he]; rfl
    | starved => rw [hs] at he; rw [← he]; rfl
    | done r =>
      rw [hs] at he
      obtain ⟨info1, n1⟩ := r
      rw [← he]
      simp only [dropCount, Outcome.bind_done]
      exact ih info1 n1

/-- The counted `Compute::run` returns the forest that `Compute::run` returns. -/
theorem runCounted_erase (g : Graph) (info : GenericCycleInfo) :
    dropCount (runCounted g info) = run g info := by
  unfold runCounted run
  cases hd : dfs g g.entry with
  | abort => rfl
  | starved => rfl
  | done d =>
    simp only [Outcome.bind_done]
    have he := headerLoopC_erase g d.BlockDFSInfo d.BlockPreorder.reverse info 0
    cases hs : headerLoopC g d.BlockDFSInfo d.BlockPreorder.reverse (info, 0) with
    | abort => rw [hs] at he; rw [← he]; rfl
    | starved => rw [hs] at he; rw [← he]; rfl
    | done r =>
      rw [hs] at he
      obtain ⟨info1, n1⟩ := r
      rw [← he]
      simp only [dropCount, Outcome.bind_done]
      cases fixTopLevel info1.TopLevelCycles info1.Cycles with
      | done cs => rfl
      | abort => rfl
      | starved => rfl

/-- The counted `compute` returns the forest that `compute` returns. -/
theorem computeCounted_erase (g : Graph) (info : GenericCycleInfo) :
    dropCount (computeCounted g info) = compute g info := by
  unfold computeCounted compute
  have he := runCounted_erase g info
  cases hs : runCounted g info with
  | abort => rw [hs] at he; rw [← he]; rfl
  | starved => rw [hs] at he; rw [← he]; rfl
  | done r =>
    rw [hs] at he
    obtain ⟨info1, n1⟩ := r
    rw [← he]
    simp only [dropCount, Outcome.bind_done]
    cases validateTree info1 with
    | done ok => cases ok <;> rfl
    | abort => rfl
    | starved => rfl

/-! ### Sums over the arena -/

theorem map_eq_range_map (f : GenericCycle → Nat) (cs : List GenericCycle) :
    cs.map f = (List.range cs.length).map (fun i => f (cycAt cs i)) := by
  apply List.ext_getElem
  · simp
  · intro i h1 h2
    have hi : i < cs.length := by simpa using h1
    simp only [List.getElem_map, List.getElem_range]
    rw [cycAt_of_getElem? (List.getElem?_eq_getElem hi)]

theorem range_sum_mono (a b : Nat → Nat) :
    ∀ n, (∀ i, i < n → a i ≤ b i) →
      ((List.range n).map a).sum ≤ ((List.range n).map b).sum := by
  intro n
  induction n with
  | zero => intro _; simp
  | succ n ih =>
    intro h
    simp only [List.range_succ, List.map_append, List.sum_append, List.map_cons, List.map_nil,
      List.sum_cons, List.sum_nil, Nat.add_zero]
    have h1 := ih (fun i hi => h i (by omega))
    have h2 := h n (by omega)
    omega

theorem range_sum_add_le (a b : Nat → Nat) (j k : Nat) :
    ∀ n, j < n → (∀ i, i < n → a i ≤ b i) → a j + k ≤ b j →
      ((List.range n).map a).sum + k ≤ ((List.range n).map b).sum := by
  intro n
  induction n with
  | zero => intro hj; omega
  | succ n ih =>
    intro hj h hjk
    simp only [List.range_succ, List.map_append, List.sum_append, List.map_cons, List.map_nil,
      List.sum_cons, List.sum_nil, Nat.add_zero]
    by_cases e : j = n
    · subst e
      have h1 := range_sum_mono a b j (fun i hi => h i (by omega))
      omega
    · have h1 := ih (by omega) (fun i hi => h i (by omega)) hjk
      have h2 := h n (by omega)
      omega

theorem range_sum_le_add (a b : Nat → Nat) (j k : Nat) :
    ∀ n, (∀ i, i < n → i ≠ j → b i ≤ a i) → b j ≤ a j + k →
      ((List.range n).map b).sum ≤ ((List.range n).map a).sum + k := by
  intro n
  induction n with
  | zero => intro _ _; simp
  | succ n ih =>
    intro h hjk
    simp only [List.range_succ, List.map_append, List.sum_append, List.map_cons, List.map_nil,
      List.sum_cons, List.sum_nil, Nat.add_zero]
    by_cases e : n = j
    · subst e
      have h1 := range_sum_mono b a n (fun i hi => h i (by omega) (by omega))
      omega
    · have h1 := ih (fun i hi hne => h i (by omega) hne) hjk
      have h2 := h n (by omega) e
      omega

theorem SameShape.blockWork_eq {cs cs1 : List GenericCycle} (h : SameShape cs cs1)
    (g : Graph) : blockWork g cs1 = blockWork g cs := by
  unfold blockWork
  rw [map_eq_range_map _ cs, map_eq_range_map _ cs1, h.1]
  apply congrArg
  apply List.map_congr_left
  intro i _
  simp only [h.same_blocks i]

theorem SameShape.nestedWork_eq {cs cs1 : List GenericCycle} (h : SameShape cs cs1)
    (g : Graph) : nestedWork g cs1 = nestedWork g cs := by
  unfold nestedWork
  rw [map_eq_range_map _ cs, map_eq_range_map _ cs1, h.1]
  apply congrArg
  apply List.map_congr_left
  intro i _
  simp only [h.same_parent i, h.same_entries i]

theorem blockWork_append (g : Graph) (cs : List GenericCycle) (x : GenericCycle) :
    blockWork g (cs ++ [x]) = blockWork g cs + predSum g x.Blocks := by
  simp [blockWork]

theorem nestedWork_append (g : Graph) (cs : List GenericCycle) (x : GenericCycle)
    (hx : x.ParentCycle = none) : nestedWork g (cs ++ [x]) = nestedWork g cs := by
  simp [nestedWork, hx]

theorem Grow.blockWork_le {cs cs1 : List GenericCycle} {New : Nat} {ot : Option Nat}
    {addB addE : List BlockT} (hg : Grow cs cs1 New ot addB addE) (g : Graph)
    (hNew : New < cs.length) (hot : ot ≠ some New) :
    blockWork g cs + predSum g addB ≤ blockWork g cs1 := by
  unfold blockWork
  rw [map_eq_range_map _ cs, map_eq_range_map _ cs1, hg.len]
  apply range_sum_add_le _ _ New _ _ hNew
  · intro i _
    simp only [hg.blocks hot i]
    by_cases h1 : i = New
    · subst h1; simp [predSum_append]
    · simp [h1]
  · simp only [hg.blocks hot New, if_true, predSum_append]
    exact le_refl _

theorem Grow.nestedWork_le {cs cs1 : List GenericCycle} {New : Nat} {ot : Option Nat}
    {addB addE : List BlockT} (hg : Grow cs cs1 New ot addB addE) (g : Graph)
    (hot : ot ≠ some New) (hroot : (cycAt cs New).ParentCycle = none) (k : Nat)
    (hk : ∀ t, ot = some t → predSum g (cycAt cs t).Entries ≤ k) :
    nestedWork g cs1 ≤ nestedWork g cs + k := by
  unfold nestedWork
  rw [map_eq_range_map _ cs, map_eq_range_map _ cs1, hg.len]
  cases ot with
  | none =>
    apply range_sum_le_add _ _ New k
    · intro i _ hne
      simp only [hg.parent hot i, hg.entries hot i, hne, if_false]
      simp
    · simp only [hg.parent hot New, hroot]
      simp
  | some t =>
    have hne : t ≠ New := fun e => hot (by rw [e])
    apply range_sum_le_add _ _ t k
    · intro i _ hi
      have h1 : ¬ (some t = some i) := fun e => hi (Option.some.inj e).symm
      simp only [hg.parent hot i, hg.entries hot i, h1, if_false]
      by_cases h2 : i = New
      · subst h2; simp [hroot]
      · simp [h2]
    · have := hk t rfl
      simp only [hg.parent hot t, hg.entries hot t, hne, if_false, if_true, Option.isSome_some]
      omega

/-! ### The counted worklist loop -/

/-- One counted iteration of the worklist loop returns, does what `DrainStep` describes,
and looks at no more predecessors than the blocks it adds to the new cycle have, and at no
fewer than the entries of the cycle it makes a child have. -/
theorem Draining.execC {g : Graph} {m : DFSMap} {H : BlockT} {info : GenericCycleInfo}
    {New : Nat} {Block : BlockT} {WL old : List BlockT}
    (h : Draining m H info New (Block :: WL) old) (n : Nat) :
    ∃ st1 k, drainStepC g m H (m.lookup H) New ((info, Block :: WL), n) = .done (st1, n + k) ∧
      DrainStep g m H New (info, Block :: WL) st1 ∧
      blockWork g info.Cycles + k ≤ blockWork g st1.1.Cycles ∧
      nestedWork g st1.1.Cycles ≤ nestedWork g info.Cycles + k := by
  have hNew := h.new_lt
  have hroot : (cycAt info.Cycles New).ParentCycle = none :=
    ((h.wf.rootsIff New).1 h.new_root).2
  by_cases hH : Block = H
  · subst hH
    exact ⟨(info, WL), 0, by simp [drainStepC], DrainStep.header info WL, le_refl _, le_refl _⟩
  · rcases h.wf.getTopLevelParentCycle_spec Block with ⟨hf, hg⟩ | ⟨c0, t, hf, hg, ht, hch, hbt⟩
    · have hnb : Block ∉ (cycAt info.Cycles New).Blocks := by
        intro hb
        obtain ⟨c1, hf1, _⟩ := h.wf.mapInner New hNew Block hb
        rw [hf] at hf1; cases hf1
      have hnb1 : (cycAt info.Cycles New).Blocks.contains Block = false := by simpa using hnb
      have hgrow := enlisted_grow g m H hNew Block
      refine ⟨_, (predecessors g Block).length, ?_, DrainStep.fresh info Block WL hH hf, ?_, ?_⟩
      · simp only [drainStepC, hH, if_false, hg, Outcome.bind_done, getElem?_of_lt hNew, hnb1,
          Bool.false_eq_true]
        rw [ProcessPredecessorsC_eq,
          ProcessPredecessors_spec g m H New Block _ WL (by simpa using hNew)]
        · simp [mapTryEmplace_none hf, enlisted]
        · intro _
          simp only [cycAt_modifyCycle hNew, if_true]
          intro he
          exact hnb (h.wf.entriesSub New hNew Block he)
      · have := hgrow.blockWork_le g hNew (by simp)
        simpa [predSum] using this
      · exact hgrow.nestedWork_le g (by simp) hroot _ (fun t ht => by cases ht)
    · rcases List.mem_append.1 ht with htop | hnew
      · obtain ⟨htlt, htl, htp⟩ := h.top_lt htop
        have hne : t ≠ New := h.top_ne_new htop
        have hgrow := absorbed_grow g m H hNew htl hne
        have hot : (some t : Option Nat) ≠ some New := fun e => hne (Option.some.inj e)
        refine ⟨_, predSum g (cycAt info.Cycles t).Entries, ?_,
          DrainStep.absorb info Block WL t hH htop hbt, ?_, ?_⟩
        · simp only [drainStepC, hH, if_false, hg, Outcome.bind_done, ne_eq, hne,
            not_false_eq_true, if_true]
          rw [moveToNewParent_top hNew htl htp htop]
          simp only [Outcome.bind_done]
          have hl1 : t < (modifyCycle (modifyCycle info.Cycles New
              (fun c => { c with Children := c.Children ++ [t] })) t
              (fun c => { c with ParentCycle := some New })).length := by simpa using htl
          have hbp : cycAt (modifyCycle (modifyCycle info.Cycles New
              (fun c => { c with Children := c.Children ++ [t] })) t
              (fun c => { c with ParentCycle := some New })) t
              = { cycAt info.Cycles t with ParentCycle := some New } := by
            rw [cycAt_modifyCycle (by simpa using htl)]
            simp only [if_true]
            rw [cycAt_modifyCycle hNew]
            simp [hne]
          rw [getElem?_of_lt hl1, hbp]
          simp only
          rw [processEntriesC_eq, processEntries_spec g m H New _ _ WL (by simpa using hNew)
            (h.wf.entriesNodup t htl)]
          · rfl
          · intro e he
            simp only
            rw [cycAt_modifyCycle (by simpa using hNew)]
            simp only [if_true]
            rw [cycAt_modifyCycle (by simpa using htl)]
            simp only [hne.symm, if_false]
            rw [cycAt_modifyCycle hNew]
            simp only [if_true]
            intro hen
            have hb1 := h.wf.entriesSub New hNew e hen
            have hb2 := h.wf.entriesSub t htl e he
            exact hne (h.wf.roots_disjoint (List.mem_append_left _ htop) h.new_root hb2 hb1)
        · have h1 := hgrow.blockWork_le g hNew hot
          have h2 : predSum g (cycAt info.Cycles t).Entries
              ≤ predSum g (cycAt info.Cycles t).Blocks :=
            sum_le_of_subset _ (h.wf.entriesNodup t htl) (h.wf.entriesSub t htl)
          simp only
          omega
        · refine hgrow.nestedWork_le g hot hroot _ ?_
          intro t1 ht1
          cases ht1
          exact le_refl _
      · have e : t = New := by simpa using hnew
        subst e
        refine ⟨(info, WL), 0, ?_, DrainStep.known info Block WL hH hbt, le_refl _, le_refl _⟩
        simp [drainStepC, hH, hg]

/-- The counted worklist loop returns and keeps its invariant; the predecessors it looks at
are bounded by the growth of the two sums over the arena. -/
theorem drainLoopC_spec {g : Graph} {entry : BlockT} {d : DfsState} (hp : DfsPost g entry d)
    {H : BlockT} {New : Nat} {old : List BlockT} :
    ∀ (fuel : Nat) (st : GenericCycleInfo × List BlockT) (n : Nat),
      Draining d.BlockDFSInfo H st.1 New st.2 old → st.2 ≠ [] →
      drainMeasure g New st ≤ fuel →
      ∃ mid k, drainLoopC g d.BlockDFSInfo H (d.BlockDFSInfo.lookup H) New fuel (st, n)
          = .done (mid, n + k) ∧
        Draining d.BlockDFSInfo H mid New [] old ∧
        blockWork g st.1.Cycles + k ≤ blockWork g mid.Cycles ∧
        nestedWork g mid.Cycles ≤ nestedWork g st.1.Cycles + k := by
  intro fuel
  induction fuel with
  | zero =>
    intro st n _ hne hm
    have := drainMeasure_pos g New st hne
    omega
  | succ fuel ih =>
    intro st n hdr hne hm
    obtain ⟨info, wl⟩ := st
    cases wl with
    | nil => exact absurd rfl hne
    | cons Block WL =>
      obtain ⟨st1, k1, hex, hstep, hu1, hl1⟩ := Draining.execC (g := g) hdr n
      have hdr1 := Draining.step hp hdr hstep
      have hlt := Draining.measure_lt hdr hstep
      obtain ⟨info1, wl1⟩ := st1
      cases wl1 with
      | nil =>
        refine ⟨info1, k1, ?_, hdr1, hu1, hl1⟩
        simp [drainLoopC, hex]
      | cons x xs =>
        obtain ⟨mid, k2, hloop, hdr2, hu2, hl2⟩ :=
          ih (info1, x :: xs) (n + k1) hdr1 (by simp) (by omega)
        refine ⟨mid, k1 + k2, ?_, hdr2, ?_, ?_⟩
        · simp only [drainLoopC, hex, Outcome.bind_done, hloop]
          rw [Nat.add_assoc]
        · simp only at hu1 hu2 ⊢
          omega
        · simp only at hl1 hl2 ⊢
          omega

/-- One counted iteration of the loop over the header candidates returns and keeps the
forest invariant, with the bounds on the predecessors it looks at. -/
theorem processHeaderC_spec {g : Graph} {entry : BlockT} {d : DfsState}
    (hp : DfsPost g entry d) {info : GenericCycleInfo} {hdrs : List BlockT} {H : BlockT}
    (hf : Forest d.BlockDFSInfo info hdrs) (hv : Visited d.BlockDFSInfo H)
    (hold : ∀ h ∈ hdrs, startOf d.BlockDFSInfo H < startOf d.BlockDFSInfo h) (n : Nat) :
    ∃ info1 k, processHeaderC g d.BlockDFSInfo (info, n) H = .done (info1, n + k) ∧
      Forest d.BlockDFSInfo info1
        (hdrs ++ (if hasBack g d.BlockDFSInfo H then [H] else [])) ∧
      blockWork g info.Cycles + k ≤ blockWork g info1.Cycles + (predecessors g H).length ∧
      nestedWork g info1.Cycles ≤ nestedWork g info.Cycles + k := by
  by_cases hb : hasBack g d.BlockDFSInfo H = true
  · have hne := (hasBack_iff_seed g _ H).1 hb
    have hold1 : ∀ c, c < info.Cycles.length →
        startOf d.BlockDFSInfo H < startOf d.BlockDFSInfo (headerOf (cycAt info.Cycles c)) := by
      intro c hc
      apply hold
      rw [← hf.hdrs]
      exact headerOf_mem_map hc
    have hnone := hf.wf.unmapped hold1
    have hdr : Draining d.BlockDFSInfo H (openedInfo info H) info.Cycles.length
        (seedWorklist g d.BlockDFSInfo H) hdrs := by
      refine ⟨hf.wf.opened hv hold1, by simp [openedInfo], ?_, hold, ?_⟩
      · simp [openedInfo, hf.hdrs, headerOf, newCycle]
      · intro w hw
        exact (mem_insidePreds.1 (List.mem_reverse.1 hw)).2
    have hmeas : drainMeasure g info.Cycles.length
        (openedInfo info H, seedWorklist g d.BlockDFSInfo H) ≤ drainFuel g := by
      have h1 := unscanned_push g [] H (by simp)
      have h2 := length_insidePreds_le g d.BlockDFSInfo H H
      have h3 : (cycAt (openedInfo info H).Cycles info.Cycles.length).Blocks = [H] := by
        simp [openedInfo, cycAt_append_new, newCycle]
      simp only [drainMeasure, h3, seedWorklist, List.length_reverse, drainFuel]
      rw [unscanned_nil] at h1
      simp only [List.nil_append] at h1
      omega
    obtain ⟨mid, k, hloop, hdr1, hu, hl⟩ :=
      drainLoopC_spec hp (drainFuel g) _ (n + (predecessors g H).length) hdr hne hmeas
    refine ⟨{ mid with TopLevelCycles := mid.TopLevelCycles ++ [info.Cycles.length] },
      (predecessors g H).length + k, ?_, ?_, ?_, ?_⟩
    · unfold processHeaderC
      simp only [scanPredsC_eq, seed_eq]
      cases hs : seedWorklist g d.BlockDFSInfo H with
      | nil => exact absurd hs hne
      | cons x xs =>
        simp only
        rw [mapTryEmplace_none hnone]
        rw [hs] at hloop
        have : ({ info with
            Cycles := info.Cycles ++ [{ GenericCycle.fresh with Entries := [H], Blocks := [H] }]
            BlockMap := info.BlockMap ++ [(H, info.Cycles.length)] } : GenericCycleInfo)
            = openedInfo info H := rfl
        rw [this, hloop]
        simp only [Outcome.bind_done]
        rw [Nat.add_assoc]
    · simp only [hb, if_true]
      exact ⟨hdr1.wf, hdr1.hdrs⟩
    · have h1 : blockWork g (openedInfo info H).Cycles
          = blockWork g info.Cycles + (predecessors g H).length := by
        simp [openedInfo, blockWork_append, newCycle, predSum]
      simp only at hu ⊢
      omega
    · have h1 : nestedWork g (openedInfo info H).Cycles = nestedWork g info.Cycles := by
        simp only [openedInfo]
        exact nestedWork_append g _ _ rfl
      simp only at hl ⊢
      omega
  · have hb0 : hasBack g d.BlockDFSInfo H = false := by simpa using hb
    have hnil : seedWorklist g d.BlockDFSInfo H = [] := by
      by_contra hne
      exact hb ((hasBack_iff_seed g _ H).2 hne)
    refine ⟨info, (predecessors g H).length, ?_, ?_, le_refl _, Nat.le_add_right _ _⟩
    · unfold processHeaderC
      simp only [scanPredsC_eq, seed_eq, hnil]
    · simp only [hb0, Bool.false_eq_true, if_false, List.append_nil]
      exact hf

/-- The counted loop over the header candidates returns and keeps the forest invariant,
with the bounds on the predecessors it looks at. -/
theorem headerLoopC_spec {g : Graph} {entry : BlockT} {d : DfsState}
    (hp : DfsPost g entry d) :
    ∀ (cands seen : List BlockT) (info : GenericCycleInfo) (n : Nat),
      Forest d.BlockDFSInfo info (seen.filter (hasBack g d.BlockDFSInfo)) →
      (∀ c ∈ cands, Visited d.BlockDFSInfo c) →
      (seen ++ cands).Pairwise
        (fun x y => startOf d.BlockDFSInfo y < startOf d.BlockDFSInfo x) →
      ∃ info1 k, headerLoopC g d.BlockDFSInfo cands (info, n) = .done (info1, n + k) ∧
        Forest d.BlockDFSInfo info1 ((seen ++ cands).filter (hasBack g d.BlockDFSInfo)) ∧
        blockWork g info.Cycles + k ≤ blockWork g info1.Cycles + predSum g cands ∧
        nestedWork g info1.Cycles ≤ nestedWork g info.Cycles + k := by
  intro cands
  induction cands with
  | nil =>
    intro seen info n hf _ _
    exact ⟨info, 0, rfl, by simpa using hf, by simp [predSum], by simp⟩
  | cons H rest ih =>
    intro seen info n hf hv hpw
    have hold : ∀ h ∈ seen.filter (hasBack g d.BlockDFSInfo),
        startOf d.BlockDFSInfo H < startOf d.BlockDFSInfo h := by
      intro h hh
      have h1 := List.mem_of_mem_filter hh
      rw [List.pairwise_append] at hpw
      exact hpw.2.2 h h1 H (List.mem_cons_self _ _)
    obtain ⟨mid, k1, hrun, hf1, hu1, hl1⟩ :=
      processHeaderC_spec hp hf (hv H (List.mem_cons_self _ _)) hold n
    have hf2 : Forest d.BlockDFSInfo mid ((seen ++ [H]).filter (hasBack g d.BlockDFSInfo)) := by
      rw [List.filter_append]
      have : List.filter (hasBack g d.BlockDFSInfo) [H]
          = if hasBack g d.BlockDFSInfo H then [H] else [] := by
        by_cases hb : hasBack g d.BlockDFSInfo H = true
        · simp [hb]
        · simp [hb]
      rw [this]; exact hf1
    obtain ⟨info1, k2, hloop, hf3, hu2, hl2⟩ :=
      ih (seen ++ [H]) mid (n + k1) hf2 (fun c hc => hv c (List.mem_cons_of_mem _ hc))
        (by simpa using hpw)
    refine ⟨info1, k1 + k2, ?_, by simpa using hf3, ?_, ?_⟩
    · simp only [headerLoopC, hrun, Outcome.bind_done, hloop]
      rw [Nat.add_assoc]
    · rw [predSum_cons]; omega
    · omega

theorem predSum_reverse (g : Graph) (l : List BlockT) : predSum g l.reverse = predSum g l := by
  simp [predSum, List.sum_reverse]

/-- The counted `compute` on an empty forest returns the forest that `compute` returns,
together with a count that lies between the two sums over the arena. -/
theorem computeCounted_spec (g : Graph) :
    ∃ d info1 info n, dfs g g.entry = .done d ∧
      compute g GenericCycleInfo.empty = .done info ∧
      computeCounted g GenericCycleInfo.empty = .done (info, n) ∧
      RunResult g d info1 info ∧
      n ≤ predSum g d.BlockPreorder + blockWork g info.Cycles ∧
      nestedWork g info.Cycles ≤ n := by
  obtain ⟨d, info1, info, hdfs, hc, hval, hres⟩ := compute_spec g
  have hp := hres.post
  obtain ⟨infoA, k, hloop, hforest, hu, hl⟩ :=
    headerLoopC_spec hp d.BlockPreorder.reverse [] GenericCycleInfo.empty 0
      ⟨Wf.empty _, rfl⟩
      (fun c hc => (hp.visited_iff_mem c).2 (List.mem_reverse.1 hc))
      (by simpa using hp.reverse_pairwise)
  obtain ⟨cs2, hfix, hs2, _⟩ :=
    fixTopLevel_spec hforest.wf infoA.TopLevelCycles (fun _ => False) infoA.Cycles
      (fun t ht => ht) (SameShape.shape_refl _) (fun x hx => hx.elim)
  have hrunC : runCounted g GenericCycleInfo.empty
      = .done ({ infoA with Cycles := cs2 }, 0 + k) := by
    unfold runCounted
    simp [hdfs, hloop, hfix]
  have herase := computeCounted_erase g GenericCycleInfo.empty
  rw [hc] at herase
  obtain ⟨n, hn⟩ := dropCount_eq_done herase
  have hn2 := hn
  unfold computeCounted at hn2
  rw [hrunC] at hn2
  simp only [Outcome.bind_done] at hn2
  have hfin : ({ infoA with Cycles := cs2 } : GenericCycleInfo) = info ∧ 0 + k = n := by
    cases hv : validateTree { infoA with Cycles := cs2 } with
    | done ok =>
      rw [hv] at hn2
      cases ok with
      | true =>
        simp only [Outcome.bind_done, if_true] at hn2
        injection hn2 with h1
        injection h1 with h2 h3
        exact ⟨h2, h3⟩
      | false => simp at hn2
    | abort => rw [hv] at hn2; cases hn2
    | starved => rw [hv] at hn2; cases hn2
  obtain ⟨hinfo, hk⟩ := hfin
  refine ⟨d, info1, info, n, hdfs, hc, hn, hres, ?_, ?_⟩
  · rw [← hinfo, ← hk]
    simp only
    rw [hs2.blockWork_eq g]
    have h0 : blockWork g GenericCycleInfo.empty.Cycles = 0 := by
      simp [blockWork, GenericCycleInfo.empty]
    rw [h0, predSum_reverse] at hu
    omega
  · rw [← hinfo, ← hk]
    simp only
    rw [hs2.nestedWork_eq g]
    have h0 : nestedWork g GenericCycleInfo.empty.Cycles = 0 := by
      simp [nestedWork, GenericCycleInfo.empty]
    rw [h0] at hl
    omega

/-! ### The order in which `Compute::dfs` discovers the successors of the entry -/

theorem dfsStep_start_frame {g : Graph} {s s2 : DfsState} (h : dfsStep g s = .done s2)
    {b : BlockT} {i : DFSInfo} (hb : s.BlockDFSInfo b = some i) :
    ∃ i2, s2.BlockDFSInfo b = some i2 ∧ i2.Start = i.Start := by
  unfold dfsStep at h
  cases hst : s.TraverseStack with
  | nil => rw [hst] at h; cases h
  | cons Block popped =>
    rw [hst] at h
    simp only at h
    cases hB : s.BlockDFSInfo Block with
    | none =>
      rw [hB] at h
      simp only at h
      cases h
      have hne : b ≠ Block := by
        intro e; rw [e, hB] at hb; cases hb
      exact ⟨i, by simp only [DFSMap.insert_other _ _ hne, hb], rfl⟩
    | some dd =>
      rw [hB] at h
      simp only at h
      cases hts : s.DFSTreeStack with
      | nil => rw [hts] at h; cases h
      | cons top rest =>
        rw [hts] at h
        simp only at h
        split_ifs at h
        · cases h
          by_cases e : b = Block
          · subst e
            rw [hB] at hb
            cases hb
            exact ⟨_, DFSMap.insert_self _ _ _, rfl⟩
          · exact ⟨i, by simp only [DFSMap.insert_other _ _ e, hb], rfl⟩
        · cases h
          exact ⟨i, hb, rfl⟩

theorem dfsLoop_start_frame (g : Graph) :
    ∀ (fuel : Nat) (s d : DfsState), dfsLoop g fuel s = .done d →
      ∀ (b : BlockT) (i : DFSInfo), s.BlockDFSInfo b = some i →
        startOf d.BlockDFSInfo b = i.Start := by
  intro fuel
  induction fuel with
  | zero => intro s d h; simp [dfsLoop] at h
  | succ fuel ih =>
    intro s d h b i hb
    simp only [dfsLoop] at h
    obtain ⟨s2, h1, h2⟩ := Outcome.bind_eq_done.1 h
    obtain ⟨i2, hb2, e2⟩ := dfsStep_start_frame h1 hb
    cases hst : s2.TraverseStack with
    | nil =>
      rw [hst] at h2
      simp only at h2
      split_ifs at h2
      cases h2
      rw [startOf_of_some hb2, e2]
    | cons x xs =>
      rw [hst] at h2
      simp only at h2
      rw [ih s2 d h2 b i2 hb2, e2]

theorem dfsStep_open {g : Graph} {s : DfsState} {b : BlockT} {tail : List BlockT}
    (hst : s.TraverseStack = b :: tail) (hb : s.BlockDFSInfo b = none) :
    dfsStep g s = .done (openState g s b) := by
  simp only [dfsStep, hst, hb]
  simp [openState, hst]

/-- The successor of the entry that is listed last is the second block that `Compute::dfs`
discovers. -/
theorem dfs_second {g : Graph} {d : DfsState} {l : List BlockT} {x : BlockT}
    (hs : successors g g.entry = l ++ [x]) (hx : x ≠ g.entry)
    (hd : dfs g g.entry = .done d) : startOf d.BlockDFSInfo x = 2 := by
  unfold dfs dfsFuel at hd
  have hd1 : dfsLoop g (2 * edgeCount g + 1 + 1) (dfsInit g.entry) = .done d := hd
  rw [dfsLoop] at hd1
  have hstep : dfsStep g (dfsInit g.entry) = .done (openState g (dfsInit g.entry) g.entry) := by
    simp [dfsStep, dfsInit, openState]
  rw [hstep] at hd1
  simp only [Outcome.bind_done] at hd1
  have hst1 : (openState g (dfsInit g.entry) g.entry).TraverseStack
      = x :: (l.reverse ++ [g.entry]) := by
    simp [openState, dfsInit, hs]
  rw [hst1] at hd1
  simp only at hd1
  rw [dfsLoop] at hd1
  have hnone : (openState g (dfsInit g.entry) g.entry).BlockDFSInfo x = none := by
    simp [openState, dfsInit, DFSMap.insert, hx]
  have hstep2 : dfsStep g (openState g (dfsInit g.entry) g.entry)
      = .done (openState g (openState g (dfsInit g.entry) g.entry) x) :=
    dfsStep_open hst1 hnone
  rw [hstep2] at hd1
  simp only [Outcome.bind_done] at hd1
  have hsome : (openState g (openState g (dfsInit g.entry) g.entry) x).BlockDFSInfo x
      = some ⟨2, 0⟩ := by
    simp [openState, dfsInit]
  cases hst2 : (openState g (openState g (dfsInit g.entry) g.entry) x).TraverseStack with
  | nil =>
    have : (openState g (openState g (dfsInit g.entry) g.entry) x).TraverseStack
        = (successors g x).reverse ++ (x :: (l.reverse ++ [g.entry])) := by
      simp [openState, dfsInit, hs]
    rw [this] at hst2
    simp at hst2
  | cons y ys =>
    rw [hst2] at hd1
    simp only at hd1
    exact dfsLoop_start_frame g _ _ _ hd1 x _ hsome

/-! ### The graphs `nestFamily k` -/

theorem successors_nest (k : Nat) (b : Nat) :
    successors (nestFamily k) b = nestSuccs k b := by
  unfold successors nestFamily
  simp only
  by_cases h : b < 2 * k + 2
  · simp [List.getD_eq_getElem?_getD, List.getElem?_range, h]
  · have h1 : 2 * k + 2 ≤ b := Nat.le_of_not_lt h
    have h2 : nestSuccs k b = [] := by
      unfold nestSuccs
      split_ifs <;> first | rfl | (exfalso; omega)
    rw [h2]
    simp [List.getD_eq_getElem?_getD, List.getElem?_eq_none, h1]

theorem predecessors_nest {k : Nat} (hk : 1 ≤ k) (b : Nat) :
    predecessors (nestFamily k) b = nestPreds k b := by
  unfold predecessors nestFamily
  simp only
  by_cases h : b < 2 * k + 2
  · simp [List.getD_eq_getElem?_getD, List.getElem?_range, h]
  · have h1 : 2 * k + 2 ≤ b := Nat.le_of_not_lt h
    have h2 : nestPreds k b = [] := by
      unfold nestPreds
      split_ifs <;> first | rfl | (exfalso; omega)
    rw [h2]
    simp [List.getD_eq_getElem?_getD, List.getElem?_eq_none, h1]

theorem mem_nestSuccs {k : Nat} (hk : 1 ≤ k) (p q : Nat) :
    q ∈ nestSuccs k p ↔
      (p = 0 ∧ (q = 1 ∨ q = 2)) ∨ (p = 1 ∧ k + 2 ≤ q ∧ q < 2 * k + 2) ∨
      (2 ≤ p ∧ p < 2 * k + 1 ∧ q = p + 1) ∨ (p = 2 * k + 1 ∧ 2 ≤ q ∧ q < k + 2) := by
  unfold nestSuccs
  split_ifs with h1 h2 h3 h4
  · simp [h1]
  · simp only [List.mem_range'_1]; omega
  · simp only [List.mem_singleton]; omega
  · simp only [List.mem_range'_1]; omega
  · simp only [List.not_mem_nil, false_iff]; omega

theorem mem_nestPreds {k : Nat} (hk : 1 ≤ k) (q p : Nat) :
    p ∈ nestPreds k q ↔
      (q = 1 ∧ p = 0) ∨ (q = 2 ∧ (p = 0 ∨ p = 2 * k + 1)) ∨
      (3 ≤ q ∧ q ≤ k + 1 ∧ (p = q - 1 ∨ p = 2 * k + 1)) ∨
      (k + 2 ≤ q ∧ q ≤ 2 * k + 1 ∧ (p = q - 1 ∨ p = 1)) := by
  unfold nestPreds
  split_ifs with h1 h2 h3 h4 h5
  · simp only [List.not_mem_nil, false_iff]; omega
  · simp only [List.mem_singleton]; omega
  · simp only [List.mem_cons, List.mem_singleton, List.not_mem_nil, or_false]; omega
  · simp only [List.mem_cons, List.mem_singleton, List.not_mem_nil, or_false]; omega
  · simp only [List.mem_cons, List.mem_singleton, List.not_mem_nil, or_false]; omega
  · simp only [List.not_mem_nil, false_iff]; omega

theorem length_nestPreds {k : Nat} {b : Nat} (h1 : k + 2 ≤ b) (h2 : b ≤ 2 * k + 1) :
    (nestPreds k b).length = 2 := by
  unfold nestPreds
  split_ifs <;> first | rfl | (exfalso; omega)

theorem length_nestSuccs_le (k : Nat) (b : Nat) :
    (nestSuccs k b).length
      ≤ 1 + (if b = 0 then 1 else 0) + (if b = 1 then k else 0)
          + (if b = 2 * k + 1 then k else 0) := by
  unfold nestSuccs
  split_ifs <;> simp only [List.length_cons, List.length_nil, List.length_range'] <;> omega

/-- The predecessor table of `nestFamily k` agrees with its successor table. -/
theorem edgesAgree_nest {k : Nat} (hk : 1 ≤ k) : EdgesAgree (nestFamily k) := by
  constructor
  · rw [predsAreEdges_iff]
    intro q p hp
    rw [predecessors_nest hk, mem_nestPreds hk] at hp
    rw [successors_nest, mem_nestSuccs hk]
    omega
  · rw [edgesArePreds_iff]
    intro p q hq
    rw [successors_nest, mem_nestSuccs hk] at hq
    rw [predecessors_nest hk, mem_nestPreds hk]
    omega

theorem nest_chain {k : Nat} (hk : 1 ≤ k) (a : Nat) (ha : 2 ≤ a) :
    ∀ j, a + j ≤ 2 * k + 1 → Reachable (nestFamily k) a (a + j) := by
  intro j
  induction j with
  | zero => intro _; exact Relation.ReflTransGen.refl
  | succ j ih =>
    intro h
    refine Relation.ReflTransGen.tail (ih (by omega)) ?_
    show a + (j + 1) ∈ successors (nestFamily k) (a + j)
    rw [successors_nest, mem_nestSuccs hk]
    omega

theorem nest_reach_le {k : Nat} (hk : 1 ≤ k) {a b : Nat} (ha : 2 ≤ a) (hab : a ≤ b)
    (hb : b ≤ 2 * k + 1) : Reachable (nestFamily k) a b := by
  have := nest_chain hk a ha (b - a) (by omega)
  rwa [show a + (b - a) = b by omega] at this

theorem nest_reach_two {k : Nat} (hk : 1 ≤ k) {a : Nat} (ha : 2 ≤ a)
    (hb : a ≤ 2 * k + 1) : Reachable (nestFamily k) a 2 := by
  refine Relation.ReflTransGen.tail (nest_reach_le hk ha hb (le_refl _)) ?_
  show 2 ∈ successors (nestFamily k) (2 * k + 1)
  rw [successors_nest, mem_nestSuccs hk]
  omega

theorem nest_reach_entry {k : Nat} (hk : 1 ≤ k) {b : Nat} (hb : b < 2 * k + 2) :
    Reachable (nestFamily k) 0 b := by
  have e0 : ∀ q : Nat, q = 1 ∨ q = 2 → Reachable (nestFamily k) 0 q := by
    intro q hq
    apply Relation.ReflTransGen.single
    show q ∈ successors (nestFamily k) 0
    rw [successors_nest, mem_nestSuccs hk]
    omega
  by_cases h0 : b = 0
  · subst h0; exact Relation.ReflTransGen.refl
  · by_cases h1 : b = 1
    · subst h1; exact e0 1 (Or.inl rfl)
    · exact (e0 2 (Or.inr rfl)).trans (nest_reach_le hk (le_refl _) (by omega) (by omega))

theorem nest_reach_ge {k : Nat} (hk : 1 ≤ k) {a b : Nat}
    (h : Reachable (nestFamily k) a b) (ha : 2 ≤ a) : 2 ≤ b := by
  induction h with
  | refl => exact ha
  | tail _ hs ih =>
    rw [successors_nest, mem_nestSuccs hk] at hs
    omega

theorem nest_reach_lt {k : Nat} (hk : 1 ≤ k) {a b : Nat}
    (h : Reachable (nestFamily k) a b) (ha : a < 2 * k + 2) : b < 2 * k + 2 := by
  induction h with
  | refl => exact ha
  | tail _ hs ih =>
    rw [successors_nest, mem_nestSuccs hk] at hs
    omega

/-- Every block of `nestFamily k` is reached from the entry. -/
theorem allReachable_nest {k : Nat} (hk : 1 ≤ k) : AllReachable (nestFamily k) := by
  intro b hb
  apply nest_reach_entry hk
  simp [nestFamily] at hb
  exact hb

/-! ### The depth-first tree of `nestFamily k` -/

theorem nest_visited {k : Nat} (hk : 1 ≤ k) {d : DfsState}
    (hp : DfsPost (nestFamily k) 0 d) {b : Nat} (hb : b < 2 * k + 2) :
    Visited d.BlockDFSInfo b :=
  (hp.visited_iff_reachable b).2 (nest_reach_entry hk hb)

theorem nest_start_ge {k : Nat} {d : DfsState} (hp : DfsPost (nestFamily k) 0 d) {b : Nat}
    (hv : Visited d.BlockDFSInfo b) (hb : b ≠ 0) : 2 ≤ startOf d.BlockDFSInfo b := by
  have h1 := (hp.bounds hv).1
  have h2 := hp.entry_start
  by_contra hlt
  have e : startOf d.BlockDFSInfo b = startOf d.BlockDFSInfo 0 := by omega
  exact hb (hp.tables.start_inj hv hp.tables.entryVisited e)

theorem nest_start_two {k : Nat} {d : DfsState} (hd : dfs (nestFamily k) 0 = .done d) :
    startOf d.BlockDFSInfo 2 = 2 := by
  have hs : successors (nestFamily k) (nestFamily k).entry = [1] ++ [2] := by
    show successors (nestFamily k) 0 = _
    rw [successors_nest]
    rfl
  have hx : (2 : Nat) ≠ (nestFamily k).entry := by
    show (2 : Nat) ≠ 0
    omega
  exact dfs_second hs hx hd

theorem nest_anc_two {k : Nat} (hk : 1 ≤ k) {d : DfsState}
    (hp : DfsPost (nestFamily k) 0 d) (hd : dfs (nestFamily k) 0 = .done d) {X : Nat}
    (h1 : 2 ≤ X) (h2 : X ≤ 2 * k + 1) : Anc d.BlockDFSInfo 2 X := by
  apply hp.scc_in_subtree (nest_visited hk hp (by omega)) ?_
    (nest_reach_le hk (le_refl _) h1 h2) (nest_reach_two hk h1 h2)
  intro Y hY
  rw [nest_start_two hd]
  have hge := nest_reach_ge hk hY.1 (le_refl _)
  have hlt := nest_reach_lt hk hY.1 (by omega)
  exact nest_start_ge hp (nest_visited hk hp hlt) (by omega)

theorem nest_not_anc_one {k : Nat} (hk : 1 ≤ k) {d : DfsState}
    (hp : DfsPost (nestFamily k) 0 d) {X : Nat} (h1 : 2 ≤ X)
    (hv : Visited d.BlockDFSInfo X) : ¬ Anc d.BlockDFSInfo X 1 := by
  intro ha
  have h2 := stepIn_reachable (hp.tree_path hv _ 1 ha (le_refl _))
  have h3 := nest_reach_ge hk h2 h1
  omega

theorem nest_parent {k : Nat} (hk : 1 ≤ k) {d : DfsState}
    (hp : DfsPost (nestFamily k) 0 d) {b : Nat} (hb0 : b ≠ 0) (hb : b < 2 * k + 2) :
    ∃ p : Nat, p ∈ nestPreds k b ∧ startOf d.BlockDFSInfo p < startOf d.BlockDFSInfo b ∧
      Anc d.BlockDFSInfo p b := by
  have hv := nest_visited hk hp hb
  obtain ⟨p, hpv, hsucc, hlt, hle, _⟩ := hp.tables.parent b hv hb0
  refine ⟨p, ?_, hlt, hp.anc_of_start hpv hv (le_of_lt hlt) (hle (hp.allClosed p hpv))⟩
  have := (edgesArePreds_iff _).1 (edgesAgree_nest hk).2 p b hsucc
  rwa [predecessors_nest hk] at this

theorem nest_anc_pred {k : Nat} (hk : 1 ≤ k) {d : DfsState}
    (hp : DfsPost (nestFamily k) 0 d) (hd : dfs (nestFamily k) 0 = .done d) {b : Nat}
    (h1 : 3 ≤ b) (h2 : b ≤ 2 * k + 1) (hl : Anc d.BlockDFSInfo b (2 * k + 1)) :
    Anc d.BlockDFSInfo (b - 1) b := by
  obtain ⟨p, hmem, hlt, hanc⟩ := nest_parent hk hp (b := b) (by omega) (by omega)
  rw [mem_nestPreds hk] at hmem
  have hcase : p = b - 1 ∨ p = 2 * k + 1 ∨ p = 1 := by omega
  rcases hcase with e | e | e
  · rw [e] at hanc; exact hanc
  · exfalso
    rw [e] at hlt
    have := ((anc_iff _ _ _).1 hl).1
    omega
  · exfalso
    rw [e] at hanc
    have h2b := nest_anc_two hk hp hd (X := b) (by omega) h2
    have hv1 := nest_visited hk hp (b := 1) (by omega)
    have hv2 := nest_visited hk hp (b := 2) (by omega)
    have hs := nest_start_ge hp hv1 (by omega)
    have := hp.anc_of_common hv2 hv1 h2b hanc (by rw [nest_start_two hd]; exact hs)
    exact nest_not_anc_one hk hp (le_refl 2) hv2 this

theorem nest_anc_last {k : Nat} (hk : 1 ≤ k) {d : DfsState}
    (hp : DfsPost (nestFamily k) 0 d) (hd : dfs (nestFamily k) 0 = .done d) :
    ∀ j, j ≤ 2 * k - 1 → Anc d.BlockDFSInfo (2 * k + 1 - j) (2 * k + 1) := by
  intro j
  induction j with
  | zero => intro _; exact Anc.refl _ _
  | succ j ih =>
    intro hj
    have h := ih (by omega)
    have h1 := nest_anc_pred hk hp hd (b := 2 * k + 1 - j) (by omega) (by omega) h
    rw [show 2 * k + 1 - (j + 1) = 2 * k + 1 - j - 1 by omega]
    exact h1.trans h

theorem nest_anc_step {k : Nat} (hk : 1 ≤ k) {d : DfsState}
    (hp : DfsPost (nestFamily k) 0 d) (hd : dfs (nestFamily k) 0 = .done d) {b : Nat}
    (h1 : 3 ≤ b) (h2 : b ≤ 2 * k + 1) : Anc d.BlockDFSInfo (b - 1) b := by
  apply nest_anc_pred hk hp hd h1 h2
  have := nest_anc_last hk hp hd (2 * k + 1 - b) (by omega)
  rwa [show 2 * k + 1 - (2 * k + 1 - b) = b by omega] at this

/-- On the path 2 → 3 → … → 2k+1 every block is a DFS ancestor of the later ones. -/
theorem nest_anc_le {k : Nat} (hk : 1 ≤ k) {d : DfsState}
    (hp : DfsPost (nestFamily k) 0 d) (hd : dfs (nestFamily k) 0 = .done d) {a b : Nat}
    (ha : 2 ≤ a) (hab : a ≤ b) (hb : b ≤ 2 * k + 1) : Anc d.BlockDFSInfo a b := by
  have key : ∀ j, a + j ≤ 2 * k + 1 → Anc d.BlockDFSInfo a (a + j) := by
    intro j
    induction j with
    | zero => intro _; exact Anc.refl _ _
    | succ j ih =>
      intro hj
      have h1 := ih (by omega)
      have h2 := nest_anc_step hk hp hd (b := a + (j + 1)) (by omega) hj
      rw [show a + (j + 1) - 1 = a + j by omega] at h2
      exact h1.trans h2
  have := key (b - a) (by omega)
  rwa [show a + (b - a) = b by omega] at this

/-! ### The cycle forest of `nestFamily k` -/

theorem nest_header_mem {k : Nat} (hk : 1 ≤ k) {d : DfsState} {info1 info : GenericCycleInfo}
    (hd : dfs (nestFamily k) 0 = .done d) (hres : RunResult (nestFamily k) d info1 info)
    {h : Nat} (h1 : 2 ≤ h) (h2 : h ≤ k + 1) : h ∈ info.Cycles.map headerOf := by
  have hp : DfsPost (nestFamily k) 0 d := hres.post
  rw [hres.mem_headers]
  refine ⟨nest_reach_entry hk (by omega), 2 * k + 1, ?_,
    (anc_iff _ _ _).1 (nest_anc_le hk hp hd h1 (by omega) (le_refl _))⟩
  rw [predecessors_nest hk, mem_nestPreds hk]
  omega

theorem nest_members {k : Nat} (hk : 1 ≤ k) {d : DfsState} {info1 info : GenericCycleInfo}
    (hd : dfs (nestFamily k) 0 = .done d) (hres : RunResult (nestFamily k) d info1 info)
    {c : Nat} (hc : c < info.Cycles.length) {h : Nat}
    (hh : headerOf (cycAt info.Cycles c) = h) (h1 : 2 ≤ h) (h2 : h ≤ k + 1) :
    ∀ j, j < k → 2 * k + 1 - j ∈ (cycAt info.Cycles c).Blocks := by
  have hp : DfsPost (nestFamily k) 0 d := hres.post
  have hsem := hres.forest_sem c hc
  intro j
  induction j with
  | zero =>
    intro _
    apply hsem.predClosed h (by rw [← hh]; exact (hres.wf.header_mem hc).1)
    · rw [predecessors_nest hk, mem_nestPreds hk]
      omega
    · rw [hh]
      exact nest_anc_le hk hp hd h1 (by omega) (le_refl _)
  | succ j ih =>
    intro hj
    have hb := ih (by omega)
    apply hsem.predClosed _ hb
    · rw [predecessors_nest hk, mem_nestPreds hk]
      omega
    · rw [hh]
      exact nest_anc_le hk hp hd h1 (by omega) (by omega)

theorem nest_entries {k : Nat} (hk : 1 ≤ k) {d : DfsState} {info1 info : GenericCycleInfo}
    (hd : dfs (nestFamily k) 0 = .done d) (hres : RunResult (nestFamily k) d info1 info)
    {c : Nat} (hc : c < info.Cycles.length) {h : Nat}
    (hh : headerOf (cycAt info.Cycles c) = h) (h1 : 2 ≤ h) (h2 : h ≤ k + 1) {B : Nat}
    (hB1 : k + 2 ≤ B) (hB2 : B ≤ 2 * k + 1) : B ∈ (cycAt info.Cycles c).Entries := by
  have hp : DfsPost (nestFamily k) 0 d := hres.post
  have hsem := hres.forest_sem c hc
  have hB := nest_members hk hd hres hc hh h1 h2 (2 * k + 1 - B) (by omega)
  rw [show 2 * k + 1 - (2 * k + 1 - B) = B by omega] at hB
  apply (hsem.entryIff B hB).2
  right
  rw [hasOutside_iff]
  refine ⟨1, ?_, ?_⟩
  · rw [predecessors_nest hk, mem_nestPreds hk]
    omega
  · rw [hh]
    exact nest_not_anc_one hk hp h1 (nest_visited hk hp (by omega))

theorem sum_map_const_of_forall (f : Nat → Nat) (w : Nat) :
    ∀ l : List Nat, (∀ x ∈ l, f x = w) → (l.map f).sum = w * l.length := by
  intro l
  induction l with
  | nil => intro _; simp
  | cons x xs ih =>
    intro h
    simp only [List.map_cons, List.sum_cons, List.length_cons]
    rw [h x (List.mem_cons_self _ _), ih (fun y hy => h y (List.mem_cons_of_mem _ hy))]
    rw [Nat.mul_succ, Nat.add_comm]

theorem nest_entry_work {k : Nat} (hk : 1 ≤ k) {d : DfsState} {info1 info : GenericCycleInfo}
    (hd : dfs (nestFamily k) 0 = .done d) (hres : RunResult (nestFamily k) d info1 info)
    {c : Nat} (hc : c < info.Cycles.length) {h : Nat}
    (hh : headerOf (cycAt info.Cycles c) = h) (h1 : 2 ≤ h) (h2 : h ≤ k + 1) :
    2 * k ≤ predSum (nestFamily k) (cycAt info.Cycles c).Entries := by
  have hsub := sum_le_of_subset (fun b => (predecessors (nestFamily k) b).length)
    (A := List.range' (k + 2) k) (B := (cycAt info.Cycles c).Entries)
    (List.nodup_range' _ _)
    (fun B hB => by
      rw [List.mem_range'_1] at hB
      exact nest_entries hk hd hres hc hh h1 h2 hB.1 (by omega))
  have hval := sum_map_const_of_forall
    (fun b => (predecessors (nestFamily k) b).length) 2 (List.range' (k + 2) k)
    (fun B hB => by
      rw [List.mem_range'_1] at hB
      simp only [predecessors_nest hk]
      exact length_nestPreds hB.1 (by omega))
  rw [hval, List.length_range'] at hsub
  exact hsub

theorem nest_nonroot {k : Nat} (hk : 1 ≤ k) {d : DfsState} {info1 info : GenericCycleInfo}
    (hd : dfs (nestFamily k) 0 = .done d) (hres : RunResult (nestFamily k) d info1 info)
    {c : Nat} (hc : c < info.Cycles.length) {h : Nat}
    (hh : headerOf (cycAt info.Cycles c) = h) (h1 : 3 ≤ h) (h2 : h ≤ k + 1) :
    (cycAt info.Cycles c).ParentCycle.isSome = true := by
  have hp : DfsPost (nestFamily k) 0 d := hres.post
  cases hpc : (cycAt info.Cycles c).ParentCycle with
  | some p => rfl
  | none =>
    exfalso
    have hroot : c ∈ info.TopLevelCycles := (hres.wf.rootsIff c).2 ⟨hc, hpc⟩
    have h2mem := nest_header_mem hk hd hres (h := 2) (le_refl _) (by omega)
    obtain ⟨cyc2, hcyc2, he2⟩ := List.mem_map.1 h2mem
    obtain ⟨c2, hc2, e2⟩ := List.getElem_of_mem hcyc2
    have hat2 : cycAt info.Cycles c2 = cyc2 :=
      cycAt_of_getElem? (by rw [List.getElem?_eq_getElem hc2, e2])
    have hh2 : headerOf (cycAt info.Cycles c2) = 2 := by rw [hat2]; exact he2
    obtain ⟨t, ht, hch⟩ := hres.wf.has_root hc2
    have hlast2 := nest_members hk hd hres hc2 hh2 (le_refl _) (by omega) 0 (by omega)
    have hlastc := nest_members hk hd hres hc hh (by omega) h2 0 (by omega)
    have e : c = t :=
      hres.wf.roots_disjoint hroot ht hlastc (hres.wf.chain_blocks hch _ hlast2)
    have h2in : (2 : Nat) ∈ (cycAt info.Cycles c).Blocks := by
      rw [e]
      apply hres.wf.chain_blocks hch
      have := (hres.wf.header_mem hc2).1
      rwa [hh2] at this
    have hanc := hres.wf.subtree c hc 2 h2in
    rw [hh] at hanc
    have hanc2 := nest_anc_two hk hp hd (X := h) (by omega) (by omega)
    have e1 := (anc_iff _ _ _).1 hanc
    have e2 := (anc_iff _ _ _).1 hanc2
    have hv2 := nest_visited hk hp (b := 2) (by omega)
    have hvh := nest_visited hk hp (b := h) (by omega)
    have hEq : (h : Nat) = 2 := hp.tables.start_inj hvh hv2 (by omega)
    omega

/-- The cycles of `nestFamily k` that have a parent have at least `2k(k-1)` predecessor
entries at their entry blocks. -/
theorem nest_nestedWork {k : Nat} (hk : 1 ≤ k) {d : DfsState}
    {info1 info : GenericCycleInfo} (hd : dfs (nestFamily k) 0 = .done d)
    (hres : RunResult (nestFamily k) d info1 info) :
    2 * k * (k - 1) ≤ nestedWork (nestFamily k) info.Cycles := by
  have hsub := sum_le_of_subset (fun h => if 3 ≤ h ∧ h ≤ k + 1 then 2 * k else 0)
    (A := List.range' 3 (k - 1)) (B := info.Cycles.map headerOf)
    (List.nodup_range' _ _)
    (fun h hh => by
      rw [List.mem_range'_1] at hh
      exact nest_header_mem hk hd hres (by omega) (by omega))
  have hval := sum_map_const_of_forall
    (fun h => if 3 ≤ h ∧ h ≤ k + 1 then 2 * k else 0) (2 * k) (List.range' 3 (k - 1))
    (fun h hh => by
      rw [List.mem_range'_1] at hh
      have : 3 ≤ h ∧ h ≤ k + 1 := by omega
      simp only [this, and_self, if_true])
  rw [hval, List.length_range', List.map_map] at hsub
  refine le_trans hsub ?_
  unfold nestedWork
  apply List.sum_le_sum
  intro cyc hcyc
  obtain ⟨c, hc, e⟩ := List.getElem_of_mem hcyc
  have hat : cycAt info.Cycles c = cyc :=
    cycAt_of_getElem? (by rw [List.getElem?_eq_getElem hc, e])
  simp only [Function.comp]
  by_cases hin : 3 ≤ headerOf cyc ∧ headerOf cyc ≤ k + 1
  · have hnr := nest_nonroot hk hd hres hc (by rw [hat]) hin.1 hin.2
    have hw := nest_entry_work hk hd hres hc (h := headerOf cyc) (by rw [hat])
      (Nat.le_of_succ_le hin.1) hin.2
    rw [hat] at hnr hw
    simp only [hin, and_self, if_true, hnr]
    exact hw
  · simp only [hin, if_false]
    exact Nat.zero_le _

/-! ### The size of `nestFamily k` -/

theorem sum_indicator_le (a w : Nat) :
    ∀ l : List Nat, l.Nodup →
      (l.map (fun b => if b = a then w else 0)).sum ≤ if a ∈ l then w else 0 := by
  intro l
  induction l with
  | nil => intro _; simp
  | cons x xs ih =>
    intro hnd
    rw [List.nodup_cons] at hnd
    have h1 := ih hnd.2
    simp only [List.map_cons, List.sum_cons, List.mem_cons]
    by_cases e : x = a
    · subst e
      simp only [hnd.1, if_false] at h1
      simp only [if_true, true_or]
      omega
    · have e1 : ¬ a = x := fun h => e h.symm
      simp only [e, e1, if_false, false_or]
      omega

theorem nest_size {k : Nat} (hk : 1 ≤ k) {d : DfsState}
    (hp : DfsPost (nestFamily k) 0 d) :
    graphSize (nestFamily k) d.BlockPreorder ≤ 6 * k + 5 := by
  have hlen : d.BlockPreorder.length ≤ 2 * k + 2 := by
    have hsub : ∀ b ∈ d.BlockPreorder, b ∈ List.range (2 * k + 2) := fun b hb =>
      List.mem_range.2
        (nest_reach_lt hk ((hp.visited_iff_reachable b).1 ((hp.visited_iff_mem b).2 hb))
          (by omega))
    have := (List.subperm_of_subset hp.nodup hsub).length_le
    simpa using this
  have h1 : (d.BlockPreorder.map (fun b => (successors (nestFamily k) b).length)).sum
      ≤ (d.BlockPreorder.map (fun b => 1 + (if b = 0 then 1 else 0)
          + (if b = 1 then k else 0) + (if b = 2 * k + 1 then k else 0))).sum := by
    apply List.sum_le_sum
    intro b _
    rw [successors_nest]
    exact length_nestSuccs_le k b
  have h2 := sum_indicator_le 0 1 d.BlockPreorder hp.nodup
  have h3 := sum_indicator_le 1 k d.BlockPreorder hp.nodup
  have h4 := sum_indicator_le (2 * k + 1) k d.BlockPreorder hp.nodup
  have h6 : (if (0 : Nat) ∈ d.BlockPreorder then 1 else 0) ≤ 1 := by split_ifs <;> omega
  have h7 : (if (1 : Nat) ∈ d.BlockPreorder then k else 0) ≤ k := by split_ifs <;> omega
  have h8 : (if 2 * k + 1 ∈ d.BlockPreorder then k else 0) ≤ k := by split_ifs <;> omega
  simp only [List.sum_map_add, List.map_const', List.sum_replicate, smul_eq_mul,
    mul_one] at h1
  unfold graphSize
  omega

/-- For every constant `c` some graph of the family makes the backward scan look at more
than `c` times as many predecessors as the graph has blocks and edges. -/
theorem nest_exceeds (c : Nat) :
    ∃ g, EdgesAgree g ∧ AllReachable g ∧ ∃ d info n, dfs g g.entry = .done d ∧
      computeCounted g GenericCycleInfo.empty = .done (info, n) ∧
      c * graphSize g d.BlockPreorder < n := by
  have hk : 1 ≤ 3 * c + 2 := by omega
  obtain ⟨d, info1, info, n, hd, _, hn, hres, _, hlow⟩ := computeCounted_spec (nestFamily (3 * c + 2))
  refine ⟨nestFamily (3 * c + 2), edgesAgree_nest hk, allReachable_nest hk, d, info, n, hd, hn, ?_⟩
  have hp : DfsPost (nestFamily (3 * c + 2)) 0 d := hres.post
  have h1 := nest_nestedWork hk hd hres
  have h2 := nest_size hk hp
  have h3 : c * graphSize (nestFamily (3 * c + 2)) d.BlockPreorder
      ≤ c * (6 * (3 * c + 2) + 5) := Nat.mul_le_mul_left _ h2
  have h4 : c * (6 * (3 * c + 2) + 5) < 2 * (3 * c + 2) * (3 * c + 2 - 1) := by
    rw [show 3 * c + 2 - 1 = 3 * c + 1 by omega]
    nlinarith
  omega

/-! ### The sum over the cycles against the nesting depth -/

theorem depth_le_maxDepth (cs : List GenericCycle) :
    ∀ cyc ∈ cs, cyc.Depth ≤ maxDepth cs := by
  unfold maxDepth
  induction cs with
  | nil => intro cyc h; cases h
  | cons x xs ih =>
    intro cyc h
    simp only [List.map_cons, List.foldr_cons]
    rcases List.mem_cons.1 h with e | h1
    · subst e; exact Nat.le_max_left _ _
    · exact le_trans (ih cyc h1) (Nat.le_max_right _ _)

theorem depth_pos {cs : List GenericCycle} (hd : DepthIsChainLength cs) {c : Nat}
    (hc : c < cs.length) : 1 ≤ (cycAt cs c).Depth := by
  have h := hd c (cycAt cs c) (getElem?_of_lt hc)
  cases hp : (cycAt cs c).ParentCycle with
  | none => rw [hp] at h; simp only at h; omega
  | some p =>
    rw [hp] at h
    obtain ⟨par, _, e⟩ := h
    omega

theorem chain_depth {cs : List GenericCycle} (hd : DepthIsChainLength cs) {a b : Nat}
    (h : Relation.ReflTransGen (ParentLink cs) a b) :
    a = b ∨ (cycAt cs b).Depth < (cycAt cs a).Depth := by
  induction h with
  | refl => exact Or.inl rfl
  | tail hab hl ih =>
    rename_i x y
    right
    obtain ⟨cyc, hx, hp⟩ := hl
    have h1 := hd x cyc hx
    rw [hp] at h1
    obtain ⟨par, hy, e⟩ := h1
    rw [cycAt_of_getElem? hy]
    have e1 : (cycAt cs x).Depth = par.Depth + 1 := by rw [cycAt_of_getElem? hx]; exact e
    rcases ih with e2 | hlt
    · rw [e2]; omega
    · omega

/-- Two different cycles of the same depth share no block. -/
theorem Wf.same_depth_disjoint {m : DFSMap} {cs : List GenericCycle}
    {bm : List (BlockT × Nat)} {roots : List Nat} (h : Wf m cs bm roots)
    (hd : DepthIsChainLength cs) {c1 c2 : Nat} {b : BlockT}
    (h1 : c1 < cs.length) (h2 : c2 < cs.length)
    (hb1 : b ∈ (cycAt cs c1).Blocks) (hb2 : b ∈ (cycAt cs c2).Blocks)
    (e : (cycAt cs c1).Depth = (cycAt cs c2).Depth) : c1 = c2 := by
  rcases h.common_block_chain h1 h2 hb1 hb2 with hch | hch
  · rcases chain_depth hd hch with e1 | hlt
    · exact e1
    · omega
  · rcases chain_depth hd hch with e1 | hlt
    · exact e1.symm
    · omega

theorem RunResult.blocks_listed {g : Graph} {d : DfsState} {info1 info : GenericCycleInfo}
    (h : RunResult g d info1 info) {c : Nat} (hc : c < info.Cycles.length) {b : BlockT}
    (hb : b ∈ (cycAt info.Cycles c).Blocks) : b ∈ d.BlockPreorder :=
  (h.post.visited_iff_mem b).1
    (h.post.anc_visited (h.wf.headerVisited c hc) (h.wf.subtree c hc b hb))

/-- The cycles of one depth have together no more predecessor entries than the reachable
blocks. -/
theorem RunResult.level_le {g : Graph} {d : DfsState} {info1 info : GenericCycleInfo}
    (h : RunResult g d info1 info) (δ : Nat) :
    ∀ L : List Nat, L.Nodup → (∀ c ∈ L, c < info.Cycles.length) →
      ∃ U : List BlockT, U.Nodup ∧
        (∀ b ∈ U, b ∈ d.BlockPreorder ∧
          ∃ c ∈ L, (cycAt info.Cycles c).Depth = δ ∧ b ∈ (cycAt info.Cycles c).Blocks) ∧
        (L.map (fun c => if (cycAt info.Cycles c).Depth = δ
          then predSum g (cycAt info.Cycles c).Blocks else 0)).sum ≤ predSum g U := by
  intro L
  induction L with
  | nil =>
    intro _ _
    refine ⟨[], List.nodup_nil, ?_, ?_⟩
    · intro b hb; cases hb
    · simp [predSum]
  | cons x xs ih =>
    intro hnd hlt
    rw [List.nodup_cons] at hnd
    obtain ⟨U, hU, hmem, hsum⟩ := ih hnd.2 (fun c hc => hlt c (List.mem_cons_of_mem _ hc))
    have hx := hlt x (List.mem_cons_self _ _)
    by_cases hdx : (cycAt info.Cycles x).Depth = δ
    · refine ⟨(cycAt info.Cycles x).Blocks ++ U, ?_, ?_, ?_⟩
      · rw [List.nodup_append]
        refine ⟨h.wf.blocksNodup x hx, hU, ?_⟩
        intro b hb1 hb2
        obtain ⟨_, c, hc, hdc, hbc⟩ := hmem b hb2
        have e := h.wf.same_depth_disjoint h.depth hx
          (hlt c (List.mem_cons_of_mem _ hc)) hb1 hbc (by rw [hdx, hdc])
        rw [e] at hnd
        exact hnd.1 hc
      · intro b hb
        rcases List.mem_append.1 hb with h1 | h1
        · exact ⟨h.blocks_listed hx h1, x, List.mem_cons_self _ _, hdx, h1⟩
        · obtain ⟨hp, c, hc, hdc, hbc⟩ := hmem b h1
          exact ⟨hp, c, List.mem_cons_of_mem _ hc, hdc, hbc⟩
      · simp only [List.map_cons, List.sum_cons, hdx, if_true, predSum_append]
        omega
    · refine ⟨U, hU, ?_, ?_⟩
      · intro b hb
        obtain ⟨hp, c, hc, hdc, hbc⟩ := hmem b hb
        exact ⟨hp, c, List.mem_cons_of_mem _ hc, hdc, hbc⟩
      · simp only [List.map_cons, List.sum_cons, hdx, if_false]
        omega

theorem RunResult.level_sum_le {g : Graph} {d : DfsState} {info1 info : GenericCycleInfo}
    (h : RunResult g d info1 info) (δ : Nat) :
    ((List.range info.Cycles.length).map (fun c => if (cycAt info.Cycles c).Depth = δ
      then predSum g (cycAt info.Cycles c).Blocks else 0)).sum
      ≤ predSum g d.BlockPreorder := by
  obtain ⟨U, hU, hmem, hsum⟩ := h.level_le (g := g) δ (List.range info.Cycles.length)
    (List.nodup_range _) (fun c hc => List.mem_range.1 hc)
  exact le_trans hsum (sum_le_of_subset _ hU (fun b hb => (hmem b hb).1))

theorem RunResult.levels_le {g : Graph} {d : DfsState} {info1 info : GenericCycleInfo}
    (h : RunResult g d info1 info) :
    ∀ D : Nat,
      ((List.range info.Cycles.length).map (fun c => if (cycAt info.Cycles c).Depth ≤ D
        then predSum g (cycAt info.Cycles c).Blocks else 0)).sum
        ≤ D * predSum g d.BlockPreorder := by
  intro D
  induction D with
  | zero =>
    have h0 := range_sum_mono
      (fun c => if (cycAt info.Cycles c).Depth ≤ 0
        then predSum g (cycAt info.Cycles c).Blocks else 0) (fun _ => 0) info.Cycles.length
      (fun c hc => by
        have := depth_pos h.depth hc
        have hn : ¬ (cycAt info.Cycles c).Depth ≤ 0 := by omega
        simp only [hn, if_false]
        exact le_refl _)
    simpa using h0
  | succ D ih =>
    have h1 := range_sum_mono
      (fun c => if (cycAt info.Cycles c).Depth ≤ D + 1
        then predSum g (cycAt info.Cycles c).Blocks else 0)
      (fun c => (if (cycAt info.Cycles c).Depth ≤ D
        then predSum g (cycAt info.Cycles c).Blocks else 0)
        + (if (cycAt info.Cycles c).Depth = D + 1
        then predSum g (cycAt info.Cycles c).Blocks else 0)) info.Cycles.length
      (fun c _ => by
        simp only
        split_ifs <;> omega)
    rw [List.sum_map_add] at h1
    have h2 := h.level_sum_le (g := g) (D + 1)
    rw [Nat.succ_mul]
    omega

/-- The cycles have together no more predecessor entries at their blocks than the greatest
depth times the predecessor entries of the reachable blocks. -/
theorem RunResult.depth_work_le {g : Graph} {d : DfsState} {info1 info : GenericCycleInfo}
    (h : RunResult g d info1 info) :
    blockWork g info.Cycles ≤ maxDepth info.Cycles * predSum g d.BlockPreorder := by
  have h1 := h.levels_le (g := g) (maxDepth info.Cycles)
  refine le_trans (le_of_eq ?_) h1
  unfold blockWork
  rw [map_eq_range_map]
  apply congrArg
  apply List.map_congr_left
  intro c hc
  have hlt := List.mem_range.1 hc
  have hle := depth_le_maxDepth info.Cycles (cycAt info.Cycles c)
    (List.getElem?_mem (getElem?_of_lt hlt))
  simp only [hle, if_true]

/-- C31 (counterexample): no constant `c` bounds the number of predecessors that the
header tests and the calls of `ProcessPredecessors` look at during one `compute` by `c`
times the number of blocks plus edges of the reachable graph, not even for the graphs
whose predecessor table agrees with their successor table and whose blocks are all
reachable: on the graph `nestFamily (3 * c + 2)` the count is larger. -/
theorem scan_work_counterexample :
    ¬ ∃ c : Nat, ∀ g : Graph, EdgesAgree g → AllReachable g →
      ∀ (d : DfsState) (info : GenericCycleInfo) (n : Nat), dfs g g.entry = .done d →
        computeCounted g GenericCycleInfo.empty = .done (info, n) →
        n ≤ c * graphSize g d.BlockPreorder := by
  rintro ⟨c, hc⟩
  obtain ⟨g, h1, h2, d, info, n, hd, hn, hlt⟩ := nest_exceeds c
  have := hc g h1 h2 d info n hd hn
  omega

/-- C31 (amended): for every graph, the counted `compute` on an empty forest returns the
forest of `compute` together with the number `n` of predecessors that the header tests and
the calls of `ProcessPredecessors` have looked at; `BlockPreorder` lists the reachable
blocks once each, and `n` is at most the number of predecessor entries of the reachable
blocks plus, for every cycle, the number of predecessor entries of its blocks, hence at
most one plus the greatest cycle depth times the number of predecessor entries of the
reachable blocks. -/
theorem scan_work_bound (g : Graph) :
    ∃ (d : DfsState) (info : GenericCycleInfo) (n : Nat), dfs g g.entry = .done d ∧
      compute g GenericCycleInfo.empty = .done info ∧
      computeCounted g GenericCycleInfo.empty = .done (info, n) ∧
      d.BlockPreorder.Nodup ∧ (∀ b, b ∈ d.BlockPreorder ↔ Reachable g g.entry b) ∧
      n ≤ predSum g d.BlockPreorder + blockWork g info.Cycles ∧
      n ≤ (1 + maxDepth info.Cycles) * predSum g d.BlockPreorder := by
  obtain ⟨d, info1, info, n, hd, hc, hn, hres, hup, _⟩ := computeCounted_spec g
  refine ⟨d, info, n, hd, hc, hn, hres.post.nodup, ?_, hup, ?_⟩
  · intro b
    rw [← hres.post.visited_iff_mem, hres.post.visited_iff_reachable]
  · have := hres.depth_work_le (g := g)
    rw [Nat.add_mul, Nat.one_mul]
    omega

end llvm
